import Mathlib

/-!
# Redis `dict.c`: incremental-rehashing hash table

A shallow embedding of `src/redeis3.2/src/dict.c`.

* A bucket chain (`dictEntry *` linked through `next`) is a `List` of entries, head first.
* A bucket array (`dictEntry **table`) is `Option (List chain)`; `none` is the `NULL` table.
* Every function that dereferences a table returns an `Option`; `none` stands for a fault
  (a `NULL` or out-of-bounds table access, a failed `assert`, or a loop that could not finish).
* `dict.h` is not part of the sources; its constants and macros are modelled from the
  specification and marked as such.
* The entry counters `used` count allocated entries, so they stay far below `2^63`; the
  arithmetic on them is exact.  The scan cursor is a 64-bit word and wraps explicitly.
-/

namespace Dict

/-- Modelled from the spec: the status codes of `dict.h` (`DICT_OK` / `DICT_ERR`), which the
sources use but do not declare. -/
inductive Status where
  | DICT_OK
  | DICT_ERR
  deriving DecidableEq, Repr

export Status (DICT_OK DICT_ERR)

/-- Modelled from the spec: `DICT_HT_INITIAL_SIZE` of `dict.h` ("initial capacity 4"). -/
def DICT_HT_INITIAL_SIZE : Nat := 4

/-- The constant `LONG_MAX` of a 64-bit `long`. -/
def LONG_MAX : Nat := 2 ^ 63 - 1

/-- The number of values of an `unsigned long`. -/
def ULONG_RANGE : Nat := 2 ^ 64

/-- The global `static unsigned int dict_force_resize_ratio = 5;`. -/
def dict_force_resize_ratio : Nat := 5

/-- Modelled from the spec: the callback table `dictType` of `dict.h`, reduced to the two
callbacks that decide behaviour: `hash(key)` and `equal(key, key)`.  Destructors release
resources and leave the table contents alone. -/
structure dictType (K : Type) where
  hashFunction : K → Nat
  keyCompare : K → K → Bool

/-- Modelled from the spec: `struct dictEntry` of `dict.h`; the `next` pointer is the tail of
the chain the entry sits in. -/
structure dictEntry (K V : Type) where
  key : K
  val : V
  deriving DecidableEq, Repr

/-- Modelled from the spec: `struct dictht` of `dict.h` (slots, slot count, size mask,
occupied count). -/
structure dictht (K V : Type) where
  table : Option (List (List (dictEntry K V)))
  size : Nat
  sizemask : Nat
  used : Nat

/-- Modelled from the spec: `struct dict` of `dict.h`: the callbacks, the two tables `ht[0]`
and `ht[1]`, the rehash cursor and the count of live safe iterators. -/
structure dict (K V : Type) where
  type : dictType K
  ht0 : dictht K V
  ht1 : dictht K V
  rehashidx : Int
  iterators : Nat

/-- A pointer to an entry: the table (0 or 1), the slot, and the position in the chain. -/
structure EntryRef where
  table : Nat
  idx : Nat
  pos : Nat
  deriving DecidableEq, Repr

variable {K V : Type} [DecidableEq K]

/-- Conversion of an `int` result of signed arithmetic to the 32-bit range (two's complement). -/
def toInt32 (x : Int) : Int := (x + 2 ^ 31) % 2 ^ 32 - 2 ^ 31

/-- The cast `(unsigned long)x` of a `long`. -/
def toULong (x : Int) : Nat := (x % 2 ^ 64).toNat

/-- Modelled from the spec: the macro `dictHashKey(d, key)` of `dict.h`, a `uint64_t`. -/
def dictHashKey (d : dict K V) (key : K) : Nat := d.type.hashFunction key % ULONG_RANGE

/-- Modelled from the spec: the macro `dictCompareKeys(d, key1, key2)` of `dict.h`, the
`equal(key, key)` callback of the dictionary. -/
def dictCompareKeys (d : dict K V) (key1 key2 : K) : Bool := d.type.keyCompare key1 key2

/-- The test `key == he->key || dictCompareKeys(d, key, he->key)` of the chain walks. -/
def keyMatch (d : dict K V) (key hekey : K) : Bool :=
  decide (key = hekey) || dictCompareKeys d key hekey

/-- Modelled from the spec: the macro `dictIsRehashing(d)` of `dict.h`: the migration cursor
is `-1` exactly when no migration is running. -/
def dictIsRehashing (d : dict K V) : Bool := d.rehashidx != -1

/-- Modelled from the spec: the macro `dictSize(d)` of `dict.h`: `ht[0].used + ht[1].used`. -/
def dictSize (d : dict K V) : Nat := d.ht0.used + d.ht1.used

/-- The table `d->ht[table]`. -/
def dict.ht (d : dict K V) (table : Nat) : dictht K V := if table = 0 then d.ht0 else d.ht1

/-- The read `ht->table[idx]`; `none` when the table is `NULL` or `idx` is out of bounds. -/
def dictht.slot (ht : dictht K V) (idx : Nat) : Option (List (dictEntry K V)) :=
  match ht.table with
  | none => none
  | some t => t[idx]?

/-- The write `ht->table[idx] = chain`; `none` when the table is `NULL` or `idx` is out of
bounds. -/
def dictht.setSlot (ht : dictht K V) (idx : Nat) (chain : List (dictEntry K V)) :
    Option (dictht K V) :=
  match ht.table with
  | none => none
  | some t => if idx < t.length then some { ht with table := some (t.set idx chain) } else none

/-- The function `_dictReset`: an empty table without slots. -/
def _dictReset : dictht K V := { table := none, size := 0, sizemask := 0, used := 0 }

/-- The function `_dictInit`, called by `dictCreate`. -/
def _dictInit (type : dictType K) : dict K V :=
  { type := type, ht0 := _dictReset, ht1 := _dictReset, rehashidx := -1, iterators := 0 }

/-- The function `dictCreate`: a fresh dictionary with two empty tables. -/
def dictCreate (type : dictType K) : dict K V := _dictInit type

/-- The loop `while (1) { if (i >= size) return i; i *= 2; }` of `_dictNextPower`, with the
64 doublings an `unsigned long` can take as fuel. -/
def _dictNextPower.loop (size : Nat) : Nat → Nat → Option Nat
  | 0, _ => none
  | fuel + 1, i =>
    if i ≥ size then some i else _dictNextPower.loop size fuel (i * 2 % ULONG_RANGE)

/-- The function `_dictNextPower`: the smallest power of two, 4 at least, that is not below
`size`. -/
def _dictNextPower (size : Nat) : Option Nat :=
  if size ≥ LONG_MAX then some (LONG_MAX + 1)
  else _dictNextPower.loop size 64 DICT_HT_INITIAL_SIZE

/-- The argument `realsize * sizeof(dictEntry *)` of `zcalloc` in `dictExpand`, an
`unsigned long`, with pointers of 8 bytes. -/
def dictExpand.bytes (realsize : Nat) : Nat := (realsize * 8) % ULONG_RANGE

/-- The function `dictExpand`: expand or create the hash table.  The new table is given
`realsize` slots, all `NULL`: this is the memory `zcalloc` returns while `dictExpand.bytes` is
`realsize * 8`, that is for a `realsize` up to `2^60`; above, the product wraps around and this
definition does not follow the table of the code. -/
def dictExpand (d : dict K V) (size : Nat) : Option (dict K V × Status) :=
  if dictIsRehashing d || decide (d.ht0.used > size) then some (d, DICT_ERR)
  else
    match _dictNextPower size with
    | none => none
    | some realsize =>
      if realsize = d.ht0.size then some (d, DICT_ERR)
      else
        let n : dictht K V :=
          { table := some (List.replicate realsize []), size := realsize,
            sizemask := realsize - 1, used := 0 }
        if d.ht0.table.isNone then some ({ d with ht0 := n }, DICT_OK)
        else some ({ d with ht1 := n, rehashidx := 0 }, DICT_OK)

/-- The loop `while (d->ht[0].table[d->rehashidx] == NULL) { d->rehashidx++;
if (--empty_visits == 0) return 1; }` of `dictRehash`, run over the slots of `ht[0]` from
`rehashidx` on.  Returns the new `rehashidx`, the new `empty_visits` and whether the function
returned from inside the loop; reading past the last slot is a fault. -/
def dictRehash.skipEmpty :
    List (List (dictEntry K V)) → Nat → Int → Option (Nat × Int × Bool)
  | [], _, _ => none
  | chain :: rest, idx, empty_visits =>
    if chain.isEmpty then
      let ev := toInt32 (empty_visits - 1)
      if ev = 0 then some (idx + 1, ev, true) else dictRehash.skipEmpty rest (idx + 1) ev
    else some (idx, empty_visits, false)

/-- The loop `while (de) { ... }` of `dictRehash`: every entry of the chain is pushed on the
front of its bucket of `ht[1]`, and the two counters follow. -/
def dictRehash.moveChain (d : dict K V) : List (dictEntry K V) → Option (dict K V)
  | [] => some d
  | de :: nextde =>
    let h := dictHashKey d de.key &&& d.ht1.sizemask
    match d.ht1.slot h with
    | none => none
    | some chain =>
      match d.ht1.setSlot h (de :: chain) with
      | none => none
      | some ht1 =>
        dictRehash.moveChain
          { d with ht0 := { d.ht0 with used := d.ht0.used - 1 },
                   ht1 := { ht1 with used := ht1.used + 1 } } nextde

/-- The loop `while (n-- && d->ht[0].used != 0) { ... }` of `dictRehash`.  The Boolean tells
whether the function returned 1 from inside the loop. -/
def dictRehash.loop : Nat → dict K V → Int → Option (dict K V × Bool)
  | 0, d, _ => some (d, false)
  | n + 1, d, empty_visits =>
    if d.ht0.used = 0 then some (d, false)
    else if ¬ (d.ht0.size > toULong d.rehashidx) then none
    else
      match d.ht0.table with
      | none => none
      | some t =>
        match dictRehash.skipEmpty (t.drop (toULong d.rehashidx)) (toULong d.rehashidx)
            empty_visits with
        | none => none
        | some (idx, _, true) => some ({ d with rehashidx := idx }, true)
        | some (idx, ev, false) =>
          match d.ht0.slot idx with
          | none => none
          | some de =>
            match dictRehash.moveChain { d with rehashidx := idx } de with
            | none => none
            | some d1 =>
              match d1.ht0.setSlot idx [] with
              | none => none
              | some ht0 =>
                dictRehash.loop n { d1 with ht0 := ht0, rehashidx := (idx : Int) + 1 } ev

/-- The function `dictRehash`: `n` steps of incremental rehashing; the result is 1 when keys
are left to move and 0 otherwise. -/
def dictRehash (d : dict K V) (n : Nat) : Option (dict K V × Int) :=
  let empty_visits := toInt32 ((n : Int) * 10)
  if !dictIsRehashing d then some (d, 0)
  else
    match dictRehash.loop n d empty_visits with
    | none => none
    | some (d1, true) => some (d1, 1)
    | some (d1, false) =>
      if d1.ht0.used = 0 then
        some ({ d1 with ht0 := d1.ht1, ht1 := _dictReset, rehashidx := -1 }, 0)
      else some (d1, 1)

/-- The loop `while (dictRehash(d, 100)) { rehashes += 100;
if (timeInMilliseconds() - start > ms) break; }` of `dictRehashMilliseconds`.  The function
`timeInMilliseconds` reads the wall clock: `clock i` is the reading of its `i`-th call, and
`tick` counts the calls made so far.  Every call of `dictRehash` that returns 1 moves
`rehashidx` forward, so one call per slot and one more is all the loop can take. -/
def dictRehashMilliseconds.loop (clock : Nat → Int) (start ms : Int) :
    Nat → dict K V → Int → Nat → Option (dict K V × Int)
  | 0, _, _, _ => none
  | fuel + 1, d, rehashes, tick =>
    match dictRehash d 100 with
    | none => none
    | some (d1, r) =>
      if r = 0 then some (d1, rehashes)
      else
        let rehashes1 := toInt32 (rehashes + 100)
        if clock tick - start > ms then some (d1, rehashes1)
        else dictRehashMilliseconds.loop clock start ms fuel d1 rehashes1 (tick + 1)

/-- The function `dictRehashMilliseconds`: rehash in steps of 100 buckets for about `ms`
milliseconds, unless a safe iterator is live; the result is the number of steps asked for. -/
def dictRehashMilliseconds (clock : Nat → Int) (d : dict K V) (ms : Int) :
    Option (dict K V × Int) :=
  if d.iterators > 0 then some (d, 0)
  else dictRehashMilliseconds.loop clock (clock 0) ms (d.ht0.size + 1) d 0 1

/-- The function `_dictRehashStep`: one step of rehashing unless a safe iterator is live. -/
def _dictRehashStep (d : dict K V) : Option (dict K V) :=
  if d.iterators = 0 then (dictRehash d 1).map Prod.fst else some d

/-- The function `_dictExpandIfNeeded`; the global `dict_can_resize` is an argument. -/
def _dictExpandIfNeeded (dict_can_resize : Bool) (d : dict K V) : Option (dict K V × Status) :=
  if dictIsRehashing d then some (d, DICT_OK)
  else if d.ht0.size = 0 then dictExpand d DICT_HT_INITIAL_SIZE
  else if decide (d.ht0.used ≥ d.ht0.size) &&
      (dict_can_resize || decide (d.ht0.used / d.ht0.size > dict_force_resize_ratio)) then
    dictExpand d (d.ht0.used * 2)
  else some (d, DICT_OK)

/-- The chain walk `while (he) { if (key == he->key || dictCompareKeys(...)) ...; he = he->next; }`:
the position of the first entry of the chain whose key matches. -/
def chainFind (d : dict K V) (key : K) : List (dictEntry K V) → Option Nat
  | [] => none
  | he :: next =>
    if keyMatch d key he.key then some 0 else (chainFind d key next).map (· + 1)

/-- The function `_dictKeyIndex`: the index (`-1` when the key exists or the expansion failed)
and the out-parameter `*existing`. -/
def _dictKeyIndex (dict_can_resize : Bool) (d : dict K V) (key : K) (hash : Nat) :
    Option (dict K V × Int × Option EntryRef) :=
  match _dictExpandIfNeeded dict_can_resize d with
  | none => none
  | some (d, DICT_ERR) => some (d, -1, none)
  | some (d, DICT_OK) =>
    let idx0 := hash &&& d.ht0.sizemask
    match d.ht0.slot idx0 with
    | none => none
    | some he0 =>
      match chainFind d key he0 with
      | some pos => some (d, -1, some ⟨0, idx0, pos⟩)
      | none =>
        if !dictIsRehashing d then some (d, idx0, none)
        else
          let idx1 := hash &&& d.ht1.sizemask
          match d.ht1.slot idx1 with
          | none => none
          | some he1 =>
            match chainFind d key he1 with
            | some pos => some (d, -1, some ⟨1, idx1, pos⟩)
            | none => some (d, idx1, none)

/-- Modelled from the spec: the macro `dictSetVal(d, entry, val)` of `dict.h`, a store to the
`v` field of the entry the pointer refers to; `none` when the pointer dangles. -/
def dictSetVal (d : dict K V) (entry : EntryRef) (val : V) : Option (dict K V) :=
  match (d.ht entry.table).slot entry.idx with
  | none => none
  | some chain =>
    match chain[entry.pos]? with
    | none => none
    | some he =>
      match (d.ht entry.table).setSlot entry.idx (chain.set entry.pos { he with val := val }) with
      | none => none
      | some ht => if entry.table = 0 then some { d with ht0 := ht } else some { d with ht1 := ht }

/-- The function `dictAddRaw`: the new entry (if any) and `*existing`.  The macro `dictSetKey`
of `dict.h` is a store to the `key` field; `v0` is the content of the `v` field of the freshly
allocated entry, which the C code leaves unset and every caller overwrites. -/
def dictAddRaw (dict_can_resize : Bool) (d : dict K V) (key : K) (v0 : V) :
    Option (dict K V × Option EntryRef × Option EntryRef) :=
  match (if dictIsRehashing d then _dictRehashStep d else some d) with
  | none => none
  | some d =>
    match _dictKeyIndex dict_can_resize d key (dictHashKey d key) with
    | none => none
    | some (d, index, existing) =>
      if index = -1 then some (d, none, existing)
      else
        let table := if dictIsRehashing d then 1 else 0
        let ht := d.ht table
        match ht.slot index.toNat with
        | none => none
        | some chain =>
          match ht.setSlot index.toNat ({ key := key, val := v0 } :: chain) with
          | none => none
          | some ht1 =>
            let ht2 := { ht1 with used := ht1.used + 1 }
            let d1 := if table = 0 then { d with ht0 := ht2 } else { d with ht1 := ht2 }
            some (d1, some ⟨table, index.toNat, 0⟩, existing)

/-- The function `dictAdd`: add an element, `DICT_ERR` if the key exists. -/
def dictAdd (dict_can_resize : Bool) (d : dict K V) (key : K) (val : V) :
    Option (dict K V × Status) :=
  match dictAddRaw dict_can_resize d key val with
  | none => none
  | some (d, none, _) => some (d, DICT_ERR)
  | some (d, some entry, _) =>
    match dictSetVal d entry val with
    | none => none
    | some d => some (d, DICT_OK)

/-- The function `dictReplace`: 1 when the key was added from scratch, 0 when its value was
updated. -/
def dictReplace (dict_can_resize : Bool) (d : dict K V) (key : K) (val : V) :
    Option (dict K V × Int) :=
  match dictAddRaw dict_can_resize d key val with
  | none => none
  | some (d, some entry, _) =>
    match dictSetVal d entry val with
    | none => none
    | some d => some (d, 1)
  | some (_, none, none) => none
  | some (d, none, some existing) =>
    match dictSetVal d existing val with
    | none => none
    | some d => some (d, 0)

/-- The unlink of `dictGenericDelete`: the first entry of the chain whose key matches is taken
out (`prevHe->next = he->next` or `table[idx] = he->next`). -/
def chainUnlink (d : dict K V) (key : K) :
    List (dictEntry K V) → Option (dictEntry K V × List (dictEntry K V))
  | [] => none
  | he :: next =>
    if keyMatch d key he.key then some (he, next)
    else (chainUnlink d key next).map (fun r => (r.1, he :: r.2))

/-- One round of the `for (table = 0; table <= 1; table++)` loop of `dictGenericDelete`. -/
def dictGenericDelete.inTable (d : dict K V) (key : K) (h : Nat) (table : Nat) :
    Option (dict K V × Option (dictEntry K V)) :=
  let ht := d.ht table
  let idx := h &&& ht.sizemask
  match ht.slot idx with
  | none => none
  | some chain =>
    match chainUnlink d key chain with
    | none => some (d, none)
    | some (he, chain1) =>
      match ht.setSlot idx chain1 with
      | none => none
      | some ht1 =>
        let ht2 := { ht1 with used := ht1.used - 1 }
        some (if table = 0 then { d with ht0 := ht2 } else { d with ht1 := ht2 }, some he)

/-- The function `dictGenericDelete`; the result is the unlinked entry.  The flag `nofree` only
decides whether the memory of the entry is released. -/
def dictGenericDelete (d : dict K V) (key : K) (_nofree : Bool) :
    Option (dict K V × Option (dictEntry K V)) :=
  if d.ht0.used = 0 ∧ d.ht1.used = 0 then some (d, none)
  else
    match (if dictIsRehashing d then _dictRehashStep d else some d) with
    | none => none
    | some d =>
      let h := dictHashKey d key
      match dictGenericDelete.inTable d key h 0 with
      | none => none
      | some (d1, some he) => some (d1, some he)
      | some (d1, none) =>
        if !dictIsRehashing d1 then some (d1, none)
        else dictGenericDelete.inTable d1 key h 1

/-- The function `dictDelete`: `DICT_OK` when an entry was removed, `DICT_ERR` when the key
was not found. -/
def dictDelete (d : dict K V) (key : K) : Option (dict K V × Status) :=
  match dictGenericDelete d key false with
  | none => none
  | some (d, some _) => some (d, DICT_OK)
  | some (d, none) => some (d, DICT_ERR)

/-- The chain walk of `dictFind`: the first entry of the chain whose key matches. -/
def chainLookup (d : dict K V) (key : K) : List (dictEntry K V) → Option (dictEntry K V)
  | [] => none
  | he :: next => if keyMatch d key he.key then some he else chainLookup d key next

/-- The function `dictFind`: the dictionary after the migration step, and the entry found
(`none` for `NULL`). -/
def dictFind (d : dict K V) (key : K) : Option (dict K V × Option (dictEntry K V)) :=
  if dictSize d = 0 then some (d, none)
  else
    match (if dictIsRehashing d then _dictRehashStep d else some d) with
    | none => none
    | some d =>
      let h := dictHashKey d key
      match d.ht0.slot (h &&& d.ht0.sizemask) with
      | none => none
      | some he0 =>
        match chainLookup d key he0 with
        | some he => some (d, some he)
        | none =>
          if !dictIsRehashing d then some (d, none)
          else
            match d.ht1.slot (h &&& d.ht1.sizemask) with
            | none => none
            | some he1 => some (d, chainLookup d key he1)

/-- The function `dictFetchValue`: the value of the entry `dictFind` returns. -/
def dictFetchValue (d : dict K V) (key : K) : Option (dict K V × Option V) :=
  (dictFind d key).map (fun r => (r.1, r.2.map dictEntry.val))

/-- The complement `~x` of an `unsigned long`. -/
def ulNot (x : Nat) : Nat := ULONG_RANGE - 1 - x % ULONG_RANGE

/-- The assignment `v = ((v >> s) & mask) | ((v << s) & ~mask);` of `rev`. -/
def rev.stage (s mask v : Nat) : Nat :=
  ((v >>> s) &&& mask) ||| ((v <<< s % ULONG_RANGE) &&& ulNot mask)

/-- The bit of the argument that one stage of `rev` with shift `s` moves to position `i`: the
stage swaps neighbouring blocks of `s` bits. -/
def rev.source (s i : Nat) : Nat := if (i / s) % 2 = 0 then i + s else i - s

/-- The loop `while ((s >>= 1) > 0) { mask ^= (mask << s); v = ...; }` of `rev`; `s` halves
each round, so the 64 rounds of fuel are never used up. -/
def rev.loop : Nat → Nat → Nat → Nat → Nat
  | 0, _, _, v => v
  | fuel + 1, s, mask, v =>
    let s := s >>> 1
    if s > 0 then
      let mask := mask ^^^ (mask <<< s % ULONG_RANGE)
      rev.loop fuel s mask (rev.stage s mask v)
    else v

/-- The function `rev`: `s` starts at `CHAR_BIT * sizeof(v) = 64` and `mask` at `~0UL`. -/
def rev (v : Nat) : Nat := rev.loop 64 64 (ulNot 0) v

/-- The cursor advance `v |= ~m; v = rev(v); v++; v = rev(v);` of `dictScan`. -/
def dictScan.advance (v m : Nat) : Nat :=
  rev ((rev (v ||| ulNot m) + 1) % ULONG_RANGE)

/-- The loop `do { ... } while (v & (m0 ^ m1));` of `dictScan` over the larger table `t1`:
the cursor when the loop ends and the entries handed to `fn`, in order. -/
def dictScan.expansions (t1 : dictht K V) (m0 m1 : Nat) :
    Nat → Nat → Option (Nat × List (dictEntry K V))
  | 0, _ => none
  | fuel + 1, v =>
    match t1.slot (v &&& m1) with
    | none => none
    | some de =>
      let v := dictScan.advance v m1
      if v &&& (m0 ^^^ m1) ≠ 0 then
        (dictScan.expansions t1 m0 m1 fuel v).map (fun r => (r.1, de ++ r.2))
      else some (v, de)

/-- The function `dictScan`: the dictionary afterwards, the returned cursor, and the entries on
which the callback `fn` was invoked, in order.  The callbacks only observe. -/
def dictScan (d : dict K V) (v : Nat) : Option (dict K V × Nat × List (dictEntry K V)) :=
  if dictSize d = 0 then some (d, 0, [])
  else
    let d1 := { d with iterators := d.iterators + 1 }
    let r : Option (Nat × List (dictEntry K V)) :=
      if !dictIsRehashing d1 then
        let m0 := d1.ht0.sizemask
        match d1.ht0.slot (v &&& m0) with
        | none => none
        | some de => some (dictScan.advance v m0, de)
      else
        let t0 := if d1.ht0.size > d1.ht1.size then d1.ht1 else d1.ht0
        let t1 := if d1.ht0.size > d1.ht1.size then d1.ht0 else d1.ht1
        let m0 := t0.sizemask
        let m1 := t1.sizemask
        match t0.slot (v &&& m0) with
        | none => none
        | some de =>
          (dictScan.expansions t1 m0 m1 ULONG_RANGE v).map (fun r => (r.1, de ++ r.2))
    r.map (fun r => ({ d1 with iterators := d1.iterators - 1 }, r.1, r.2))

/-! ### Well-formedness -/

/-- The slots of a table; a `NULL` table has none. -/
def dictht.slots (ht : dictht K V) : List (List (dictEntry K V)) := ht.table.getD []

/-- All the entries chained in a table, slot by slot. -/
def dictht.entries (ht : dictht K V) : List (dictEntry K V) := ht.slots.flatten

/-- All the entries of a dictionary: those of `ht[0]`, then those of `ht[1]`. -/
def dictEntries (d : dict K V) : List (dictEntry K V) := d.ht0.entries ++ d.ht1.entries

/-- The entry stored for a key, if any. -/
def dictLookup (d : dict K V) (key : K) : Option (dictEntry K V) :=
  (dictEntries d).find? (fun e => decide (key = e.key))

/-- The shape of a table: `size` slots, a power-of-two capacity of at most `LONG_MAX + 1` when
the table is allocated, `sizemask = size - 1`, and every entry chained in the slot its hash
selects. -/
structure dictht.Shaped (ty : dictType K) (ht : dictht K V) : Prop where
  len : ht.slots.length = ht.size
  mask : ht.sizemask = ht.size - 1
  pow2 : ht.table.isSome = true → ∃ k < 64, ht.size = 2 ^ k
  bucket : ∀ i (h : i < ht.slots.length), ∀ e ∈ ht.slots[i],
    (ty.hashFunction e.key % ULONG_RANGE) &&& ht.sizemask = i

/-- A well-formed table: well shaped, and `used` counts the chained entries. -/
structure dictht.WF (ty : dictType K) (ht : dictht K V) : Prop where
  shaped : ht.Shaped ty
  used : ht.used = ht.entries.length

/-- A well-formed dictionary: the `equal` callback only identifies equal keys, both tables are
well formed, no key is stored twice, `ht[1]` has no slots unless a migration is running, and
during a migration both tables are allocated and the slots of `ht[0]` below `rehashidx` are
empty. -/
structure WellFormed (d : dict K V) : Prop where
  lawful : ∀ a b, d.type.keyCompare a b = true → a = b
  wf0 : d.ht0.WF d.type
  wf1 : d.ht1.WF d.type
  nodup : ((dictEntries d).map dictEntry.key).Nodup
  idle : d.rehashidx = -1 → d.ht1.table.isNone = true
  busy : d.rehashidx ≠ -1 → 0 ≤ d.rehashidx ∧ d.rehashidx ≤ d.ht0.size ∧
    d.ht0.table.isSome = true ∧ d.ht1.table.isSome = true ∧
    ∀ i (h : i < d.ht0.slots.length), (i : Int) < d.rehashidx → d.ht0.slots[i].isEmpty = true

/-- The slots `lo`, ..., `hi - 1` of a table: the ones a migration visits while it moves
`rehashidx` from `lo` to `hi`. -/
def dictht.visited (ht : dictht K V) (lo hi : Nat) : List (List (dictEntry K V)) :=
  (ht.slots.drop lo).take (hi - lo)

/-- Two dictionaries with the same callbacks and iterator count whose stored entries are the
same up to order. -/
def SameContents (d d1 : dict K V) : Prop :=
  d1.type = d.type ∧ d1.iterators = d.iterators ∧ (dictEntries d1).Perm (dictEntries d)

/-! ### Sequences of calls and their specification -/

/-- Repeated calls `dictRehash(d, n)` with the step counts of the list, in order. -/
def dictRehashMany (d : dict K V) : List Nat → Option (dict K V)
  | [] => some d
  | n :: ns =>
    match dictRehash d n with
    | none => none
    | some (d1, _) => dictRehashMany d1 ns

/-- A call of the update interface. -/
inductive Op (K V : Type) where
  | add (key : K) (val : V)
  | replace (key : K) (val : V)
  | delete (key : K)

/-- One call of `dictAdd`, `dictReplace` or `dictDelete`; the status is dropped. -/
def applyOp (dict_can_resize : Bool) (d : dict K V) : Op K V → Option (dict K V)
  | .add key val => (dictAdd dict_can_resize d key val).map Prod.fst
  | .replace key val => (dictReplace dict_can_resize d key val).map Prod.fst
  | .delete key => (dictDelete d key).map Prod.fst

/-- A sequence of calls, in order. -/
def runOps (dict_can_resize : Bool) (d : dict K V) : List (Op K V) → Option (dict K V)
  | [] => some d
  | op :: ops =>
    match applyOp dict_can_resize d op with
    | none => none
    | some d1 => runOps dict_can_resize d1 ops

/-- The specification of one call on the list of live key/value pairs, in the spec's words:
`insert` fails if the key is present (no mutation) and otherwise creates an entry; `upsert`
inserts if absent and replaces the value if present; `remove` unlinks the entry. -/
def specApply (m : List (dictEntry K V)) : Op K V → List (dictEntry K V)
  | .add key val => if m.any (fun e => decide (key = e.key)) then m else ⟨key, val⟩ :: m
  | .replace key val => ⟨key, val⟩ :: m.filter (fun e => !decide (key = e.key))
  | .delete key => m.filter (fun e => !decide (key = e.key))

/-- The live key/value pairs after a sequence of calls on an empty dictionary. -/
def specRun (ops : List (Op K V)) : List (dictEntry K V) := ops.foldl specApply []

/-- The value most recently stored for a key by a sequence of calls, `none` if the key was
never added or was deleted since. -/
def specValue (ops : List (Op K V)) (key : K) : Option V :=
  ((specRun ops).find? (fun e => decide (key = e.key))).map dictEntry.val

/-- The number of distinct keys live after a sequence of calls. -/
def specLiveKeys (ops : List (Op K V)) : Nat := ((specRun ops).map dictEntry.key).dedup.length

/-- The caller's loop of a scan, `do { v = dictScan(d, v, fn, NULL, privdata); } while (v != 0);`,
entered with cursor `v` and run for at most `fuel` calls: the entries handed to `fn` by the
time a call returns the cursor 0. -/
def dictScanAll (d : dict K V) : Nat → Nat → Option (List (dictEntry K V))
  | 0, _ => none
  | fuel + 1, v =>
    match dictScan d v with
    | none => none
    | some (d1, v1, es) =>
      if v1 = 0 then some es else (dictScanAll d1 fuel v1).map (fun r => es ++ r)

/-- The first `n` calls of a scan entered with cursor `v`, each call continuing with the cursor
the previous one returned: the cursor returned last and the entries handed to `fn` so far. -/
def dictScanCalls (d : dict K V) : Nat → Nat → Option (Nat × List (dictEntry K V))
  | 0, v => some (v, [])
  | n + 1, v =>
    match dictScan d v with
    | none => none
    | some (d1, v1, es) => (dictScanCalls d1 n v1).map (fun r => (r.1, es ++ r.2))

/-- The structure that does not depend on the callbacks: the capacity of each table is 0 or a
power of two and `sizemask` is `size - 1`; `ht[1]` is reset unless a migration is running;
during a migration `rehashidx` is not negative and the slots of `ht[0]` below it are empty. -/
structure Structural (d : dict K V) : Prop where
  pow0 : d.ht0.size = 0 ∨ ∃ k, d.ht0.size = 2 ^ k
  pow1 : d.ht1.size = 0 ∨ ∃ k, d.ht1.size = 2 ^ k
  mask0 : d.ht0.sizemask = d.ht0.size - 1
  mask1 : d.ht1.sizemask = d.ht1.size - 1
  idle : d.rehashidx = -1 → d.ht1 = _dictReset
  busy : d.rehashidx ≠ -1 → 0 ≤ d.rehashidx ∧
    ∀ i (h : i < d.ht0.slots.length), (i : Int) < d.rehashidx → d.ht0.slots[i] = []

/-! ### Reachable states -/

/-- The dictionaries that calls of the operations produce from a fresh `dictCreate`:
`dictAdd`, `dictReplace`, `dictDelete`, `dictFind`, `dictExpand` and `dictRehash`, and also
`dictAddRaw` (which is `dictAddOrFind`), `dictGenericDelete` (which is `dictUnlink` when
`nofree` is set), `dictScan` and `dictRehashMilliseconds`; with any arguments, and with
resizing enabled or disabled at each call. -/
inductive Reachable (ty : dictType K) : dict K V → Prop where
  | create : Reachable ty (dictCreate ty)
  | add (g : Bool) (d : dict K V) (key : K) (val : V) (d1 : dict K V) (st : Status) :
      Reachable ty d → dictAdd g d key val = some (d1, st) → Reachable ty d1
  | replace (g : Bool) (d : dict K V) (key : K) (val : V) (d1 : dict K V) (r : Int) :
      Reachable ty d → dictReplace g d key val = some (d1, r) → Reachable ty d1
  | delete (d : dict K V) (key : K) (d1 : dict K V) (st : Status) :
      Reachable ty d → dictDelete d key = some (d1, st) → Reachable ty d1
  | find (d : dict K V) (key : K) (d1 : dict K V) (r : Option (dictEntry K V)) :
      Reachable ty d → dictFind d key = some (d1, r) → Reachable ty d1
  | expand (d : dict K V) (size : Nat) (d1 : dict K V) (st : Status) :
      Reachable ty d → dictExpand d size = some (d1, st) → Reachable ty d1
  | rehash (d : dict K V) (n : Nat) (d1 : dict K V) (r : Int) :
      Reachable ty d → dictRehash d n = some (d1, r) → Reachable ty d1
  | addRaw (g : Bool) (d : dict K V) (key : K) (v0 : V) (d1 : dict K V)
      (entry existing : Option EntryRef) :
      Reachable ty d → dictAddRaw g d key v0 = some (d1, entry, existing) → Reachable ty d1
  | unlink (d : dict K V) (key : K) (nofree : Bool) (d1 : dict K V)
      (r : Option (dictEntry K V)) :
      Reachable ty d → dictGenericDelete d key nofree = some (d1, r) → Reachable ty d1
  | scan (d : dict K V) (v : Nat) (d1 : dict K V) (v1 : Nat) (es : List (dictEntry K V)) :
      Reachable ty d → dictScan d v = some (d1, v1, es) → Reachable ty d1
  | rehashMilliseconds (clock : Nat → Int) (d : dict K V) (ms : Int) (d1 : dict K V)
      (r : Int) :
      Reachable ty d → dictRehashMilliseconds clock d ms = some (d1, r) → Reachable ty d1

/-- What `dictRehash` relies on in a dictionary that is being rehashed: `rehashidx` is not
negative, both tables are allocated with `size` slots, the size of `ht[0]` is an
`unsigned long`, the mask of `ht[1]` is below its size, the `used` counter of `ht[0]` is the
number of entries chained in it, and every slot of `ht[0]` below `rehashidx` is empty. -/
structure Migrating (d : dict K V) : Prop where
  busy : d.rehashidx ≠ -1
  idx : 0 ≤ d.rehashidx
  table0 : d.ht0.table.isSome = true
  table1 : d.ht1.table.isSome = true
  len0 : d.ht0.slots.length = d.ht0.size
  len1 : d.ht1.slots.length = d.ht1.size
  range0 : d.ht0.size < ULONG_RANGE
  mask1 : d.ht1.sizemask < d.ht1.size
  used0 : d.ht0.used = d.ht0.entries.length
  empty : ∀ i (h : i < d.ht0.slots.length), (i : Int) < d.rehashidx →
    d.ht0.slots[i].isEmpty = true

/-- The table `t0` of `dictScan` while a migration runs: the smaller of the two tables. -/
def dictScan.t0 (d : dict K V) : dictht K V := if d.ht0.size > d.ht1.size then d.ht1 else d.ht0

/-- The table `t1` of `dictScan` while a migration runs: the larger of the two tables. -/
def dictScan.t1 (d : dict K V) : dictht K V := if d.ht0.size > d.ht1.size then d.ht0 else d.ht1

/-- Modelled from the spec: `struct dictIterator` of `dict.h`, as `dictGetIterator`, `dictNext`
and `dictReleaseIterator` use it.  The pointer `d` is the dictionary the functions are given;
`entry` and `nextEntry` are `none` for `NULL`; `fingerprint` holds the 64 bits of the
`long long`. -/
structure dictIterator where
  table : Int
  index : Int
  safe : Int
  entry : Option EntryRef
  nextEntry : Option EntryRef
  fingerprint : Nat
  deriving DecidableEq, Repr

/-- The conversion of an integer to `long`. -/
def toLong (x : Int) : Int := (x + 2 ^ 63) % 2 ^ 64 - 2 ^ 63

/-- The shift `hash >> s` of a `long long`, on its 64 bits: the sign bit is copied into the
bits that are shifted in. -/
def dictFingerprint.shiftRight (hash s : Nat) : Nat :=
  if hash < 2 ^ 63 then hash >>> s else (hash >>> s) ||| ulNot (2 ^ (64 - s) - 1)

/-- The body of the loop `for (j = 0; j < 6; j++)` of `dictFingerprint`, on the 64 bits of
`hash`; the arithmetic wraps. -/
def dictFingerprint.mix (hash integer : Nat) : Nat :=
  let hash := (hash + integer) % ULONG_RANGE
  let hash := (ulNot hash + (hash <<< 21) % ULONG_RANGE) % ULONG_RANGE
  let hash := hash ^^^ dictFingerprint.shiftRight hash 24
  let hash := ((hash + (hash <<< 3) % ULONG_RANGE) + (hash <<< 8) % ULONG_RANGE) % ULONG_RANGE
  let hash := hash ^^^ dictFingerprint.shiftRight hash 14
  let hash := ((hash + (hash <<< 2) % ULONG_RANGE) + (hash <<< 4) % ULONG_RANGE) % ULONG_RANGE
  let hash := hash ^^^ dictFingerprint.shiftRight hash 28
  (hash + (hash <<< 31) % ULONG_RANGE) % ULONG_RANGE

/-- The function `dictFingerprint`, on the 64 bits of the result.  The addresses
`(long)d->ht[0].table` and `(long)d->ht[1].table` are `table0` and `table1`. -/
def dictFingerprint (table0 table1 : Nat) (d : dict K V) : Nat :=
  [table0 % ULONG_RANGE, d.ht0.size % ULONG_RANGE, d.ht0.used % ULONG_RANGE,
   table1 % ULONG_RANGE, d.ht1.size % ULONG_RANGE, d.ht1.used % ULONG_RANGE].foldl
    dictFingerprint.mix 0

/-- The function `dictGetIterator`: the dictionary, which it leaves alone, and the new
iterator (the field `fingerprint` is not initialised; it is 0 here). -/
def dictGetIterator (d : dict K V) : dict K V × dictIterator :=
  (d, { table := 0, index := -1, safe := 0, entry := none, nextEntry := none,
        fingerprint := 0 })

/-- The function `dictGetSafeIterator`. -/
def dictGetSafeIterator (d : dict K V) : dict K V × dictIterator :=
  let r := dictGetIterator d
  (r.1, { r.2 with safe := 1 })

/-- The read `ht->table[index]` of `dictNext`: a pointer to the first entry of the chain, or
`NULL`; no result when the index is outside the table. -/
def dictNext.head (d : dict K V) (table index : Nat) : Option (Option EntryRef) :=
  match (d.ht table).slot index with
  | none => none
  | some chain => some (if chain.isEmpty then none else some ⟨table, index, 0⟩)

/-- The read `iter->entry->next` of `dictNext`; no result when the pointer dangles. -/
def dictNext.next (d : dict K V) (entry : EntryRef) : Option (Option EntryRef) :=
  match (d.ht entry.table).slot entry.idx with
  | none => none
  | some chain =>
    if entry.pos < chain.length then
      some (if entry.pos + 1 < chain.length then some { entry with pos := entry.pos + 1 }
            else none)
    else none

/-- The statement `if (iter->index == -1 && iter->table == 0) { if (iter->safe)
iter->d->iterators++; else iter->fingerprint = dictFingerprint(iter->d); }` of `dictNext`. -/
def dictNext.register (table0 table1 : Nat) (d : dict K V) (iter : dictIterator) :
    dict K V × dictIterator :=
  if iter.index = -1 ∧ iter.table = 0 then
    if iter.safe ≠ 0 then ({ d with iterators := d.iterators + 1 }, iter)
    else (d, { iter with fingerprint := dictFingerprint table0 table1 d })
  else (d, iter)

/-- The statement `if (iter->entry == NULL) { ... } else { iter->entry = iter->nextEntry; }`
of `dictNext`: the dictionary and the iterator after it, and whether it left the loop by
`break`.  No result stands for a read outside a table. -/
def dictNext.advance (table0 table1 : Nat) (d : dict K V) (iter : dictIterator) :
    Option (dict K V × dictIterator × Bool) :=
  match iter.entry with
  | none =>
    if iter.table < 0 ∨ iter.table > 1 then none
    else
      let ht : dictht K V := d.ht iter.table.toNat
      let r := dictNext.register table0 table1 d iter
      let d1 : dict K V := r.1
      let iter2 : dictIterator := { r.2 with index := r.2.index + 1 }
      if iter2.index ≥ toLong ht.size then
        if dictIsRehashing d1 = true ∧ iter2.table = 0 then
          let iter3 : dictIterator := { iter2 with table := iter2.table + 1, index := 0 }
          match dictNext.head d1 1 iter3.index.toNat with
          | none => none
          | some e => some (d1, { iter3 with entry := e }, false)
        else some (d1, iter2, true)
      else if iter2.index < 0 then none
      else
        match dictNext.head d1 iter2.table.toNat iter2.index.toNat with
        | none => none
        | some e => some (d1, { iter2 with entry := e }, false)
  | some _ => some (d, { iter with entry := iter.nextEntry }, false)

/-- The loop `while (1)` of `dictNext`, with `fuel` rounds left: the dictionary and the
iterator afterwards, and the returned pointer. -/
def dictNext.loop (table0 table1 : Nat) :
    Nat → dict K V → dictIterator → Option (dict K V × dictIterator × Option EntryRef)
  | 0, _, _ => none
  | fuel + 1, d, iter =>
    match dictNext.advance table0 table1 d iter with
    | none => none
    | some (d1, iter1, true) => some (d1, iter1, none)
    | some (d1, iter1, false) =>
      match iter1.entry with
      | some e =>
        match dictNext.next d1 e with
        | none => none
        | some n => some (d1, { iter1 with nextEntry := n }, some e)
      | none => dictNext.loop table0 table1 fuel d1 iter1

/-- The function `dictNext`.  A round of its loop returns or moves to the next slot, so one
round for every slot and three more are never used up. -/
def dictNext (table0 table1 : Nat) (d : dict K V) (iter : dictIterator) :
    Option (dict K V × dictIterator × Option EntryRef) :=
  dictNext.loop table0 table1 (d.ht0.size + d.ht1.size + 3) d iter

/-- The function `dictReleaseIterator`: the dictionary afterwards; no result when the
assertion on the fingerprint fails. -/
def dictReleaseIterator (table0 table1 : Nat) (d : dict K V) (iter : dictIterator) :
    Option (dict K V) :=
  if ¬ (iter.index = -1 ∧ iter.table = 0) then
    if iter.safe ≠ 0 then some { d with iterators := d.iterators - 1 }
    else if iter.fingerprint = dictFingerprint table0 table1 d then some d
    else none
  else some d

/-- The entry a pointer refers to. -/
def dictEntryAt (d : dict K V) (entry : EntryRef) : Option (dictEntry K V) :=
  match (d.ht entry.table).slot entry.idx with
  | none => none
  | some chain => chain[entry.pos]?

/-- Calls of `dictNext` on one iterator, `k` of them: the dictionary and the iterator
afterwards, and the returned pointers, in order. -/
def dictNextTimes (table0 table1 : Nat) :
    Nat → dict K V → dictIterator → Option (dict K V × dictIterator × List (Option EntryRef))
  | 0, d, iter => some (d, iter, [])
  | k + 1, d, iter =>
    match dictNext table0 table1 d iter with
    | none => none
    | some (d1, iter1, e) =>
      (dictNextTimes table0 table1 k d1 iter1).map (fun r => (r.1, r.2.1, e :: r.2.2))

/-- The entries an iteration still has to return when it stands before slot `index` of table
`table`: those of the slots from `index` on, and then those of `ht[1]` when the table is
`ht[0]` and a migration runs. -/
def dictNext.pending (d : dict K V) (table index : Nat) : List (dictEntry K V) :=
  ((d.ht table).slots.drop index).flatten ++
    (if table = 0 ∧ dictIsRehashing d = true then d.ht1.entries else [])

/-- The iterator `iter` stands at a position of the dictionary `d` from which the entries
still to be returned are `rest`: between two slots (`entry` is `NULL`, the next slot is
`index + 1`), or at an entry of a chain, with `nextEntry` its successor. -/
def IterAt (d : dict K V) (iter : dictIterator) (rest : List (dictEntry K V)) : Prop :=
  (∃ t i : Nat, iter.entry = none ∧ iter.table = (t : Int) ∧ iter.index + 1 = (i : Int) ∧
    (t = 0 ∨ (t = 1 ∧ dictIsRehashing d = true)) ∧ rest = dictNext.pending d t i) ∨
  (∃ (e : EntryRef) (chain : List (dictEntry K V)), iter.entry = some e ∧
    iter.table = (e.table : Int) ∧ iter.index = (e.idx : Int) ∧
    (e.table = 0 ∨ (e.table = 1 ∧ dictIsRehashing d = true)) ∧
    (d.ht e.table).slot e.idx = some chain ∧ e.pos < chain.length ∧
    iter.nextEntry =
      (if e.pos + 1 < chain.length then some { e with pos := e.pos + 1 } else none) ∧
    rest = chain.drop (e.pos + 1) ++ dictNext.pending d e.table (e.idx + 1))

/-- What `dictNext` relies on in a dictionary: each table has `size` slots, the sizes are
below `2 ^ 63` (they are compared as `long`), and `ht[1]` has a slot while a migration
runs. -/
structure Iterable (d : dict K V) : Prop where
  len0 : d.ht0.slots.length = d.ht0.size
  len1 : d.ht1.slots.length = d.ht1.size
  small0 : d.ht0.size < 2 ^ 63
  small1 : d.ht1.size < 2 ^ 63
  busy : dictIsRehashing d = true → 0 < d.ht1.size

/-- What one call of `dictNext` returned, for the entries `rest` that were still to be
returned before it: `NULL` when there was none, and otherwise a pointer to the first of them;
the iterator then stands before the others. -/
def Returned (d : dict K V) (rest : List (dictEntry K V)) (iter1 : dictIterator)
    (r : Option EntryRef) : Prop :=
  match rest with
  | [] => r = none ∧ IterAt d iter1 []
  | e :: rest1 => ∃ ref, r = some ref ∧ dictEntryAt d ref = some e ∧ IterAt d iter1 rest1

/-- The dictionary after a call of `dictNext`: the first call on a safe iterator counts the
iterator. -/
def dictNext.counted (d : dict K V) (iter : dictIterator) : dict K V :=
  if iter.index = -1 ∧ iter.table = 0 ∧ iter.safe ≠ 0 then
    { d with iterators := d.iterators + 1 }
  else d

/-- The pointer `r` that a call of `dictNext` returned is `NULL` when `e` is `none`, and
otherwise points to the entry `e`. -/
def PointsTo (d : dict K V) (r : Option EntryRef) (e : Option (dictEntry K V)) : Prop :=
  match e with
  | none => r = none
  | some e => ∃ ref, r = some ref ∧ dictEntryAt d ref = some e

/-! ### Example dictionaries -/

/-- Example callbacks: natural-number keys that hash to themselves and compare by value. -/
def natType : dictType Nat := { hashFunction := fun k => k, keyCompare := fun a b => a == b }

/-- Example: four keys in a table of capacity 4, no migration running. -/
def exampleSmall : dict Nat Nat :=
  { type := natType,
    ht0 := { table := some [[⟨4, 40⟩], [⟨1, 10⟩], [⟨2, 20⟩], [⟨3, 30⟩]],
             size := 4, sizemask := 3, used := 4 },
    ht1 := _dictReset, rehashidx := -1, iterators := 0 }

/-- Example: the same four keys in a table of capacity 8. -/
def exampleLarge : dict Nat Nat :=
  { type := natType,
    ht0 := { table := some [[], [⟨1, 10⟩], [⟨2, 20⟩], [⟨3, 30⟩], [⟨4, 40⟩], [], [], []],
             size := 8, sizemask := 7, used := 4 },
    ht1 := _dictReset, rehashidx := -1, iterators := 0 }

/-- Example: the dictionary right after a fifth key was added to a full table of capacity 4:
a migration to a table of capacity 8 has started and the new key sits in `ht[1]`. -/
def exampleRehashing : dict Nat Nat :=
  { type := natType,
    ht0 := { table := some [[⟨4, 40⟩], [⟨1, 10⟩], [⟨2, 20⟩], [⟨3, 30⟩]],
             size := 4, sizemask := 3, used := 4 },
    ht1 := { table := some [[], [], [], [], [], [⟨5, 50⟩], [], []],
             size := 8, sizemask := 7, used := 1 },
    rehashidx := 0, iterators := 0 }

/-- Example: five insertions into a fresh dictionary; the fifth makes the table grow. -/
def exampleOps : List (Op Nat Nat) :=
  [.add 1 10, .add 2 20, .add 3 30, .add 4 40, .add 5 50]

/-- Example: twenty-one keys in a table of capacity 4, as twenty-one insertions leave it when
resizing is disabled; no migration running. -/
def exampleCrowded : dict Nat Nat :=
  { type := natType,
    ht0 := { table := some [[⟨20, 0⟩, ⟨16, 0⟩, ⟨12, 0⟩, ⟨8, 0⟩, ⟨4, 0⟩, ⟨0, 0⟩],
                            [⟨17, 0⟩, ⟨13, 0⟩, ⟨9, 0⟩, ⟨5, 0⟩, ⟨1, 0⟩],
                            [⟨18, 0⟩, ⟨14, 0⟩, ⟨10, 0⟩, ⟨6, 0⟩, ⟨2, 0⟩],
                            [⟨19, 0⟩, ⟨15, 0⟩, ⟨11, 0⟩, ⟨7, 0⟩, ⟨3, 0⟩]],
             size := 4, sizemask := 3, used := 21 },
    ht1 := _dictReset, rehashidx := -1, iterators := 0 }

/-- Example: a table of capacity 32 holding the keys 0, 20 and 31, each in the slot of its
number, at the start of a migration to a table of capacity 64. -/
def exampleSparse : dict Nat Nat :=
  { type := natType,
    ht0 := { table := some (([⟨0, 0⟩] :: List.replicate 19 []) ++
                            ([⟨20, 0⟩] :: List.replicate 10 []) ++ [[⟨31, 0⟩]]),
             size := 32, sizemask := 31, used := 3 },
    ht1 := { table := some (List.replicate 64 []), size := 64, sizemask := 63, used := 0 },
    rehashidx := 0, iterators := 0 }

/-- Example: the insertions of the keys 0, ..., 20 that lead to `exampleCrowded` when
resizing is disabled. -/
def exampleCrowdedOps : List (Op Nat Nat) := (List.range 21).map (fun k => Op.add k 0)

/-- Example: `exampleRehashing` while one safe iterator is live. -/
def exampleIterating : dict Nat Nat := { exampleRehashing with iterators := 1 }

/-- The number of entries up to which the counter arithmetic of the model is exact: an entry
takes 24 bytes of a 64-bit address space, so no dictionary holds `2^62` of them. -/
def MAX_ENTRIES : Nat := 2 ^ 62

/-- Example: a dictionary that no sequence of calls produces - the key 1 is stored twice, and
in slots that its hash does not select - at the start of a migration. -/
def exampleMisplaced : dict Nat Nat :=
  { type := natType,
    ht0 := { table := some [[], [], [⟨1, 10⟩, ⟨1, 11⟩], [⟨7, 70⟩]],
             size := 4, sizemask := 3, used := 3 },
    ht1 := { table := some [[], [], [], [], [], [], [], []],
             size := 8, sizemask := 7, used := 0 },
    rehashidx := 0, iterators := 0 }

end Dict

/-!
# Redis `ae.c`: the event loop

A shallow embedding of `src/redeis3.2/src/ae.c` over the types of `ae.h`.

* Function pointers and `clientData` pointers are addresses (`Nat`); what the function behind
  an address does to the event loop is given by the environment `aeEnv`.
* The multiplexing layer (`aeApiPoll`, `aeApiAddEvent`, ...) and the clock `getMonotonicUs`
  are not part of the sources: their results are given by the environment.
* The array `events` and the list of timers are `List`s; a timer is found again after a
  callback by its distance from the tail of the list, since callbacks link new timers at the
  head (`aeCreateTimeEvent`) and otherwise rewrite fields.
* Every call of a callback or of the multiplexing layer is recorded, in order, in `calls`.
* `none` stands for a fault: an access outside an array or to a timer that is gone.
-/

namespace Ae

/-- The status code `AE_OK` of `ae.h`. -/
def AE_OK : Int := 0

/-- The status code `AE_ERR` of `ae.h`. -/
def AE_ERR : Int := -1

/-- The mask `AE_NONE`: no events registered. -/
def AE_NONE : Nat := 0

/-- The mask bit `AE_READABLE`: fire when the descriptor is readable. -/
def AE_READABLE : Nat := 1

/-- The mask bit `AE_WRITABLE`: fire when the descriptor is writable. -/
def AE_WRITABLE : Nat := 2

/-- The mask bit `AE_BARRIER`: with `AE_WRITABLE`, never fire the writable event after the
readable one in the same iteration. -/
def AE_BARRIER : Nat := 4

/-- The flag `AE_FILE_EVENTS` of `aeProcessEvents`. -/
def AE_FILE_EVENTS : Nat := 1

/-- The flag `AE_TIME_EVENTS` of `aeProcessEvents`. -/
def AE_TIME_EVENTS : Nat := 2

/-- The flags `AE_ALL_EVENTS`: `AE_FILE_EVENTS|AE_TIME_EVENTS`. -/
def AE_ALL_EVENTS : Nat := AE_FILE_EVENTS ||| AE_TIME_EVENTS

/-- The flag `AE_DONT_WAIT`. -/
def AE_DONT_WAIT : Nat := 4

/-- The flag `AE_CALL_BEFORE_SLEEP`. -/
def AE_CALL_BEFORE_SLEEP : Nat := 8

/-- The flag `AE_CALL_AFTER_SLEEP`. -/
def AE_CALL_AFTER_SLEEP : Nat := 16

/-- The return value `AE_NOMORE` of a timer callback that does not want to run again. -/
def AE_NOMORE : Int := -1

/-- The id `AE_DELETED_EVENT_ID` that marks a timer as deleted. -/
def AE_DELETED_EVENT_ID : Int := -1

/-- The `struct aeFileEvent` of `ae.h`. -/
structure aeFileEvent where
  mask : Nat
  rfileProc : Nat
  wfileProc : Nat
  clientData : Nat
  deriving DecidableEq, Repr

/-- The `struct aeTimeEvent` of `ae.h`; the links `prev` and `next` are the position in the
list of timers, `finalizerProc` is `none` for `NULL`, and `addr` is the address of the struct,
the value of a pointer to it. -/
structure aeTimeEvent where
  id : Int
  when : Nat
  timeProc : Nat
  finalizerProc : Option Nat
  clientData : Nat
  refcount : Int
  addr : Nat
  deriving DecidableEq, Repr

/-- The `struct aeFiredEvent` of `ae.h`. -/
structure aeFiredEvent where
  fd : Int
  mask : Nat
  deriving DecidableEq, Repr

/-- The `struct aeEventLoop` of `ae.h`, without the private data of the multiplexing layer.
The list `fired` holds the `numevents` entries the last `aeApiPoll` filled in;
`timeEventHead` is the list of timers, head first; `beforesleep` and `aftersleep` are `none`
for `NULL`. -/
structure aeEventLoop where
  maxfd : Int
  setsize : Int
  timeEventNextId : Int
  events : List aeFileEvent
  fired : List aeFiredEvent
  timeEventHead : List aeTimeEvent
  stop : Int
  beforesleep : Option Nat
  aftersleep : Option Nat
  flags : Nat
  deriving DecidableEq, Repr

/-- A call that leaves `ae.c`: a callback, or the multiplexing layer.  The timeout `tvp` of
`aeApiPoll` is `none` for `NULL` (wait forever) and `(tv_sec, tv_usec)` otherwise. -/
inductive aeCall where
  | fileProc (proc : Nat) (fd : Int) (clientData : Nat) (mask : Nat)
  | timeProc (proc : Nat) (id : Int) (clientData : Nat)
  | finalizerProc (proc : Nat) (clientData : Nat)
  | beforesleep (proc : Nat)
  | aftersleep (proc : Nat)
  | aeApiPoll (tvp : Option (Int × Int))
  | aeApiAddEvent (fd : Int) (mask : Nat)
  | aeApiDelEvent (fd : Int) (mask : Nat)
  | aeApiResize (setsize : Int)
  deriving DecidableEq, Repr

/-- The environment of the event loop: what the function at an address does to the event loop
when it is called as a file callback, a timer callback (with its return value), a finalizer or
a sleep hook; the events the `n`-th call of `aeApiPoll` reports; the results of
`aeApiAddEvent` and `aeApiResize`; and the `n`-th reading of the clock `getMonotonicUs`, in
microseconds. -/
structure aeEnv where
  fileProc : Nat → aeEventLoop → Int → Nat → Nat → aeEventLoop
  timeProc : Nat → aeEventLoop → Int → Nat → aeEventLoop × Int
  finalizerProc : Nat → aeEventLoop → Nat → aeEventLoop
  sleepProc : Nat → aeEventLoop → aeEventLoop
  aeApiPoll : Nat → aeEventLoop → Option (Int × Int) → List aeFiredEvent
  aeApiAddEvent : aeEventLoop → Int → Nat → Int
  aeApiResize : aeEventLoop → Int → Int
  getMonotonicUs : Nat → Nat

/-- The state of a run: the event loop, the number of clock readings and of `aeApiPoll` calls
made so far, and the calls that left `ae.c`, oldest first. -/
structure aeWorld where
  eventLoop : aeEventLoop
  clockReads : Nat
  polls : Nat
  calls : List aeCall
  deriving DecidableEq, Repr

/-- A reading of the clock `getMonotonicUs()`. -/
def getMonotonicUs (env : aeEnv) (w : aeWorld) : aeWorld × Nat :=
  ({ w with clockReads := w.clockReads + 1 }, env.getMonotonicUs w.clockReads)

/-- The function `aeCreateEventLoop` when the multiplexing layer is created: `setsize` slots
with mask `AE_NONE` (the other fields of a slot are not initialised; they are 0 here), no
timers, `maxfd = -1`. -/
def aeCreateEventLoop (setsize : Int) : aeEventLoop :=
  { maxfd := -1, setsize := setsize, timeEventNextId := 0,
    events := List.replicate setsize.toNat
      { mask := AE_NONE, rfileProc := 0, wfileProc := 0, clientData := 0 },
    fired := [], timeEventHead := [], stop := 0, beforesleep := none, aftersleep := none,
    flags := 0 }

/-- The function `aeCreateFileEvent`. -/
def aeCreateFileEvent (env : aeEnv) (w : aeWorld) (fd : Int) (mask : Nat) (proc : Nat)
    (clientData : Nat) : Option (aeWorld × Int) :=
  if fd ≥ w.eventLoop.setsize then some (w, AE_ERR)
  else
    let w1 := { w with calls := w.calls ++ [aeCall.aeApiAddEvent fd mask] }
    if env.aeApiAddEvent w.eventLoop fd mask = -1 then some (w1, AE_ERR)
    else if fd < 0 then none
    else
      match w1.eventLoop.events[fd.toNat]? with
      | none => none
      | some fe =>
        let fe1 : aeFileEvent :=
          { mask := fe.mask ||| mask,
            rfileProc := if mask &&& AE_READABLE ≠ 0 then proc else fe.rfileProc,
            wfileProc := if mask &&& AE_WRITABLE ≠ 0 then proc else fe.wfileProc,
            clientData := clientData }
        some ({ w1 with
                eventLoop := { w1.eventLoop with
                  events := w1.eventLoop.events.set fd.toNat fe1,
                  maxfd := if fd > w1.eventLoop.maxfd then fd else w1.eventLoop.maxfd } },
              AE_OK)

/-- The bit pattern of `~mask` for an `int` mask. -/
def intNot (mask : Nat) : Nat := 2 ^ 32 - 1 - mask % 2 ^ 32

/-- The function `aeGetSetSize`. -/
def aeGetSetSize (eventLoop : aeEventLoop) : Int := eventLoop.setsize

/-- The function `aeSetDontWait`. -/
def aeSetDontWait (eventLoop : aeEventLoop) (noWait : Int) : aeEventLoop :=
  if noWait ≠ 0 then { eventLoop with flags := eventLoop.flags ||| AE_DONT_WAIT }
  else { eventLoop with flags := eventLoop.flags &&& intNot AE_DONT_WAIT }

/-- The function `aeStop`. -/
def aeStop (eventLoop : aeEventLoop) : aeEventLoop := { eventLoop with stop := 1 }

/-- The function `aeSetBeforeSleepProc`. -/
def aeSetBeforeSleepProc (eventLoop : aeEventLoop) (beforesleep : Option Nat) : aeEventLoop :=
  { eventLoop with beforesleep := beforesleep }

/-- The function `aeSetAfterSleepProc`. -/
def aeSetAfterSleepProc (eventLoop : aeEventLoop) (aftersleep : Option Nat) : aeEventLoop :=
  { eventLoop with aftersleep := aftersleep }

/-- The array `zrealloc(eventLoop->events, sizeof(aeFileEvent)*setsize)`: the first `setsize`
slots are kept (the slots that are new are not initialised; their fields are 0 here). -/
def aeResizeSetSize.events (events : List aeFileEvent) (setsize : Nat) : List aeFileEvent :=
  events.take setsize ++ List.replicate (setsize - events.length)
    { mask := 0, rfileProc := 0, wfileProc := 0, clientData := 0 }

/-- The loop `for (i = eventLoop->maxfd+1; i < setsize; i++) eventLoop->events[i].mask =
AE_NONE;` of `aeResizeSetSize`, from `i` on with `n` rounds left. -/
def aeResizeSetSize.init : Nat → Nat → List aeFileEvent → Option (List aeFileEvent)
  | 0, _, events => some events
  | n + 1, i, events =>
    match events[i]? with
    | none => none
    | some fe => aeResizeSetSize.init n (i + 1) (events.set i { fe with mask := AE_NONE })

/-- The function `aeResizeSetSize`. -/
def aeResizeSetSize (env : aeEnv) (w : aeWorld) (setsize : Int) : Option (aeWorld × Int) :=
  if setsize = w.eventLoop.setsize then some (w, AE_OK)
  else if w.eventLoop.maxfd ≥ setsize then some (w, AE_ERR)
  else
    let w1 := { w with calls := w.calls ++ [aeCall.aeApiResize setsize] }
    if env.aeApiResize w.eventLoop setsize = -1 then some (w1, AE_ERR)
    else
      let events := aeResizeSetSize.events w1.eventLoop.events setsize.toNat
      let fired := w1.eventLoop.fired.take setsize.toNat
      match aeResizeSetSize.init (setsize - (w1.eventLoop.maxfd + 1)).toNat
          (w1.eventLoop.maxfd + 1).toNat events with
      | none => none
      | some events1 =>
        some ({ w1 with eventLoop := { w1.eventLoop with
                  events := events1, fired := fired, setsize := setsize } }, AE_OK)

/-- The loop `for (j = eventLoop->maxfd-1; j >= 0; j--) if (eventLoop->events[j].mask !=
AE_NONE) break;` of `aeDeleteFileEvent`, entered with `j = n - 1`: the value of `j` after
it. -/
def aeDeleteFileEvent.maxfd (events : List aeFileEvent) : Nat → Option Int
  | 0 => some (-1)
  | j + 1 =>
    match events[j]? with
    | none => none
    | some fe =>
      if fe.mask ≠ AE_NONE then some (j : Int) else aeDeleteFileEvent.maxfd events j

/-- The function `aeDeleteFileEvent`. -/
def aeDeleteFileEvent (w : aeWorld) (fd : Int) (mask : Nat) : Option aeWorld :=
  if fd ≥ w.eventLoop.setsize then some w
  else if fd < 0 then none
  else
    match w.eventLoop.events[fd.toNat]? with
    | none => none
    | some fe =>
      if fe.mask = AE_NONE then some w
      else
        let mask1 := if mask &&& AE_WRITABLE ≠ 0 then mask ||| AE_BARRIER else mask
        let fe1 : aeFileEvent := { fe with mask := fe.mask &&& intNot mask1 }
        let w1 : aeWorld :=
          { w with calls := w.calls ++ [aeCall.aeApiDelEvent fd mask1],
                   eventLoop := { w.eventLoop with
                     events := w.eventLoop.events.set fd.toNat fe1 } }
        if fd = w1.eventLoop.maxfd ∧ fe1.mask = AE_NONE then
          match aeDeleteFileEvent.maxfd w1.eventLoop.events w1.eventLoop.maxfd.toNat with
          | none => none
          | some j => some { w1 with eventLoop := { w1.eventLoop with maxfd := j } }
        else some w1

/-- The function `aeGetFileEvents`. -/
def aeGetFileEvents (eventLoop : aeEventLoop) (fd : Int) : Option Nat :=
  if fd ≥ eventLoop.setsize then some 0
  else if fd < 0 then none
  else (eventLoop.events[fd.toNat]?).map (fun fe => fe.mask)

/-- The function `aeCreateTimeEvent`: the new timer is linked at the head of the list; the
result is its id.  The allocator `zmalloc` is not among the sources: the address it returns
is taken to be the number of the timer, so that no two timers have the same address. -/
def aeCreateTimeEvent (env : aeEnv) (w : aeWorld) (milliseconds : Int) (proc : Nat)
    (clientData : Nat) (finalizerProc : Option Nat) : aeWorld × Int :=
  let id := w.eventLoop.timeEventNextId
  let (w1, now) := getMonotonicUs env w
  let te : aeTimeEvent :=
    { id := id, when := Dict.toULong ((now : Int) + milliseconds * 1000), timeProc := proc,
      finalizerProc := finalizerProc, clientData := clientData, refcount := 0,
      addr := id.toNat }
  ({ w1 with
     eventLoop := { w1.eventLoop with
       timeEventNextId := id + 1,
       timeEventHead := te :: w1.eventLoop.timeEventHead } }, id)

/-- The loop `while(te) { if (te->id == id) { te->id = AE_DELETED_EVENT_ID; return AE_OK; }
te = te->next; }` of `aeDeleteTimeEvent`: the list with the first timer of that id marked, or
`none` when the loop ends without a match. -/
def aeDeleteTimeEvent.mark (id : Int) : List aeTimeEvent → Option (List aeTimeEvent)
  | [] => none
  | te :: next =>
    if te.id = id then some ({ te with id := AE_DELETED_EVENT_ID } :: next)
    else (aeDeleteTimeEvent.mark id next).map (fun l => te :: l)

/-- The function `aeDeleteTimeEvent`. -/
def aeDeleteTimeEvent (eventLoop : aeEventLoop) (id : Int) : aeEventLoop × Int :=
  match aeDeleteTimeEvent.mark id eventLoop.timeEventHead with
  | some l => ({ eventLoop with timeEventHead := l }, AE_OK)
  | none => (eventLoop, AE_ERR)

/-- The loop `while (te) { if (!earliest || te->when < earliest->when) earliest = te; ... }`
of `msUntilEarliestTimer`. -/
def msUntilEarliestTimer.earliest :
    Option aeTimeEvent → List aeTimeEvent → Option aeTimeEvent
  | earliest, [] => earliest
  | none, te :: next => msUntilEarliestTimer.earliest (some te) next
  | some e, te :: next =>
    if te.when < e.when then msUntilEarliestTimer.earliest (some te) next
    else msUntilEarliestTimer.earliest (some e) next

/-- The function `msUntilEarliestTimer`: how many milliseconds until the first timer should
fire, -1 if there are no timers. -/
def msUntilEarliestTimer (env : aeEnv) (w : aeWorld) : aeWorld × Int :=
  match msUntilEarliestTimer.earliest none w.eventLoop.timeEventHead with
  | none => (w, -1)
  | some earliest =>
    let (w1, now) := getMonotonicUs env w
    (w1, if now ≥ earliest.when then 0 else (((earliest.when - now) / 1000 : Nat) : Int))

/-- The timer `te` of the walk of `processTimeEvents` that has `k` timers, itself included,
from it to the tail of the list. -/
def timeEventAt (w : aeWorld) (k : Nat) : Option aeTimeEvent :=
  if w.eventLoop.timeEventHead.length < k then none
  else w.eventLoop.timeEventHead[w.eventLoop.timeEventHead.length - k]?

/-- A store to the fields of the timer that has `k` timers from it to the tail. -/
def setTimeEventAt (w : aeWorld) (k : Nat) (te : aeTimeEvent) : aeWorld :=
  { w with eventLoop := { w.eventLoop with
      timeEventHead :=
        w.eventLoop.timeEventHead.set (w.eventLoop.timeEventHead.length - k) te } }

/-- The unlink of the timer that has `k` timers from it to the tail. -/
def unlinkTimeEventAt (w : aeWorld) (k : Nat) : aeWorld :=
  { w with eventLoop := { w.eventLoop with
      timeEventHead :=
        w.eventLoop.timeEventHead.eraseIdx (w.eventLoop.timeEventHead.length - k) } }

/-- The loop `while (te) { ... }` of `processTimeEvents`; `k` is the number of timers from
`te` to the tail (0 when `te` is `NULL`).  After a callback the timer `te` is the one at that
distance from the tail again: this is where the pointer of the code points as long as the
callbacks unlink no timer, as those of `aeEnv.TimersByApi`.  For callbacks that run
`aeProcessEvents`, and so unlink timers, the loop is `processTimeEvents.walk`. -/
def processTimeEvents.loop (env : aeEnv) (maxId : Int) :
    Nat → aeWorld → Nat → Int → Option (aeWorld × Int)
  | 0, w, _, processed => some (w, processed)
  | k + 1, w, now, processed =>
    match timeEventAt w (k + 1) with
    | none => none
    | some te =>
      if te.id = AE_DELETED_EVENT_ID then
        if te.refcount ≠ 0 then processTimeEvents.loop env maxId k w now processed
        else
          let w1 := unlinkTimeEventAt w (k + 1)
          match te.finalizerProc with
          | some finalizerProc =>
            let w2 : aeWorld :=
              { w1 with
                eventLoop := env.finalizerProc finalizerProc w1.eventLoop te.clientData,
                calls := w1.calls ++ [aeCall.finalizerProc finalizerProc te.clientData] }
            let (w3, now1) := getMonotonicUs env w2
            processTimeEvents.loop env maxId k w3 now1 processed
          | none => processTimeEvents.loop env maxId k w1 now processed
      else if te.id > maxId then processTimeEvents.loop env maxId k w now processed
      else if te.when ≤ now then
        let id := te.id
        let w1 := setTimeEventAt w (k + 1) { te with refcount := te.refcount + 1 }
        let r := env.timeProc te.timeProc w1.eventLoop id te.clientData
        let w2 : aeWorld :=
          { w1 with eventLoop := r.1,
                    calls := w1.calls ++ [aeCall.timeProc te.timeProc id te.clientData] }
        let retval := r.2
        match timeEventAt w2 (k + 1) with
        | none => none
        | some te1 =>
          let (w3, now1) := getMonotonicUs env w2
          let te2 : aeTimeEvent :=
            if retval ≠ AE_NOMORE then
              { te1 with refcount := te1.refcount - 1,
                         when := Dict.toULong ((now1 : Int) + Dict.toInt32 (retval * 1000)) }
            else { te1 with refcount := te1.refcount - 1, id := AE_DELETED_EVENT_ID }
          processTimeEvents.loop env maxId k (setTimeEventAt w3 (k + 1) te2) now1
            (processed + 1)
      else processTimeEvents.loop env maxId k w now processed

/-- The function `processTimeEvents`: the number of timers fired. -/
def processTimeEvents (env : aeEnv) (w : aeWorld) : Option (aeWorld × Int) :=
  let maxId := w.eventLoop.timeEventNextId - 1
  let (w1, now) := getMonotonicUs env w
  processTimeEvents.loop env maxId w1.eventLoop.timeEventHead.length w1 now 0

/-- A call `proc(eventLoop, fd, clientData, mask)` of a file callback. -/
def callFileProc (env : aeEnv) (w : aeWorld) (proc : Nat) (fd : Int) (clientData : Nat)
    (mask : Nat) : aeWorld :=
  { w with eventLoop := env.fileProc proc w.eventLoop fd clientData mask,
           calls := w.calls ++ [aeCall.fileProc proc fd clientData mask] }

/-- The body of the loop `for (j = 0; j < numevents; j++)` of `aeProcessEvents`: the
callbacks of the `j`-th fired descriptor. -/
def aeProcessEvents.fileEvent (env : aeEnv) (w : aeWorld) (j : Nat) : Option aeWorld :=
  match w.eventLoop.fired[j]? with
  | none => none
  | some e =>
    let mask := e.mask
    let fd := e.fd
    if fd < 0 then none
    else
      match w.eventLoop.events[fd.toNat]? with
      | none => none
      | some fe =>
        let invert := fe.mask &&& AE_BARRIER
        let r1 : Option (aeWorld × aeFileEvent × Int) :=
          if invert = 0 ∧ fe.mask &&& mask &&& AE_READABLE ≠ 0 then
            let w1 := callFileProc env w fe.rfileProc fd fe.clientData mask
            (w1.eventLoop.events[fd.toNat]?).map (fun fe1 => (w1, fe1, 1))
          else some (w, fe, 0)
        match r1 with
        | none => none
        | some (w1, fe1, fired1) =>
          let r2 : aeWorld × Int :=
            if fe1.mask &&& mask &&& AE_WRITABLE ≠ 0 ∧
                (fired1 = 0 ∨ fe1.wfileProc ≠ fe1.rfileProc) then
              (callFileProc env w1 fe1.wfileProc fd fe1.clientData mask, fired1 + 1)
            else (w1, fired1)
          if invert ≠ 0 then
            match r2.1.eventLoop.events[fd.toNat]? with
            | none => none
            | some fe2 =>
              if fe2.mask &&& mask &&& AE_READABLE ≠ 0 ∧
                  (r2.2 = 0 ∨ fe2.wfileProc ≠ fe2.rfileProc) then
                some (callFileProc env r2.1 fe2.rfileProc fd fe2.clientData mask)
              else some r2.1
          else some r2.1

/-- The loop `for (j = 0; j < numevents; j++) { ...; processed++; }` of `aeProcessEvents`,
from `j` on with `n` rounds left. -/
def aeProcessEvents.fileEvents (env : aeEnv) :
    Nat → aeWorld → Nat → Int → Option (aeWorld × Int)
  | 0, w, _, processed => some (w, processed)
  | n + 1, w, j, processed =>
    match aeProcessEvents.fileEvent env w j with
    | none => none
    | some w1 => aeProcessEvents.fileEvents env n w1 (j + 1) (processed + 1)

/-- The function `aeProcessEvents`: the number of events processed. -/
def aeProcessEvents (env : aeEnv) (w : aeWorld) (flags : Nat) : Option (aeWorld × Int) :=
  if flags &&& AE_TIME_EVENTS = 0 ∧ flags &&& AE_FILE_EVENTS = 0 then some (w, 0)
  else
    let r : Option (aeWorld × Int) :=
      if w.eventLoop.maxfd ≠ -1 ∨
          (flags &&& AE_TIME_EVENTS ≠ 0 ∧ flags &&& AE_DONT_WAIT = 0) then
        let r0 : aeWorld × Int :=
          if flags &&& AE_TIME_EVENTS ≠ 0 ∧ flags &&& AE_DONT_WAIT = 0 then
            msUntilEarliestTimer env w
          else (w, -1)
        let msUntilTimer := r0.2
        let tvp0 : Option (Int × Int) :=
          if msUntilTimer ≥ 0 then some (msUntilTimer / 1000, (msUntilTimer % 1000) * 1000)
          else if flags &&& AE_DONT_WAIT ≠ 0 then some (0, 0)
          else none
        let tvp : Option (Int × Int) :=
          if r0.1.eventLoop.flags &&& AE_DONT_WAIT ≠ 0 then some (0, 0) else tvp0
        let w1 : aeWorld :=
          match r0.1.eventLoop.beforesleep with
          | some beforesleep =>
            if flags &&& AE_CALL_BEFORE_SLEEP ≠ 0 then
              { r0.1 with eventLoop := env.sleepProc beforesleep r0.1.eventLoop,
                          calls := r0.1.calls ++ [aeCall.beforesleep beforesleep] }
            else r0.1
          | none => r0.1
        let fired := env.aeApiPoll w1.polls w1.eventLoop tvp
        let w2 : aeWorld :=
          { w1 with eventLoop := { w1.eventLoop with fired := fired },
                    polls := w1.polls + 1,
                    calls := w1.calls ++ [aeCall.aeApiPoll tvp] }
        let numevents := fired.length
        let w3 : aeWorld :=
          match w2.eventLoop.aftersleep with
          | some aftersleep =>
            if flags &&& AE_CALL_AFTER_SLEEP ≠ 0 then
              { w2 with eventLoop := env.sleepProc aftersleep w2.eventLoop,
                        calls := w2.calls ++ [aeCall.aftersleep aftersleep] }
            else w2
          | none => w2
        aeProcessEvents.fileEvents env numevents w3 0 0
      else some (w, 0)
    match r with
    | none => none
    | some (w4, processed) =>
      if flags &&& AE_TIME_EVENTS ≠ 0 then
        (processTimeEvents env w4).map (fun r => (r.1, processed + r.2))
      else some (w4, processed)

/-- The timeout `tvp` that `aeProcessEvents` computes for `aeApiPoll` when it enters its `if`
block, together with the world after the clock reading of `msUntilEarliestTimer`: `none` is
`NULL` (wait forever), `some (tv_sec, tv_usec)` otherwise. -/
def aeProcessEvents.tvp (env : aeEnv) (w : aeWorld) (flags : Nat) :
    aeWorld × Option (Int × Int) :=
  let r0 : aeWorld × Int :=
    if flags &&& AE_TIME_EVENTS ≠ 0 ∧ flags &&& AE_DONT_WAIT = 0 then
      msUntilEarliestTimer env w
    else (w, -1)
  let msUntilTimer := r0.2
  let tvp0 : Option (Int × Int) :=
    if msUntilTimer ≥ 0 then some (msUntilTimer / 1000, (msUntilTimer % 1000) * 1000)
    else if flags &&& AE_DONT_WAIT ≠ 0 then some (0, 0)
    else none
  (r0.1, if r0.1.eventLoop.flags &&& AE_DONT_WAIT ≠ 0 then some (0, 0) else tvp0)

/-- The world in which `aeProcessEvents` calls `aeApiPoll`: the timeout has been computed
(`aeProcessEvents.tvp`) and the beforesleep hook has run, if there is one and the flags ask for
it. -/
def aeProcessEvents.beforesleep (env : aeEnv) (w : aeWorld) (flags : Nat) : aeWorld :=
  let r0 := aeProcessEvents.tvp env w flags
  match r0.1.eventLoop.beforesleep with
  | some beforesleep =>
    if flags &&& AE_CALL_BEFORE_SLEEP ≠ 0 then
      { r0.1 with eventLoop := env.sleepProc beforesleep r0.1.eventLoop,
                  calls := r0.1.calls ++ [aeCall.beforesleep beforesleep] }
    else r0.1
  | none => r0.1

/-- The `if` block of `aeProcessEvents` from the timeout to the aftersleep hook: the
beforesleep hook, the call of `aeApiPoll` with the timeout of `aeProcessEvents.tvp`, and the
aftersleep hook.  The result is the world before the loop over the fired descriptors, and
`numevents`. -/
def aeProcessEvents.poll (env : aeEnv) (w : aeWorld) (flags : Nat) : aeWorld × Nat :=
  let tvp := (aeProcessEvents.tvp env w flags).2
  let w1 := aeProcessEvents.beforesleep env w flags
  let fired := env.aeApiPoll w1.polls w1.eventLoop tvp
  let w2 : aeWorld :=
    { w1 with eventLoop := { w1.eventLoop with fired := fired },
              polls := w1.polls + 1,
              calls := w1.calls ++ [aeCall.aeApiPoll tvp] }
  let w3 : aeWorld :=
    match w2.eventLoop.aftersleep with
    | some aftersleep =>
      if flags &&& AE_CALL_AFTER_SLEEP ≠ 0 then
        { w2 with eventLoop := env.sleepProc aftersleep w2.eventLoop,
                  calls := w2.calls ++ [aeCall.aftersleep aftersleep] }
      else w2
    | none => w2
  (w3, fired.length)

/-- Whether a call is the call of a file callback. -/
def aeCall.isFileProc : aeCall → Bool
  | .fileProc _ _ _ _ => true
  | _ => false

/-- Whether a call is the call of a timer callback. -/
def aeCall.isTimeProc : aeCall → Bool
  | .timeProc _ _ _ => true
  | _ => false

/-- Whether a call is the call of a finalizer of a timer. -/
def aeCall.isFinalizerProc : aeCall → Bool
  | .finalizerProc _ _ => true
  | _ => false

/-- The calls of `w1` are those of `w` followed by calls that satisfy `p` only. -/
def CallsAdded (p : aeCall → Bool) (w w1 : aeWorld) : Prop :=
  ∃ cs, w1.calls = w.calls ++ cs ∧ ∀ c ∈ cs, p c = true

/-- Whether a call is the call of a timer callback or of a finalizer of a timer. -/
def aeCall.isTimer (c : aeCall) : Bool := c.isTimeProc || c.isFinalizerProc

/-- The world after the call of the finalizer of `te`, the timer that has `k` timers from it
to the tail, which `processTimeEvents` has unlinked: the finalizer has run on the loop without
`te`, and the clock has been read. -/
def processTimeEvents.finalized (env : aeEnv) (w : aeWorld) (k : Nat) (te : aeTimeEvent)
    (finalizerProc : Nat) : aeWorld :=
  { eventLoop := env.finalizerProc finalizerProc (unlinkTimeEventAt w k).eventLoop te.clientData,
    clockReads := w.clockReads + 1,
    polls := w.polls,
    calls := w.calls ++ [aeCall.finalizerProc finalizerProc te.clientData] }

/-- The world in which the callback of `te`, the timer that has `k` timers from it to the tail,
returns to `processTimeEvents`: the callback has run on the loop with the `refcount` of `te`
incremented. -/
def processTimeEvents.called (env : aeEnv) (w : aeWorld) (k : Nat) (te : aeTimeEvent) :
    aeWorld :=
  { eventLoop := (env.timeProc te.timeProc
      (setTimeEventAt w k { te with refcount := te.refcount + 1 }).eventLoop
      te.id te.clientData).1,
    clockReads := w.clockReads,
    polls := w.polls,
    calls := w.calls ++ [aeCall.timeProc te.timeProc te.id te.clientData] }

/-- The return value of the callback of `te` in `processTimeEvents.called`. -/
def processTimeEvents.retval (env : aeEnv) (w : aeWorld) (k : Nat) (te : aeTimeEvent) : Int :=
  (env.timeProc te.timeProc
    (setTimeEventAt w k { te with refcount := te.refcount + 1 }).eventLoop
    te.id te.clientData).2

/-- What `processTimeEvents` stores in the fired timer after its callback returned `retval`,
where `te1` is the timer as the callback left it and `now` is the clock reading after the
callback. -/
def processTimeEvents.rearm (te1 : aeTimeEvent) (retval : Int) (now : Nat) : aeTimeEvent :=
  if retval ≠ AE_NOMORE then
    { te1 with refcount := te1.refcount - 1,
               when := Dict.toULong ((now : Int) + Dict.toInt32 (retval * 1000)) }
  else { te1 with refcount := te1.refcount - 1, id := AE_DELETED_EVENT_ID }

/-- The meaning of the field `maxfd` ("highest file descriptor currently registered", `ae.h`):
the array `events` has `setsize` slots, every slot above `maxfd` has the mask `AE_NONE`, and
`maxfd` is -1 or the index of a slot whose mask is not `AE_NONE`. -/
structure MaxfdExact (eventLoop : aeEventLoop) : Prop where
  size : (eventLoop.events.length : Int) = eventLoop.setsize
  above : ∀ i (h : i < eventLoop.events.length), eventLoop.maxfd < (i : Int) →
    eventLoop.events[i].mask = AE_NONE
  top : eventLoop.maxfd = -1 ∨
    0 ≤ eventLoop.maxfd ∧
      ∃ h : eventLoop.maxfd.toNat < eventLoop.events.length,
        eventLoop.events[eventLoop.maxfd.toNat].mask ≠ AE_NONE

/-- Whether a call is the call of a sleep hook or of `aeApiPoll`. -/
def aeCall.isBlock : aeCall → Bool
  | .beforesleep _ => true
  | .aftersleep _ => true
  | .aeApiPoll _ => true
  | _ => false

/-- What `aeDeleteTimeEvent` can do to a timer: nothing, or set its id to
`AE_DELETED_EVENT_ID`. -/
def aeTimeEvent.Marked (a b : aeTimeEvent) : Prop :=
  b = a ∨ b = { a with id := AE_DELETED_EVENT_ID }

/-- What calls of `aeCreateTimeEvent` and `aeDeleteTimeEvent` can do to the list of timers:
new timers are linked before the old ones, and an old timer stays where it is, as it is or
marked deleted. -/
def TimersGrown (old new : List aeTimeEvent) : Prop :=
  ∃ fresh old1, new = fresh ++ old1 ∧ List.Forall₂ aeTimeEvent.Marked old old1

/-- What a pass of `processTimeEvents` does with a timer: it walks over it, it fires it, or it
unlinks it. -/
inductive TimerFate where
  | kept
  | fired
  | unlinked
  deriving DecidableEq, Repr

/-- One timer in a pass of `processTimeEvents`: the timer before the pass, what the pass does
with it, and the timer after the pass (for a timer that stays linked). -/
structure TimerRow where
  before : aeTimeEvent
  fate : TimerFate
  after : aeTimeEvent

/-- The call that leaves `processTimeEvents` for a timer: the callback of a fired timer, the
finalizer (if any) of an unlinked one. -/
def TimerRow.call (r : TimerRow) : Option aeCall :=
  match r.fate with
  | .kept => none
  | .fired => some (aeCall.timeProc r.before.timeProc r.before.id r.before.clientData)
  | .unlinked =>
    r.before.finalizerProc.map (fun proc => aeCall.finalizerProc proc r.before.clientData)

/-- The timer a pass leaves in the list: none for an unlinked timer. -/
def TimerRow.survivor (r : TimerRow) : Option aeTimeEvent :=
  match r.fate with
  | .unlinked => none
  | _ => some r.after

/-- What holds of every timer in a pass of `processTimeEvents` with the largest id `maxId`,
first clock reading `now`, and later clock readings number `lo` to `hi - 1`. -/
structure TimerRow.Ok (env : aeEnv) (maxId : Int) (now lo hi : Nat) (r : TimerRow) : Prop where
  same : r.fate ≠ .unlinked →
    r.after.timeProc = r.before.timeProc ∧ r.after.finalizerProc = r.before.finalizerProc ∧
    r.after.clientData = r.before.clientData ∧ r.after.refcount = r.before.refcount ∧
    (r.after.id = r.before.id ∨ r.after.id = AE_DELETED_EVENT_ID)
  kept : r.fate = .kept → r.after.when = r.before.when
  unlinked : r.fate = .unlinked → r.before.refcount = 0
  deleted : r.before.id = AE_DELETED_EVENT_ID →
    (r.before.refcount = 0 → r.fate = .unlinked) ∧ (r.before.refcount ≠ 0 → r.fate = .kept)
  fired : r.fate = .fired →
    r.before.id ≠ AE_DELETED_EVENT_ID ∧ r.before.id ≤ maxId ∧
    (r.before.when ≤ now ∨ ∃ n, lo ≤ n ∧ n < hi ∧ r.before.when ≤ env.getMonotonicUs n)

/-- Whether the pass fires the timer of the row. -/
def TimerRow.isFired (r : TimerRow) : Bool :=
  match r.fate with
  | .fired => true
  | _ => false

/-- What calls of `aeCreateTimeEvent` and `aeDeleteTimeEvent` (and calls that leave the timers
alone) can do to the timers of an event loop: the list grows as in `TimersGrown`, the new
timers that are not deleted have the ids handed out in between, no two of them the same, and
`timeEventNextId` does not decrease. -/
structure TimerApi (l l1 : aeEventLoop) : Prop where
  grown : ∃ fresh old1, l1.timeEventHead = fresh ++ old1 ∧
    List.Forall₂ aeTimeEvent.Marked l.timeEventHead old1 ∧
    (fresh.map (fun te => te.id)).Pairwise (fun i j => i = j → i = AE_DELETED_EVENT_ID) ∧
    ∀ te ∈ fresh, te.id ≠ AE_DELETED_EVENT_ID →
      l.timeEventNextId ≤ te.id ∧ te.id < l1.timeEventNextId
  nextId : l.timeEventNextId ≤ l1.timeEventNextId

/-- An environment whose callbacks work on the timers only through `aeCreateTimeEvent` and
`aeDeleteTimeEvent`; in particular no callback runs `aeProcessEvents` itself. -/
structure aeEnv.TimersByApi (env : aeEnv) : Prop where
  fileProc : ∀ proc l fd c m, TimerApi l (env.fileProc proc l fd c m)
  timeProc : ∀ proc l id c, TimerApi l (env.timeProc proc l id c).1
  finalizerProc : ∀ proc l c, TimerApi l (env.finalizerProc proc l c)
  sleepProc : ∀ proc l, TimerApi l (env.sleepProc proc l)

/-- Timer ids are unique and below the counter: no two timers of the list that are not marked
deleted have the same id, and the id of every timer that is not marked deleted is less than
`timeEventNextId`. -/
def TimerIds (l : aeEventLoop) : Prop :=
  (l.timeEventHead.map (fun te => te.id)).Pairwise
    (fun i j => i = j → i = AE_DELETED_EVENT_ID) ∧
  ∀ te ∈ l.timeEventHead, te.id ≠ AE_DELETED_EVENT_ID → te.id < l.timeEventNextId

/-- The states of an event loop that calls of the functions of `ae.c` reach from
`aeCreateEventLoop`. -/
inductive Reachable (env : aeEnv) : aeWorld → Prop
  | create (w : aeWorld) (setsize : Int) (h : w.eventLoop = aeCreateEventLoop setsize) :
    Reachable env w
  | createFileEvent {w w1 : aeWorld} (fd : Int) (mask proc clientData : Nat) (r : Int) :
    Reachable env w → aeCreateFileEvent env w fd mask proc clientData = some (w1, r) →
    Reachable env w1
  | deleteFileEvent {w w1 : aeWorld} (fd : Int) (mask : Nat) :
    Reachable env w → aeDeleteFileEvent w fd mask = some w1 → Reachable env w1
  | resizeSetSize {w w1 : aeWorld} (setsize r : Int) :
    Reachable env w → aeResizeSetSize env w setsize = some (w1, r) → Reachable env w1
  | createTimeEvent {w : aeWorld} (milliseconds : Int) (proc clientData : Nat)
      (finalizerProc : Option Nat) :
    Reachable env w →
    Reachable env (aeCreateTimeEvent env w milliseconds proc clientData finalizerProc).1
  | deleteTimeEvent {w : aeWorld} (id : Int) :
    Reachable env w →
    Reachable env { w with eventLoop := (aeDeleteTimeEvent w.eventLoop id).1 }
  | processEvents {w w1 : aeWorld} (flags : Nat) (r : Int) :
    Reachable env w → aeProcessEvents env w flags = some (w1, r) → Reachable env w1
  | stop {w : aeWorld} :
    Reachable env w → Reachable env { w with eventLoop := aeStop w.eventLoop }
  | setDontWait {w : aeWorld} (noWait : Int) :
    Reachable env w → Reachable env { w with eventLoop := aeSetDontWait w.eventLoop noWait }
  | setBeforeSleepProc {w : aeWorld} (beforesleep : Option Nat) :
    Reachable env w →
    Reachable env { w with eventLoop := aeSetBeforeSleepProc w.eventLoop beforesleep }
  | setAfterSleepProc {w : aeWorld} (aftersleep : Option Nat) :
    Reachable env w →
    Reachable env { w with eventLoop := aeSetAfterSleepProc w.eventLoop aftersleep }

/-- Successive calls of `aeCreateTimeEvent` on one event loop, one for every entry
`(milliseconds, proc, clientData, finalizerProc)`: the event loop after them and the ids they
returned, in order. -/
def aeCreateTimeEvents (env : aeEnv) (w : aeWorld) :
    List (Int × Nat × Nat × Option Nat) → aeWorld × List Int
  | [] => (w, [])
  | (milliseconds, proc, clientData, finalizerProc) :: rest =>
    let r := aeCreateTimeEvent env w milliseconds proc clientData finalizerProc
    let rs := aeCreateTimeEvents env r.1 rest
    (rs.1, r.2 :: rs.2)

/-- The event loops that calls of `aeCreateFileEvent` (for a descriptor `fd ≥ 0` and a mask
other than `AE_NONE`), `aeDeleteFileEvent` and `aeResizeSetSize` (successful or not) reach from
`aeCreateEventLoop(setsize)` with `setsize ≥ 0`. -/
inductive FileReachable (env : aeEnv) : aeWorld → Prop
  | create (w : aeWorld) (setsize : Int) (h0 : 0 ≤ setsize)
      (h : w.eventLoop = aeCreateEventLoop setsize) : FileReachable env w
  | createFileEvent {w w1 : aeWorld} (fd : Int) (mask proc clientData : Nat) (r : Int) :
    FileReachable env w → 0 ≤ fd → mask ≠ AE_NONE →
    aeCreateFileEvent env w fd mask proc clientData = some (w1, r) → FileReachable env w1
  | deleteFileEvent {w w1 : aeWorld} (fd : Int) (mask : Nat) :
    FileReachable env w → aeDeleteFileEvent w fd mask = some w1 → FileReachable env w1
  | resizeSetSize {w w1 : aeWorld} (setsize r : Int) :
    FileReachable env w → aeResizeSetSize env w setsize = some (w1, r) → FileReachable env w1

/-- The index in the list of timers of the timer at the address `addr`, the timer a pointer
with that value points to; the length of the list when no timer of the list is there. -/
def timeEventIndex (l : List aeTimeEvent) (addr : Nat) : Nat :=
  l.findIdx (fun te => decide (te.addr = addr))

/-- The loop `while (te) { ... }` of `processTimeEvents` with `te` as a pointer: `none` for
`NULL` and the address of a timer otherwise, so that the loop finds its timer again after a
callback that has unlinked other timers, as a callback that runs `aeProcessEvents` does.
`te->next` is the address of the timer that follows in the list.  No result stands for a
pointer to a timer that is not in the list any more; `fuel` bounds the number of rounds. -/
def processTimeEvents.walk (env : aeEnv) (maxId : Int) :
    Nat → aeWorld → Option Nat → Nat → Int → Option (aeWorld × Int)
  | _, w, none, _, processed => some (w, processed)
  | 0, _, some _, _, _ => none
  | fuel + 1, w, some addr, now, processed =>
    let i := timeEventIndex w.eventLoop.timeEventHead addr
    match w.eventLoop.timeEventHead[i]? with
    | none => none
    | some te =>
      let next := (w.eventLoop.timeEventHead[i + 1]?).map (fun x => x.addr)
      if te.id = AE_DELETED_EVENT_ID then
        if te.refcount ≠ 0 then processTimeEvents.walk env maxId fuel w next now processed
        else
          let w1 : aeWorld :=
            { w with eventLoop := { w.eventLoop with
                timeEventHead := w.eventLoop.timeEventHead.eraseIdx i } }
          match te.finalizerProc with
          | some finalizerProc =>
            let w2 : aeWorld :=
              { w1 with
                eventLoop := env.finalizerProc finalizerProc w1.eventLoop te.clientData,
                calls := w1.calls ++ [aeCall.finalizerProc finalizerProc te.clientData] }
            let (w3, now1) := getMonotonicUs env w2
            processTimeEvents.walk env maxId fuel w3 next now1 processed
          | none => processTimeEvents.walk env maxId fuel w1 next now processed
      else if te.id > maxId then processTimeEvents.walk env maxId fuel w next now processed
      else if te.when ≤ now then
        let id := te.id
        let w1 : aeWorld :=
          { w with eventLoop := { w.eventLoop with
              timeEventHead :=
                w.eventLoop.timeEventHead.set i { te with refcount := te.refcount + 1 } } }
        let r := env.timeProc te.timeProc w1.eventLoop id te.clientData
        let w2 : aeWorld :=
          { w1 with eventLoop := r.1,
                    calls := w1.calls ++ [aeCall.timeProc te.timeProc id te.clientData] }
        let retval := r.2
        let j := timeEventIndex w2.eventLoop.timeEventHead addr
        match w2.eventLoop.timeEventHead[j]? with
        | none => none
        | some te1 =>
          let (w3, now1) := getMonotonicUs env w2
          let w4 : aeWorld :=
            { w3 with eventLoop := { w3.eventLoop with
                timeEventHead :=
                  w3.eventLoop.timeEventHead.set j
                    (processTimeEvents.rearm te1 retval now1) } }
          processTimeEvents.walk env maxId fuel w4
            ((w4.eventLoop.timeEventHead[j + 1]?).map (fun x => x.addr)) now1 (processed + 1)
      else processTimeEvents.walk env maxId fuel w next now processed

/-- The function `processTimeEvents` with pointers to the timers, as in
`processTimeEvents.walk`: the number of timers fired. -/
def processTimeEvents.reentrant (env : aeEnv) (w : aeWorld) : Option (aeWorld × Int) :=
  let maxId := w.eventLoop.timeEventNextId - 1
  let (w1, now) := getMonotonicUs env w
  processTimeEvents.walk env maxId w1.eventLoop.timeEventHead.length w1
    ((w1.eventLoop.timeEventHead.head?).map (fun x => x.addr)) now 0

/-- What a callback can do to a timer that stays linked, whatever it calls (`aeDeleteTimeEvent`,
`aeProcessEvents`): the timer stays at its address with its callbacks, its data and its
`refcount`, its id is the same or `AE_DELETED_EVENT_ID`, and its deadline is any. -/
def aeTimeEvent.Touched (a b : aeTimeEvent) : Prop :=
  b.addr = a.addr ∧ b.refcount = a.refcount ∧ b.timeProc = a.timeProc ∧
  b.finalizerProc = a.finalizerProc ∧ b.clientData = a.clientData ∧
  (b.id = a.id ∨ b.id = AE_DELETED_EVENT_ID)

/-- What calls of `aeDeleteTimeEvent` and passes of `processTimeEvents` can do to the timers
of a list: a timer stays, in its place, as in `aeTimeEvent.Touched`, when `keepable` holds of
it, or it is unlinked, and only a timer with `refcount` 0 is unlinked. -/
inductive TimersEvolved (keepable : aeTimeEvent → Prop) :
    List aeTimeEvent → List aeTimeEvent → Prop
  | nil : TimersEvolved keepable [] []
  | keep {a b : aeTimeEvent} {l l1 : List aeTimeEvent} :
    a.Touched b → keepable a → TimersEvolved keepable l l1 →
    TimersEvolved keepable (a :: l) (b :: l1)
  | drop {a : aeTimeEvent} {l l1 : List aeTimeEvent} :
    a.refcount = 0 → TimersEvolved keepable l l1 → TimersEvolved keepable (a :: l) l1

/-- The timers of an event loop are at different addresses, which are numbers of timers
handed out so far (see `aeCreateTimeEvent`), and no `refcount` is negative. -/
structure TimerInv (l : aeEventLoop) : Prop where
  nodup : (l.timeEventHead.map (fun te => te.addr)).Nodup
  refs : ∀ te ∈ l.timeEventHead, 0 ≤ te.refcount
  counter : 0 ≤ l.timeEventNextId
  below : ∀ te ∈ l.timeEventHead, (te.addr : Int) < l.timeEventNextId

/-- What a timer callback can do to the timers of an event loop, a callback that runs
`aeProcessEvents` included: new timers are linked before the old ones, and the old ones stay
or are unlinked as in `TimersEvolved`; timers stay at different addresses. -/
def Reenters (l l1 : aeEventLoop) : Prop :=
  TimerInv l →
    TimerInv l1 ∧
    ∃ fresh rest, l1.timeEventHead = fresh ++ rest ∧
      TimersEvolved (fun _ => True) l.timeEventHead rest

/-- What a finalizer can do to the timers of an event loop: as `Reenters`, but it unlinks no
timer (`processTimeEvents` holds a pointer to the next timer while the finalizer runs). -/
def Grows (l l1 : aeEventLoop) : Prop :=
  TimerInv l →
    TimerInv l1 ∧
    ∃ fresh rest, l1.timeEventHead = fresh ++ rest ∧
      List.Forall₂ aeTimeEvent.Touched l.timeEventHead rest

/-- An environment whose timer callbacks may run `aeProcessEvents` themselves, and whose
finalizers unlink no timer. -/
structure aeEnv.Reentrant (env : aeEnv) : Prop where
  timeProc : ∀ proc l id c, Reenters l (env.timeProc proc l id c).1
  finalizerProc : ∀ proc l c, Grows l (env.finalizerProc proc l c)

/-- What `processTimeEvents.walk` does with a timer it meets: it walks over it, it fires it,
or it unlinks it. -/
structure WalkRow where
  met : aeTimeEvent
  fate : TimerFate

/-- The call that leaves `processTimeEvents` for a timer it meets: the callback of a fired
timer, the finalizer (if any) of an unlinked one. -/
def WalkRow.call (r : WalkRow) : Option aeCall :=
  match r.fate with
  | .kept => none
  | .fired => some (aeCall.timeProc r.met.timeProc r.met.id r.met.clientData)
  | .unlinked =>
    r.met.finalizerProc.map (fun proc => aeCall.finalizerProc proc r.met.clientData)

/-- Whether the pass fires the timer of the row. -/
def WalkRow.isFired (r : WalkRow) : Bool :=
  match r.fate with
  | .fired => true
  | _ => false

/-- What holds of every timer that a pass of `processTimeEvents` with the largest id `maxId`
meets: a deleted timer is unlinked when its `refcount` is 0 and walked over otherwise, no
other timer is unlinked, and a fired timer has an id up to `maxId`. -/
structure WalkRow.Ok (maxId : Int) (r : WalkRow) : Prop where
  deleted : r.met.id = AE_DELETED_EVENT_ID →
    (r.met.refcount = 0 → r.fate = .unlinked) ∧ (r.met.refcount ≠ 0 → r.fate = .kept)
  unlinked : r.fate = .unlinked → r.met.id = AE_DELETED_EVENT_ID ∧ r.met.refcount = 0
  fired : r.fate = .fired → r.met.id ≠ AE_DELETED_EVENT_ID ∧ r.met.id ≤ maxId

/-! ### Example event loops -/

/-- Example environment: callbacks that leave the event loop alone, one-shot timers, a
multiplexing layer that reports descriptor 3 readable and writable, and a clock that reads 0
twice and 5000 microseconds from then on. -/
def exampleEnv : aeEnv :=
  { fileProc := fun _ eventLoop _ _ _ => eventLoop,
    timeProc := fun _ eventLoop _ _ => (eventLoop, AE_NOMORE),
    finalizerProc := fun _ eventLoop _ => eventLoop,
    sleepProc := fun _ eventLoop => eventLoop,
    aeApiPoll := fun _ _ _ => [{ fd := 3, mask := AE_READABLE ||| AE_WRITABLE }],
    aeApiAddEvent := fun _ _ _ => 0,
    aeApiResize := fun _ _ => 0,
    getMonotonicUs := fun n => if n < 2 then 0 else 5000 }

/-- Example: a fresh event loop of 8 slots before any call. -/
def exampleStart : aeWorld :=
  { eventLoop := aeCreateEventLoop 8, clockReads := 0, polls := 0, calls := [] }

/-- A pair of registrations on descriptor 3: the callback at address 11 for `AE_READABLE`,
then the callback at address 22 for `AE_WRITABLE` together with the bits `extra`. -/
def exampleRegister (extra : Nat) : Option aeWorld :=
  match aeCreateFileEvent exampleEnv exampleStart 3 AE_READABLE 11 0 with
  | none => none
  | some (w, _) =>
    (aeCreateFileEvent exampleEnv w 3 (AE_WRITABLE ||| extra) 22 0).map Prod.fst

/-- Example: the event loop after the registrations of `exampleRegister` and a call of
`aeApiPoll` that reported descriptor 3 readable and writable. -/
def exampleReady (extra : Nat) : aeWorld :=
  match exampleRegister extra with
  | none => exampleStart
  | some w =>
    { w with eventLoop := { w.eventLoop with
               fired := exampleEnv.aeApiPoll w.polls w.eventLoop none },
             polls := w.polls + 1,
             calls := w.calls ++ [aeCall.aeApiPoll none] }

/-- Example: the timer T1 (callback 1, due in 1 ms) created before the timer T2 (callback 2,
due in 2 ms) on a fresh event loop, both at clock reading 0. -/
def exampleTimers : aeWorld :=
  (aeCreateTimeEvent exampleEnv (aeCreateTimeEvent exampleEnv exampleStart 1 1 0 none).1
    2 2 0 none).1

/-- Example: the fresh event loop of 8 slots after descriptor 3 was registered for
`AE_READABLE` with the callback at address 11. -/
def exampleRegistered : aeWorld :=
  match aeCreateFileEvent exampleEnv exampleStart 3 AE_READABLE 11 0 with
  | some (w, _) => w
  | none => exampleStart

/-- Example environment: as `exampleEnv`, with a multiplexing layer that reports no event. -/
def exampleQuiet : aeEnv :=
  { exampleEnv with aeApiPoll := fun _ _ _ => [] }

/-- Example: the event loop of `exampleRegistered` with one timer (callback 1, due in 1 ms),
created at clock reading 0. -/
def exampleBusy : aeWorld :=
  (aeCreateTimeEvent exampleEnv exampleRegistered 1 1 0 none).1

/-- Example: the event loop as a timer callback finds it: the timer of that callback (callback
1, finalizer 7) is firing (`refcount` 1) and has been deleted, a second timer (callback 2,
finalizer 8) has been deleted, and a third timer (callback 3, no finalizer) is due. -/
def exampleNested : aeWorld :=
  { exampleStart with
    eventLoop := { exampleStart.eventLoop with
      timeEventNextId := 3,
      timeEventHead :=
        [{ id := 2, when := 0, timeProc := 3, finalizerProc := none, clientData := 3,
           refcount := 0, addr := 2 },
         { id := AE_DELETED_EVENT_ID, when := 0, timeProc := 2, finalizerProc := some 8,
           clientData := 2, refcount := 0, addr := 1 },
         { id := AE_DELETED_EVENT_ID, when := 0, timeProc := 1, finalizerProc := some 7,
           clientData := 1, refcount := 1, addr := 0 }] } }

/-- Example: the event loop of `exampleTimers` after `aeProcessEvents` with
`AE_ALL_EVENTS|AE_DONT_WAIT`, which has fired both timers. -/
def exampleFired : aeWorld :=
  match aeProcessEvents exampleEnv exampleTimers (AE_ALL_EVENTS ||| AE_DONT_WAIT) with
  | some (w, _) => w
  | none => exampleTimers

/-- Example environment: as `exampleEnv`, but the file callback at address 11 calls
`aeDeleteFileEvent(eventLoop, fd, AE_WRITABLE)` and the one at address 22 calls
`aeDeleteFileEvent(eventLoop, fd, AE_READABLE)`. -/
def exampleDeregister : aeEnv :=
  { exampleEnv with
    fileProc := fun proc eventLoop fd _ _ =>
      let w0 : aeWorld := { eventLoop := eventLoop, clockReads := 0, polls := 0, calls := [] }
      if proc = 11 then
        ((aeDeleteFileEvent w0 fd AE_WRITABLE).getD w0).eventLoop
      else if proc = 22 then
        ((aeDeleteFileEvent w0 fd AE_READABLE).getD w0).eventLoop
      else eventLoop }

/-- Example environment: the clock reads `n` milliseconds at its `n`-th reading; the timer
callback at address 2 calls `aeDeleteTimeEvent(eventLoop, 1)` and returns `AE_NOMORE`; the
other callbacks leave the event loop alone. -/
def exampleInner : aeEnv :=
  { exampleEnv with
    timeProc := fun proc eventLoop _ _ =>
      if proc = 2 then ((aeDeleteTimeEvent eventLoop 1).1, AE_NOMORE)
      else (eventLoop, AE_NOMORE),
    getMonotonicUs := fun n => n * 1000 }

/-- Example environment: as `exampleInner`, but the timer callback at address 1 calls
`aeProcessEvents(eventLoop, AE_TIME_EVENTS|AE_DONT_WAIT)`, which runs `processTimeEvents` on
the event loop (it has no file events), at the 10th reading of the clock, and returns 5.  The
callbacks of that pass are those of `exampleInner`; in `exampleReentry` the pass does not call
the callback at address 1 again, whose timer is deleted by the time the pass meets it. -/
def exampleOuter : aeEnv :=
  { exampleInner with
    timeProc := fun proc eventLoop id clientData =>
      if proc = 1 then
        (((processTimeEvents.reentrant exampleInner
            { eventLoop := eventLoop, clockReads := 10, polls := 0, calls := [] }).map
            (fun r => r.1.eventLoop)).getD eventLoop, 5)
      else exampleInner.timeProc proc eventLoop id clientData }

/-- Example: a fresh event loop with three timers, created at the clock readings 0, 1 and 2
milliseconds: C (id 0, due in 1 ms, finalizer 9), which has been deleted since, A (id 1,
callback 1, due in 1 ms, finalizer 7) and B (id 2, callback 2, due in 5 ms, finalizer 8). -/
def exampleReentry : aeWorld :=
  let w0 := (aeCreateTimeEvent exampleOuter exampleStart 1 3 30 (some 9)).1
  let w1 := (aeCreateTimeEvent exampleOuter w0 1 1 10 (some 7)).1
  let w2 := (aeCreateTimeEvent exampleOuter w1 5 2 20 (some 8)).1
  { w2 with eventLoop := (aeDeleteTimeEvent w2.eventLoop 0).1 }

end Ae

/-!
# Redis `sds.c`: dynamic strings

A shallow embedding of `src/redeis3.2/src/sds.c` over the headers of `sds.h`.

* An `sds` is a pointer to the bytes `buf` that follow a header; here it is the header fields
  together with the usable bytes of the allocation that follow the header.  A byte is a `Nat`
  below 256.
* The five header layouts differ in the width of `len` and `alloc`; the type is in the three
  low bits of `flags`, and a type 5 string keeps its length in the five high bits of `flags`.
* `size_t` is a 64-bit word and `ssize_t` a 64-bit two's complement integer; conversions
  between them wrap.
* `none` stands for a fault: an access outside the allocation.
-/

namespace Sds

/-- The header type `SDS_TYPE_5`. -/
def SDS_TYPE_5 : Nat := 0

/-- The header type `SDS_TYPE_8`. -/
def SDS_TYPE_8 : Nat := 1

/-- The header type `SDS_TYPE_16`. -/
def SDS_TYPE_16 : Nat := 2

/-- The header type `SDS_TYPE_32`. -/
def SDS_TYPE_32 : Nat := 3

/-- The header type `SDS_TYPE_64`. -/
def SDS_TYPE_64 : Nat := 4

/-- The mask `SDS_TYPE_MASK` of the type bits of `flags`. -/
def SDS_TYPE_MASK : Nat := 7

/-- The number `SDS_TYPE_BITS` of type bits of `flags`. -/
def SDS_TYPE_BITS : Nat := 3

/-- The conversion of an integer to `size_t`. -/
def toSize (x : Int) : Nat := (x % 2 ^ 64).toNat

/-- The conversion of an integer to `ssize_t`. -/
def toSsize (x : Int) : Int := (x + 2 ^ 63) % 2 ^ 64 - 2 ^ 63

/-- An `sds` string with its header: `flags` is the byte `s[-1]`, `len` and `alloc` are the
fields of `struct sdshdr8` to `struct sdshdr64` (a type 5 string has neither), and `buf` holds
the bytes of the allocation from `s[0]` on. -/
structure sds where
  flags : Nat
  len : Nat
  alloc : Nat
  buf : List Nat
  deriving DecidableEq, Repr

/-- The macro `SDS_TYPE_5_LEN(f)`. -/
def SDS_TYPE_5_LEN (f : Nat) : Nat := f >>> SDS_TYPE_BITS

/-- The function `sdslen` of `sds.h`. -/
def sdslen (s : sds) : Nat :=
  let type := s.flags &&& SDS_TYPE_MASK
  if type = SDS_TYPE_5 then SDS_TYPE_5_LEN s.flags
  else if type = SDS_TYPE_8 then s.len
  else if type = SDS_TYPE_16 then s.len
  else if type = SDS_TYPE_32 then s.len
  else if type = SDS_TYPE_64 then s.len
  else 0

/-- The function `sdssetlen` of `sds.h`: the store truncates `newlen` to the width of the
field. -/
def sdssetlen (s : sds) (newlen : Nat) : sds :=
  let type := s.flags &&& SDS_TYPE_MASK
  if type = SDS_TYPE_5 then
    { s with flags := (SDS_TYPE_5 ||| (newlen <<< SDS_TYPE_BITS)) % 2 ^ 8 }
  else if type = SDS_TYPE_8 then { s with len := newlen % 2 ^ 8 }
  else if type = SDS_TYPE_16 then { s with len := newlen % 2 ^ 16 }
  else if type = SDS_TYPE_32 then { s with len := newlen % 2 ^ 32 }
  else if type = SDS_TYPE_64 then { s with len := newlen % 2 ^ 64 }
  else s

/-- The function `sdsReqType`, for a 64-bit `long`. -/
def sdsReqType (string_size : Nat) : Nat :=
  if string_size < 2 ^ 5 then SDS_TYPE_5
  else if string_size < 2 ^ 8 then SDS_TYPE_8
  else if string_size < 2 ^ 16 then SDS_TYPE_16
  else if string_size < 2 ^ 32 then SDS_TYPE_32
  else SDS_TYPE_64

/-- The function `sdsTypeMaxSize`, for a 64-bit `long`; the result is a `size_t`. -/
def sdsTypeMaxSize (type : Nat) : Nat :=
  if type = SDS_TYPE_5 then 2 ^ 5 - 1
  else if type = SDS_TYPE_8 then 2 ^ 8 - 1
  else if type = SDS_TYPE_16 then 2 ^ 16 - 1
  else if type = SDS_TYPE_32 then 2 ^ 32 - 1
  else 2 ^ 64 - 1

/-- The argument `init` of `sdsnewlen`: a pointer to bytes, `NULL`, or `SDS_NOINIT`. -/
inductive sdsInit where
  | bytes (init : List Nat)
  | null
  | noinit
  deriving DecidableEq, Repr

/-- The function `sdsnewlen`.  The allocator `s_malloc_usable` is not part of the sources: `raw`
is the memory it returned, from `s[0]` on, as it was (at least `initlen + 1` bytes). -/
def sdsnewlen (raw : List Nat) (init : sdsInit) (initlen : Nat) : Option sds :=
  let type0 := sdsReqType initlen
  let type := if type0 = SDS_TYPE_5 ∧ initlen = 0 then SDS_TYPE_8 else type0
  if raw.length < initlen + 1 then none
  else
    let zeroed : List Nat :=
      match init with
      | .null => List.replicate (initlen + 1) 0 ++ raw.drop (initlen + 1)
      | _ => raw
    let usable0 := raw.length - 1
    let usable := if usable0 > sdsTypeMaxSize type then sdsTypeMaxSize type else usable0
    let hdr : sds :=
      if type = SDS_TYPE_5 then
        { flags := (type ||| (initlen <<< SDS_TYPE_BITS)) % 2 ^ 8, len := 0, alloc := 0,
          buf := zeroed }
      else { flags := type, len := initlen % 2 ^ (2 ^ (type + 2)),
             alloc := usable % 2 ^ (2 ^ (type + 2)), buf := zeroed }
    let copied : Option (List Nat) :=
      match init with
      | .bytes data =>
        if initlen ≠ 0 then
          if data.length < initlen then none
          else some (data.take initlen ++ hdr.buf.drop initlen)
        else some hdr.buf
      | _ => some hdr.buf
    copied.map (fun buf => { hdr with buf := buf.set initlen 0 })

/-- The function `strlen` on the bytes from a pointer on: the index of the first zero byte. -/
def strlen : List Nat → Option Nat
  | [] => none
  | c :: rest => if c = 0 then some 0 else (strlen rest).map (fun n => n + 1)

/-- The function `sdsnew`; `init` is `none` for `NULL`. -/
def sdsnew (raw : List Nat) (init : Option (List Nat)) : Option sds :=
  match init with
  | none => sdsnewlen raw sdsInit.null 0
  | some data =>
    match strlen data with
    | none => none
    | some initlen => sdsnewlen raw (sdsInit.bytes data) initlen

/-- The call `memmove(s, s + src, n)` on the bytes of `s`. -/
def memmove (buf : List Nat) (src n : Nat) : Option (List Nat) :=
  if src + n ≤ buf.length then some ((buf.drop src).take n ++ buf.drop n) else none

/-- The statement `if (start < 0) { start = len + start; if (start < 0) start = 0; }` of
`sdsrange`, which it has for `start` and for `end`: the value of the index after it. -/
def sdsrange.index (len : Nat) (index : Int) : Int :=
  if index < 0 then
    let index1 := toSsize (toSize ((len : Int) + index))
    if index1 < 0 then 0 else index1
  else index

/-- The value of `newlen` in `sdsrange` before the bytes are moved, from `len` and the values
of `start` and `end` after the statements of `sdsrange.index`. -/
def sdsrange.newlen (len : Nat) (start end_ : Int) : Nat :=
  let newlen : Nat := if start > end_ then 0 else toSize (toSsize ((end_ - start) + 1))
  if newlen ≠ 0 then
    if start ≥ toSsize len then 0
    else if end_ ≥ toSsize len then
      let end1 := toSsize (toSize ((len : Int) - 1))
      if start > end1 then 0 else toSize (toSsize ((end1 - start) + 1))
    else newlen
  else newlen

/-- The function `sdsrange`. -/
def sdsrange (s : sds) (start end_ : Int) : Option sds :=
  let len := sdslen s
  if len = 0 then some s
  else
    let start1 := sdsrange.index len start
    let end1 := sdsrange.index len end_
    let newlen := sdsrange.newlen len start1 end1
    let moved : Option (List Nat) :=
      if start1 ≠ 0 ∧ newlen ≠ 0 then memmove s.buf start1.toNat newlen
      else some s.buf
    match moved with
    | none => none
    | some buf =>
      if newlen < buf.length then some (sdssetlen { s with buf := buf.set newlen 0 } newlen)
      else none

/-- The substring that a range `start`, `end` selects from `content` in the words of the
specification: negative indices count from the end (-1 is the last byte) and are clamped to 0,
`end` is clamped to the last index, and the result is empty when the start is after the end or
not below the length; otherwise it is the inclusive substring from start to end. -/
def rangeSpec (content : List Nat) (start end_ : Int) : List Nat :=
  let len : Int := content.length
  let start1 := if start < 0 then max 0 (len + start) else start
  let end0 := if end_ < 0 then max 0 (len + end_) else end_
  let end1 := min end0 (len - 1)
  if start1 > end1 ∨ start1 ≥ len then []
  else (content.drop start1.toNat).take (end1 - start1 + 1).toNat

/-- The bytes of the string: the first `sdslen` bytes of the buffer. -/
def sds.content (s : sds) : List Nat := s.buf.take (sdslen s)

/-- A well-formed `sds`: `flags` is a byte with one of the five types, the length field fits
its width, and the buffer, of a size below `2 ^ 63`, holds the string and a zero byte after
it. -/
structure sds.WellFormed (s : sds) : Prop where
  flags : s.flags < 2 ^ 8
  type : s.flags &&& SDS_TYPE_MASK ≤ SDS_TYPE_64
  len : s.flags &&& SDS_TYPE_MASK ≠ SDS_TYPE_5 →
    s.len < 2 ^ (2 ^ ((s.flags &&& SDS_TYPE_MASK) + 2))
  room : sdslen s < s.buf.length
  small : s.buf.length < 2 ^ 63
  terminated : s.buf[sdslen s]? = some 0

/-- The constant `SDS_MAX_PREALLOC`. -/
def SDS_MAX_PREALLOC : Nat := 1024 * 1024

/-- The function `sdsHdrSize`: the size of the packed header struct of the type. -/
def sdsHdrSize (type : Nat) : Nat :=
  let t := type &&& SDS_TYPE_MASK
  if t = SDS_TYPE_5 then 1
  else if t = SDS_TYPE_8 then 3
  else if t = SDS_TYPE_16 then 5
  else if t = SDS_TYPE_32 then 9
  else if t = SDS_TYPE_64 then 17
  else 0

/-- The function `sdsavail` of `sds.h`; the difference `sh->alloc - sh->len` is converted to
`size_t`. -/
def sdsavail (s : sds) : Nat :=
  let type := s.flags &&& SDS_TYPE_MASK
  if type = SDS_TYPE_5 then 0
  else if type = SDS_TYPE_8 then toSize ((s.alloc : Int) - s.len)
  else if type = SDS_TYPE_16 then toSize ((s.alloc : Int) - s.len)
  else if type = SDS_TYPE_32 then toSize ((s.alloc : Int) - s.len)
  else if type = SDS_TYPE_64 then toSize ((s.alloc : Int) - s.len)
  else 0

/-- The function `sdssetalloc` of `sds.h`: the store truncates `newlen` to the width of the
field. -/
def sdssetalloc (s : sds) (newlen : Nat) : sds :=
  let type := s.flags &&& SDS_TYPE_MASK
  if type = SDS_TYPE_5 then s
  else if type = SDS_TYPE_8 then { s with alloc := newlen % 2 ^ 8 }
  else if type = SDS_TYPE_16 then { s with alloc := newlen % 2 ^ 16 }
  else if type = SDS_TYPE_32 then { s with alloc := newlen % 2 ^ 32 }
  else if type = SDS_TYPE_64 then { s with alloc := newlen % 2 ^ 64 }
  else s

/-- Modelled from the spec: the allocator behind `s_malloc_usable`, `s_realloc_usable` and
`s_malloc` (`sdsalloc.h` and `zmalloc` are not among the sources).  `block n size` is the answer
to request number `n`, for `size` bytes: `none` for `NULL`, and otherwise the bytes of the
block as it is handed out, whose number is the usable size. -/
structure sdsAllocator where
  block : Nat → Nat → Option (List Nat)

/-- The call `memcpy(dst, src, n)` for `dst` and `src` at the start of two byte arrays; no
result when one of them is shorter than `n`. -/
def memcpy (dst src : List Nat) (n : Nat) : Option (List Nat) :=
  if n ≤ src.length ∧ n ≤ dst.length then some (src.take n ++ dst.drop n) else none

/-- The function `sdsMakeRoomFor` at request number `n` of the allocator: the string (`none`
for `NULL`) and the number of the next request.  No result stands for an access outside the
memory of the string.  With `s_realloc_usable` the bytes of the old block that fit are kept
and those of the new block follow. -/
def sdsMakeRoomFor (a : sdsAllocator) (n : Nat) (s : sds) (addlen : Nat) :
    Option (Option sds × Nat) :=
  let avail := sdsavail s
  let oldtype := s.flags &&& SDS_TYPE_MASK
  if avail ≥ addlen then some (some s, n)
  else
    let len := sdslen s
    let newlen0 := (len + addlen) % 2 ^ 64
    let newlen :=
      if newlen0 < SDS_MAX_PREALLOC then (newlen0 * 2) % 2 ^ 64
      else (newlen0 + SDS_MAX_PREALLOC) % 2 ^ 64
    let type0 := sdsReqType newlen
    let type := if type0 = SDS_TYPE_5 then SDS_TYPE_8 else type0
    let hdrlen := sdsHdrSize type
    match a.block n ((hdrlen + newlen + 1) % 2 ^ 64) with
    | none => some (none, n + 1)
    | some block =>
      let fresh := block.drop hdrlen
      let moved : Option sds :=
        if oldtype = type then
          some { s with buf := s.buf.take fresh.length ++ fresh.drop s.buf.length }
        else
          (memcpy fresh s.buf (len + 1)).map
            (fun buf => sdssetlen { s with flags := type, buf := buf } len)
      match moved with
      | none => none
      | some s1 =>
        let usable0 := toSize ((block.length : Int) - hdrlen - 1)
        let usable := if usable0 > sdsTypeMaxSize type then sdsTypeMaxSize type else usable0
        some (some (sdssetalloc s1 usable), n + 1)

/-- The function `sdsgrowzero` as the compiler reads it: the comment that starts before
`return NULL;` ends only after the next comment, so the statement under `if (s == NULL)` is
the `memset`, which then writes from address `curlen` on and has no result here; a string that
is not `NULL` gets its new length and nothing else. -/
def sdsgrowzero (a : sdsAllocator) (n : Nat) (s : sds) (len : Nat) :
    Option (Option sds × Nat) :=
  let curlen := sdslen s
  if len ≤ curlen then some (some s, n)
  else
    match sdsMakeRoomFor a n s (toSize ((len : Int) - curlen)) with
    | none => none
    | some (none, _) => none
    | some (some s1, n1) => some (some (sdssetlen s1 len), n1)

/-- The function `strchr(s, ch)` on the bytes from `s` on: the index of the first byte equal
to `ch`, where the zero byte that ends the string counts as part of it; `none` inside for
`NULL`.  No result when no zero byte ends the string. -/
def strchr : List Nat → Nat → Option (Option Nat)
  | [], _ => none
  | b :: rest, ch =>
    if b = ch then some (some 0)
    else if b = 0 then some none
    else (strchr rest ch).map (fun r => r.map (fun i => i + 1))

/-- The loop `while (sp <= end && strchr(cset, *sp)) sp++;` of `sdstrim`, with pointers as
indices from `s`: the value of `sp` after it.  `fuel` bounds the number of tests. -/
def sdstrim.left (cset buf : List Nat) (end_ : Int) : Nat → Nat → Option Nat
  | 0, _ => none
  | fuel + 1, sp =>
    if (sp : Int) ≤ end_ then
      match buf[sp]? with
      | none => none
      | some ch =>
        match strchr cset ch with
        | none => none
        | some none => some sp
        | some (some _) => sdstrim.left cset buf end_ fuel (sp + 1)
    else some sp

/-- The loop `while (ep > sp && strchr(cset, *ep)) ep--;` of `sdstrim`: the value of `ep`
after it.  `fuel` bounds the number of tests. -/
def sdstrim.right (cset buf : List Nat) (sp : Nat) : Nat → Int → Option Int
  | 0, _ => none
  | fuel + 1, ep =>
    if ep > (sp : Int) then
      match buf[ep.toNat]? with
      | none => none
      | some ch =>
        match strchr cset ch with
        | none => none
        | some none => some ep
        | some (some _) => sdstrim.right cset buf sp fuel (ep - 1)
    else some ep

/-- The function `sdstrim`; `cset` holds the bytes from the pointer `cset` on.  Each loop
tests its condition at most `sdslen(s) + 1` times. -/
def sdstrim (s : sds) (cset : List Nat) : Option sds :=
  let end_ : Int := (sdslen s : Int) - 1
  match sdstrim.left cset s.buf end_ (sdslen s + 1) 0 with
  | none => none
  | some sp =>
    match sdstrim.right cset s.buf sp (sdslen s + 1) end_ with
    | none => none
    | some ep =>
      let len : Nat := if (sp : Int) > ep then 0 else toSize ((ep - sp) + 1)
      let moved : Option (List Nat) := if sp ≠ 0 then memmove s.buf sp len else some s.buf
      match moved with
      | none => none
      | some buf =>
        if len < buf.length then some (sdssetlen { s with buf := buf.set len 0 } len)
        else none

/-- The bytes that `sdstrim` takes for members of `cset`: those that `strchr` finds, which
are the bytes before the zero byte that ends `cset` and the zero byte itself. -/
def sdstrim.found (cset : List Nat) (ch : Nat) : Bool :=
  match strchr cset ch with
  | some (some _) => true
  | _ => false

/-- The result of trimming in the words of the specification: the longest runs of members of
the set are removed from the left and from the right of `content`, and nothing else. -/
def trimSpec (member : Nat → Bool) (content : List Nat) : List Nat :=
  (content.dropWhile member).rdropWhile member

/-- The function `sdsempty`, which is `sdsnewlen("", 0)`, at request number `n` of the
allocator: the string (`none` for `NULL`) and the number of the next request. -/
def sdsempty (a : sdsAllocator) (n : Nat) : Option (Option sds × Nat) :=
  let hdrlen := sdsHdrSize SDS_TYPE_8
  match a.block n (hdrlen + 0 + 1) with
  | none => some (none, n + 1)
  | some block => (sdsnewlen (block.drop hdrlen) (sdsInit.bytes [0]) 0).map
      (fun s => (some s, n + 1))

/-- The function `sdscatlen`; `t` holds the bytes from the pointer `t` on. -/
def sdscatlen (a : sdsAllocator) (n : Nat) (s : sds) (t : List Nat) (len : Nat) :
    Option (Option sds × Nat) :=
  let curlen := sdslen s
  match sdsMakeRoomFor a n s len with
  | none => none
  | some (none, n1) => some (none, n1)
  | some (some s1, n1) =>
    match memcpy (s1.buf.drop curlen) t len with
    | none => none
    | some tail =>
      let newlen := (curlen + len) % 2 ^ 64
      let s2 := sdssetlen { s1 with buf := s1.buf.take curlen ++ tail } newlen
      if newlen < s2.buf.length then some (some { s2 with buf := s2.buf.set newlen 0 }, n1)
      else none

/-- The function `sdscat`. -/
def sdscat (a : sdsAllocator) (n : Nat) (s : sds) (t : List Nat) : Option (Option sds × Nat) :=
  match strlen t with
  | none => none
  | some len => sdscatlen a n s t len

/-- A hexadecimal digit in lower case, as the conversion `%x` prints it. -/
def vsnprintf.digit (d : Nat) : Nat := if d < 10 then 48 + d else 87 + d

/-- The hexadecimal digits of `v`, the most significant first; `fuel` bounds their number. -/
def vsnprintf.hex : Nat → Nat → List Nat
  | 0, _ => []
  | fuel + 1, v =>
    if v < 16 then [vsnprintf.digit v]
    else vsnprintf.hex fuel (v / 16) ++ [vsnprintf.digit (v % 16)]

/-- The bytes that the C library prints for the format `fmt` and the arguments `args`, for
the conversions that `sdscatrepr` uses: `%c` prints its argument as an `unsigned char`, `%02x`
prints its argument, an `unsigned int`, with at least two hexadecimal digits, and every other
byte but `%` is printed as it is.  No result for another conversion, for a missing argument and
for a format that no zero byte ends. -/
def vsnprintf.format : List Nat → List Nat → Option (List Nat)
  | [], _ => none
  | 0 :: _, _ => some []
  | 37 :: 99 :: rest, arg :: args =>
    (vsnprintf.format rest args).map (fun out => arg % 2 ^ 8 :: out)
  | 37 :: 48 :: 50 :: 120 :: rest, arg :: args =>
    let digits := vsnprintf.hex 8 (arg % 2 ^ 32)
    (vsnprintf.format rest args).map
      (fun out => List.replicate (2 - digits.length) 48 ++ digits ++ out)
  | 37 :: _, _ => none
  | ch :: rest, args => (vsnprintf.format rest args).map (fun out => ch :: out)

/-- The call `vsnprintf(buf, size, fmt, ap)` of the C library: at most `size - 1` bytes of the
output and a zero byte after them are written to `buf`. -/
def vsnprintf (buf : List Nat) (size : Nat) (fmt args : List Nat) : Option (List Nat) :=
  match vsnprintf.format fmt args with
  | none => none
  | some out =>
    if size = 0 then some buf
    else memcpy buf (out.take (size - 1) ++ [0]) ((out.take (size - 1)).length + 1)

/-- The loop `while (1)` of `sdscatvprintf` on the buffer `buf` of `buflen` bytes: the buffer
that holds the whole output (`none` for a failed `s_malloc`) and the number of the next request
of the allocator.  `fuel` bounds the number of rounds. -/
def sdscatvprintf.loop (a : sdsAllocator) (fmt args : List Nat) :
    Nat → Nat → List Nat → Nat → Option (Option (List Nat) × Nat)
  | 0, _, _, _ => none
  | fuel + 1, n, buf, buflen =>
    if buflen < 2 ∨ buf.length < buflen then none
    else
      match vsnprintf (buf.set (buflen - 2) 0) buflen fmt args with
      | none => none
      | some buf1 =>
        if buf1[buflen - 2]? ≠ some 0 then
          let buflen1 := (buflen * 2) % 2 ^ 64
          match a.block n buflen1 with
          | none => some (none, n + 1)
          | some buf2 => sdscatvprintf.loop a fmt args fuel (n + 1) buf2 buflen1
        else some (some buf1, n)

/-- The function `sdscatvprintf`; `staticbuf` holds the 1024 bytes of the array `staticbuf` as
they are when the function is entered, and `args` the arguments of the conversions. -/
def sdscatvprintf (a : sdsAllocator) (staticbuf : List Nat) (n : Nat) (s : sds)
    (fmt args : List Nat) : Option (Option sds × Nat) :=
  match strlen fmt with
  | none => none
  | some fmtlen =>
    let buflen0 := (fmtlen * 2) % 2 ^ 64
    let start : Option (List Nat) × Nat × Nat :=
      if buflen0 > 1024 then (a.block n buflen0, buflen0, n + 1)
      else (some staticbuf, 1024, n)
    match start with
    | (none, _, n1) => some (none, n1)
    | (some buf, buflen, n1) =>
      match sdscatvprintf.loop a fmt args 64 n1 buf buflen with
      | none => none
      | some (none, n2) => some (none, n2)
      | some (some buf1, n2) => sdscat a n2 s buf1

/-- The function `sdscatprintf`. -/
def sdscatprintf (a : sdsAllocator) (staticbuf : List Nat) (n : Nat) (s : sds)
    (fmt args : List Nat) : Option (Option sds × Nat) :=
  sdscatvprintf a staticbuf n s fmt args

/-- The `switch (*p)` of `sdscatrepr` for the byte `ch`.  The function `isprint` of the C
library is a parameter. -/
def sdscatrepr.step (a : sdsAllocator) (isprint : Nat → Bool) (staticbuf : List Nat) (n : Nat)
    (s : sds) (ch : Nat) : Option (Option sds × Nat) :=
  if ch = 92 ∨ ch = 34 then sdscatprintf a staticbuf n s [92, 37, 99, 0] [ch]
  else if ch = 10 then sdscatlen a n s [92, 110, 0] 2
  else if ch = 13 then sdscatlen a n s [92, 114, 0] 2
  else if ch = 9 then sdscatlen a n s [92, 116, 0] 2
  else if ch = 7 then sdscatlen a n s [92, 97, 0] 2
  else if ch = 8 then sdscatlen a n s [92, 98, 0] 2
  else if isprint ch = true then sdscatprintf a staticbuf n s [37, 99, 0] [ch]
  else sdscatprintf a staticbuf n s [92, 120, 37, 48, 50, 120, 0] [ch]

/-- The loop `while (len--)` of `sdscatrepr`; `i` counts the rounds, and `staticbuf i` holds
the bytes of the array `staticbuf` of `sdscatvprintf` in round `i`.  No result when `p` has
fewer than `len` bytes or a function is called with `NULL` for the string. -/
def sdscatrepr.loop (a : sdsAllocator) (isprint : Nat → Bool) (staticbuf : Nat → List Nat) :
    Nat → Nat → Nat → Option sds → List Nat → Option (Option sds × Nat)
  | 0, _, n, s, _ => some (s, n)
  | len + 1, i, n, s, p =>
    match p, s with
    | ch :: rest, some s0 =>
      match sdscatrepr.step a isprint (staticbuf i) n s0 ch with
      | none => none
      | some (s1, n1) => sdscatrepr.loop a isprint staticbuf len (i + 1) n1 s1 rest
    | _, _ => none

/-- The function `sdscatrepr`; `p` holds the bytes from the pointer `p` on. -/
def sdscatrepr (a : sdsAllocator) (isprint : Nat → Bool) (staticbuf : Nat → List Nat) (n : Nat)
    (s : sds) (p : List Nat) (len : Nat) : Option (Option sds × Nat) :=
  match sdscatlen a n s [34, 0] 1 with
  | none => none
  | some (s1, n1) =>
    match sdscatrepr.loop a isprint staticbuf len 0 n1 s1 p with
    | none => none
    | some (none, _) => none
    | some (some s2, n2) => sdscatlen a n2 s2 [34, 0] 1

/-- The function `is_hex_digit`. -/
def is_hex_digit (ch : Nat) : Bool :=
  (ch ≥ 48 ∧ ch ≤ 57) ∨ (ch ≥ 97 ∧ ch ≤ 102) ∨ (ch ≥ 65 ∧ ch ≤ 70)

/-- The function `hex_digit_to_int`. -/
def hex_digit_to_int (ch : Nat) : Nat :=
  if ch = 48 then 0
  else if ch = 49 then 1
  else if ch = 50 then 2
  else if ch = 51 then 3
  else if ch = 52 then 4
  else if ch = 53 then 5
  else if ch = 54 then 6
  else if ch = 55 then 7
  else if ch = 56 then 8
  else if ch = 57 then 9
  else if ch = 97 ∨ ch = 65 then 10
  else if ch = 98 ∨ ch = 66 then 11
  else if ch = 99 ∨ ch = 67 then 12
  else if ch = 100 ∨ ch = 68 then 13
  else if ch = 101 ∨ ch = 69 then 14
  else if ch = 102 ∨ ch = 70 then 15
  else 0

/-- The variables of the loop `while (!done)` of `sdssplitargs`: the flags `inq`, `insq` and
`done`, the string `current` (`none` for `NULL`), the pointer `p` as an index into the line,
and the number `n` of the next request of the allocator. -/
structure sdssplitargs.state where
  inq : Bool
  insq : Bool
  done : Bool
  current : Option sds
  p : Nat
  n : Nat
  deriving DecidableEq, Repr

/-- How a round of the loop `while (!done)` of `sdssplitargs` ends: with new values of the
variables, or with `goto err`. -/
inductive sdssplitargs.outcome where
  | next (st : sdssplitargs.state)
  | err (n : Nat)
  deriving DecidableEq, Repr

/-- The loop `while (*p && isspace(*p)) p++;` of `sdssplitargs`: the value of `p` after it.
The function `isspace` of the C library is a parameter; `fuel` bounds the number of tests. -/
def sdssplitargs.skip (isspace : Nat → Bool) (line_ : List Nat) : Nat → Nat → Option Nat
  | 0, _ => none
  | fuel + 1, p =>
    match line_[p]? with
    | none => none
    | some ch =>
      if ch ≠ 0 ∧ isspace ch = true then sdssplitargs.skip isspace line_ fuel (p + 1)
      else some p

/-- The condition `*p == '\\' && *(p + 1) == 'x' && is_hex_digit(*(p + 2)) &&
is_hex_digit(*(p + 3))` of `sdssplitargs`, which reads a byte only when the conditions before
it hold.  No result when a byte outside the line is read. -/
def sdssplitargs.hexEscape (line_ : List Nat) (p : Nat) : Option Bool :=
  match line_[p]? with
  | none => none
  | some ch =>
    if ch ≠ 92 then some false
    else
      match line_[p + 1]? with
      | none => none
      | some c1 =>
        if c1 ≠ 120 then some false
        else
          match line_[p + 2]? with
          | none => none
          | some c2 =>
            if is_hex_digit c2 = false then some false
            else (line_[p + 3]?).map is_hex_digit

/-- The condition `*p == '\\' && *(p + 1)` of `sdssplitargs`. -/
def sdssplitargs.escape (line_ : List Nat) (p : Nat) : Option Bool :=
  match line_[p]? with
  | none => none
  | some ch =>
    if ch ≠ 92 then some false
    else (line_[p + 1]?).map (fun c1 => decide (c1 ≠ 0))

/-- The statement `current = sdscatlen(current, t, 1);` of `sdssplitargs`. -/
def sdssplitargs.append (a : sdsAllocator) (st : sdssplitargs.state) (t : List Nat) :
    Option sdssplitargs.state :=
  match st.current with
  | none => none
  | some s => (sdscatlen a st.n s t 1).map (fun r => { st with current := r.1, n := r.2 })

/-- The statements of `sdssplitargs` for a closing quote: `goto err` when a byte follows that
is neither zero nor a blank, and `done = 1` otherwise. -/
def sdssplitargs.close (isspace : Nat → Bool) (line_ : List Nat) (st : sdssplitargs.state) :
    Option sdssplitargs.outcome :=
  match line_[st.p + 1]? with
  | none => none
  | some c1 =>
    if c1 ≠ 0 ∧ isspace c1 = false then some (sdssplitargs.outcome.err st.n)
    else some (sdssplitargs.outcome.next { st with done := true })

/-- The character that the `switch (*p)` after a backslash in double quotes gives for the
byte `ch`. -/
def sdssplitargs.unescape (ch : Nat) : Nat :=
  if ch = 110 then 10
  else if ch = 114 then 13
  else if ch = 116 then 9
  else if ch = 98 then 8
  else if ch = 97 then 7
  else ch

/-- The branch `if (inq)` of the loop `while (!done)` of `sdssplitargs`. -/
def sdssplitargs.quoted (a : sdsAllocator) (isspace : Nat → Bool) (line_ : List Nat)
    (st : sdssplitargs.state) : Option sdssplitargs.outcome :=
  match sdssplitargs.hexEscape line_ st.p, sdssplitargs.escape line_ st.p, line_[st.p]? with
  | some true, _, _ =>
    match line_[st.p + 2]?, line_[st.p + 3]? with
    | some c2, some c3 =>
      let byte := (hex_digit_to_int c2 * 16 + hex_digit_to_int c3) % 2 ^ 8
      (sdssplitargs.append a st [byte]).map
        (fun st1 => sdssplitargs.outcome.next { st1 with p := st1.p + 3 })
    | _, _ => none
  | some false, some true, _ =>
    match line_[st.p + 1]? with
    | none => none
    | some ch =>
      (sdssplitargs.append a { st with p := st.p + 1 } [sdssplitargs.unescape ch]).map
        sdssplitargs.outcome.next
  | some false, some false, some ch =>
    if ch = 34 then sdssplitargs.close isspace line_ st
    else if ch = 0 then some (sdssplitargs.outcome.err st.n)
    else (sdssplitargs.append a st (line_.drop st.p)).map sdssplitargs.outcome.next
  | _, _, _ => none

/-- The branch `else if (insq)` of the loop `while (!done)` of `sdssplitargs`. -/
def sdssplitargs.single (a : sdsAllocator) (isspace : Nat → Bool) (line_ : List Nat)
    (st : sdssplitargs.state) : Option sdssplitargs.outcome :=
  match line_[st.p]? with
  | none => none
  | some ch =>
    let quote : Option Bool :=
      if ch ≠ 92 then some false else (line_[st.p + 1]?).map (fun c1 => decide (c1 = 39))
    match quote with
    | none => none
    | some true =>
      (sdssplitargs.append a { st with p := st.p + 1 } [39]).map sdssplitargs.outcome.next
    | some false =>
      if ch = 39 then sdssplitargs.close isspace line_ st
      else if ch = 0 then some (sdssplitargs.outcome.err st.n)
      else (sdssplitargs.append a st (line_.drop st.p)).map sdssplitargs.outcome.next

/-- The last branch of the loop `while (!done)` of `sdssplitargs`: the `switch (*p)` outside
quotes. -/
def sdssplitargs.plain (a : sdsAllocator) (line_ : List Nat) (st : sdssplitargs.state) :
    Option sdssplitargs.outcome :=
  match line_[st.p]? with
  | none => none
  | some ch =>
    if ch = 32 ∨ ch = 10 ∨ ch = 13 ∨ ch = 9 ∨ ch = 0 then
      some (sdssplitargs.outcome.next { st with done := true })
    else if ch = 34 then some (sdssplitargs.outcome.next { st with inq := true })
    else if ch = 39 then some (sdssplitargs.outcome.next { st with insq := true })
    else (sdssplitargs.append a st (line_.drop st.p)).map sdssplitargs.outcome.next

/-- One round of the loop `while (!done)` of `sdssplitargs`: one of the three branches and
then `if (*p) p++;`. -/
def sdssplitargs.step (a : sdsAllocator) (isspace : Nat → Bool) (line_ : List Nat)
    (st : sdssplitargs.state) : Option sdssplitargs.outcome :=
  let branch :=
    if st.inq = true then sdssplitargs.quoted a isspace line_ st
    else if st.insq = true then sdssplitargs.single a isspace line_ st
    else sdssplitargs.plain a line_ st
  match branch with
  | none => none
  | some (sdssplitargs.outcome.err n) => some (sdssplitargs.outcome.err n)
  | some (sdssplitargs.outcome.next st1) =>
    match line_[st1.p]? with
    | none => none
    | some ch =>
      some (sdssplitargs.outcome.next (if ch ≠ 0 then { st1 with p := st1.p + 1 } else st1))

/-- The loop `while (!done)` of `sdssplitargs`; `fuel` bounds the number of rounds. -/
def sdssplitargs.token (a : sdsAllocator) (isspace : Nat → Bool) (line_ : List Nat) :
    Nat → sdssplitargs.state → Option sdssplitargs.outcome
  | 0, _ => none
  | fuel + 1, st =>
    if st.done = true then some (sdssplitargs.outcome.next st)
    else
      match sdssplitargs.step a isspace line_ st with
      | none => none
      | some (sdssplitargs.outcome.err n) => some (sdssplitargs.outcome.err n)
      | some (sdssplitargs.outcome.next st1) => sdssplitargs.token a isspace line_ fuel st1

/-- The loop `while (1)` of `sdssplitargs` with the pointer `p`, the string `current`, the
array `vector` (`none` for `NULL`) and `*argc`: the array that is returned (`none` for `NULL`),
the value of `*argc` and the number of the next request of the allocator.  A pointer has 8
bytes.  No result stands for an access outside the line or through `NULL`; `fuel` bounds the
number of arguments. -/
def sdssplitargs.loop (a : sdsAllocator) (isspace : Nat → Bool) (line_ : List Nat) :
    Nat → Nat → Nat → Option sds → Option (List (Option sds)) → Nat →
      Option (Option (List (Option sds)) × Nat × Nat)
  | 0, _, _, _, _, _ => none
  | fuel + 1, p, n, current, vector, argc =>
    match sdssplitargs.skip isspace line_ (line_.length + 1) p with
    | none => none
    | some p1 =>
      match line_[p1]? with
      | none => none
      | some ch =>
        if ch ≠ 0 then
          let start : Option (Option sds × Nat) :=
            match current with
            | none => sdsempty a n
            | some s => some (some s, n)
          match start with
          | none => none
          | some (cur, n1) =>
            match sdssplitargs.token a isspace line_ (line_.length + 2)
                ⟨false, false, false, cur, p1, n1⟩ with
            | none => none
            | some (sdssplitargs.outcome.err n2) => some (none, 0, n2)
            | some (sdssplitargs.outcome.next st) =>
              match a.block st.n (((argc + 1) * 8) % 2 ^ 64) with
              | none => none
              | some block =>
                if block.length < (argc + 1) * 8 then none
                else
                  sdssplitargs.loop a isspace line_ fuel st.p (st.n + 1) none
                    (some (vector.getD [] ++ [st.current])) (argc + 1)
        else
          match vector with
          | some v => some (some v, argc, n)
          | none =>
            match a.block n 8 with
            | none => some (none, argc, n + 1)
            | some _ => some (some [], argc, n + 1)

/-- The function `sdssplitargs` at request number `n` of the allocator; `line` holds the
bytes from the pointer `line` on. -/
def sdssplitargs (a : sdsAllocator) (isspace : Nat → Bool) (n : Nat) (line_ : List Nat) :
    Option (Option (List (Option sds)) × Nat × Nat) :=
  sdssplitargs.loop a isspace line_ (line_.length + 1) 0 n none none 0

/-- The bytes that `sdscatrepr.step` appends for the byte `ch`. -/
def sdscatrepr.rendered (isprint : Nat → Bool) (ch : Nat) : List Nat :=
  if ch = 92 ∨ ch = 34 then [92, ch]
  else if ch = 10 then [92, 110]
  else if ch = 13 then [92, 114]
  else if ch = 9 then [92, 116]
  else if ch = 7 then [92, 97]
  else if ch = 8 then [92, 98]
  else if isprint ch = true then [ch]
  else [92, 120, vsnprintf.digit (ch / 16), vsnprintf.digit (ch % 16)]

/-- A string with a header that has the field `alloc`: it is well-formed, not of type 5, the
value of `alloc` fits its width, and the bytes that `alloc` counts lie in the buffer with one
more byte after them. -/
structure sds.Allocated (s : sds) : Prop where
  wf : s.WellFormed
  type : s.flags &&& SDS_TYPE_MASK ≠ SDS_TYPE_5
  fits : s.len ≤ s.alloc
  width : s.alloc < 2 ^ (2 ^ ((s.flags &&& SDS_TYPE_MASK) + 2))
  alloc : s.alloc < s.buf.length

/-- An allocator that answers every request below `2 ^ 62` bytes with a block of at least
that many bytes, and of fewer than `2 ^ 63`. -/
def sdsAllocator.Lawful (a : sdsAllocator) : Prop :=
  ∀ n size, size < 2 ^ 62 →
    ∃ block, a.block n size = some block ∧ size ≤ block.length ∧ block.length < 2 ^ 63

/-! ### Example strings -/

/-- Example: `sdsnew("ciao")` in an allocation of 8 usable bytes that held the byte 255
everywhere. -/
def exampleCiao : sds :=
  (sdsnew (List.replicate 8 255) (some [99, 105, 97, 111, 0])).getD
    { flags := 0, len := 0, alloc := 0, buf := [] }

/-- Example allocator: every request is answered with a block of 16 bytes more than asked
for, all bytes 255. -/
def exampleAllocator : sdsAllocator :=
  { block := fun _ size => some (List.replicate (size + 16) 255) }

/-- Example: `sdsnewlen("\0x\0", 3)`, the letter x between two zero bytes, in an allocation of
8 usable bytes that held the byte 255 everywhere. -/
def exampleBinary : sds :=
  (sdsnewlen (List.replicate 8 255) (sdsInit.bytes [0, 120, 0, 0]) 3).getD
    { flags := 0, len := 0, alloc := 0, buf := [] }

/-- Example: the function `isprint` in the C locale. -/
def exampleIsprint (ch : Nat) : Bool := decide (32 ≤ ch ∧ ch < 127)

/-- Example: the function `isspace` in the C locale. -/
def exampleIsspace (ch : Nat) : Bool := decide (ch = 32 ∨ (9 ≤ ch ∧ ch ≤ 13))

/-- Example: an array `staticbuf` that holds the byte 255 everywhere, in every round. -/
def exampleStaticbuf : Nat → List Nat := fun _ => List.replicate 1024 255

/-- Example: the seven bytes `\a \n \0 f o o \r` of the case of `sdsTest` for
`sdscatrepr`. -/
def exampleData : List Nat := [7, 10, 0, 102, 111, 111, 13]

end Sds

/-! ## Theorems -/

namespace Dict

variable {K V : Type} [DecidableEq K]
set_option linter.unusedSectionVars false

/-! ### Lists of chains -/

theorem flatten_set_perm {α : Type} (t : List (List α)) (i : Nat) (h : i < t.length)
    (c : List α) : (t.set i c).flatten.Perm (c ++ (t.set i []).flatten) := by
  induction t generalizing i with
  | nil => simp at h
  | cons a tl ih =>
    cases i with
    | zero => simp
    | succ i =>
      simp only [List.set_cons_succ, List.flatten_cons]
      have h1 : i < tl.length := by simpa using h
      exact ((ih i h1).append_left a).trans (List.perm_append_comm_assoc _ _ _)

theorem flatten_perm_getElem {α : Type} (t : List (List α)) (i : Nat) (h : i < t.length) :
    t.flatten.Perm (t[i] ++ (t.set i []).flatten) := by
  induction t generalizing i with
  | nil => simp at h
  | cons a tl ih =>
    cases i with
    | zero => simp
    | succ i =>
      simp only [List.set_cons_succ, List.flatten_cons, List.getElem_cons_succ]
      have h1 : i < tl.length := by simpa using h
      exact ((ih i h1).append_left a).trans (List.perm_append_comm_assoc _ _ _)

theorem flatten_set_cons_perm {α : Type} (t : List (List α)) (i : Nat) (h : i < t.length)
    (a : α) : (t.set i (a :: t[i])).flatten.Perm (a :: t.flatten) := by
  refine (flatten_set_perm t i h (a :: t[i])).trans ?_
  simpa using (flatten_perm_getElem t i h).symm

/-! ### Slots -/

theorem slots_of_table {ht : dictht K V} {t : List (List (dictEntry K V))}
    (h : ht.table = some t) : ht.slots = t := by
  simp [dictht.slots, h]

theorem table_eq_slots {ht : dictht K V} (hs : ht.table.isSome = true) :
    ht.table = some ht.slots := by
  unfold dictht.slots
  cases h : ht.table <;> simp_all

theorem slot_eq {ht : dictht K V} (hs : ht.table.isSome = true) (i : Nat) :
    ht.slot i = ht.slots[i]? := by
  unfold dictht.slot
  rw [table_eq_slots hs]

theorem slot_eq_getElem {ht : dictht K V} (hs : ht.table.isSome = true) (i : Nat)
    (hi : i < ht.slots.length) : ht.slot i = some ht.slots[i] := by
  rw [slot_eq hs, List.getElem?_eq_getElem hi]

theorem setSlot_eq {ht : dictht K V} (hs : ht.table.isSome = true) (i : Nat)
    (ch : List (dictEntry K V)) (hi : i < ht.slots.length) :
    ht.setSlot i ch = some { ht with table := some (ht.slots.set i ch) } := by
  unfold dictht.setSlot
  cases h : ht.table with
  | none => simp [h] at hs
  | some t =>
    rw [slots_of_table h] at hi ⊢
    simp [hi]

theorem dictht.Shaped.idx_lt {ty : dictType K} {ht : dictht K V} (hw : ht.Shaped ty)
    (hs : ht.table.isSome = true) (h : Nat) : h &&& ht.sizemask < ht.slots.length := by
  obtain ⟨k, _, hk⟩ := hw.pow2 hs
  rw [hw.len, hw.mask, hk, Nat.and_pow_two_sub_one_eq_mod]
  exact Nat.mod_lt _ (by positivity)

theorem dictht.Shaped.set {ty : dictType K} {ht : dictht K V} (hw : ht.Shaped ty) (i : Nat)
    (hi : i < ht.slots.length) (ch : List (dictEntry K V)) (u : Nat)
    (hc : ∀ e ∈ ch, (ty.hashFunction e.key % ULONG_RANGE) &&& ht.sizemask = i) :
    ({ ht with table := some (ht.slots.set i ch), used := u } : dictht K V).Shaped ty := by
  constructor
  · simpa [dictht.slots] using hw.len
  · exact hw.mask
  · intro _
    have : ht.table.isSome = true := by
      cases h : ht.table
      · simp [dictht.slots, h] at hi
      · rfl
    exact hw.pow2 this
  · intro j hj e he
    simp only [dictht.slots, Option.getD_some, List.length_set] at hj he ⊢
    rw [List.getElem_set] at he
    split at he
    · subst_vars; exact hc e he
    · exact hw.bucket j hj e he

theorem dictht.Shaped.used {ty : dictType K} {ht : dictht K V} (hw : ht.Shaped ty) (u : Nat) :
    ({ ht with used := u } : dictht K V).Shaped ty :=
  ⟨hw.len, hw.mask, hw.pow2, hw.bucket⟩

/-! ### Chains -/

theorem keyMatch_eq {d : dict K V} (hl : ∀ a b, d.type.keyCompare a b = true → a = b)
    (k k' : K) : keyMatch d k k' = decide (k = k') := by
  unfold keyMatch dictCompareKeys
  by_cases h : k = k'
  · simp [h]
  · have : d.type.keyCompare k k' = false := by
      cases hc : d.type.keyCompare k k'
      · rfl
      · exact absurd (hl _ _ hc) h
    simp [h, this]

theorem chainLookup_eq {d : dict K V} (hl : ∀ a b, d.type.keyCompare a b = true → a = b)
    (k : K) (ch : List (dictEntry K V)) :
    chainLookup d k ch = ch.find? (fun e => decide (k = e.key)) := by
  induction ch with
  | nil => rfl
  | cons a tl ih => simp only [chainLookup, keyMatch_eq hl, ih, List.find?_cons]; split <;> simp_all

theorem chainFind_none {d : dict K V} (hl : ∀ a b, d.type.keyCompare a b = true → a = b)
    (k : K) (ch : List (dictEntry K V)) :
    chainFind d k ch = none ↔ ∀ e ∈ ch, k ≠ e.key := by
  induction ch with
  | nil => simp [chainFind]
  | cons a tl ih =>
    simp only [chainFind, keyMatch_eq hl]
    by_cases h : k = a.key
    · simp [h]
    · simp [h, ih]

theorem chainFind_some {d : dict K V} (hl : ∀ a b, d.type.keyCompare a b = true → a = b)
    (k : K) (ch : List (dictEntry K V)) (pos : Nat) (h : chainFind d k ch = some pos) :
    ∃ hp : pos < ch.length, k = ch[pos].key := by
  induction ch generalizing pos with
  | nil => simp [chainFind] at h
  | cons a tl ih =>
    simp only [chainFind, keyMatch_eq hl] at h
    by_cases hk : k = a.key
    · simp [hk] at h; subst h; exact ⟨by simp, by simpa using hk⟩
    · simp [hk] at h
      obtain ⟨p, hp, rfl⟩ := h
      obtain ⟨h1, h2⟩ := ih p hp
      exact ⟨by simpa using h1, by simpa using h2⟩

theorem chainUnlink_none {d : dict K V} (hl : ∀ a b, d.type.keyCompare a b = true → a = b)
    (k : K) (ch : List (dictEntry K V)) :
    chainUnlink d k ch = none ↔ ∀ e ∈ ch, k ≠ e.key := by
  induction ch with
  | nil => simp [chainUnlink]
  | cons a tl ih =>
    simp only [chainUnlink, keyMatch_eq hl]
    by_cases h : k = a.key
    · simp [h]
    · simp [h, ih]

theorem chainUnlink_some {d : dict K V} (hl : ∀ a b, d.type.keyCompare a b = true → a = b)
    (k : K) (ch : List (dictEntry K V)) (he : dictEntry K V) (c1 : List (dictEntry K V))
    (h : chainUnlink d k ch = some (he, c1)) :
    k = he.key ∧ ch.Perm (he :: c1) ∧ ∀ e ∈ c1, e ∈ ch := by
  induction ch generalizing c1 with
  | nil => simp [chainUnlink] at h
  | cons a tl ih =>
    simp only [chainUnlink, keyMatch_eq hl] at h
    by_cases hk : k = a.key
    · simp [hk] at h
      obtain ⟨rfl, rfl⟩ := h
      exact ⟨hk, List.Perm.refl _, fun e he => List.mem_cons_of_mem _ he⟩
    · simp [hk] at h
      obtain ⟨r1, r2, hr, rfl, rfl⟩ := h
      obtain ⟨h1, h2, h3⟩ := ih r2 hr
      refine ⟨h1, ?_, ?_⟩
      · exact (h2.cons a).trans (List.Perm.swap _ _ _)
      · intro e he
        rcases List.mem_cons.1 he with rfl | he
        · exact List.mem_cons_self _ _
        · exact List.mem_cons_of_mem _ (h3 e he)

/-! ### Lookup in lists without duplicate keys -/

theorem eq_of_key_eq {l : List (dictEntry K V)} (hn : (l.map dictEntry.key).Nodup)
    {e e' : dictEntry K V} (he : e ∈ l) (he' : e' ∈ l) (hk : e.key = e'.key) : e = e' :=
  List.inj_on_of_nodup_map hn he he' hk

theorem find_key_perm {l l' : List (dictEntry K V)} (hp : l.Perm l')
    (hn : (l.map dictEntry.key).Nodup) (k : K) :
    l.find? (fun e => decide (k = e.key)) = l'.find? (fun e => decide (k = e.key)) := by
  cases h : l.find? (fun e => decide (k = e.key)) with
  | none =>
    symm
    rw [List.find?_eq_none] at h ⊢
    intro x hx
    exact h x (hp.mem_iff.2 hx)
  | some e =>
    have h1 := List.find?_some h
    have h2 := List.mem_of_find?_eq_some h
    cases h' : l'.find? (fun e => decide (k = e.key)) with
    | none =>
      rw [List.find?_eq_none] at h'
      exact absurd h1 (h' e (hp.mem_iff.1 h2))
    | some e' =>
      have h3 := List.find?_some h'
      have h4 := List.mem_of_find?_eq_some h'
      simp only [decide_eq_true_eq] at h1 h3
      rw [eq_of_key_eq hn h2 (hp.mem_iff.2 h4) (h1.symm.trans h3)]

theorem find_flatten_bucket {α : Type} (p : α → Bool) (t : List (List α)) (i : Nat)
    (hi : i < t.length)
    (h : ∀ j (hj : j < t.length), j ≠ i → ∀ e ∈ t[j], p e = false) :
    t.flatten.find? p = t[i].find? p := by
  induction t generalizing i with
  | nil => simp at hi
  | cons a tl ih =>
    cases i with
    | zero =>
      simp only [List.flatten_cons, List.find?_append, List.getElem_cons_zero]
      have : tl.flatten.find? p = none := by
        rw [List.find?_eq_none]
        intro x hx
        obtain ⟨l, hl, hxl⟩ := List.mem_flatten.1 hx
        obtain ⟨j, hj, rfl⟩ := List.getElem_of_mem hl
        have := h (j + 1) (by simpa using hj) (by simp) x (by simpa using hxl)
        simp [this]
      rw [this]; simp
    | succ i =>
      have h1 : i < tl.length := by simpa using hi
      simp only [List.flatten_cons, List.find?_append, List.getElem_cons_succ]
      have : a.find? p = none := by
        rw [List.find?_eq_none]
        intro x hx
        have := h 0 (by simp) (by simp) x (by simpa using hx)
        simp [this]
      rw [this, Option.none_or]
      apply ih i h1
      intro j hj hne e he
      exact h (j + 1) (by simpa using hj) (by simpa using hne) e (by simpa using he)

/-! ### Migration -/

theorem skipEmpty_spec (l : List (List (dictEntry K V))) (idx : Nat) (ev : Int)
    (hne : ∃ ch ∈ l, ch.isEmpty = false) :
    ∃ n ev1 b, dictRehash.skipEmpty l idx ev = some (idx + n, ev1, b) ∧ n ≤ l.length ∧
      (∀ j (hj : j < l.length), j < n → l[j].isEmpty = true) ∧
      (b = false → ∃ h : n < l.length, l[n].isEmpty = false) := by
  induction l generalizing idx ev with
  | nil => simp at hne
  | cons a tl ih =>
    unfold dictRehash.skipEmpty
    by_cases ha : a.isEmpty = true
    · simp only [ha, if_true]
      by_cases hev : toInt32 (ev - 1) = 0
      · refine ⟨1, toInt32 (ev - 1), true, by simp [hev], by simp, ?_, by simp⟩
        intro j hj hj1
        have : j = 0 := by omega
        subst this; simpa using ha
      · have hne1 : ∃ ch ∈ tl, ch.isEmpty = false := by
          obtain ⟨ch, hch, hc⟩ := hne
          rcases List.mem_cons.1 hch with rfl | h
          · simp [ha] at hc
          · exact ⟨ch, h, hc⟩
        obtain ⟨n, ev1, b, h1, h2, h3, h4⟩ := ih (idx + 1) (toInt32 (ev - 1)) hne1
        refine ⟨n + 1, ev1, b, ?_, by simpa using h2, ?_, ?_⟩
        · simp only [hev, if_false, h1]
          congr 2; omega
        · intro j hj hj1
          cases j with
          | zero => simpa using ha
          | succ j => simpa using h3 j (by simpa using hj) (by omega)
        · intro hb
          obtain ⟨h5, h6⟩ := h4 hb
          exact ⟨by simpa using h5, by simpa using h6⟩
    · refine ⟨0, ev, false, by simp [ha], by simp, by simp, ?_⟩
      intro _
      exact ⟨by simp, by simpa using ha⟩

theorem moveChain_spec (ch : List (dictEntry K V)) (d : dict K V)
    (hw : d.ht1.Shaped d.type) (hs : d.ht1.table.isSome = true) :
    ∃ ht1 : dictht K V, dictRehash.moveChain d ch =
        some { d with ht0 := { d.ht0 with used := d.ht0.used - ch.length }, ht1 := ht1 } ∧
      ht1.Shaped d.type ∧ ht1.table.isSome = true ∧ ht1.size = d.ht1.size ∧
      ht1.used = d.ht1.used + ch.length ∧
      ht1.entries.Perm (ch ++ d.ht1.entries) := by
  induction ch generalizing d with
  | nil => exact ⟨d.ht1, rfl, hw, hs, rfl, by simp, by simp⟩
  | cons de nextde ih =>
    unfold dictRehash.moveChain
    have hi := hw.idx_lt hs (dictHashKey d de.key)
    simp only [slot_eq_getElem hs _ hi, setSlot_eq hs _ _ hi]
    set h := dictHashKey d de.key &&& d.ht1.sizemask with hh
    have hw1 := hw.set h hi (de :: d.ht1.slots[h]) (d.ht1.used + 1) (by
      intro e he
      rcases List.mem_cons.1 he with rfl | he
      · rfl
      · exact hw.bucket h hi e he)
    obtain ⟨ht1, h1, h2, h3, h4, h5, h6⟩ :=
      ih { d with
          ht0 := { d.ht0 with used := d.ht0.used - 1 },
          ht1 := { d.ht1 with
            table := some (d.ht1.slots.set h (de :: d.ht1.slots[h])),
            used := d.ht1.used + 1 } } hw1 rfl
    refine ⟨ht1, ?_, h2, h3, h4, ?_, ?_⟩
    · rw [h1]; simp only [List.length_cons, Nat.sub_sub, Nat.add_comm]
    · rw [h5]; simp only [List.length_cons]; omega
    · refine h6.trans ?_
      have : (d.ht1.slots.set h (de :: d.ht1.slots[h])).flatten.Perm (de :: d.ht1.entries) :=
        flatten_set_cons_perm _ h hi de
      exact ((this.append_left nextde).trans List.perm_middle)

theorem SameContents.refl (d : dict K V) : SameContents d d := ⟨rfl, rfl, List.Perm.refl _⟩

theorem SameContents.trans {d d1 d2 : dict K V} (h1 : SameContents d d1)
    (h2 : SameContents d1 d2) : SameContents d d2 :=
  ⟨h2.1.trans h1.1, h2.2.1.trans h1.2.1, h2.2.2.trans h1.2.2⟩

theorem size_le_of_shaped {ty : dictType K} {ht : dictht K V} (hw : ht.Shaped ty) :
    ht.size ≤ 2 ^ 63 := by
  cases h : ht.table with
  | none =>
    have := hw.len
    simp [dictht.slots, h] at this
    omega
  | some t =>
    obtain ⟨k, hk, hsz⟩ := hw.pow2 (by simp [h])
    rw [hsz]
    exact Nat.pow_le_pow_right (by norm_num) (by omega)

theorem toULong_rehashidx {d : dict K V} (hw : WellFormed d) (hr : d.rehashidx ≠ -1) :
    toULong d.rehashidx = d.rehashidx.toNat := by
  obtain ⟨h0, h1, -⟩ := hw.busy hr
  have := size_le_of_shaped hw.wf0.shaped
  unfold toULong
  rw [Int.emod_eq_of_lt h0 (by omega)]

theorem exists_nonempty_slot {d : dict K V} (hw : WellFormed d) (hr : d.rehashidx ≠ -1)
    (hu : d.ht0.used ≠ 0) :
    ∃ j, d.rehashidx.toNat ≤ j ∧ ∃ hj : j < d.ht0.slots.length,
      d.ht0.slots[j].isEmpty = false := by
  obtain ⟨h0, h1, hs0, hs1, hemp⟩ := hw.busy hr
  have hlen : d.ht0.entries.length ≠ 0 := by rw [← hw.wf0.used]; exact hu
  obtain ⟨e, he⟩ := List.exists_mem_of_length_pos (Nat.pos_of_ne_zero hlen)
  obtain ⟨l, hl, hel⟩ := List.mem_flatten.1 he
  obtain ⟨j, hj, rfl⟩ := List.getElem_of_mem hl
  refine ⟨j, ?_, hj, ?_⟩
  · by_contra hlt
    have := hemp j hj (by omega)
    rw [List.isEmpty_iff] at this
    rw [this] at hel
    simp at hel
  · cases h : d.ht0.slots[j] with
    | nil => rw [h] at hel; simp at hel
    | cons a b => rfl

/-- The state after one bucket of `ht[0]` was moved: the slot is cleared, `ht[1]` holds its
entries, the counters follow and `rehashidx` points past the slot. -/
theorem moved_bucket_wf (d : dict K V) (hw : WellFormed d) (hr : d.rehashidx ≠ -1) (idx : Nat)
    (hidx : idx < d.ht0.slots.length)
    (hbelow : ∀ i (h : i < d.ht0.slots.length), i < idx → d.ht0.slots[i].isEmpty = true)
    (ht1 : dictht K V) (hsh1 : ht1.Shaped d.type) (hs11 : ht1.table.isSome = true)
    (hu1 : ht1.used = d.ht1.used + (d.ht0.slots[idx]).length)
    (hp1 : ht1.entries.Perm (d.ht0.slots[idx] ++ d.ht1.entries)) :
    WellFormed ({ d with
        ht0 := { d.ht0 with
          table := some (d.ht0.slots.set idx []),
          used := d.ht0.used - (d.ht0.slots[idx]).length },
        ht1 := ht1,
        rehashidx := (idx : Int) + 1 } : dict K V) ∧
      ((d.ht0.slots.set idx []).flatten ++ ht1.entries).Perm (dictEntries d) := by
  obtain ⟨h0, h1, hs0, hs1, hemp⟩ := hw.busy hr
  have hlen := hw.wf0.shaped.len
  have hperm0 := flatten_perm_getElem d.ht0.slots _ hidx
  have hperm : ((d.ht0.slots.set idx []).flatten ++ ht1.entries).Perm (dictEntries d) := by
    refine (hp1.append_left _).trans ?_
    refine (List.perm_append_comm_assoc _ _ _).trans ?_
    rw [← List.append_assoc]
    exact hperm0.symm.append_right _
  refine ⟨⟨hw.lawful, ⟨?_, ?_⟩, ⟨hsh1, ?_⟩, ?_, ?_, ?_⟩, hperm⟩
  · exact hw.wf0.shaped.set _ hidx [] _ (by simp)
  · show d.ht0.used - _ = (d.ht0.slots.set _ []).flatten.length
    have h2 := hw.wf0.used
    have h3 := hperm0.length_eq
    simp only [dictht.entries, List.length_append] at h2 h3
    omega
  · rw [hu1, hp1.length_eq]
    have := hw.wf1.used
    simp only [List.length_append]; omega
  · exact (hperm.map dictEntry.key).nodup_iff.2 hw.nodup
  · intro h; simp only at h; omega
  · intro _
    refine ⟨by simp only; omega, by simp only; omega, rfl, hs11, ?_⟩
    intro i hi hlt
    simp only [dictht.slots, Option.getD_some, List.length_set] at hi hlt ⊢
    rw [List.getElem_set]
    split
    · rfl
    · exact hbelow i hi (by omega)

theorem rehashLoop_spec (n : Nat) (d : dict K V) (ev : Int) (hw : WellFormed d)
    (hr : d.rehashidx ≠ -1) :
    ∃ d1 b, dictRehash.loop n d ev = some (d1, b) ∧ WellFormed d1 ∧ d1.rehashidx ≠ -1 ∧
      SameContents d d1 := by
  induction n generalizing d ev with
  | zero => exact ⟨d, false, rfl, hw, hr, SameContents.refl d⟩
  | succ n ih =>
    unfold dictRehash.loop
    by_cases hu : d.ht0.used = 0
    · exact ⟨d, false, by simp [hu], hw, hr, SameContents.refl d⟩
    · obtain ⟨h0, h1, hs0, hs1, hemp⟩ := hw.busy hr
      obtain ⟨j, hrj, hj, hjne⟩ := exists_nonempty_slot hw hr hu
      have hlen := hw.wf0.shaped.len
      have hrlt : d.rehashidx.toNat < d.ht0.slots.length := by omega
      simp only [hu, if_false, toULong_rehashidx hw hr, table_eq_slots hs0]
      have hassert : d.ht0.size > d.rehashidx.toNat := by omega
      simp only [hassert, not_true_eq_false, if_false]
      have hne : ∃ ch ∈ d.ht0.slots.drop d.rehashidx.toNat, ch.isEmpty = false := by
        refine ⟨d.ht0.slots[j], ?_, hjne⟩
        rw [List.mem_iff_getElem]
        refine ⟨j - d.rehashidx.toNat, by simp; omega, ?_⟩
        simp only [List.getElem_drop]
        congr 1; omega
      obtain ⟨m, ev1, b, hsk, hm, hskE, hskN⟩ :=
        skipEmpty_spec (d.ht0.slots.drop d.rehashidx.toNat) d.rehashidx.toNat ev hne
      rw [hsk]
      have hml : d.rehashidx.toNat + m ≤ d.ht0.slots.length := by
        simp at hm; omega
      have hbelow : ∀ i (h : i < d.ht0.slots.length), i < d.rehashidx.toNat + m →
          d.ht0.slots[i].isEmpty = true := by
        intro i hi hlt
        by_cases hir : (i : Int) < d.rehashidx
        · exact hemp i hi hir
        · have hge : d.rehashidx.toNat ≤ i := by omega
          have := hskE (i - d.rehashidx.toNat) (by simp; omega) (by omega)
          simp only [List.getElem_drop] at this
          convert this using 3; omega
      cases b with
      | true =>
        refine ⟨{ d with rehashidx := ((d.rehashidx.toNat + m : Nat) : Int) }, true, rfl, ?_,
          ?_, SameContents.refl d⟩
        · refine ⟨hw.lawful, hw.wf0, hw.wf1, hw.nodup, ?_, ?_⟩
          · intro h; simp only at h; omega
          · intro _
            refine ⟨by simp only; omega, by simp only; omega, hs0, hs1, ?_⟩
            intro i hi hlt
            exact hbelow i hi (by simp only at hlt; omega)
        · simp only; omega
      | false =>
        obtain ⟨hmlt, hmne⟩ := hskN rfl
        have hidx : d.rehashidx.toNat + m < d.ht0.slots.length := by
          simp at hmlt; omega
        simp only [slot_eq_getElem hs0 _ hidx]
        obtain ⟨ht1, hmv, hsh1, hs11, -, hu1, hp1⟩ :=
          moveChain_spec (d.ht0.slots[d.rehashidx.toNat + m])
            { d with rehashidx := ((d.rehashidx.toNat + m : Nat) : Int) } hw.wf1.shaped hs1
        rw [hmv]
        simp only at hsh1 hu1 hp1 ⊢
        have hsl1 : ∀ u, (dictht.slots ({ d.ht0 with used := u } : dictht K V)) = d.ht0.slots :=
          fun _ => rfl
        rw [setSlot_eq (by exact hs0) _ _ (by rw [hsl1]; exact hidx)]
        simp only [hsl1]
        obtain ⟨hwf, hperm⟩ := moved_bucket_wf d hw hr _ hidx hbelow ht1 hsh1 hs11 hu1 hp1
        obtain ⟨d2, b, h2, h3, h4, h5⟩ := ih _ ev1 hwf (by simp only; omega)
        exact ⟨d2, b, h2, h3, h4, h5.1, h5.2.1, h5.2.2.trans hperm⟩

theorem dictSize_eq_length {d : dict K V} (hw : WellFormed d) :
    dictSize d = (dictEntries d).length := by
  simp [dictSize, dictEntries, hw.wf0.used, hw.wf1.used]

theorem SameContents.size_eq {d d1 : dict K V} (h : SameContents d d1) (hw : WellFormed d)
    (hw1 : WellFormed d1) : dictSize d1 = dictSize d := by
  rw [dictSize_eq_length hw, dictSize_eq_length hw1, h.2.2.length_eq]

theorem reset_wf (ty : dictType K) : (_dictReset : dictht K V).WF ty :=
  ⟨⟨rfl, rfl, by simp [_dictReset], by simp [_dictReset, dictht.slots]⟩, rfl⟩

theorem entries_nil_of_used {ty : dictType K} {ht : dictht K V} (hw : ht.WF ty)
    (hu : ht.used = 0) : ht.entries = [] := by
  have := hw.used
  rw [hu] at this
  exact List.length_eq_zero.1 this.symm

theorem entries_nil_of_none {ht : dictht K V} (h : ht.table.isNone = true) : ht.entries = [] := by
  cases ht with
  | mk t _ _ _ =>
    cases t with
    | none => rfl
    | some t => simp at h

theorem dictRehash_spec (d : dict K V) (n : Nat) (hw : WellFormed d) :
    ∃ d1 r, dictRehash d n = some (d1, r) ∧ WellFormed d1 ∧ SameContents d d1 := by
  unfold dictRehash
  by_cases hr : d.rehashidx = -1
  · exact ⟨d, 0, by simp [dictIsRehashing, hr], hw, SameContents.refl d⟩
  · have hreh : dictIsRehashing d = true := by simp [dictIsRehashing, hr]
    obtain ⟨d1, b, h1, h2, h3, h4⟩ := rehashLoop_spec n d (toInt32 ((n : Int) * 10)) hw hr
    simp only [hreh, Bool.not_true, Bool.false_eq_true, if_false, h1]
    cases b with
    | true => exact ⟨d1, 1, rfl, h2, h4⟩
    | false =>
      by_cases hu : d1.ht0.used = 0
      · simp only [hu, if_true]
        refine ⟨_, 0, rfl, ?_, ?_⟩
        · refine ⟨h2.lawful, h2.wf1, reset_wf _, ?_, fun _ => rfl, fun h => absurd rfl h⟩
          have := h2.nodup
          simp only [dictEntries, entries_nil_of_used h2.wf0 hu, List.nil_append] at this
          simpa [dictEntries, _dictReset, dictht.entries, dictht.slots] using this
        · refine ⟨h4.1, h4.2.1, ?_⟩
          refine List.Perm.trans ?_ h4.2.2
          show (d1.ht1.entries ++ (_dictReset : dictht K V).entries).Perm
            (d1.ht0.entries ++ d1.ht1.entries)
          rw [entries_nil_of_used h2.wf0 hu]
          simp [_dictReset, dictht.entries, dictht.slots]
      · simp only [hu, if_false]
        exact ⟨d1, 1, rfl, h2, h4⟩

theorem dictRehashStep_spec (d : dict K V) (hw : WellFormed d) :
    ∃ d1, _dictRehashStep d = some d1 ∧ WellFormed d1 ∧ SameContents d d1 := by
  unfold _dictRehashStep
  by_cases hi : d.iterators = 0
  · obtain ⟨d1, r, h1, h2, h3⟩ := dictRehash_spec d 1 hw
    exact ⟨d1, by simp [hi, h1], h2, h3⟩
  · exact ⟨d, by simp [hi], hw, SameContents.refl d⟩

/-- The migration step every lookup and update starts with. -/
theorem stepIfRehashing_spec (d : dict K V) (hw : WellFormed d) :
    ∃ d1, (if dictIsRehashing d then _dictRehashStep d else some d) = some d1 ∧
      WellFormed d1 ∧ SameContents d d1 := by
  by_cases h : dictIsRehashing d = true
  · simp only [h, if_true]; exact dictRehashStep_spec d hw
  · simp only [h]; exact ⟨d, rfl, hw, SameContents.refl d⟩

/-! ### Growth -/

theorem nextPower_loop_spec (size : Nat) (hsz : size < 2 ^ 63) (fuel j : Nat) (hj : j ≤ 63)
    (hf : 64 - j ≤ fuel) :
    ∃ k, j ≤ k ∧ k ≤ 63 ∧ _dictNextPower.loop size fuel (2 ^ j) = some (2 ^ k) ∧
      size ≤ 2 ^ k := by
  induction fuel generalizing j with
  | zero => omega
  | succ fuel ih =>
    unfold _dictNextPower.loop
    by_cases h : 2 ^ j ≥ size
    · exact ⟨j, le_refl _, hj, by simp [h], h⟩
    · have hj1 : j + 1 ≤ 63 := by
        by_contra hc
        have : j = 63 := by omega
        subst this; omega
      obtain ⟨k, h1, h2, h3, h4⟩ := ih (j + 1) hj1 (by omega)
      refine ⟨k, by omega, h2, ?_, h4⟩
      simp only [h, if_false]
      have : 2 ^ j * 2 % ULONG_RANGE = 2 ^ (j + 1) := by
        rw [← pow_succ]
        apply Nat.mod_eq_of_lt
        unfold ULONG_RANGE
        exact Nat.pow_lt_pow_right (by norm_num) (by omega)
      rw [this, h3]

theorem dictNextPower_spec (size : Nat) :
    ∃ k, 2 ≤ k ∧ k ≤ 63 ∧ _dictNextPower size = some (2 ^ k) ∧
      (size < LONG_MAX → size ≤ 2 ^ k) := by
  unfold _dictNextPower
  by_cases h : size ≥ LONG_MAX
  · refine ⟨63, by norm_num, le_refl _, ?_, fun h' => by omega⟩
    rw [if_pos h]
    norm_num [LONG_MAX]
  · have hs : size < 2 ^ 63 := by unfold LONG_MAX at h; omega
    obtain ⟨k, h1, h2, h3, h4⟩ := nextPower_loop_spec size hs 64 2 (by norm_num) (by norm_num)
    refine ⟨k, h1, h2, ?_, fun _ => h4⟩
    simp only [h, if_false]
    exact h3

theorem fresh_table_wf (ty : dictType K) (k : Nat) (hk : k < 64) :
    ({ table := some (List.replicate (2 ^ k) []), size := 2 ^ k, sizemask := 2 ^ k - 1,
       used := 0 } : dictht K V).WF ty := by
  refine ⟨⟨by simp [dictht.slots], rfl, fun _ => ⟨k, hk, rfl⟩, ?_⟩, ?_⟩
  · intro i hi e he
    simp [dictht.slots] at he
  · simp [dictht.entries, dictht.slots]

theorem table_none_of_size_zero {ty : dictType K} {ht : dictht K V} (hw : ht.Shaped ty)
    (h : ht.size = 0) : ht.table.isNone = true := by
  cases ht with
  | mk t _ _ _ =>
    cases t with
    | none => rfl
    | some t =>
      obtain ⟨k, _, hk⟩ := hw.pow2 rfl
      simp only at h hk
      rw [h] at hk
      exact absurd hk.symm (by positivity)

theorem table_some_of_size_pos {ty : dictType K} {ht : dictht K V} (hw : ht.Shaped ty)
    (h : ht.size ≠ 0) : ht.table.isSome = true := by
  cases ht with
  | mk t _ _ _ =>
    cases t with
    | none =>
      have := hw.len
      simp [dictht.slots] at this
      exact absurd this.symm h
    | some t => rfl

theorem dictExpandIfNeeded_spec (g : Bool) (d : dict K V) (hw : WellFormed d) :
    ∃ d1 st, _dictExpandIfNeeded g d = some (d1, st) ∧ WellFormed d1 ∧ SameContents d d1 ∧
      (st = DICT_OK → d1.ht0.table.isSome = true) ∧
      (d.ht0.used < MAX_ENTRIES → st = DICT_OK) := by
  unfold _dictExpandIfNeeded
  by_cases hr : d.rehashidx = -1
  swap
  · exact ⟨d, DICT_OK, by simp [dictIsRehashing, hr], hw, SameContents.refl d,
      fun _ => (hw.busy hr).2.2.1, fun _ => rfl⟩
  have hreh : dictIsRehashing d = false := by simp [dictIsRehashing, hr]
  have h1nil := entries_nil_of_none (hw.idle hr)
  simp only [hreh, Bool.false_eq_true, if_false]
  by_cases hz : d.ht0.size = 0
  · have hnone := table_none_of_size_zero hw.wf0.shaped hz
    have h0nil := entries_nil_of_none hnone
    have hu : d.ht0.used = 0 := by rw [hw.wf0.used, h0nil]; rfl
    obtain ⟨k, hk2, hk63, hk, -⟩ := dictNextPower_spec DICT_HT_INITIAL_SIZE
    have hne : 2 ^ k ≠ d.ht0.size := by rw [hz]; positivity
    have hE : dictExpand d DICT_HT_INITIAL_SIZE = some ({ d with
        ht0 := { table := some (List.replicate (2 ^ k) []), size := 2 ^ k,
                 sizemask := 2 ^ k - 1, used := 0 } }, DICT_OK) := by
      simp [dictExpand, hreh, hu, hk, hne, hnone]
    simp only [hz, if_true, hE]
    have hent : dictEntries ({ d with
        ht0 := { table := some (List.replicate (2 ^ k) []), size := 2 ^ k,
                 sizemask := 2 ^ k - 1, used := 0 } } : dict K V) = dictEntries d := by
      show dictht.entries _ ++ d.ht1.entries = d.ht0.entries ++ d.ht1.entries
      rw [h0nil]
      simp [dictht.entries, dictht.slots]
    refine ⟨_, DICT_OK, rfl, ?_, ?_, fun _ => rfl, fun _ => rfl⟩
    · refine ⟨hw.lawful, fresh_table_wf _ k (by omega), hw.wf1, ?_, hw.idle, fun h => absurd hr h⟩
      rw [hent]; exact hw.nodup
    · exact ⟨rfl, rfl, by rw [hent]⟩
  · have hs0 := table_some_of_size_pos hw.wf0.shaped hz
    simp only [hz, if_false]
    split
    · rename_i hcond
      simp only [Bool.and_eq_true, decide_eq_true_eq] at hcond
      obtain ⟨k, hk2, hk63, hk, hle⟩ := dictNextPower_spec (d.ht0.used * 2)
      by_cases hne : 2 ^ k = d.ht0.size
      · have hE : dictExpand d (d.ht0.used * 2) = some (d, DICT_ERR) := by
          simp [dictExpand, hreh, hk, hne]
        rw [hE]
        refine ⟨d, DICT_ERR, rfl, hw, SameContents.refl d, (fun h => by cases h), ?_⟩
        intro hfit
        exfalso
        have hlt : d.ht0.used * 2 < LONG_MAX := by
          unfold MAX_ENTRIES at hfit; unfold LONG_MAX; omega
        have := hle hlt
        have := hcond.1
        omega
      have hnn : d.ht0.table.isNone = false := by
        cases h : d.ht0.table <;> simp_all
      have hgt : ¬ (d.ht0.used > d.ht0.used * 2) := by omega
      have hE : dictExpand d (d.ht0.used * 2) = some ({ d with
          ht1 := { table := some (List.replicate (2 ^ k) []), size := 2 ^ k,
                   sizemask := 2 ^ k - 1, used := 0 },
          rehashidx := 0 }, DICT_OK) := by
        simp [dictExpand, hreh, hk, hne, hnn]
        omega
      rw [hE]
      have hent : dictEntries ({ d with
          ht1 := { table := some (List.replicate (2 ^ k) []), size := 2 ^ k,
                   sizemask := 2 ^ k - 1, used := 0 },
          rehashidx := 0 } : dict K V) = dictEntries d := by
        show d.ht0.entries ++ dictht.entries _ = d.ht0.entries ++ d.ht1.entries
        rw [h1nil]
        simp [dictht.entries, dictht.slots]
      refine ⟨_, DICT_OK, rfl, ?_, ?_, fun _ => hs0, fun _ => rfl⟩
      · refine ⟨hw.lawful, hw.wf0, fresh_table_wf _ k (by omega), ?_, fun h => by simp at h, ?_⟩
        · rw [hent]; exact hw.nodup
        · intro _
          refine ⟨le_refl _, by simp, hs0, rfl, ?_⟩
          intro i hi hlt
          simp only at hlt
          omega
      · exact ⟨rfl, rfl, by rw [hent]⟩
    · exact ⟨d, DICT_OK, rfl, hw, SameContents.refl d, fun _ => hs0, fun _ => rfl⟩

/-! ### Lookup -/

theorem bucket_lookup {ty : dictType K} {ht : dictht K V} (hw : ht.Shaped ty)
    (hs : ht.table.isSome = true) (k : K) (hv : Nat)
    (hh : hv = ty.hashFunction k % ULONG_RANGE) :
    ∃ hi : (hv &&& ht.sizemask) < ht.slots.length,
      ht.slot (hv &&& ht.sizemask) = some (ht.slots[hv &&& ht.sizemask]) ∧
      ht.entries.find? (fun e => decide (k = e.key)) =
        (ht.slots[hv &&& ht.sizemask]).find? (fun e => decide (k = e.key)) ∧
      ∀ e ∈ ht.entries, k = e.key → e ∈ ht.slots[hv &&& ht.sizemask] := by
  subst hh
  have hi := hw.idx_lt hs (ty.hashFunction k % ULONG_RANGE)
  refine ⟨hi, slot_eq_getElem hs _ hi, ?_, ?_⟩
  · apply find_flatten_bucket _ _ _ hi
    intro j hj hne e he
    by_contra hp
    simp only [Bool.not_eq_false, decide_eq_true_eq] at hp
    have := hw.bucket j hj e he
    rw [← hp] at this
    exact hne this.symm
  · intro e he hk
    obtain ⟨l, hl, hel⟩ := List.mem_flatten.1 he
    obtain ⟨j, hj, rfl⟩ := List.getElem_of_mem hl
    have := hw.bucket j hj e hel
    rw [← hk] at this
    simp only [this]
    exact hel

theorem ht0_some_of_size {d : dict K V} (hw : WellFormed d) (h : dictSize d ≠ 0) :
    d.ht0.table.isSome = true := by
  by_cases hr : d.rehashidx = -1
  · have h1 := entries_nil_of_none (hw.idle hr)
    have hu1 : d.ht1.used = 0 := by rw [hw.wf1.used, h1]; rfl
    have hu0 : d.ht0.used ≠ 0 := by unfold dictSize at h; omega
    cases ht : d.ht0.table with
    | none =>
      have hnone : d.ht0.table.isNone = true := by simp [ht]
      have := entries_nil_of_none hnone
      rw [hw.wf0.used, this] at hu0
      exact absurd rfl hu0
    | some t => rfl
  · exact (hw.busy hr).2.2.1

theorem dictLookup_same {d d1 : dict K V} (hw : WellFormed d) (h : SameContents d d1)
    (k : K) : dictLookup d1 k = dictLookup d k :=
  (find_key_perm h.2.2.symm hw.nodup k).symm

theorem dictFind_spec (d : dict K V) (k : K) (hw : WellFormed d) :
    ∃ d1, dictFind d k = some (d1, dictLookup d k) ∧ WellFormed d1 ∧ SameContents d d1 := by
  unfold dictFind
  by_cases hz : dictSize d = 0
  · refine ⟨d, ?_, hw, SameContents.refl d⟩
    have : dictEntries d = [] := by
      apply List.length_eq_zero.1; rw [← dictSize_eq_length hw]; exact hz
    simp [hz, dictLookup, this]
  · obtain ⟨d1, h1, hw1, hs1⟩ := stepIfRehashing_spec d hw
    simp only [hz, if_false, h1]
    refine ⟨d1, ?_, hw1, hs1⟩
    rw [← dictLookup_same hw hs1 k]
    have hz1 : dictSize d1 ≠ 0 := by rw [hs1.size_eq hw hw1]; exact hz
    have hs0 := ht0_some_of_size hw1 hz1
    obtain ⟨hi0, hsl0, hf0, -⟩ := bucket_lookup hw1.wf0.shaped hs0 k _ rfl
    simp only [dictHashKey, hsl0, chainLookup_eq hw1.lawful]
    unfold dictLookup dictEntries
    rw [List.find?_append, hf0]
    cases hc : (d1.ht0.slots[d1.type.hashFunction k % ULONG_RANGE &&& d1.ht0.sizemask]).find?
        (fun e => decide (k = e.key)) with
    | some he => simp
    | none =>
      simp only [Option.none_or]
      by_cases hr : d1.rehashidx = -1
      · have h1 := entries_nil_of_none (hw1.idle hr)
        simp [dictIsRehashing, hr, h1]
      · have hs1 := (hw1.busy hr).2.2.2.1
        obtain ⟨hi1, hsl1, hf1, -⟩ := bucket_lookup hw1.wf1.shaped hs1 k _ rfl
        simp [dictIsRehashing, hr, hsl1, hf1]

/-! ### Updating one slot -/

theorem update_ht0 (d : dict K V) (hw : WellFormed d) (_hs : d.ht0.table.isSome = true)
    (i : Nat) (hi : i < d.ht0.slots.length) (ch : List (dictEntry K V)) (u : Nat)
    (hbk : ∀ e ∈ ch, (d.type.hashFunction e.key % ULONG_RANGE) &&& d.ht0.sizemask = i)
    (hne : d.rehashidx ≠ -1 → ch.isEmpty = false → (d.ht0.slots[i]).isEmpty = false) :
    ∃ R, (dictEntries d).Perm (d.ht0.slots[i] ++ R) ∧
      (((ch ++ R).map dictEntry.key).Nodup →
        u + (d.ht0.slots[i]).length = d.ht0.used + ch.length →
        WellFormed ({ d with
          ht0 := { d.ht0 with table := some (d.ht0.slots.set i ch), used := u } } : dict K V) ∧
        (dictEntries ({ d with
          ht0 := { d.ht0 with table := some (d.ht0.slots.set i ch), used := u } } : dict K V)).Perm
          (ch ++ R)) := by
  have hold : (dictEntries d).Perm
      (d.ht0.slots[i] ++ ((d.ht0.slots.set i []).flatten ++ d.ht1.entries)) := by
    rw [← List.append_assoc]
    exact (flatten_perm_getElem d.ht0.slots i hi).append_right _
  refine ⟨(d.ht0.slots.set i []).flatten ++ d.ht1.entries, hold, ?_⟩
  intro hnd hu
  have hnew : (dictEntries ({ d with
      ht0 := { d.ht0 with table := some (d.ht0.slots.set i ch), used := u } } : dict K V)).Perm
      (ch ++ ((d.ht0.slots.set i []).flatten ++ d.ht1.entries)) := by
    rw [← List.append_assoc]
    exact (flatten_set_perm d.ht0.slots i hi ch).append_right _
  refine ⟨⟨hw.lawful, ⟨hw.wf0.shaped.set i hi ch u hbk, ?_⟩, hw.wf1, ?_, hw.idle, ?_⟩,
    hnew⟩
  · show u = (d.ht0.slots.set i ch).flatten.length
    have h1 := (flatten_set_perm d.ht0.slots i hi ch).length_eq
    have h2 := (flatten_perm_getElem d.ht0.slots i hi).length_eq
    have h3 := hw.wf0.used
    simp only [dictht.entries, List.length_append] at h1 h2 h3
    omega
  · exact (hnew.map dictEntry.key).nodup_iff.2 hnd
  · intro hr
    obtain ⟨h0, h1, h2, h3, h4⟩ := hw.busy hr
    refine ⟨h0, h1, rfl, h3, ?_⟩
    intro j hj hlt
    simp only [dictht.slots, Option.getD_some, List.length_set] at hj ⊢
    rw [List.getElem_set]
    split
    · rename_i hij
      have h5 := h4 i hi (by rw [hij]; exact hlt)
      by_contra hc
      simp only [Bool.not_eq_true] at hc
      have h6 := hne hr hc
      rw [h5] at h6
      exact absurd h6 (by simp)
    · exact h4 j hj hlt

theorem update_ht1 (d : dict K V) (hw : WellFormed d) (hs : d.ht1.table.isSome = true)
    (i : Nat) (hi : i < d.ht1.slots.length) (ch : List (dictEntry K V)) (u : Nat)
    (hbk : ∀ e ∈ ch, (d.type.hashFunction e.key % ULONG_RANGE) &&& d.ht1.sizemask = i) :
    ∃ R, (dictEntries d).Perm (d.ht1.slots[i] ++ R) ∧
      (((ch ++ R).map dictEntry.key).Nodup →
        u + (d.ht1.slots[i]).length = d.ht1.used + ch.length →
        WellFormed ({ d with
          ht1 := { d.ht1 with table := some (d.ht1.slots.set i ch), used := u } } : dict K V) ∧
        (dictEntries ({ d with
          ht1 := { d.ht1 with table := some (d.ht1.slots.set i ch), used := u } } : dict K V)).Perm
          (ch ++ R)) := by
  have hold : (dictEntries d).Perm
      (d.ht1.slots[i] ++ (d.ht0.entries ++ (d.ht1.slots.set i []).flatten)) := by
    refine List.Perm.trans ?_ (List.perm_append_comm_assoc _ _ _)
    exact (flatten_perm_getElem d.ht1.slots i hi).append_left _
  refine ⟨d.ht0.entries ++ (d.ht1.slots.set i []).flatten, hold, ?_⟩
  intro hnd hu
  have hnew : (dictEntries ({ d with
      ht1 := { d.ht1 with table := some (d.ht1.slots.set i ch), used := u } } : dict K V)).Perm
      (ch ++ (d.ht0.entries ++ (d.ht1.slots.set i []).flatten)) := by
    refine List.Perm.trans ?_ (List.perm_append_comm_assoc _ _ _)
    exact (flatten_set_perm d.ht1.slots i hi ch).append_left _
  have hr : d.rehashidx ≠ -1 := by
    intro h
    have := hw.idle h
    cases ht : d.ht1.table <;> simp_all
  refine ⟨⟨hw.lawful, hw.wf0, ⟨hw.wf1.shaped.set i hi ch u hbk, ?_⟩, ?_,
    fun h => absurd h hr, ?_⟩, hnew⟩
  · show u = (d.ht1.slots.set i ch).flatten.length
    have h1 := (flatten_set_perm d.ht1.slots i hi ch).length_eq
    have h2 := (flatten_perm_getElem d.ht1.slots i hi).length_eq
    have h3 := hw.wf1.used
    simp only [dictht.entries, List.length_append] at h1 h2 h3
    omega
  · exact (hnew.map dictEntry.key).nodup_iff.2 hnd
  · intro _
    obtain ⟨h0, h1, h2, h3, h4⟩ := hw.busy hr
    exact ⟨h0, h1, h2, rfl, h4⟩

/-! ### Key removal on lists -/

theorem withoutKey_of_absent (key : K) (l : List (dictEntry K V))
    (h : ∀ e ∈ l, key ≠ e.key) : l.filter (fun e => !decide (key = e.key)) = l := by
  rw [List.filter_eq_self]
  intro e he
  simp [h e he]

theorem withoutKey_of_cons_perm {l X : List (dictEntry K V)} {e : dictEntry K V}
    (hp : l.Perm (e :: X)) (hn : (l.map dictEntry.key).Nodup) :
    (l.filter (fun x => !decide (e.key = x.key))).Perm X := by
  have h1 := hp.filter (fun x => !decide (e.key = x.key))
  refine h1.trans ?_
  have hn2 : ((e :: X).map dictEntry.key).Nodup := (hp.map dictEntry.key).nodup_iff.1 hn
  simp only [List.map_cons, List.nodup_cons, List.mem_map, not_exists, not_and] at hn2
  have : (e :: X).filter (fun x => !decide (e.key = x.key)) = X := by
    simp only [List.filter_cons, decide_True, Bool.not_true, Bool.false_eq_true, if_false]
    rw [List.filter_eq_self]
    intro x hx
    have := hn2.1 x hx
    simp [Ne.symm this]
  rw [this]

theorem perm_set_eraseIdx {α : Type} (l : List α) (pos : Nat) (hp : pos < l.length) (a : α) :
    (l.set pos a).Perm (a :: l.eraseIdx pos) ∧ l.Perm (l[pos] :: l.eraseIdx pos) := by
  induction l generalizing pos with
  | nil => simp at hp
  | cons b tl ih =>
    cases pos with
    | zero => simp
    | succ p =>
      have hp1 : p < tl.length := by simpa using hp
      obtain ⟨h1, h2⟩ := ih p hp1
      simp only [List.set_cons_succ, List.eraseIdx_cons_succ, List.getElem_cons_succ]
      exact ⟨(h1.cons b).trans (List.Perm.swap _ _ _), (h2.cons b).trans (List.Perm.swap _ _ _)⟩

theorem map_key_set (l : List (dictEntry K V)) (pos : Nat) (hp : pos < l.length) (v : V) :
    (l.set pos { l[pos] with val := v }).map dictEntry.key = l.map dictEntry.key := by
  induction l generalizing pos with
  | nil => simp at hp
  | cons b tl ih =>
    cases pos with
    | zero => simp
    | succ p =>
      have hp1 : p < tl.length := by simpa using hp
      simp [ih p hp1]

theorem slot_some {ht : dictht K V} {i : Nat} {ch : List (dictEntry K V)}
    (h : ht.slot i = some ch) :
    ht.table.isSome = true ∧ ∃ hi : i < ht.slots.length, ht.slots[i] = ch := by
  unfold dictht.slot at h
  cases ht with
  | mk t _ _ _ =>
    cases t with
    | none => simp at h
    | some t =>
      simp only at h
      obtain ⟨hi, hc⟩ := List.getElem?_eq_some.1 h
      exact ⟨rfl, hi, hc⟩

/-! ### Writing a value through an entry pointer -/

theorem dictSetVal_spec0 (d : dict K V) (hw : WellFormed d) (idx pos : Nat)
    (chain : List (dictEntry K V)) (e : dictEntry K V) (val : V)
    (hsl : d.ht0.slot idx = some chain) (hpos : chain[pos]? = some e) :
    ∃ d1, dictSetVal d ⟨0, idx, pos⟩ val = some d1 ∧ WellFormed d1 ∧ d1.type = d.type ∧
      d1.iterators = d.iterators ∧ d1.rehashidx = d.rehashidx ∧
      (dictEntries d1).Perm
        (⟨e.key, val⟩ :: (dictEntries d).filter (fun x => !decide (e.key = x.key))) := by
  obtain ⟨hs, hi, hch⟩ := slot_some hsl
  obtain ⟨hp, he⟩ := List.getElem?_eq_some.1 hpos
  subst hch
  subst he
  obtain ⟨R, hR, hupd⟩ := update_ht0 d hw hs idx hi
    ((d.ht0.slots[idx]).set pos { (d.ht0.slots[idx])[pos] with val := val }) d.ht0.used
    (by
      intro x hx
      rcases List.mem_or_eq_of_mem_set hx with h | h
      · exact hw.wf0.shaped.bucket idx hi x h
      · subst h
        exact hw.wf0.shaped.bucket idx hi ((d.ht0.slots[idx])[pos]) (List.getElem_mem _))
    (by
      intro _ _
      cases h : d.ht0.slots[idx] with
      | nil => rw [h] at hp; simp at hp
      | cons a b => rfl)
  have hnd : (((d.ht0.slots[idx]).set pos { (d.ht0.slots[idx])[pos] with val := val } ++ R).map
      dictEntry.key).Nodup := by
    rw [List.map_append, map_key_set _ _ hp, ← List.map_append]
    exact (hR.map dictEntry.key).nodup_iff.1 hw.nodup
  obtain ⟨hwf, hperm⟩ := hupd hnd (by simp)
  refine ⟨_, ?_, hwf, rfl, rfl, rfl, ?_⟩
  · unfold dictSetVal
    simp only [dict.ht, if_true, hsl, hpos, setSlot_eq hs _ _ hi]
  · obtain ⟨h1, h2⟩ := perm_set_eraseIdx (d.ht0.slots[idx]) pos hp
      { (d.ht0.slots[idx])[pos] with val := val }
    have h3 : (dictEntries d).Perm
        ((d.ht0.slots[idx])[pos] :: ((d.ht0.slots[idx]).eraseIdx pos ++ R)) :=
      hR.trans (h2.append_right R)
    have h4 := withoutKey_of_cons_perm h3 hw.nodup
    refine hperm.trans ?_
    refine (h1.append_right R).trans ?_
    exact List.Perm.cons _ h4.symm

theorem dictSetVal_spec1 (d : dict K V) (hw : WellFormed d) (idx pos : Nat)
    (chain : List (dictEntry K V)) (e : dictEntry K V) (val : V)
    (hsl : d.ht1.slot idx = some chain) (hpos : chain[pos]? = some e) :
    ∃ d1, dictSetVal d ⟨1, idx, pos⟩ val = some d1 ∧ WellFormed d1 ∧ d1.type = d.type ∧
      d1.iterators = d.iterators ∧ d1.rehashidx = d.rehashidx ∧
      (dictEntries d1).Perm
        (⟨e.key, val⟩ :: (dictEntries d).filter (fun x => !decide (e.key = x.key))) := by
  obtain ⟨hs, hi, hch⟩ := slot_some hsl
  obtain ⟨hp, he⟩ := List.getElem?_eq_some.1 hpos
  subst hch
  subst he
  obtain ⟨R, hR, hupd⟩ := update_ht1 d hw hs idx hi
    ((d.ht1.slots[idx]).set pos { (d.ht1.slots[idx])[pos] with val := val }) d.ht1.used
    (by
      intro x hx
      rcases List.mem_or_eq_of_mem_set hx with h | h
      · exact hw.wf1.shaped.bucket idx hi x h
      · subst h
        exact hw.wf1.shaped.bucket idx hi ((d.ht1.slots[idx])[pos]) (List.getElem_mem _))
  have hnd : (((d.ht1.slots[idx]).set pos { (d.ht1.slots[idx])[pos] with val := val } ++ R).map
      dictEntry.key).Nodup := by
    rw [List.map_append, map_key_set _ _ hp, ← List.map_append]
    exact (hR.map dictEntry.key).nodup_iff.1 hw.nodup
  obtain ⟨hwf, hperm⟩ := hupd hnd (by simp)
  refine ⟨_, ?_, hwf, rfl, rfl, rfl, ?_⟩
  · unfold dictSetVal
    have h10 : (1 : Nat) ≠ 0 := by decide
    simp only [dict.ht, h10, if_false, hsl, hpos, setSlot_eq hs _ _ hi]
  · obtain ⟨h1, h2⟩ := perm_set_eraseIdx (d.ht1.slots[idx]) pos hp
      { (d.ht1.slots[idx])[pos] with val := val }
    have h3 : (dictEntries d).Perm
        ((d.ht1.slots[idx])[pos] :: ((d.ht1.slots[idx]).eraseIdx pos ++ R)) :=
      hR.trans (h2.append_right R)
    have h4 := withoutKey_of_cons_perm h3 hw.nodup
    refine hperm.trans ?_
    refine (h1.append_right R).trans ?_
    exact List.Perm.cons _ h4.symm

/-! ### Insertion -/

theorem dictKeyIndex_spec (g : Bool) (d : dict K V) (key : K) (hw : WellFormed d) :
    ∃ d1, WellFormed d1 ∧ SameContents d d1 ∧
      ((¬ d.ht0.used < MAX_ENTRIES ∧
          _dictKeyIndex g d key (dictHashKey d key) = some (d1, -1, none)) ∨
        ((∀ e ∈ dictEntries d1, key ≠ e.key) ∧ d1.ht0.table.isSome = true ∧
          _dictKeyIndex g d key (dictHashKey d key) =
            some (d1, ((if dictIsRehashing d1 then dictHashKey d key &&& d1.ht1.sizemask
              else dictHashKey d key &&& d1.ht0.sizemask : Nat) : Int), none)) ∨
        (∃ chain pos e, d1.ht0.slot (dictHashKey d key &&& d1.ht0.sizemask) = some chain ∧
          chain[pos]? = some e ∧ key = e.key ∧
          _dictKeyIndex g d key (dictHashKey d key) =
            some (d1, -1, some ⟨0, dictHashKey d key &&& d1.ht0.sizemask, pos⟩)) ∨
        (∃ chain pos e, d1.ht1.slot (dictHashKey d key &&& d1.ht1.sizemask) = some chain ∧
          chain[pos]? = some e ∧ key = e.key ∧
          _dictKeyIndex g d key (dictHashKey d key) =
            some (d1, -1, some ⟨1, dictHashKey d key &&& d1.ht1.sizemask, pos⟩))) := by
  obtain ⟨d1, st, hex, hw1, hsame, hs0', hst⟩ := dictExpandIfNeeded_spec g d hw
  refine ⟨d1, hw1, hsame, ?_⟩
  have hty : dictHashKey d key = d1.type.hashFunction key % ULONG_RANGE := by
    unfold dictHashKey; rw [hsame.1]
  unfold _dictKeyIndex
  simp only [hex]
  cases st with
  | DICT_ERR =>
    left
    exact ⟨(fun h => by cases hst h), rfl⟩
  | DICT_OK =>
  right
  have hs0 := hs0' rfl
  obtain ⟨hi0, hsl0, hf0, hin0⟩ := bucket_lookup hw1.wf0.shaped hs0 key _ hty
  simp only [hsl0]
  cases hc0 : chainFind d1 key (d1.ht0.slots[dictHashKey d key &&& d1.ht0.sizemask]) with
  | some pos =>
    obtain ⟨hp, hk⟩ := chainFind_some hw1.lawful key _ pos hc0
    right; left
    exact ⟨_, pos, _, rfl, List.getElem?_eq_getElem hp, hk, rfl⟩
  | none =>
    have hno0 : ∀ e ∈ d1.ht0.entries, key ≠ e.key := by
      intro e he hk
      exact (chainFind_none hw1.lawful key _).1 hc0 e (hin0 e he hk) hk
    by_cases hr : d1.rehashidx = -1
    · left
      have h1nil := entries_nil_of_none (hw1.idle hr)
      have hreh : dictIsRehashing d1 = false := by simp [dictIsRehashing, hr]
      refine ⟨?_, hs0, by simp [hreh]⟩
      intro e he
      simp only [dictEntries, h1nil, List.append_nil] at he
      exact hno0 e he
    · have hreh : dictIsRehashing d1 = true := by simp [dictIsRehashing, hr]
      have hs1 := (hw1.busy hr).2.2.2.1
      obtain ⟨hi1, hsl1, hf1, hin1⟩ := bucket_lookup hw1.wf1.shaped hs1 key _ hty
      simp only [hreh, Bool.not_true, Bool.false_eq_true, if_false, hsl1]
      cases hc1 : chainFind d1 key (d1.ht1.slots[dictHashKey d key &&& d1.ht1.sizemask]) with
      | some pos =>
        obtain ⟨hp, hk⟩ := chainFind_some hw1.lawful key _ pos hc1
        right; right
        exact ⟨_, pos, _, rfl, List.getElem?_eq_getElem hp, hk, rfl⟩
      | none =>
        left
        refine ⟨?_, hs0, by simp⟩
        intro e he hk
        rcases List.mem_append.1 he with h | h
        · exact hno0 e h hk
        · exact (chainFind_none hw1.lawful key _).1 hc1 e (hin1 e h hk) hk

theorem absent_of_same {d d1 : dict K V} (h : SameContents d d1) (key : K) :
    (∀ e ∈ dictEntries d1, key ≠ e.key) ↔ (∀ e ∈ dictEntries d, key ≠ e.key) :=
  ⟨fun hh e he => hh e (h.2.2.mem_iff.2 he), fun hh e he => hh e (h.2.2.mem_iff.1 he)⟩

theorem nodup_cons_of_absent {l : List (dictEntry K V)} (hn : (l.map dictEntry.key).Nodup)
    (e : dictEntry K V) (h : ∀ x ∈ l, e.key ≠ x.key) :
    ((e :: l).map dictEntry.key).Nodup := by
  simp only [List.map_cons, List.nodup_cons, List.mem_map, not_exists, not_and]
  exact ⟨fun x hx hk => h x hx hk.symm, hn⟩

/-- The outcome of `dictAddRaw` on a well-formed dictionary: either the key was absent and a
new entry now heads its chain, or the key is present and `*existing` points to its entry. -/
theorem dictAddRaw_spec (g : Bool) (d : dict K V) (key : K) (v0 : V) (hw : WellFormed d) :
    ∃ d1, WellFormed d1 ∧ d1.type = d.type ∧ d1.iterators = d.iterators ∧
      ((¬ dictSize d < MAX_ENTRIES ∧ (dictEntries d1).Perm (dictEntries d) ∧
          dictAddRaw g d key v0 = some (d1, none, none)) ∨
        ((∀ e ∈ dictEntries d, key ≠ e.key) ∧
          (dictEntries d1).Perm (⟨key, v0⟩ :: dictEntries d) ∧
          ∃ tbl idx chain, dictAddRaw g d key v0 = some (d1, some ⟨tbl, idx, 0⟩, none) ∧
            (tbl = 0 ∨ tbl = 1) ∧ (d1.ht tbl).slot idx = some (⟨key, v0⟩ :: chain)) ∨
        ((dictEntries d1).Perm (dictEntries d) ∧
          ∃ tbl idx pos chain e,
            dictAddRaw g d key v0 = some (d1, none, some ⟨tbl, idx, pos⟩) ∧
            (tbl = 0 ∨ tbl = 1) ∧ (d1.ht tbl).slot idx = some chain ∧ chain[pos]? = some e ∧
            key = e.key)) := by
  obtain ⟨d1, h1, hw1, hs1⟩ := stepIfRehashing_spec d hw
  obtain ⟨d2, hw2, hs2, hcases⟩ := dictKeyIndex_spec g d1 key hw1
  have hs12 := hs1.trans hs2
  unfold dictAddRaw
  simp only [h1]
  rcases hcases with ⟨hnf, hres⟩ | ⟨habs, hs02, hres⟩ |
    ⟨chain, pos, e, hsl, hpos, hk, hres⟩ | ⟨chain, pos, e, hsl, hpos, hk, hres⟩
  · rw [hres]
    refine ⟨d2, hw2, hs12.1, hs12.2.1, Or.inl ⟨?_, hs12.2.2, by simp⟩⟩
    intro hfit
    apply hnf
    have := hs1.size_eq hw hw1
    unfold dictSize at this hfit
    omega
  · -- the key is absent
    have habs0 : ∀ e ∈ dictEntries d, key ≠ e.key := (absent_of_same hs12 key).1 habs
    rw [hres]
    by_cases hr : d2.rehashidx = -1
    · have hreh : dictIsRehashing d2 = false := by simp [dictIsRehashing, hr]
      have hty : dictHashKey d1 key = d2.type.hashFunction key % ULONG_RANGE := by
        unfold dictHashKey; rw [hs2.1]
      have hi := hw2.wf0.shaped.idx_lt hs02 (dictHashKey d1 key)
      obtain ⟨R, hR, hupd⟩ := update_ht0 d2 hw2 hs02 _ hi
        (⟨key, v0⟩ :: d2.ht0.slots[dictHashKey d1 key &&& d2.ht0.sizemask]) (d2.ht0.used + 1)
        (by
          intro x hx
          rcases List.mem_cons.1 hx with rfl | hx
          · rw [hty]
          · exact hw2.wf0.shaped.bucket _ hi x hx)
        (fun h => absurd hr h)
      have hnd : (((⟨key, v0⟩ :: d2.ht0.slots[dictHashKey d1 key &&& d2.ht0.sizemask]) ++ R).map
          dictEntry.key).Nodup := by
        have h3 : ((d2.ht0.slots[dictHashKey d1 key &&& d2.ht0.sizemask] ++ R).map
            dictEntry.key).Nodup := (hR.map dictEntry.key).nodup_iff.1 hw2.nodup
        exact nodup_cons_of_absent h3 ⟨key, v0⟩
          (fun x hx => habs x (hR.mem_iff.2 hx))
      obtain ⟨hwf, hperm⟩ := hupd hnd (by simp; omega)
      refine ⟨_, hwf, hs12.1, hs12.2.1, Or.inr (Or.inl ⟨habs0, ?_, 0,
        (dictHashKey d1 key &&& d2.ht0.sizemask),
        d2.ht0.slots[dictHashKey d1 key &&& d2.ht0.sizemask], ?_, Or.inl rfl, ?_⟩)⟩
      · refine hperm.trans ?_
        exact List.Perm.cons _ (hR.symm.trans hs12.2.2)
      · have hne : ¬ (((dictHashKey d1 key &&& d2.ht0.sizemask : Nat) : Int) = -1) := by omega
        simp only [hreh, Bool.false_eq_true, if_false, hne, dict.ht, if_true, Int.toNat_ofNat,
          slot_eq_getElem hs02 _ hi, setSlot_eq hs02 _ _ hi]
      · simp only [dict.ht, if_true]
        rw [slot_eq (by rfl)]
        exact List.getElem?_set_self (by exact hi)
    · have hreh : dictIsRehashing d2 = true := by simp [dictIsRehashing, hr]
      have hs1' := (hw2.busy hr).2.2.2.1
      have hty : dictHashKey d1 key = d2.type.hashFunction key % ULONG_RANGE := by
        unfold dictHashKey; rw [hs2.1]
      have hi := hw2.wf1.shaped.idx_lt hs1' (dictHashKey d1 key)
      obtain ⟨R, hR, hupd⟩ := update_ht1 d2 hw2 hs1' _ hi
        (⟨key, v0⟩ :: d2.ht1.slots[dictHashKey d1 key &&& d2.ht1.sizemask]) (d2.ht1.used + 1)
        (by
          intro x hx
          rcases List.mem_cons.1 hx with rfl | hx
          · rw [hty]
          · exact hw2.wf1.shaped.bucket _ hi x hx)
      have hnd : (((⟨key, v0⟩ :: d2.ht1.slots[dictHashKey d1 key &&& d2.ht1.sizemask]) ++ R).map
          dictEntry.key).Nodup := by
        have h3 : ((d2.ht1.slots[dictHashKey d1 key &&& d2.ht1.sizemask] ++ R).map
            dictEntry.key).Nodup := (hR.map dictEntry.key).nodup_iff.1 hw2.nodup
        exact nodup_cons_of_absent h3 ⟨key, v0⟩
          (fun x hx => habs x (hR.mem_iff.2 hx))
      obtain ⟨hwf, hperm⟩ := hupd hnd (by simp; omega)
      have h10 : (1 : Nat) ≠ 0 := by decide
      refine ⟨_, hwf, hs12.1, hs12.2.1, Or.inr (Or.inl ⟨habs0, ?_, 1,
        (dictHashKey d1 key &&& d2.ht1.sizemask),
        d2.ht1.slots[dictHashKey d1 key &&& d2.ht1.sizemask], ?_, Or.inr rfl, ?_⟩)⟩
      · refine hperm.trans ?_
        exact List.Perm.cons _ (hR.symm.trans hs12.2.2)
      · have hne : ¬ (((dictHashKey d1 key &&& d2.ht1.sizemask : Nat) : Int) = -1) := by omega
        simp only [hreh, if_true, hne, dict.ht, h10, if_false, Int.toNat_ofNat,
          slot_eq_getElem hs1' _ hi, setSlot_eq hs1' _ _ hi]
      · simp only [dict.ht, h10, if_false]
        rw [slot_eq (by rfl)]
        exact List.getElem?_set_self (by exact hi)
  · rw [hres]
    refine ⟨d2, hw2, hs12.1, hs12.2.1, Or.inr (Or.inr ⟨hs12.2.2, 0,
      (dictHashKey d1 key &&& d2.ht0.sizemask), pos, chain, e, by simp, Or.inl rfl, ?_, hpos, hk⟩)⟩
    simpa [dict.ht] using hsl
  · rw [hres]
    refine ⟨d2, hw2, hs12.1, hs12.2.1, Or.inr (Or.inr ⟨hs12.2.2, 1,
      (dictHashKey d1 key &&& d2.ht1.sizemask), pos, chain, e, by simp, Or.inr rfl, ?_, hpos, hk⟩)⟩
    simpa [dict.ht] using hsl

theorem dictLookup_eq_none {d : dict K V} {key : K} :
    dictLookup d key = none ↔ ∀ e ∈ dictEntries d, key ≠ e.key := by
  unfold dictLookup
  rw [List.find?_eq_none]
  simp

theorem dictLookup_eq_some {d : dict K V} (hw : WellFormed d) {key : K} {e : dictEntry K V} :
    dictLookup d key = some e ↔ e ∈ dictEntries d ∧ key = e.key := by
  constructor
  · intro h
    exact ⟨List.mem_of_find?_eq_some h, by simpa using List.find?_some h⟩
  · rintro ⟨h1, h2⟩
    cases h : dictLookup d key with
    | none => exact absurd h2 (dictLookup_eq_none.1 h e h1)
    | some e' =>
      have h3 := List.mem_of_find?_eq_some h
      have h4 : key = e'.key := by simpa using List.find?_some h
      rw [eq_of_key_eq hw.nodup h3 h1 (h4.symm.trans h2)]

theorem mem_entries_of_slot {d : dict K V} {tbl idx : Nat} {chain : List (dictEntry K V)}
    (h : (d.ht tbl).slot idx = some chain) : ∀ e ∈ chain, e ∈ dictEntries d := by
  intro e he
  obtain ⟨hs, hi, hch⟩ := slot_some h
  have : e ∈ (d.ht tbl).entries :=
    List.mem_flatten.2 ⟨chain, by rw [← hch]; exact List.getElem_mem _, he⟩
  unfold dictEntries dict.ht at *
  split at this
  · exact List.mem_append_left _ this
  · exact List.mem_append_right _ this

theorem withoutKey_perm {l l1 : List (dictEntry K V)} (h : l1.Perm l) (key : K) :
    (l1.filter (fun e => !decide (key = e.key))).Perm
      (l.filter (fun e => !decide (key = e.key))) := h.filter _

theorem dictSetVal_spec (d : dict K V) (hw : WellFormed d) (tbl idx pos : Nat)
    (chain : List (dictEntry K V)) (e : dictEntry K V) (val : V) (ht : tbl = 0 ∨ tbl = 1)
    (hsl : (d.ht tbl).slot idx = some chain) (hpos : chain[pos]? = some e) :
    ∃ d1, dictSetVal d ⟨tbl, idx, pos⟩ val = some d1 ∧ WellFormed d1 ∧
      d1.type = d.type ∧ d1.iterators = d.iterators ∧ d1.rehashidx = d.rehashidx ∧
      (dictEntries d1).Perm
        (⟨e.key, val⟩ :: (dictEntries d).filter (fun x => !decide (e.key = x.key))) := by
  rcases ht with rfl | rfl
  · exact dictSetVal_spec0 d hw idx pos chain e val hsl hpos
  · exact dictSetVal_spec1 d hw idx pos chain e val hsl hpos

/-- The function `dictAdd` on a well-formed dictionary: an absent key is added, a stored key is
refused. -/
theorem dictAdd_spec (g : Bool) (d : dict K V) (key : K) (val : V) (hw : WellFormed d) :
    ∃ d1, WellFormed d1 ∧ d1.type = d.type ∧ d1.iterators = d.iterators ∧
      ((dictLookup d key = none ∧ dictAdd g d key val = some (d1, DICT_OK) ∧
          (dictEntries d1).Perm (⟨key, val⟩ :: dictEntries d)) ∨
        ((dictLookup d key ≠ none ∨ ¬ dictSize d < MAX_ENTRIES) ∧
          dictAdd g d key val = some (d1, DICT_ERR) ∧
          (dictEntries d1).Perm (dictEntries d))) := by
  obtain ⟨d1, hw1, hty, hit, hc⟩ := dictAddRaw_spec g d key val hw
  rcases hc with ⟨hnf, hperm, hres⟩ | ⟨habs, hperm, tbl, idx, chain, hres, htb, hsl⟩ |
    ⟨hperm, tbl, idx, pos, chain, e, hres, htb, hsl, hpos, hk⟩
  · refine ⟨d1, hw1, hty, hit, Or.inr ⟨Or.inr hnf, ?_, hperm⟩⟩
    unfold dictAdd
    simp only [hres]
  · obtain ⟨d2, hset, hw2, hty2, hit2, -, hperm2⟩ :=
      dictSetVal_spec d1 hw1 tbl idx 0 _ ⟨key, val⟩ val htb hsl (by simp)
    refine ⟨d2, hw2, hty2.trans hty, hit2.trans hit,
      Or.inl ⟨dictLookup_eq_none.2 habs, ?_, ?_⟩⟩
    · unfold dictAdd
      simp only [hres, hset]
    · refine hperm2.trans (List.Perm.cons _ ?_)
      exact withoutKey_of_cons_perm (e := ⟨key, val⟩) hperm hw1.nodup
  · refine ⟨d1, hw1, hty, hit, Or.inr ⟨Or.inl ?_, ?_, hperm⟩⟩
    · intro hn
      have hmem : e ∈ dictEntries d :=
        hperm.mem_iff.1 (mem_entries_of_slot hsl e (List.getElem?_mem hpos))
      exact dictLookup_eq_none.1 hn e hmem hk
    · unfold dictAdd
      simp only [hres]

/-- The function `dictReplace` on a well-formed dictionary: the key is bound to the new value
and the result tells whether it was absent. -/
theorem dictReplace_spec (g : Bool) (d : dict K V) (key : K) (val : V) (hw : WellFormed d)
    (hfit : dictSize d < MAX_ENTRIES) :
    ∃ d1, WellFormed d1 ∧ d1.type = d.type ∧ d1.iterators = d.iterators ∧
      dictReplace g d key val = some (d1, if (dictLookup d key).isNone then 1 else 0) ∧
      (dictEntries d1).Perm
        (⟨key, val⟩ :: (dictEntries d).filter (fun e => !decide (key = e.key))) := by
  obtain ⟨d1, hw1, hty, hit, hc⟩ := dictAddRaw_spec g d key val hw
  rcases hc with ⟨hnf, -, -⟩ | ⟨habs, hperm, tbl, idx, chain, hres, htb, hsl⟩ |
    ⟨hperm, tbl, idx, pos, chain, e, hres, htb, hsl, hpos, hk⟩
  · exact absurd hfit hnf
  · obtain ⟨d2, hset, hw2, hty2, hit2, -, hperm2⟩ :=
      dictSetVal_spec d1 hw1 tbl idx 0 _ ⟨key, val⟩ val htb hsl (by simp)
    refine ⟨d2, hw2, hty2.trans hty, hit2.trans hit, ?_, ?_⟩
    · unfold dictReplace
      simp [hres, hset, dictLookup_eq_none.2 habs]
    · rw [withoutKey_of_absent key _ habs]
      refine hperm2.trans (List.Perm.cons _ ?_)
      exact withoutKey_of_cons_perm (e := ⟨key, val⟩) hperm hw1.nodup
  · obtain ⟨d2, hset, hw2, hty2, hit2, -, hperm2⟩ :=
      dictSetVal_spec d1 hw1 tbl idx pos chain e val htb hsl hpos
    have hmem : e ∈ dictEntries d :=
      hperm.mem_iff.1 (mem_entries_of_slot hsl e (List.getElem?_mem hpos))
    have hne : dictLookup d key ≠ none := fun hn => dictLookup_eq_none.1 hn e hmem hk
    refine ⟨d2, hw2, hty2.trans hty, hit2.trans hit, ?_, ?_⟩
    · unfold dictReplace
      simp [hres, hset, hne]
    · rw [hk]
      exact hperm2.trans (List.Perm.cons _ (withoutKey_perm hperm e.key))

/-! ### Removal -/

theorem nodup_of_unlink {old ch R l : List (dictEntry K V)} {he : dictEntry K V}
    (hl : l.Perm (old ++ R)) (ho : old.Perm (he :: ch)) (hn : (l.map dictEntry.key).Nodup) :
    ((ch ++ R).map dictEntry.key).Nodup ∧ l.Perm (he :: (ch ++ R)) := by
  have h1 : l.Perm (he :: (ch ++ R)) := hl.trans (ho.append_right R)
  have h2 := (h1.map dictEntry.key).nodup_iff.1 hn
  simp only [List.map_cons, List.nodup_cons] at h2
  exact ⟨h2.2, h1⟩

theorem inTable0_spec (d : dict K V) (hw : WellFormed d) (hs : d.ht0.table.isSome = true)
    (key : K) :
    ((∀ e ∈ d.ht0.entries, key ≠ e.key) ∧
        dictGenericDelete.inTable d key (dictHashKey d key) 0 = some (d, none)) ∨
      (∃ d1 he, dictGenericDelete.inTable d key (dictHashKey d key) 0 = some (d1, some he) ∧
        WellFormed d1 ∧ d1.type = d.type ∧ d1.iterators = d.iterators ∧ key = he.key ∧
        (dictEntries d).Perm (he :: dictEntries d1)) := by
  obtain ⟨hi, hsl, -, hin⟩ := bucket_lookup hw.wf0.shaped hs key (dictHashKey d key) rfl
  unfold dictGenericDelete.inTable
  simp only [dict.ht, if_true, hsl]
  cases hc : chainUnlink d key (d.ht0.slots[dictHashKey d key &&& d.ht0.sizemask]) with
  | none =>
    left
    refine ⟨?_, rfl⟩
    intro e he hk
    exact (chainUnlink_none hw.lawful key _).1 hc e (hin e he hk) hk
  | some r =>
    obtain ⟨he, ch⟩ := r
    right
    obtain ⟨hk, hperm, hsub⟩ := chainUnlink_some hw.lawful key _ he ch hc
    obtain ⟨R, hR, hupd⟩ := update_ht0 d hw hs _ hi ch (d.ht0.used - 1)
      (fun x hx => hw.wf0.shaped.bucket _ hi x (hsub x hx))
      (by
        intro _ _
        cases h : d.ht0.slots[dictHashKey d key &&& d.ht0.sizemask] with
        | nil => rw [h] at hperm; simp at hperm
        | cons a b => rfl)
    obtain ⟨hnd, hall⟩ := nodup_of_unlink hR hperm hw.nodup
    have hlen := hperm.length_eq
    have hused : 1 ≤ d.ht0.used := by
      have h1 := hw.wf0.used
      have h2 := (flatten_perm_getElem d.ht0.slots _ hi).length_eq
      simp only [dictht.entries, List.length_append, List.length_cons] at h1 h2 hlen
      omega
    obtain ⟨hwf, hp⟩ := hupd hnd (by simp only [List.length_cons] at hlen; omega)
    refine ⟨_, he, ?_, hwf, rfl, rfl, hk, hall.trans (List.Perm.cons _ hp.symm)⟩
    simp only [setSlot_eq hs _ _ hi]

theorem inTable1_spec (d : dict K V) (hw : WellFormed d) (hs : d.ht1.table.isSome = true)
    (key : K) :
    ((∀ e ∈ d.ht1.entries, key ≠ e.key) ∧
        dictGenericDelete.inTable d key (dictHashKey d key) 1 = some (d, none)) ∨
      (∃ d1 he, dictGenericDelete.inTable d key (dictHashKey d key) 1 = some (d1, some he) ∧
        WellFormed d1 ∧ d1.type = d.type ∧ d1.iterators = d.iterators ∧ key = he.key ∧
        (dictEntries d).Perm (he :: dictEntries d1)) := by
  obtain ⟨hi, hsl, -, hin⟩ := bucket_lookup hw.wf1.shaped hs key (dictHashKey d key) rfl
  unfold dictGenericDelete.inTable
  have h10 : (1 : Nat) ≠ 0 := by decide
  simp only [dict.ht, h10, if_false, hsl]
  cases hc : chainUnlink d key (d.ht1.slots[dictHashKey d key &&& d.ht1.sizemask]) with
  | none =>
    left
    refine ⟨?_, rfl⟩
    intro e he hk
    exact (chainUnlink_none hw.lawful key _).1 hc e (hin e he hk) hk
  | some r =>
    obtain ⟨he, ch⟩ := r
    right
    obtain ⟨hk, hperm, hsub⟩ := chainUnlink_some hw.lawful key _ he ch hc
    obtain ⟨R, hR, hupd⟩ := update_ht1 d hw hs _ hi ch (d.ht1.used - 1)
      (fun x hx => hw.wf1.shaped.bucket _ hi x (hsub x hx))
    obtain ⟨hnd, hall⟩ := nodup_of_unlink hR hperm hw.nodup
    have hlen := hperm.length_eq
    have hused : 1 ≤ d.ht1.used := by
      have h1 := hw.wf1.used
      have h2 := (flatten_perm_getElem d.ht1.slots _ hi).length_eq
      simp only [dictht.entries, List.length_append, List.length_cons] at h1 h2 hlen
      omega
    obtain ⟨hwf, hp⟩ := hupd hnd (by simp only [List.length_cons] at hlen; omega)
    refine ⟨_, he, ?_, hwf, rfl, rfl, hk, hall.trans (List.Perm.cons _ hp.symm)⟩
    simp only [setSlot_eq hs _ _ hi]

/-- The function `dictGenericDelete` on a well-formed dictionary: a stored key is unlinked, an
absent key leaves the contents alone. -/
theorem dictGenericDelete_spec (d : dict K V) (key : K) (nofree : Bool) (hw : WellFormed d) :
    ∃ d1, WellFormed d1 ∧ d1.type = d.type ∧ d1.iterators = d.iterators ∧
      ((dictLookup d key = none ∧ dictGenericDelete d key nofree = some (d1, none) ∧
          (dictEntries d1).Perm (dictEntries d)) ∨
        (∃ he, dictLookup d key = some he ∧
          dictGenericDelete d key nofree = some (d1, some he) ∧
          (dictEntries d).Perm (he :: dictEntries d1))) := by
  unfold dictGenericDelete
  by_cases hz : d.ht0.used = 0 ∧ d.ht1.used = 0
  · refine ⟨d, hw, rfl, rfl, Or.inl ⟨?_, by simp [hz], List.Perm.refl _⟩⟩
    have : dictEntries d = [] := by
      apply List.length_eq_zero.1
      rw [← dictSize_eq_length hw]; unfold dictSize; omega
    simp [dictLookup, this]
  · obtain ⟨d1, h1, hw1, hs1⟩ := stepIfRehashing_spec d hw
    simp only [hz, if_false, h1]
    have hz1 : dictSize d1 ≠ 0 := by
      rw [hs1.size_eq hw hw1]; unfold dictSize; omega
    have hs0 := ht0_some_of_size hw1 hz1
    have hlk : ∀ he, he ∈ dictEntries d1 → key = he.key → dictLookup d key = some he := by
      intro he hm hk
      rw [← dictLookup_same hw hs1 key]
      exact (dictLookup_eq_some hw1).2 ⟨hm, hk⟩
    rcases inTable0_spec d1 hw1 hs0 key with
      ⟨hno0, hr0⟩ | ⟨d2, he, hr0, hw2, hty2, hit2, hk, hp⟩
    · rw [hr0]
      by_cases hr : d1.rehashidx = -1
      · have h1nil := entries_nil_of_none (hw1.idle hr)
        refine ⟨d1, hw1, hs1.1, hs1.2.1,
          Or.inl ⟨?_, by simp [dictIsRehashing, hr], hs1.2.2⟩⟩
        rw [← dictLookup_same hw hs1 key, dictLookup_eq_none]
        intro e he
        simp only [dictEntries, h1nil, List.append_nil] at he
        exact hno0 e he
      · have hreh : dictIsRehashing d1 = true := by simp [dictIsRehashing, hr]
        simp only [hreh, Bool.not_true, Bool.false_eq_true, if_false]
        have hs1' := (hw1.busy hr).2.2.2.1
        rcases inTable1_spec d1 hw1 hs1' key with ⟨hno1, hr1⟩ |
          ⟨d2, he, hr1, hw2, hty2, hit2, hk, hp⟩
        · refine ⟨d1, hw1, hs1.1, hs1.2.1, Or.inl ⟨?_, hr1, hs1.2.2⟩⟩
          rw [← dictLookup_same hw hs1 key, dictLookup_eq_none]
          intro e he
          rcases List.mem_append.1 he with h | h
          · exact hno0 e h
          · exact hno1 e h
        · refine ⟨d2, hw2, hty2.trans hs1.1, hit2.trans hs1.2.1, Or.inr ⟨he, ?_, hr1, ?_⟩⟩
          · exact hlk he (hp.mem_iff.2 (List.mem_cons_self _ _)) hk
          · exact hs1.2.2.symm.trans hp
    · rw [hr0]
      refine ⟨d2, hw2, hty2.trans hs1.1, hit2.trans hs1.2.1, Or.inr ⟨he, ?_, rfl, ?_⟩⟩
      · exact hlk he (hp.mem_iff.2 (List.mem_cons_self _ _)) hk
      · exact hs1.2.2.symm.trans hp

/-- The function `dictDelete` on a well-formed dictionary: the entry of the key is gone and the
status tells whether there was one. -/
theorem dictDelete_spec (d : dict K V) (key : K) (hw : WellFormed d) :
    ∃ d1, WellFormed d1 ∧ d1.type = d.type ∧ d1.iterators = d.iterators ∧
      dictDelete d key = some (d1, if (dictLookup d key).isSome then DICT_OK else DICT_ERR) ∧
      (dictEntries d1).Perm ((dictEntries d).filter (fun e => !decide (key = e.key))) := by
  obtain ⟨d1, hw1, hty, hit, hc⟩ := dictGenericDelete_spec d key false hw
  refine ⟨d1, hw1, hty, hit, ?_⟩
  rcases hc with ⟨hl, hres, hp⟩ | ⟨he, hl, hres, hp⟩
  · refine ⟨by simp [dictDelete, hres, hl], ?_⟩
    rw [withoutKey_of_absent key _ (dictLookup_eq_none.1 hl)]
    exact hp
  · refine ⟨by simp [dictDelete, hres, hl], ?_⟩
    have hk : key = he.key := ((dictLookup_eq_some hw).1 hl).2
    rw [hk]
    exact (withoutKey_of_cons_perm hp hw.nodup).symm

theorem find_withoutKey (l : List (dictEntry K V)) (key k : K) :
    (l.filter (fun e => !decide (key = e.key))).find? (fun e => decide (k = e.key)) =
      if k = key then none else l.find? (fun e => decide (k = e.key)) := by
  induction l with
  | nil => simp
  | cons a tl ih =>
    by_cases h1 : key = a.key
    · simp only [List.filter_cons, h1, decide_True, Bool.not_true, Bool.false_eq_true, if_false,
        List.find?_cons]
      rw [← h1, ih]
      by_cases h2 : k = key
      · simp [h2]
      · simp [h2]
    · simp only [List.filter_cons, h1, decide_False, Bool.not_false, if_true, List.find?_cons]
      rw [ih]
      by_cases h2 : k = key
      · subst h2; simp [h1]
      · simp [h2]

theorem dictLookup_of_perm {d1 : dict K V} (hw1 : WellFormed d1)
    {l : List (dictEntry K V)} (hp : (dictEntries d1).Perm l) (k : K) :
    dictLookup d1 k = l.find? (fun e => decide (k = e.key)) :=
  find_key_perm hp hw1.nodup k

theorem dictSize_of_perm {d1 : dict K V} (hw1 : WellFormed d1)
    {l : List (dictEntry K V)} (hp : (dictEntries d1).Perm l) : dictSize d1 = l.length := by
  rw [dictSize_eq_length hw1, hp.length_eq]

theorem dictFind_result (d : dict K V) (k : K) (hw : WellFormed d) :
    (dictFind d k).map Prod.snd = some (dictLookup d k) := by
  obtain ⟨d1, h, -, -⟩ := dictFind_spec d k hw
  rw [h]; rfl

theorem length_withoutKey_of_lookup {d : dict K V} (hw : WellFormed d) (key : K) :
    ((dictEntries d).filter (fun e => !decide (key = e.key))).length +
      (if (dictLookup d key).isSome then 1 else 0) = (dictEntries d).length := by
  cases h : dictLookup d key with
  | none =>
    rw [withoutKey_of_absent key _ (dictLookup_eq_none.1 h)]
    simp
  | some e =>
    obtain ⟨hm, hk⟩ := (dictLookup_eq_some hw).1 h
    obtain ⟨s, t, hst⟩ := List.append_of_mem hm
    have hp : (dictEntries d).Perm (e :: (s ++ t)) := by
      rw [hst]; exact List.perm_middle
    have := (withoutKey_of_cons_perm hp hw.nodup).length_eq
    rw [hk, this, hp.length_eq]
    simp

/-! ### Bit reversal -/

theorem rev_eq (v : Nat) : rev v =
    rev.stage 1 0x5555555555555555 (rev.stage 2 0x3333333333333333
      (rev.stage 4 0x0F0F0F0F0F0F0F0F (rev.stage 8 0x00FF00FF00FF00FF
        (rev.stage 16 0x0000FFFF0000FFFF (rev.stage 32 0xFFFFFFFF v))))) := by
  rfl

theorem mask_bits :
    (∀ j < 64, Nat.testBit 0x5555555555555555 j = decide ((j / 1) % 2 = 0)) ∧
    (∀ j < 64, Nat.testBit 0x3333333333333333 j = decide ((j / 2) % 2 = 0)) ∧
    (∀ j < 64, Nat.testBit 0x0F0F0F0F0F0F0F0F j = decide ((j / 4) % 2 = 0)) ∧
    (∀ j < 64, Nat.testBit 0x00FF00FF00FF00FF j = decide ((j / 8) % 2 = 0)) ∧
    (∀ j < 64, Nat.testBit 0x0000FFFF0000FFFF j = decide ((j / 16) % 2 = 0)) ∧
    (∀ j < 64, Nat.testBit 0xFFFFFFFF j = decide ((j / 32) % 2 = 0)) := by
  decide

theorem source_bounds :
    (∀ j < 64, (j / 1) % 2 = 1 → 1 ≤ j) ∧ (∀ j < 64, (j / 2) % 2 = 1 → 2 ≤ j) ∧
    (∀ j < 64, (j / 4) % 2 = 1 → 4 ≤ j) ∧ (∀ j < 64, (j / 8) % 2 = 1 → 8 ≤ j) ∧
    (∀ j < 64, (j / 16) % 2 = 1 → 16 ≤ j) ∧
    (∀ j < 64, (j / 32) % 2 = 1 → 32 ≤ j) := by
  decide

theorem source_all : ∀ i < 64,
    rev.source 1 i < 64 ∧ rev.source 2 (rev.source 1 i) < 64 ∧
    rev.source 4 (rev.source 2 (rev.source 1 i)) < 64 ∧
    rev.source 8 (rev.source 4 (rev.source 2 (rev.source 1 i))) < 64 ∧
    rev.source 16 (rev.source 8 (rev.source 4 (rev.source 2 (rev.source 1 i)))) < 64 ∧
    rev.source 32 (rev.source 16 (rev.source 8 (rev.source 4 (rev.source 2 (rev.source 1 i)))))
      = 63 - i := by
  decide

theorem stage_testBit (s M v i : Nat) (hM64 : M < 2 ^ 64)
    (hM : ∀ j < 64, Nat.testBit M j = decide ((j / s) % 2 = 0))
    (hs : ∀ j < 64, (j / s) % 2 = 1 → s ≤ j) :
    Nat.testBit (rev.stage s M v) i = (decide (i < 64) && Nat.testBit v (rev.source s i)) := by
  have hM' : ∀ j, Nat.testBit M j = decide (j < 64 ∧ (j / s) % 2 = 0) := by
    intro j
    by_cases hj : j < 64
    · rw [hM j hj]; simp [hj]
    · have : M < 2 ^ j := lt_of_lt_of_le hM64 (Nat.pow_le_pow_right (by norm_num) (by omega))
      rw [Nat.testBit_lt_two_pow this]; simp [hj]
  unfold rev.stage ulNot ULONG_RANGE rev.source
  rw [Nat.mod_eq_of_lt hM64]
  have h1 : 2 ^ 64 - 1 - M = 2 ^ 64 - (M + 1) := by omega
  rw [h1]
  simp only [Nat.testBit_or, Nat.testBit_and, Nat.testBit_shiftRight, Nat.testBit_mod_two_pow,
    Nat.testBit_shiftLeft, Nat.testBit_two_pow_sub_succ hM64, hM']
  by_cases hi : i < 64
  · by_cases hb : (i / s) % 2 = 0
    · simp only [hi, hb, and_self, decide_True, Bool.and_true, Bool.not_true, Bool.and_false,
        Bool.or_false, if_true, Bool.true_and]
      rw [Nat.add_comm]
    · have hb1 : (i / s) % 2 = 1 := by omega
      have := hs i hi hb1
      simp [hi, hb, this]
  · simp [hi]

/-- The function `rev` reverses the 64 bits of its argument. -/
theorem rev_testBit (v i : Nat) :
    Nat.testBit (rev v) i = (decide (i < 64) && Nat.testBit v (63 - i)) := by
  by_cases hi : i < 64
  · obtain ⟨m1, m2, m4, m8, m16, m32⟩ := mask_bits
    obtain ⟨b1, b2, b4, b8, b16, b32⟩ := source_bounds
    obtain ⟨h1, h2, h4, h8, h16, h32⟩ := source_all i hi
    rw [rev_eq, stage_testBit 1 _ _ _ (by norm_num) m1 b1,
      stage_testBit 2 _ _ _ (by norm_num) m2 b2, stage_testBit 4 _ _ _ (by norm_num) m4 b4,
      stage_testBit 8 _ _ _ (by norm_num) m8 b8, stage_testBit 16 _ _ _ (by norm_num) m16 b16,
      stage_testBit 32 _ _ _ (by norm_num) m32 b32, h32]
    simp [hi, h1, h2, h4, h8, h16]
  · obtain ⟨m1, -⟩ := mask_bits
    obtain ⟨b1, -⟩ := source_bounds
    rw [rev_eq, stage_testBit 1 _ _ _ (by norm_num) m1 b1]
    simp [hi]

theorem rev_lt (v : Nat) : rev v < 2 ^ 64 := by
  apply Nat.lt_pow_two_of_testBit
  intro i hi
  rw [rev_testBit]
  simp; omega

theorem rev_rev (v : Nat) : rev (rev v) = v % 2 ^ 64 := by
  apply Nat.eq_of_testBit_eq
  intro i
  rw [rev_testBit, rev_testBit, Nat.testBit_mod_two_pow]
  by_cases hi : i < 64
  · have : 63 - (63 - i) = i := by omega
    simp [hi, this]; omega
  · simp [hi]

theorem rev_rev_of_lt {v : Nat} (h : v < 2 ^ 64) : rev (rev v) = v := by
  rw [rev_rev, Nat.mod_eq_of_lt h]

/-! ### The reversed cursor -/

theorem or_low_ones (x s : Nat) : x ||| (2 ^ s - 1) = x / 2 ^ s * 2 ^ s + (2 ^ s - 1) := by
  apply Nat.eq_of_testBit_eq
  intro j
  have hlt : 2 ^ s - 1 < 2 ^ s := Nat.sub_lt (by positivity) (by norm_num)
  rw [Nat.mul_comm, Nat.testBit_mul_pow_two_add _ hlt, Nat.testBit_or,
    Nat.testBit_two_pow_sub_one]
  by_cases hj : j < s
  · simp [hj]
  · simp only [hj, decide_False, Bool.or_false, if_false]
    rw [← Nat.shiftRight_eq_div_pow, Nat.testBit_shiftRight]
    congr 1; omega

theorem ulNot_mask (k : Nat) (hk : k ≤ 64) : ulNot (2 ^ k - 1) = 2 ^ 64 - 2 ^ k := by
  unfold ulNot ULONG_RANGE
  have h1 : 2 ^ k ≤ 2 ^ 64 := Nat.pow_le_pow_right (by norm_num) hk
  have h2 : 0 < 2 ^ k := by positivity
  rw [Nat.mod_eq_of_lt (by omega)]
  omega

theorem ulNot_mask_testBit (k : Nat) (hk : k ≤ 64) (i : Nat) :
    Nat.testBit (ulNot (2 ^ k - 1)) i = (decide (i < 64) && !decide (i < k)) := by
  unfold ulNot ULONG_RANGE
  have h1 : 2 ^ k ≤ 2 ^ 64 := Nat.pow_le_pow_right (by norm_num) hk
  have h2 : 0 < 2 ^ k := by positivity
  have h3 : 2 ^ k - 1 < 2 ^ 64 := by omega
  rw [Nat.mod_eq_of_lt h3]
  have h4 : 2 ^ 64 - 1 - (2 ^ k - 1) = 2 ^ 64 - ((2 ^ k - 1) + 1) := by omega
  rw [h4, Nat.testBit_two_pow_sub_succ h3, Nat.testBit_two_pow_sub_one]

theorem rev_or_ulNot (v k : Nat) (hk : k ≤ 64) :
    rev (v ||| ulNot (2 ^ k - 1)) = rev v ||| (2 ^ (64 - k) - 1) := by
  apply Nat.eq_of_testBit_eq
  intro j
  rw [rev_testBit, Nat.testBit_or, Nat.testBit_or, rev_testBit, ulNot_mask_testBit k hk,
    Nat.testBit_two_pow_sub_one]
  by_cases hj : j < 64
  · have h1 : 63 - j < 64 := by omega
    simp only [hj, h1, decide_True, Bool.true_and]
    congr 1
    by_cases h2 : j < 64 - k
    · have : ¬ (63 - j < k) := by omega
      simp [h2, this]
    · have : 63 - j < k := by omega
      simp [h2, this]
  · have : ¬ (j < 64 - k) := by omega
    simp [hj, this]

/-- The effect of the cursor advance on the bit-reversed cursor: the top `k` bits are
incremented and the bits below are cleared. -/
theorem rev_advance (v k : Nat) (hk : k ≤ 64) :
    rev (dictScan.advance v (2 ^ k - 1)) =
      ((rev v / 2 ^ (64 - k) + 1) * 2 ^ (64 - k)) % 2 ^ 64 := by
  unfold dictScan.advance ULONG_RANGE
  rw [rev_rev_of_lt (Nat.mod_lt _ (by norm_num)), rev_or_ulNot v k hk, or_low_ones]
  have h2 : 0 < 2 ^ (64 - k) := by positivity
  congr 1
  rw [Nat.add_mul, Nat.one_mul]
  omega

theorem advance_lt (v m : Nat) : dictScan.advance v m < 2 ^ 64 := rev_lt _

/-- Two words select the same slot of a table of `2^k` slots exactly when the top `k` bits of
their reversals agree. -/
theorem mask_eq_iff (h v k : Nat) (hk : k ≤ 64) :
    h &&& (2 ^ k - 1) = v &&& (2 ^ k - 1) ↔
      rev h / 2 ^ (64 - k) = rev v / 2 ^ (64 - k) := by
  rw [Nat.and_pow_two_sub_one_eq_mod, Nat.and_pow_two_sub_one_eq_mod]
  constructor
  · intro heq
    apply Nat.eq_of_testBit_eq
    intro j
    rw [← Nat.shiftRight_eq_div_pow, ← Nat.shiftRight_eq_div_pow, Nat.testBit_shiftRight,
      Nat.testBit_shiftRight, rev_testBit, rev_testBit]
    by_cases hj : 64 - k + j < 64
    · have h1 : 63 - (64 - k + j) < k := by omega
      have h2 := congrArg (fun x => Nat.testBit x (63 - (64 - k + j))) heq
      simp only [Nat.testBit_mod_two_pow, h1, decide_True, Bool.true_and] at h2
      simp [hj, h2]
    · simp [hj]
  · intro heq
    apply Nat.eq_of_testBit_eq
    intro i
    rw [Nat.testBit_mod_two_pow, Nat.testBit_mod_two_pow]
    by_cases hi : i < k
    · have h2 := congrArg (fun x => Nat.testBit x (k - 1 - i)) heq
      simp only [← Nat.shiftRight_eq_div_pow, Nat.testBit_shiftRight, rev_testBit] at h2
      have h3 : 64 - k + (k - 1 - i) < 64 := by omega
      have h4 : 63 - (64 - k + (k - 1 - i)) = i := by omega
      simp only [h3, decide_True, Bool.true_and, h4] at h2
      simp [hi, h2]
    · simp [hi]

theorem and_eq_zero_iff_testBit (x M : Nat) :
    x &&& M = 0 ↔ ∀ i, Nat.testBit M i = true → Nat.testBit x i = false := by
  constructor
  · intro h i hM
    have := congrArg (fun y => Nat.testBit y i) h
    simp only [Nat.testBit_and, hM, Bool.and_true, Nat.zero_testBit] at this
    exact this
  · intro h
    apply Nat.eq_of_testBit_eq
    intro i
    rw [Nat.testBit_and, Nat.zero_testBit]
    cases hM : Nat.testBit M i
    · simp
    · simp [h i hM]

theorem mod_two_pow_eq_zero_iff_testBit (y n : Nat) :
    y % 2 ^ n = 0 ↔ ∀ j < n, Nat.testBit y j = false := by
  constructor
  · intro h j hj
    have := congrArg (fun z => Nat.testBit z j) h
    simpa [Nat.testBit_mod_two_pow, hj] using this
  · intro h
    apply Nat.eq_of_testBit_eq
    intro j
    rw [Nat.testBit_mod_two_pow, Nat.zero_testBit]
    by_cases hj : j < n
    · simp [h j hj]
    · simp [hj]

/-- The loop test `v & (m0 ^ m1)` of `dictScan` on the reversed cursor. -/
theorem scan_test_iff (x k0 k1 : Nat) (h01 : k0 ≤ k1) (hk1 : k1 ≤ 64) :
    x &&& ((2 ^ k0 - 1) ^^^ (2 ^ k1 - 1)) = 0 ↔
      (rev x / 2 ^ (64 - k1)) % 2 ^ (k1 - k0) = 0 := by
  rw [and_eq_zero_iff_testBit, mod_two_pow_eq_zero_iff_testBit]
  simp only [Nat.testBit_xor, Nat.testBit_two_pow_sub_one, ← Nat.shiftRight_eq_div_pow,
    Nat.testBit_shiftRight, rev_testBit]
  constructor
  · intro h j hj
    have h1 : 64 - k1 + j < 64 := by omega
    have h2 := h (63 - (64 - k1 + j)) (by
      have a : ¬ (63 - (64 - k1 + j) < k0) := by omega
      have b : 63 - (64 - k1 + j) < k1 := by omega
      simp [a, b])
    simp [h1, h2]
  · intro h i hi
    have hi' : ¬ (i < k0) ∧ i < k1 := by
      by_cases a : i < k0 <;> by_cases b : i < k1 <;> simp [a, b] at hi ⊢
      omega
    have h2 := h (k1 - 1 - i) (by omega)
    have h3 : 64 - k1 + (k1 - 1 - i) < 64 := by omega
    have h4 : 63 - (64 - k1 + (k1 - 1 - i)) = i := by omega
    simpa [h3, h4] using h2

theorem rev_div_lt (v k : Nat) (hk : k ≤ 64) : rev v / 2 ^ (64 - k) < 2 ^ k := by
  rw [Nat.div_lt_iff_lt_mul (by positivity), ← pow_add]
  have : k + (64 - k) = 64 := by omega
  rw [this]
  exact rev_lt v

theorem mul_pow_mod_div (q k : Nat) (hk : k ≤ 64) :
    (q * 2 ^ (64 - k)) % 2 ^ 64 / 2 ^ (64 - k) = q % 2 ^ k := by
  have h64 : (2 : Nat) ^ 64 = 2 ^ (64 - k) * 2 ^ k := by
    rw [← pow_add]; congr 1; omega
  rw [h64, Nat.mul_comm q, Nat.mul_mod_mul_left,
    Nat.mul_div_cancel_left _ (by positivity : 0 < 2 ^ (64 - k))]

/-! ### One call of `dictScan` -/

theorem bucket_of_rev {ty : dictType K} {ht : dictht K V} (hw : ht.Shaped ty)
    (hs : ht.table.isSome = true) (k : Nat) (hk : k ≤ 64) (hsz : ht.size = 2 ^ k) (v : Nat) :
    ∃ b, ht.slot (v &&& ht.sizemask) = some b ∧
      ∀ e ∈ ht.entries,
        rev (ty.hashFunction e.key % ULONG_RANGE) / 2 ^ (64 - k) = rev v / 2 ^ (64 - k) →
        e ∈ b := by
  have hi := hw.idx_lt hs v
  refine ⟨_, slot_eq_getElem hs _ hi, ?_⟩
  intro e he heq
  obtain ⟨hi', hsl, -, hin⟩ := bucket_lookup hw hs e.key _ rfl
  have hm : ht.sizemask = 2 ^ k - 1 := by rw [hw.mask, hsz]
  have hidx : ty.hashFunction e.key % ULONG_RANGE &&& ht.sizemask = v &&& ht.sizemask := by
    rw [hm]; exact (mask_eq_iff _ _ k hk).2 heq
  have h1 := hin e he rfl
  have h2 : ht.slot (v &&& ht.sizemask) =
      some ht.slots[ty.hashFunction e.key % ULONG_RANGE &&& ht.sizemask] := by
    rw [← hidx]; exact hsl
  rw [slot_eq_getElem hs _ hi] at h2
  rw [Option.some.inj h2]
  exact h1

theorem succ_div_of_not_dvd (c D : Nat) (h : (c + 1) % D ≠ 0) : (c + 1) / D = c / D := by
  rw [Nat.succ_div]
  have : ¬ D ∣ c + 1 := fun hd => h (Nat.mod_eq_zero_of_dvd hd)
  simp [this]

theorem expansions_spec {ty : dictType K} {t1 : dictht K V} (hw : t1.Shaped ty)
    (hs : t1.table.isSome = true) (k0 k1 : Nat) (h01 : k0 ≤ k1) (hk1 : k1 ≤ 64)
    (hsz : t1.size = 2 ^ k1) (fuel v : Nat)
    (hf : (rev v / 2 ^ (64 - k1) / 2 ^ (k1 - k0) + 1) * 2 ^ (k1 - k0) -
      rev v / 2 ^ (64 - k1) ≤ fuel) :
    ∃ v1 es, dictScan.expansions t1 (2 ^ k0 - 1) (2 ^ k1 - 1) fuel v = some (v1, es) ∧
      v1 < 2 ^ 64 ∧
      rev v1 = ((rev v / 2 ^ (64 - k1) / 2 ^ (k1 - k0) + 1) * 2 ^ (k1 - k0) *
        2 ^ (64 - k1)) % 2 ^ 64 ∧
      ∀ e ∈ t1.entries,
        rev v / 2 ^ (64 - k1) ≤ rev (ty.hashFunction e.key % ULONG_RANGE) / 2 ^ (64 - k1) →
        rev (ty.hashFunction e.key % ULONG_RANGE) / 2 ^ (64 - k1) <
          (rev v / 2 ^ (64 - k1) / 2 ^ (k1 - k0) + 1) * 2 ^ (k1 - k0) →
        e ∈ es := by
  induction fuel generalizing v with
  | zero =>
    exfalso
    have hD : 0 < 2 ^ (k1 - k0) := by positivity
    have := Nat.lt_succ_self (rev v / 2 ^ (64 - k1) / 2 ^ (k1 - k0))
    have h2 := Nat.div_mul_le_self (rev v / 2 ^ (64 - k1)) (2 ^ (k1 - k0))
    have h3 := Nat.lt_div_mul_add hD (a := rev v / 2 ^ (64 - k1))
    rw [Nat.add_mul, Nat.one_mul] at hf
    omega
  | succ fuel ih =>
    set c := rev v / 2 ^ (64 - k1) with hc
    set D := 2 ^ (k1 - k0) with hDdef
    have hD : 0 < D := by positivity
    have hm1 : t1.sizemask = 2 ^ k1 - 1 := by rw [hw.mask, hsz]
    obtain ⟨b, hsl, hb⟩ := bucket_of_rev hw hs k1 hk1 hsz v
    rw [hm1] at hsl
    unfold dictScan.expansions
    simp only [hsl]
    have hrev1 := rev_advance v k1 hk1
    rw [← hc] at hrev1
    have hc1 : rev (dictScan.advance v (2 ^ k1 - 1)) / 2 ^ (64 - k1) = (c + 1) % 2 ^ k1 := by
      rw [hrev1, mul_pow_mod_div _ _ hk1]
    have hdvd : D ∣ 2 ^ k1 := by
      rw [hDdef]; exact Nat.pow_dvd_pow 2 (by omega)
    have htest := scan_test_iff (dictScan.advance v (2 ^ k1 - 1)) k0 k1 h01 hk1
    rw [hc1, ← hDdef, Nat.mod_mod_of_dvd _ hdvd] at htest
    have hclt : c < 2 ^ k1 := rev_div_lt v k1 hk1
    have hdm := Nat.div_add_mod c D
    have hmlt := Nat.mod_lt c hD
    by_cases hstop : (c + 1) % D = 0
    · -- the loop ends after this bucket
      have hz := htest.2 hstop
      have hend : (c / D + 1) * D = c + 1 := by
        have h1 := Nat.div_add_mod (c + 1) D
        rw [hstop] at h1
        have h2 : (c + 1) / D = c / D + 1 := by
          rw [Nat.succ_div]; simp [Nat.dvd_of_mod_eq_zero hstop]
        rw [h2] at h1
        rw [Nat.mul_comm]; omega
      refine ⟨dictScan.advance v (2 ^ k1 - 1), b, by simp [hz], advance_lt _ _, ?_, ?_⟩
      · rw [hrev1, hend]
      · intro e he h1 h2
        rw [hend] at h2
        exact hb e he (by omega)
    · -- one more expansion
      have hnz : ¬ (dictScan.advance v (2 ^ k1 - 1) &&& ((2 ^ k0 - 1) ^^^ (2 ^ k1 - 1)) = 0) :=
        fun h => hstop (htest.1 h)
      have hc1lt : c + 1 < 2 ^ k1 := by
        by_contra hge
        have : c + 1 = 2 ^ k1 := by omega
        rw [this] at hstop
        exact hstop (Nat.mod_eq_zero_of_dvd hdvd)
      have hc1' : rev (dictScan.advance v (2 ^ k1 - 1)) / 2 ^ (64 - k1) = c + 1 := by
        rw [hc1, Nat.mod_eq_of_lt hc1lt]
      have hdiv : (c + 1) / D = c / D := succ_div_of_not_dvd c D hstop
      obtain ⟨v2, es, h1, h2, h3, h4⟩ := ih (dictScan.advance v (2 ^ k1 - 1)) (by
        rw [hc1', hdiv]
        omega)
      rw [hc1', hdiv] at h3 h4
      refine ⟨v2, b ++ es, by simp [hnz, h1], h2, h3, ?_⟩
      intro e he h5 h6
      by_cases heq : rev (ty.hashFunction e.key % ULONG_RANGE) / 2 ^ (64 - k1) = c
      · exact List.mem_append_left _ (hb e he heq)
      · exact List.mem_append_right _ (h4 e he (by omega) h6)

theorem cursor_progress (P k : Nat) (hP : P < 2 ^ 64) (hk : k ≤ 64) :
    P < (P / 2 ^ (64 - k) + 1) * 2 ^ (64 - k) ∧
    (P / 2 ^ (64 - k) + 1) * 2 ^ (64 - k) ≤ 2 ^ 64 ∧
    ∀ H, H < (P / 2 ^ (64 - k) + 1) * 2 ^ (64 - k) →
      H < P ∨ H / 2 ^ (64 - k) = P / 2 ^ (64 - k) := by
  have hs : 0 < 2 ^ (64 - k) := by positivity
  have h64 : (2 : Nat) ^ 64 = 2 ^ k * 2 ^ (64 - k) := by
    rw [← pow_add]; congr 1; omega
  have hq : P / 2 ^ (64 - k) < 2 ^ k := by
    rw [Nat.div_lt_iff_lt_mul hs, ← h64]; exact hP
  refine ⟨?_, ?_, ?_⟩
  · have := Nat.lt_div_mul_add hs (a := P)
    rw [Nat.add_mul, Nat.one_mul]; exact this
  · rw [h64]
    exact Nat.mul_le_mul_right _ hq
  · intro H hH
    have h1 : H / 2 ^ (64 - k) < P / 2 ^ (64 - k) + 1 := by
      rw [Nat.div_lt_iff_lt_mul hs]; exact hH
    by_cases h2 : H / 2 ^ (64 - k) = P / 2 ^ (64 - k)
    · exact Or.inr h2
    · left
      have h3 : H / 2 ^ (64 - k) < P / 2 ^ (64 - k) := by omega
      have h4 : H < P / 2 ^ (64 - k) * 2 ^ (64 - k) := by
        rw [← Nat.div_lt_iff_lt_mul hs]; exact h3
      exact lt_of_lt_of_le h4 (Nat.div_mul_le_self _ _)

theorem rev_zero : rev 0 = 0 := by decide

theorem wrap_cases (v1 N P : Nat) (hv1 : v1 < 2 ^ 64) (hrev : rev v1 = N % 2 ^ 64)
    (hN : N ≤ 2 ^ 64) (hPN : P < N) :
    (v1 = 0 ∨ P < rev v1) ∧ ∀ H, H < 2 ^ 64 → (v1 = 0 ∨ H < rev v1) → H < N := by
  by_cases h : N = 2 ^ 64
  · have h0 : rev v1 = 0 := by rw [hrev, h]; simp
    have hv0 : v1 = 0 := by
      have := rev_rev_of_lt hv1
      rw [h0, rev_zero] at this
      exact this.symm
    exact ⟨Or.inl hv0, fun H hH _ => by omega⟩
  · have hlt : N < 2 ^ 64 := by omega
    rw [Nat.mod_eq_of_lt hlt] at hrev
    refine ⟨Or.inr (by omega), ?_⟩
    intro H _ hc
    rcases hc with hc | hc
    · rw [hc, rev_zero] at hrev; omega
    · omega

theorem scan_one_table {ty : dictType K} {ht : dictht K V} (hw : ht.Shaped ty)
    (hs : ht.table.isSome = true) (v : Nat) :
    ∃ b, ht.slot (v &&& ht.sizemask) = some b ∧
      dictScan.advance v ht.sizemask < 2 ^ 64 ∧
      (dictScan.advance v ht.sizemask = 0 ∨ rev v < rev (dictScan.advance v ht.sizemask)) ∧
      ∀ e ∈ ht.entries,
        (dictScan.advance v ht.sizemask = 0 ∨
          rev (ty.hashFunction e.key % ULONG_RANGE) < rev (dictScan.advance v ht.sizemask)) →
        rev (ty.hashFunction e.key % ULONG_RANGE) < rev v ∨ e ∈ b := by
  obtain ⟨k, hk, hsz⟩ := hw.pow2 hs
  have hk' : k ≤ 64 := by omega
  have hm : ht.sizemask = 2 ^ k - 1 := by rw [hw.mask, hsz]
  obtain ⟨b, hsl, hb⟩ := bucket_of_rev hw hs k hk' hsz v
  obtain ⟨hp1, hp2, hp3⟩ := cursor_progress (rev v) k (rev_lt v) hk'
  have hrev := rev_advance v k hk'
  rw [← hm] at hrev
  obtain ⟨hw1, hw2⟩ := wrap_cases _ _ _ (advance_lt v ht.sizemask) hrev hp2 hp1
  refine ⟨b, hsl, advance_lt _ _, hw1, ?_⟩
  intro e he hc
  rcases hp3 _ (hw2 _ (rev_lt _) hc) with h | h
  · exact Or.inl h
  · exact Or.inr (hb e he h)

theorem scan_two_tables {ty : dictType K} {ts tl : dictht K V} (hws : ts.Shaped ty)
    (hwl : tl.Shaped ty) (hss : ts.table.isSome = true) (hsl : tl.table.isSome = true)
    (hle : ts.size ≤ tl.size) (v : Nat) :
    ∃ b v1 es, ts.slot (v &&& ts.sizemask) = some b ∧
      dictScan.expansions tl ts.sizemask tl.sizemask ULONG_RANGE v = some (v1, es) ∧
      v1 < 2 ^ 64 ∧ (v1 = 0 ∨ rev v < rev v1) ∧
      ∀ e, e ∈ ts.entries ∨ e ∈ tl.entries →
        (v1 = 0 ∨ rev (ty.hashFunction e.key % ULONG_RANGE) < rev v1) →
        rev (ty.hashFunction e.key % ULONG_RANGE) < rev v ∨ e ∈ b ++ es := by
  obtain ⟨k0, hk0, hsz0⟩ := hws.pow2 hss
  obtain ⟨k1, hk1, hsz1⟩ := hwl.pow2 hsl
  have hk0' : k0 ≤ 64 := by omega
  have hk1' : k1 ≤ 64 := by omega
  have h01 : k0 ≤ k1 := by
    rw [hsz0, hsz1] at hle
    exact (Nat.pow_le_pow_iff_right (by norm_num)).1 hle
  have hm0 : ts.sizemask = 2 ^ k0 - 1 := by rw [hws.mask, hsz0]
  have hm1 : tl.sizemask = 2 ^ k1 - 1 := by rw [hwl.mask, hsz1]
  obtain ⟨b, hslot, hb⟩ := bucket_of_rev hws hss k0 hk0' hsz0 v
  have hD : 0 < 2 ^ (k1 - k0) := by positivity
  have hs1 : 0 < 2 ^ (64 - k1) := by positivity
  have hpow : 2 ^ (64 - k1) * 2 ^ (k1 - k0) = 2 ^ (64 - k0) := by
    rw [← pow_add]; congr 1; omega
  have hcD : rev v / 2 ^ (64 - k1) / 2 ^ (k1 - k0) = rev v / 2 ^ (64 - k0) := by
    rw [Nat.div_div_eq_div_mul, hpow]
  have hfuel : (rev v / 2 ^ (64 - k1) / 2 ^ (k1 - k0) + 1) * 2 ^ (k1 - k0) -
      rev v / 2 ^ (64 - k1) ≤ ULONG_RANGE := by
    have h2 : 2 ^ (k1 - k0) ≤ 2 ^ 64 := Nat.pow_le_pow_right (by norm_num) (by omega)
    have h4 := Nat.div_mul_le_self (rev v / 2 ^ (64 - k1)) (2 ^ (k1 - k0))
    rw [Nat.add_mul, Nat.one_mul]
    unfold ULONG_RANGE
    generalize rev v / 2 ^ (64 - k1) / 2 ^ (k1 - k0) * 2 ^ (k1 - k0) = A at h4 ⊢
    generalize rev v / 2 ^ (64 - k1) = B at h4 ⊢
    generalize 2 ^ (k1 - k0) = C at h2 ⊢
    omega
  obtain ⟨v1, es, hex, hv1, hrev, hes⟩ :=
    expansions_spec hwl hsl k0 k1 h01 hk1' hsz1 ULONG_RANGE v hfuel
  rw [hcD] at hrev hes
  have hN : (rev v / 2 ^ (64 - k0) + 1) * 2 ^ (k1 - k0) * 2 ^ (64 - k1) =
      (rev v / 2 ^ (64 - k0) + 1) * 2 ^ (64 - k0) := by
    rw [Nat.mul_assoc, Nat.mul_comm (2 ^ (k1 - k0)), hpow]
  rw [hN] at hrev
  obtain ⟨hp1, hp2, hp3⟩ := cursor_progress (rev v) k0 (rev_lt v) hk0'
  obtain ⟨hw1, hw2⟩ := wrap_cases _ _ _ hv1 hrev hp2 hp1
  refine ⟨b, v1, es, hslot, by rw [hm0, hm1]; exact hex, hv1, hw1, ?_⟩
  intro e he hc
  have hH := hw2 _ (rev_lt _) hc
  rcases he with he | he
  · rcases hp3 _ hH with h | h
    · exact Or.inl h
    · exact Or.inr (List.mem_append_left _ (hb e he h))
  · by_cases hge : rev v / 2 ^ (64 - k1) ≤
        rev (ty.hashFunction e.key % ULONG_RANGE) / 2 ^ (64 - k1)
    · right
      apply List.mem_append_right
      apply hes e he hge
      rw [Nat.div_lt_iff_lt_mul hs1, hN]
      exact hH
    · left
      have h1 : rev (ty.hashFunction e.key % ULONG_RANGE) / 2 ^ (64 - k1) <
          rev v / 2 ^ (64 - k1) := by omega
      have h2 := (Nat.div_lt_iff_lt_mul hs1).1 h1
      exact lt_of_lt_of_le h2 (Nat.div_mul_le_self _ _)

theorem dict_iterators_restore (d : dict K V) :
    ({ ({ d with iterators := d.iterators + 1 } : dict K V) with
        iterators := ({ d with iterators := d.iterators + 1 } : dict K V).iterators - 1 }
      : dict K V) = d := by
  cases d
  simp

/-- One call of `dictScan` on a well-formed dictionary: it returns, leaves the dictionary as it
was, moves the reversed cursor forward (or returns 0), and has visited every entry whose
reversed hash lies between the old and the new reversed cursor. -/
theorem dictScan_step (d : dict K V) (v : Nat) (hw : WellFormed d) :
    ∃ v1 es, dictScan d v = some (d, v1, es) ∧ v1 < 2 ^ 64 ∧ (v1 = 0 ∨ rev v < rev v1) ∧
      ∀ e ∈ dictEntries d,
        (v1 = 0 ∨ rev (d.type.hashFunction e.key % ULONG_RANGE) < rev v1) →
        rev (d.type.hashFunction e.key % ULONG_RANGE) < rev v ∨ e ∈ es := by
  unfold dictScan
  by_cases hz : dictSize d = 0
  · refine ⟨0, [], by simp [hz], by norm_num, Or.inl rfl, ?_⟩
    have : dictEntries d = [] := by
      apply List.length_eq_zero.1; rw [← dictSize_eq_length hw]; exact hz
    intro e he
    rw [this] at he
    simp at he
  · simp only [hz, if_false]
    have hs0 := ht0_some_of_size hw hz
    by_cases hr : d.rehashidx = -1
    · have hreh :
          dictIsRehashing ({ d with iterators := d.iterators + 1 } : dict K V) = false := by
        simp [dictIsRehashing, hr]
      obtain ⟨b, hsl, h1, h2, h3⟩ := scan_one_table hw.wf0.shaped hs0 v
      simp only [hreh, Bool.not_false, if_true, hsl, Option.map_some', dict_iterators_restore]
      refine ⟨_, _, rfl, h1, h2, ?_⟩
      intro e he
      have h1nil := entries_nil_of_none (hw.idle hr)
      simp only [dictEntries, h1nil, List.append_nil] at he
      exact h3 e he
    · have hreh :
          dictIsRehashing ({ d with iterators := d.iterators + 1 } : dict K V) = true := by
        simp [dictIsRehashing, hr]
      have hs1 := (hw.busy hr).2.2.2.1
      simp only [hreh, Bool.not_true, Bool.false_eq_true, if_false]
      by_cases hgt : d.ht0.size > d.ht1.size
      · obtain ⟨b, v1, es, hsl, hex, h1, h2, h3⟩ :=
          scan_two_tables hw.wf1.shaped hw.wf0.shaped hs1 hs0 (by omega) v
        simp only [hgt, if_true, hsl, hex, Option.map_some', dict_iterators_restore]
        refine ⟨_, _, rfl, h1, h2, ?_⟩
        intro e he
        exact h3 e ((List.mem_append.1 he).symm)
      · obtain ⟨b, v1, es, hsl, hex, h1, h2, h3⟩ :=
          scan_two_tables hw.wf0.shaped hw.wf1.shaped hs0 hs1 (by omega) v
        simp only [hgt, if_false, hsl, hex, Option.map_some', dict_iterators_restore]
        refine ⟨_, _, rfl, h1, h2, ?_⟩
        intro e he
        exact h3 e (List.mem_append.1 he)

theorem dictScanAll_spec (d : dict K V) (hw : WellFormed d) (n v : Nat)
    (hn : 2 ^ 64 - rev v ≤ n) :
    ∃ es, dictScanAll d n v = some es ∧
      ∀ e ∈ dictEntries d,
        rev (d.type.hashFunction e.key % ULONG_RANGE) < rev v ∨ e ∈ es := by
  induction n generalizing v with
  | zero => have := rev_lt v; omega
  | succ n ih =>
    obtain ⟨v1, es1, hsc, hv1, hprog, hvis⟩ := dictScan_step d v hw
    unfold dictScanAll
    simp only [hsc]
    by_cases h0 : v1 = 0
    · simp only [h0, if_true]
      refine ⟨es1, rfl, ?_⟩
      intro e he
      exact hvis e he (Or.inl h0)
    · have hlt : rev v < rev v1 := by
        rcases hprog with h | h
        · exact absurd h h0
        · exact h
      obtain ⟨es2, h2, hvis2⟩ := ih v1 (by omega)
      refine ⟨es1 ++ es2, by simp [h0, h2], ?_⟩
      intro e he
      rcases hvis2 e he with h | h
      · rcases hvis e he (Or.inr h) with h' | h'
        · exact Or.inl h'
        · exact Or.inr (List.mem_append_left _ h')
      · exact Or.inr (List.mem_append_right _ h)

theorem dictScanCalls_spec (d : dict K V) (hw : WellFormed d) (n v0 v : Nat)
    (es : List (dictEntry K V)) (h : dictScanCalls d n v0 = some (v, es)) :
    ∀ e ∈ dictEntries d, rev (d.type.hashFunction e.key % ULONG_RANGE) < rev v →
      rev (d.type.hashFunction e.key % ULONG_RANGE) < rev v0 ∨ e ∈ es := by
  induction n generalizing v0 es with
  | zero =>
    simp only [dictScanCalls, Option.some.injEq, Prod.mk.injEq] at h
    obtain ⟨rfl, rfl⟩ := h
    intro e _ hlt
    exact Or.inl hlt
  | succ n ih =>
    obtain ⟨v1, es1, hsc, hv1, hprog, hvis⟩ := dictScan_step d v0 hw
    unfold dictScanCalls at h
    simp only [hsc, Option.map_eq_some'] at h
    obtain ⟨⟨v2, es2⟩, hrec, heq⟩ := h
    simp only [Prod.mk.injEq] at heq
    obtain ⟨rfl, rfl⟩ := heq
    intro e he hlt
    rcases ih v1 es2 hrec e he hlt with h' | h'
    · rcases hvis e he (Or.inr h') with h'' | h''
      · exact Or.inl h''
      · exact Or.inr (List.mem_append_left _ h'')
    · exact Or.inr (List.mem_append_right _ h')

/-! ### Claims -/

theorem dictRehashMany_spec (d : dict K V) (ns : List Nat) (hw : WellFormed d) :
    ∃ d1, dictRehashMany d ns = some d1 ∧ WellFormed d1 ∧ SameContents d d1 := by
  induction ns generalizing d with
  | nil => exact ⟨d, rfl, hw, SameContents.refl d⟩
  | cons n ns ih =>
    obtain ⟨d1, r, h1, hw1, hs1⟩ := dictRehash_spec d n hw
    obtain ⟨d2, h2, hw2, hs2⟩ := ih d1 hw1
    exact ⟨d2, by simp [dictRehashMany, h1, h2], hw2, hs1.trans hs2⟩

/-- C2: on a well-formed dictionary, after any sequence of `dictRehash(d, n)` calls (hence at
every intermediate point of a migration and after it completes) `dictFind` returns, for every
key, the same entry as before, and `dictSize` is unchanged; a stored key is therefore found
with its key and value throughout. -/
theorem C2_rehash_preserves_find (d : dict K V) (ns : List Nat) (key : K) (e : dictEntry K V)
    (hw : WellFormed d) (_hr : dictIsRehashing d = true) (he : e ∈ dictEntries d)
    (hk : e.key = key) :
    ∃ d1, dictRehashMany d ns = some d1 ∧ dictSize d1 = dictSize d ∧
      (dictFind d key).map Prod.snd = some (some e) ∧
      (dictFind d1 key).map Prod.snd = some (some e) := by
  obtain ⟨d1, h1, hw1, hs1⟩ := dictRehashMany_spec d ns hw
  refine ⟨d1, h1, hs1.size_eq hw hw1, ?_, ?_⟩
  · rw [dictFind_result d key hw, (dictLookup_eq_some hw).2 ⟨he, hk.symm⟩]
  · rw [dictFind_result d1 key hw1, dictLookup_same hw hs1,
      (dictLookup_eq_some hw).2 ⟨he, hk.symm⟩]

/-- C5: on a well-formed dictionary `dictAdd` of a key that is already stored returns
`DICT_ERR`; the stored key/value pairs are the same afterwards (up to the order in which the
tables hold them), so is the entry bound to the key, and so is `dictSize`. -/
theorem C5_dictAdd_existing (g : Bool) (d : dict K V) (key : K) (val : V) (hw : WellFormed d)
    (hk : (dictLookup d key).isSome = true) :
    ∃ d1, dictAdd g d key val = some (d1, DICT_ERR) ∧ WellFormed d1 ∧
      (dictEntries d1).Perm (dictEntries d) ∧ dictLookup d1 key = dictLookup d key ∧
      dictSize d1 = dictSize d := by
  obtain ⟨d1, hw1, hty, hit, hc⟩ := dictAdd_spec g d key val hw
  rcases hc with ⟨hn, -, -⟩ | ⟨-, hres, hp⟩
  · rw [hn] at hk; simp at hk
  · exact ⟨d1, hres, hw1, hp, dictLookup_same hw ⟨hty, hit, hp⟩ key,
      SameContents.size_eq ⟨hty, hit, hp⟩ hw hw1⟩

/-- C6: on a well-formed dictionary `dictReplace` returns 1 when the key was absent and 0 when
it was present; afterwards `dictFind` finds the key bound to the new value, `dictSize` has grown
by one in the first case and is unchanged in the second, and `dictFind` returns for every other
key the entry it returned before. -/
theorem C6_dictReplace (g : Bool) (d : dict K V) (key : K) (val : V) (hw : WellFormed d)
    (hfit : dictSize d < MAX_ENTRIES) :
    ∃ d1, dictReplace g d key val = some (d1, if (dictLookup d key).isNone then 1 else 0) ∧
      WellFormed d1 ∧
      (dictFind d1 key).map Prod.snd = some (some ⟨key, val⟩) ∧
      dictSize d1 = dictSize d + (if (dictLookup d key).isNone then 1 else 0) ∧
      ∀ k, k ≠ key → (dictFind d1 k).map Prod.snd = (dictFind d k).map Prod.snd := by
  obtain ⟨d1, hw1, hty, hit, hres, hp⟩ := dictReplace_spec g d key val hw hfit
  refine ⟨d1, hres, hw1, ?_, ?_, ?_⟩
  · rw [dictFind_result d1 key hw1, dictLookup_of_perm hw1 hp]
    simp
  · rw [dictSize_of_perm hw1 hp, dictSize_eq_length hw]
    have := length_withoutKey_of_lookup hw key
    simp only [List.length_cons]
    cases h : dictLookup d key with
    | none =>
      rw [h] at this
      simp only [Option.isSome_none, Bool.false_eq_true, if_false, Option.isNone_none,
        if_true] at this ⊢
      omega
    | some e =>
      rw [h] at this
      simp only [Option.isSome_some, if_true, Option.isNone_some, Bool.false_eq_true,
        if_false] at this ⊢
      omega
  · intro k hk
    rw [dictFind_result d1 k hw1, dictFind_result d k hw, dictLookup_of_perm hw1 hp]
    simp only [List.find?_cons, decide_eq_true_eq, hk, if_false]
    rw [find_withoutKey]
    simp [hk, dictLookup]

/-- C7: on a well-formed dictionary, rehashing or not, `dictFind(d, k)` returns an entry exactly
when `k` is stored in `ht[0]` or, while rehashing, in `ht[1]`; the entry returned is a stored
entry whose key is `k`; otherwise the result is `NULL`. -/
theorem C7_dictFind_iff_stored (d : dict K V) (k : K) (hw : WellFormed d) :
    ∃ d1 r, dictFind d k = some (d1, r) ∧
      (r.isSome = true ↔ ((∃ e ∈ d.ht0.entries, e.key = k) ∨
        (dictIsRehashing d = true ∧ ∃ e ∈ d.ht1.entries, e.key = k))) ∧
      (∀ e, r = some e → e.key = k ∧ e ∈ dictEntries d) := by
  obtain ⟨d1, h1, -, -⟩ := dictFind_spec d k hw
  refine ⟨d1, dictLookup d k, h1, ?_, ?_⟩
  · constructor
    · intro hs
      obtain ⟨e, he⟩ := Option.isSome_iff_exists.1 hs
      obtain ⟨hm, hk⟩ := (dictLookup_eq_some hw).1 he
      rcases List.mem_append.1 hm with h | h
      · exact Or.inl ⟨e, h, hk.symm⟩
      · right
        refine ⟨?_, e, h, hk.symm⟩
        by_contra hr
        have hr1 : d.rehashidx = -1 := by simpa [dictIsRehashing] using hr
        rw [entries_nil_of_none (hw.idle hr1)] at h
        simp at h
    · rintro (⟨e, he, hk⟩ | ⟨-, e, he, hk⟩)
      · rw [(dictLookup_eq_some hw).2 ⟨List.mem_append_left _ he, hk.symm⟩]; rfl
      · rw [(dictLookup_eq_some hw).2 ⟨List.mem_append_right _ he, hk.symm⟩]; rfl
  · intro e he
    obtain ⟨hm, hk⟩ := (dictLookup_eq_some hw).1 he
    exact ⟨hk.symm, hm⟩

/-- C8: on a well-formed dictionary `dictDelete` of a stored key returns `DICT_OK`; afterwards
`dictFind` no longer finds the key, `dictSize` is smaller by exactly one, and `dictFind` returns
for every other key the entry it returned before. -/
theorem C8_dictDelete_stored (d : dict K V) (key : K) (hw : WellFormed d)
    (hk : (dictLookup d key).isSome = true) :
    ∃ d1, dictDelete d key = some (d1, DICT_OK) ∧ WellFormed d1 ∧
      (dictFind d1 key).map Prod.snd = some none ∧
      dictSize d1 + 1 = dictSize d ∧
      ∀ k, k ≠ key → (dictFind d1 k).map Prod.snd = (dictFind d k).map Prod.snd := by
  obtain ⟨d1, hw1, hty, hit, hres, hp⟩ := dictDelete_spec d key hw
  refine ⟨d1, by simpa [hk] using hres, hw1, ?_, ?_, ?_⟩
  · rw [dictFind_result d1 key hw1, dictLookup_of_perm hw1 hp, find_withoutKey]
    simp
  · rw [dictSize_of_perm hw1 hp, dictSize_eq_length hw]
    have := length_withoutKey_of_lookup hw key
    simpa [hk] using this
  · intro k hkk
    rw [dictFind_result d1 k hw1, dictFind_result d k hw, dictLookup_of_perm hw1 hp,
      find_withoutKey]
    simp [hkk, dictLookup]

/-- C9: on a well-formed dictionary `dictDelete` of a key that is not stored returns `DICT_ERR`
and leaves `dictSize` and the stored key/value pairs unchanged; and deleting any key a second
time returns `DICT_ERR`, so deleting a stored key twice returns `DICT_OK` then `DICT_ERR`. -/
theorem C9_dictDelete_absent (d : dict K V) (key : K) (hw : WellFormed d) :
    (dictLookup d key = none →
      ∃ d1, dictDelete d key = some (d1, DICT_ERR) ∧ dictSize d1 = dictSize d ∧
        (dictEntries d1).Perm (dictEntries d)) ∧
    (dictLookup d key ≠ none →
      ∃ d1 d2, dictDelete d key = some (d1, DICT_OK) ∧
        dictDelete d1 key = some (d2, DICT_ERR) ∧ dictSize d2 = dictSize d1) := by
  obtain ⟨d1, hw1, hty, hit, hres, hp⟩ := dictDelete_spec d key hw
  constructor
  · intro hn
    rw [withoutKey_of_absent key _ (dictLookup_eq_none.1 hn)] at hp
    exact ⟨d1, by simpa [hn] using hres, SameContents.size_eq ⟨hty, hit, hp⟩ hw hw1, hp⟩
  · intro hn
    obtain ⟨d2, hw2, hty2, hit2, hres2, hp2⟩ := dictDelete_spec d1 key hw1
    have hl1 : dictLookup d1 key = none := by
      rw [dictLookup_of_perm hw1 hp, find_withoutKey]; simp
    rw [withoutKey_of_absent key _ (dictLookup_eq_none.1 hl1)] at hp2
    refine ⟨d1, d2, ?_, by simpa [hl1] using hres2,
      SameContents.size_eq ⟨hty2, hit2, hp2⟩ hw1 hw2⟩
    cases h : dictLookup d key with
    | none => exact absurd h hn
    | some e => simpa [h] using hres

/-- C10: `dictExpand(d, size)` with `size` smaller than `ht[0].used`, or on a dictionary that is
already rehashing, returns `DICT_ERR` and leaves the dictionary unchanged. -/
theorem C10_dictExpand_invalid (d : dict K V) (size : Nat)
    (h : size < d.ht0.used ∨ dictIsRehashing d = true) :
    dictExpand d size = some (d, DICT_ERR) := by
  unfold dictExpand
  rcases h with h | h
  · simp [h]
  · simp [h]

theorem dictCreate_wf (ty : dictType K) (hl : ∀ a b, ty.keyCompare a b = true → a = b) :
    WellFormed (dictCreate ty : dict K V) :=
  ⟨hl, reset_wf ty, reset_wf ty, List.nodup_nil, fun _ => rfl, fun h => absurd rfl h⟩

theorem any_key_iff (m : List (dictEntry K V)) (key : K) :
    m.any (fun e => decide (key = e.key)) = true ↔ ∃ e ∈ m, key = e.key := by
  simp

theorem runOps_spec (g : Bool) (ops : List (Op K V)) (d : dict K V)
    (m : List (dictEntry K V)) (hw : WellFormed d) (hp : (dictEntries d).Perm m)
    (hfit : dictSize d + ops.length ≤ MAX_ENTRIES) :
    ∃ d1, runOps g d ops = some d1 ∧ WellFormed d1 ∧
      (dictEntries d1).Perm (ops.foldl specApply m) := by
  induction ops generalizing d m with
  | nil => exact ⟨d, rfl, hw, hp⟩
  | cons op ops ih =>
    simp only [List.length_cons] at hfit
    have hfit0 : dictSize d < MAX_ENTRIES := by omega
    have hstep : ∃ d1, applyOp g d op = some d1 ∧ WellFormed d1 ∧
        (dictEntries d1).Perm (specApply m op) ∧ dictSize d1 ≤ dictSize d + 1 := by
      cases op with
      | add key val =>
        obtain ⟨d1, hw1, -, -, hc⟩ := dictAdd_spec g d key val hw
        rcases hc with ⟨hn, hres, hp1⟩ | ⟨hn, hres, hp1⟩
        · refine ⟨d1, by simp [applyOp, hres], hw1, ?_, ?_⟩
          · have hany : m.any (fun e => decide (key = e.key)) = false := by
              rw [Bool.eq_false_iff]
              intro h
              obtain ⟨e, he, hk⟩ := (any_key_iff m key).1 h
              exact dictLookup_eq_none.1 hn e (hp.mem_iff.2 he) hk
            simp only [specApply, hany, Bool.false_eq_true, if_false]
            exact hp1.trans (List.Perm.cons _ hp)
          · rw [dictSize_of_perm hw1 hp1, dictSize_eq_length hw]; simp
        · rcases hn with hn | hn
          · refine ⟨d1, by simp [applyOp, hres], hw1, ?_, ?_⟩
            · have hany : m.any (fun e => decide (key = e.key)) = true := by
                rw [any_key_iff]
                obtain ⟨e, he⟩ := Option.ne_none_iff_exists'.1 hn
                obtain ⟨hm, hk⟩ := (dictLookup_eq_some hw).1 he
                exact ⟨e, hp.mem_iff.1 hm, hk⟩
              simp only [specApply, hany, if_true]
              exact hp1.trans hp
            · rw [dictSize_of_perm hw1 hp1, dictSize_eq_length hw]; omega
          · exact absurd hfit0 hn
      | replace key val =>
        obtain ⟨d1, hw1, -, -, hres, hp1⟩ := dictReplace_spec g d key val hw hfit0
        refine ⟨d1, by simp [applyOp, hres], hw1, ?_, ?_⟩
        · exact hp1.trans (List.Perm.cons _ (withoutKey_perm hp key))
        · rw [dictSize_of_perm hw1 hp1, dictSize_eq_length hw]
          simp only [List.length_cons]
          have := List.length_filter_le (fun e => !decide (key = e.key)) (dictEntries d)
          omega
      | delete key =>
        obtain ⟨d1, hw1, -, -, hres, hp1⟩ := dictDelete_spec d key hw
        refine ⟨d1, by simp [applyOp, hres], hw1, ?_, ?_⟩
        · exact hp1.trans (withoutKey_perm hp key)
        · rw [dictSize_of_perm hw1 hp1, dictSize_eq_length hw]
          have := List.length_filter_le (fun e => !decide (key = e.key)) (dictEntries d)
          omega
    obtain ⟨d1, h1, hw1, hp1, hsz⟩ := hstep
    obtain ⟨d2, h2, hw2, hp2⟩ := ih d1 (specApply m op) hw1 hp1 (by omega)
    exact ⟨d2, by simp [runOps, h1, h2], hw2, by simpa using hp2⟩

/-- C1: for every sequence of `dictAdd` / `dictReplace` / `dictDelete` calls on a freshly created
dictionary whose `equal` callback only identifies equal keys (so equal keys have equal hashes),
every call returns, `dictSize` equals the number of distinct live keys, and `dictFind` returns for
every key the value most recently stored for it, or `NULL` if there is none.  As the sequence is
arbitrary this holds after each call, automatic growth included. -/
theorem C1_ops_sequence (g : Bool) (ty : dictType K)
    (hl : ∀ a b, ty.keyCompare a b = true → a = b) (ops : List (Op K V))
    (hlen : ops.length < MAX_ENTRIES) :
    ∃ d, runOps g (dictCreate ty) ops = some d ∧ dictSize d = specLiveKeys ops ∧
      ∀ k, (dictFind d k).map (fun r => r.2.map dictEntry.val) = some (specValue ops k) := by
  obtain ⟨d, h1, hw, hp⟩ := runOps_spec g ops (dictCreate ty : dict K V) []
    (dictCreate_wf ty hl) (List.Perm.refl _) (by
      have : dictSize (dictCreate ty : dict K V) = 0 := rfl
      omega)
  refine ⟨d, h1, ?_, ?_⟩
  · unfold specLiveKeys specRun
    have hn : ((ops.foldl specApply []).map dictEntry.key).Nodup :=
      (hp.map dictEntry.key).nodup_iff.1 hw.nodup
    rw [hn.dedup, List.length_map]
    exact dictSize_of_perm hw hp
  · intro k
    obtain ⟨d1, hf, -, -⟩ := dictFind_spec d k hw
    rw [hf]
    simp only [Option.map_some']
    rw [dictLookup_of_perm hw hp]
    rfl

/-- C3: on a well-formed dictionary, rehashing or not, that is not changed during the scan, the
calls `dictScan` with cursor 0 and then with the cursor returned each time reach a returned
cursor 0 after finitely many calls, and by then the callback has been invoked on every entry of
the dictionary. -/
theorem C3_scan_complete (d : dict K V) (hw : WellFormed d) :
    ∃ fuel es, dictScanAll d fuel 0 = some es ∧ ∀ e ∈ dictEntries d, e ∈ es := by
  obtain ⟨es, h1, h2⟩ := dictScanAll_spec d hw (2 ^ 64) 0 (by omega)
  refine ⟨2 ^ 64, es, h1, ?_⟩
  intro e he
  rcases h2 e he with h | h
  · rw [rev_zero] at h; omega
  · exact h

/-- C4: if after some calls of a scan sequence the dictionary is replaced by another
well-formed dictionary with the same callbacks (a table of another power-of-two size, larger or
smaller, with the entries re-bucketed, in particular), then continuing the sequence from the
returned cursor until the cursor is 0 has invoked the callback on every entry that is in both
dictionaries. -/
theorem C4_scan_resize (d d1 : dict K V) (n v : Nat) (es1 : List (dictEntry K V))
    (hw : WellFormed d) (hw1 : WellFormed d1) (hty : d1.type = d.type)
    (hcalls : dictScanCalls d n 0 = some (v, es1)) :
    ∃ fuel es2, dictScanAll d1 fuel v = some es2 ∧
      ∀ e, e ∈ dictEntries d → e ∈ dictEntries d1 → e ∈ es1 ++ es2 := by
  obtain ⟨es2, h1, h2⟩ := dictScanAll_spec d1 hw1 (2 ^ 64) v (by omega)
  refine ⟨2 ^ 64, es2, h1, ?_⟩
  intro e he he1
  rcases h2 e he1 with h | h
  · rw [hty] at h
    rcases dictScanCalls_spec d hw n 0 v es1 hcalls e he h with h' | h'
    · rw [rev_zero] at h'; omega
    · exact List.mem_append_left _ h'
  · exact List.mem_append_right _ h

/-! ### The claims at concrete dictionaries -/

theorem natType_lawful : ∀ a b, natType.keyCompare a b = true → a = b := by
  intro a b h
  simpa [natType] using h

theorem exampleSmall_wf : WellFormed exampleSmall :=
  ⟨natType_lawful,
    ⟨⟨by decide, by decide, fun _ => ⟨2, by decide, by decide⟩, by decide⟩, by decide⟩,
    reset_wf _, by decide, by decide, fun h => absurd rfl h⟩

theorem exampleLarge_wf : WellFormed exampleLarge :=
  ⟨natType_lawful,
    ⟨⟨by decide, by decide, fun _ => ⟨3, by decide, by decide⟩, by decide⟩, by decide⟩,
    reset_wf _, by decide, by decide, fun h => absurd rfl h⟩

theorem exampleRehashing_wf : WellFormed exampleRehashing :=
  ⟨natType_lawful,
    ⟨⟨by decide, by decide, fun _ => ⟨2, by decide, by decide⟩, by decide⟩, by decide⟩,
    ⟨⟨by decide, by decide, fun _ => ⟨3, by decide, by decide⟩, by decide⟩, by decide⟩,
    by decide, by decide,
    fun _ => ⟨by decide, by decide, by decide, by decide, by decide⟩⟩

theorem exampleOps_run :
    (runOps true (dictCreate natType) exampleOps).map
      (fun d => (d.ht0.table, d.ht1.table, d.rehashidx, dictSize d)) =
    some (exampleRehashing.ht0.table, exampleRehashing.ht1.table, 0, 5) := by
  rfl

theorem C1_witness :
    (∀ a b, natType.keyCompare a b = true → a = b) ∧ exampleOps.length < MAX_ENTRIES ∧
    ∃ d, runOps true (dictCreate natType) exampleOps = some d ∧
      dictSize d = specLiveKeys exampleOps ∧
      ∀ k, (dictFind d k).map (fun r => r.2.map dictEntry.val) = some (specValue exampleOps k) :=
  ⟨natType_lawful, by decide, C1_ops_sequence true natType natType_lawful exampleOps (by decide)⟩

theorem C2_witness :
    WellFormed exampleRehashing ∧ dictIsRehashing exampleRehashing = true ∧
    (⟨3, 30⟩ : dictEntry Nat Nat) ∈ dictEntries exampleRehashing ∧
    ∃ d1, dictRehashMany exampleRehashing [1, 1, 100] = some d1 ∧
      dictSize d1 = dictSize exampleRehashing ∧
      (dictFind exampleRehashing 3).map Prod.snd = some (some ⟨3, 30⟩) ∧
      (dictFind d1 3).map Prod.snd = some (some ⟨3, 30⟩) :=
  ⟨exampleRehashing_wf, by decide, by decide,
    C2_rehash_preserves_find exampleRehashing [1, 1, 100] 3 ⟨3, 30⟩ exampleRehashing_wf
      (by decide) (by decide) rfl⟩

theorem C3_witness :
    WellFormed exampleRehashing ∧
    ∃ fuel es, dictScanAll exampleRehashing fuel 0 = some es ∧
      ∀ e ∈ dictEntries exampleRehashing, e ∈ es :=
  ⟨exampleRehashing_wf, C3_scan_complete exampleRehashing exampleRehashing_wf⟩

theorem C4_witness :
    WellFormed exampleSmall ∧ WellFormed exampleLarge ∧ exampleLarge.type = exampleSmall.type ∧
    dictScanCalls exampleSmall 1 0 = some (2, [⟨4, 40⟩]) ∧
    ∃ fuel es2, dictScanAll exampleLarge fuel 2 = some es2 ∧
      ∀ e, e ∈ dictEntries exampleSmall → e ∈ dictEntries exampleLarge →
        e ∈ [⟨4, 40⟩] ++ es2 :=
  ⟨exampleSmall_wf, exampleLarge_wf, rfl, by decide,
    C4_scan_resize exampleSmall exampleLarge 1 2 [⟨4, 40⟩] exampleSmall_wf exampleLarge_wf rfl
      (by decide)⟩

theorem C5_witness :
    WellFormed exampleRehashing ∧ (dictLookup exampleRehashing 1).isSome = true ∧
    ∃ d1, dictAdd true exampleRehashing 1 99 = some (d1, DICT_ERR) ∧ WellFormed d1 ∧
      (dictEntries d1).Perm (dictEntries exampleRehashing) ∧
      dictLookup d1 1 = dictLookup exampleRehashing 1 ∧
      dictSize d1 = dictSize exampleRehashing :=
  ⟨exampleRehashing_wf, by decide,
    C5_dictAdd_existing true exampleRehashing 1 99 exampleRehashing_wf (by decide)⟩

theorem C6_witness :
    WellFormed exampleRehashing ∧ dictSize exampleRehashing < MAX_ENTRIES ∧
    ∃ d1, dictReplace true exampleRehashing 7 70 =
        some (d1, if (dictLookup exampleRehashing 7).isNone then 1 else 0) ∧
      WellFormed d1 ∧
      (dictFind d1 7).map Prod.snd = some (some ⟨7, 70⟩) ∧
      dictSize d1 = dictSize exampleRehashing +
        (if (dictLookup exampleRehashing 7).isNone then 1 else 0) ∧
      ∀ k, k ≠ 7 → (dictFind d1 k).map Prod.snd = (dictFind exampleRehashing k).map Prod.snd :=
  ⟨exampleRehashing_wf, by decide,
    C6_dictReplace true exampleRehashing 7 70 exampleRehashing_wf (by decide)⟩

theorem C7_witness :
    WellFormed exampleRehashing ∧
    ∃ d1 r, dictFind exampleRehashing 5 = some (d1, r) ∧
      (r.isSome = true ↔ ((∃ e ∈ exampleRehashing.ht0.entries, e.key = 5) ∨
        (dictIsRehashing exampleRehashing = true ∧
          ∃ e ∈ exampleRehashing.ht1.entries, e.key = 5))) ∧
      (∀ e, r = some e → e.key = 5 ∧ e ∈ dictEntries exampleRehashing) :=
  ⟨exampleRehashing_wf, C7_dictFind_iff_stored exampleRehashing 5 exampleRehashing_wf⟩

theorem C8_witness :
    WellFormed exampleRehashing ∧ (dictLookup exampleRehashing 5).isSome = true ∧
    ∃ d1, dictDelete exampleRehashing 5 = some (d1, DICT_OK) ∧ WellFormed d1 ∧
      (dictFind d1 5).map Prod.snd = some none ∧
      dictSize d1 + 1 = dictSize exampleRehashing ∧
      ∀ k, k ≠ 5 → (dictFind d1 k).map Prod.snd = (dictFind exampleRehashing k).map Prod.snd :=
  ⟨exampleRehashing_wf, by decide,
    C8_dictDelete_stored exampleRehashing 5 exampleRehashing_wf (by decide)⟩

theorem C9_witness :
    WellFormed exampleSmall ∧ dictLookup exampleSmall 9 = none ∧
    dictLookup exampleSmall 1 ≠ none ∧
    (∃ d1, dictDelete exampleSmall 9 = some (d1, DICT_ERR) ∧
      dictSize d1 = dictSize exampleSmall ∧
      (dictEntries d1).Perm (dictEntries exampleSmall)) ∧
    (∃ d1 d2, dictDelete exampleSmall 1 = some (d1, DICT_OK) ∧
      dictDelete d1 1 = some (d2, DICT_ERR) ∧ dictSize d2 = dictSize d1) :=
  ⟨exampleSmall_wf, by decide, by decide,
    (C9_dictDelete_absent exampleSmall 9 exampleSmall_wf).1 (by decide),
    (C9_dictDelete_absent exampleSmall 1 exampleSmall_wf).2 (by decide)⟩

theorem C10_witness :
    (3 < exampleSmall.ht0.used ∨ dictIsRehashing exampleSmall = true) ∧
    dictExpand exampleSmall 3 = some (exampleSmall, DICT_ERR) :=
  ⟨Or.inl (by decide), C10_dictExpand_invalid exampleSmall 3 (Or.inl (by decide))⟩

/-! ### Expansion -/

/-- The doubling loop of `_dictNextPower` stops at the first power of two that reaches
`size`. -/
theorem nextPower_loop_min (size : Nat) (hsz : size < 2 ^ 63) (fuel j : Nat) (hj : j ≤ 63)
    (hf : 64 - j ≤ fuel) :
    ∃ k, j ≤ k ∧ k ≤ 63 ∧ _dictNextPower.loop size fuel (2 ^ j) = some (2 ^ k) ∧
      size ≤ 2 ^ k ∧ ∀ i, j ≤ i → size ≤ 2 ^ i → k ≤ i := by
  induction fuel generalizing j with
  | zero => omega
  | succ fuel ih =>
    unfold _dictNextPower.loop
    by_cases h : 2 ^ j ≥ size
    · exact ⟨j, le_refl _, hj, by simp [h], h, fun i hi _ => hi⟩
    · have hj1 : j + 1 ≤ 63 := by
        by_contra hc
        have : j = 63 := by omega
        subst this; omega
      obtain ⟨k, h1, h2, h3, h4, h5⟩ := ih (j + 1) hj1 (by omega)
      refine ⟨k, by omega, h2, ?_, h4, ?_⟩
      · simp only [h, if_false]
        have : 2 ^ j * 2 % ULONG_RANGE = 2 ^ (j + 1) := by
          rw [← pow_succ]
          apply Nat.mod_eq_of_lt
          unfold ULONG_RANGE
          exact Nat.pow_lt_pow_right (by norm_num) (by omega)
        rw [this, h3]
      · intro i hi hsi
        rcases Nat.eq_or_lt_of_le hi with he | hlt
        · subst he; exact absurd hsi h
        · exact h5 i hlt hsi

/-- The function `_dictNextPower` returns the smallest power of two, 4 at least, that is not
below `size`, for every `size` up to `2^63`; above, it returns `2^63`. -/
theorem dictNextPower_min (size : Nat) :
    ∃ k, 2 ≤ k ∧ k ≤ 63 ∧ _dictNextPower size = some (2 ^ k) ∧
      (size ≤ 2 ^ 63 → size ≤ 2 ^ k ∧ ∀ i, 2 ≤ i → size ≤ 2 ^ i → k ≤ i) ∧
      (2 ^ 63 < size → k = 63) := by
  unfold _dictNextPower
  by_cases h : size ≥ LONG_MAX
  · refine ⟨63, by norm_num, le_refl _, ?_, fun h' => ⟨h', fun i hi hsi => ?_⟩, fun _ => rfl⟩
    · rw [if_pos h]
      norm_num [LONG_MAX]
    · by_contra hc
      have hi62 : i ≤ 62 := by omega
      have : 2 ^ i ≤ 2 ^ 62 := Nat.pow_le_pow_right (by norm_num) hi62
      unfold LONG_MAX at h
      omega
  · have hs : size < 2 ^ 63 := by unfold LONG_MAX at h; omega
    obtain ⟨k, h1, h2, h3, h4, h5⟩ :=
      nextPower_loop_min size hs 64 2 (by norm_num) (by norm_num)
    refine ⟨k, h1, h2, ?_, fun _ => ⟨h4, h5⟩, fun h' => by omega⟩
    simp only [h, if_false]
    exact h3

/-- The three outcomes of `dictExpand` on a dictionary that is not rehashing and holds at
most `size` entries, by the capacity `_dictNextPower` rounds `size` to. -/
theorem dictExpand_cases (d : dict K V) (size realsize : Nat)
    (hr : dictIsRehashing d = false) (hu : d.ht0.used ≤ size)
    (hn : _dictNextPower size = some realsize) :
    (realsize = d.ht0.size → dictExpand d size = some (d, DICT_ERR)) ∧
    (realsize ≠ d.ht0.size → d.ht0.table = none → dictExpand d size =
      some ({ d with ht0 := { table := some (List.replicate realsize []), size := realsize,
                              sizemask := realsize - 1, used := 0 } }, DICT_OK)) ∧
    (realsize ≠ d.ht0.size → d.ht0.table ≠ none → dictExpand d size =
      some ({ d with ht1 := { table := some (List.replicate realsize []), size := realsize,
                              sizemask := realsize - 1, used := 0 },
                     rehashidx := 0 }, DICT_OK)) := by
  have hu' : ¬ d.ht0.used > size := by omega
  refine ⟨fun h => ?_, fun h ht => ?_, fun h ht => ?_⟩
  · simp [dictExpand, hr, hu', hn, h]
  · simp [dictExpand, hr, hu', hn, h, ht]
  · have : d.ht0.table.isNone = false := by
      cases hx : d.ht0.table with
      | none => exact absurd hx ht
      | some t => rfl
    simp [dictExpand, hr, hu', hn, h, this]

/-- C11 (amended): for a dictionary that is not rehashing, `dictExpand(d, size)` with
`ht[0].used <= size` and a requested capacity that rounds to the capacity `ht[0]` already has
leaves the dictionary unchanged and returns `DICT_ERR`. -/
theorem C11_dictExpand_same_capacity (d : dict K V) (size : Nat)
    (hr : dictIsRehashing d = false) (hu : d.ht0.used ≤ size)
    (hn : _dictNextPower size = some d.ht0.size) :
    dictExpand d size = some (d, DICT_ERR) :=
  (dictExpand_cases d size d.ht0.size hr hu hn).1 rfl

/-- C11 (as stated) fails: a table of capacity 4 holding 4 entries, asked to expand to 4, is
not rehashing, has `used <= size`, the request rounds to the present capacity, and the call
returns `DICT_ERR`, not `DICT_OK`. -/
theorem C11_counterexample :
    dictIsRehashing exampleSmall = false ∧ exampleSmall.ht0.used ≤ 4 ∧
    _dictNextPower 4 = some exampleSmall.ht0.size ∧
    (dictExpand exampleSmall 4).map Prod.snd = some DICT_ERR ∧
    (dictExpand exampleSmall 4).map Prod.snd ≠ some DICT_OK := by
  refine ⟨by decide, by decide, by decide, by decide, by decide⟩

theorem C11_witness :
    dictIsRehashing exampleSmall = false ∧ exampleSmall.ht0.used ≤ 4 ∧
    _dictNextPower 4 = some exampleSmall.ht0.size ∧
    dictExpand exampleSmall 4 = some (exampleSmall, DICT_ERR) :=
  ⟨by decide, by decide, by decide,
    C11_dictExpand_same_capacity exampleSmall 4 (by decide) (by decide) (by decide)⟩

theorem bytes_exact (k : Nat) (hk : k ≤ 60) : dictExpand.bytes (2 ^ k) = 2 ^ k * 8 := by
  unfold dictExpand.bytes ULONG_RANGE
  have h : 2 ^ k ≤ 2 ^ 60 := Nat.pow_le_pow_right (by norm_num) hk
  exact Nat.mod_eq_of_lt (by omega)

/-- The product `realsize * sizeof(dictEntry *)` wraps around to 0 for the capacities `2^61`,
`2^62` and `2^63`. -/
theorem bytes_wrapped :
    dictExpand.bytes (2 ^ 60) = 2 ^ 63 ∧ dictExpand.bytes (2 ^ 61) = 0 ∧
    dictExpand.bytes (2 ^ 62) = 0 ∧ dictExpand.bytes (2 ^ 63) = 0 := by
  decide

/-- C12 (amended): for a dictionary that is not rehashing, with `ht[0].used <= size` and a
rounded capacity different from `ht[0].size`.  For `size` at most `2^60`, `dictExpand(d, size)`
returns `DICT_OK` and creates an empty table whose capacity is the smallest power of two that
is at least `size` and at least 4, of `capacity * 8` bytes; if `ht[0]` has no table yet the new
table becomes `ht[0]` and `rehashidx` stays -1, otherwise it becomes `ht[1]`, `rehashidx` is
set to 0 and `ht[0]` is left untouched.  For every `size` the call returns `DICT_OK` and the
fields `size`, `sizemask` and `used` of the new `ht[0]` (or `ht[1]`) are the capacity, the
capacity minus one and 0, where the capacity is that power of two for `size` up to `2^63` and
is `2^63`, which is below `size`, above; nothing is said there about the memory of the
table. -/
theorem C12_dictExpand_new_table (d : dict K V) (size : Nat)
    (hr : dictIsRehashing d = false) (hu : d.ht0.used ≤ size) :
    ∃ k, 2 ≤ k ∧ k ≤ 63 ∧ _dictNextPower size = some (2 ^ k) ∧
      (size ≤ 2 ^ 63 → size ≤ 2 ^ k ∧ ∀ i, 2 ≤ i → size ≤ 2 ^ i → k ≤ i) ∧
      (2 ^ 63 < size → k = 63) ∧
      (size ≤ 2 ^ 60 → dictExpand.bytes (2 ^ k) = 2 ^ k * 8) ∧
      (2 ^ k ≠ d.ht0.size →
        (size ≤ 2 ^ 60 → d.ht0.table = none →
          d.rehashidx = -1 ∧
          dictExpand d size =
            some ({ d with ht0 := { table := some (List.replicate (2 ^ k) []), size := 2 ^ k,
                                    sizemask := 2 ^ k - 1, used := 0 } }, DICT_OK)) ∧
        (size ≤ 2 ^ 60 → d.ht0.table ≠ none →
          dictExpand d size =
            some ({ d with ht1 := { table := some (List.replicate (2 ^ k) []), size := 2 ^ k,
                                    sizemask := 2 ^ k - 1, used := 0 },
                           rehashidx := 0 }, DICT_OK)) ∧
        ∃ d1, dictExpand d size = some (d1, DICT_OK) ∧
          (d.ht0.table = none →
            d1.ht0.size = 2 ^ k ∧ d1.ht0.sizemask = 2 ^ k - 1 ∧ d1.ht0.used = 0 ∧
            d1.ht1 = d.ht1 ∧ d1.rehashidx = -1) ∧
          (d.ht0.table ≠ none →
            d1.ht1.size = 2 ^ k ∧ d1.ht1.sizemask = 2 ^ k - 1 ∧ d1.ht1.used = 0 ∧
            d1.ht0 = d.ht0 ∧ d1.rehashidx = 0)) := by
  obtain ⟨k, h1, h2, h3, h4, h5⟩ := dictNextPower_min size
  obtain ⟨-, c2, c3⟩ := dictExpand_cases d size (2 ^ k) hr hu h3
  have hidle : d.rehashidx = -1 := by simpa [dictIsRehashing] using hr
  have hk60 : size ≤ 2 ^ 60 → k ≤ 60 := by
    intro hs
    exact (h4 (by omega)).2 60 (by norm_num) hs
  refine ⟨k, h1, h2, h3, h4, h5, fun hs => bytes_exact k (hk60 hs), fun hne =>
    ⟨fun _ ht => ⟨hidle, c2 hne ht⟩, fun _ ht => c3 hne ht, ?_⟩⟩
  by_cases ht : d.ht0.table = none
  · exact ⟨_, c2 hne ht, fun _ => ⟨rfl, rfl, rfl, rfl, hidle⟩, fun h => absurd ht h⟩
  · exact ⟨_, c3 hne ht, fun h => absurd h ht, fun _ => ⟨rfl, rfl, rfl, rfl, rfl⟩⟩

/-- C12 (as stated) fails: a fresh dictionary asked to expand to `2^63 + 1` is not rehashing,
holds no more than `size` entries, the request rounds to a capacity other than the one of
`ht[0]`, the call returns `DICT_OK`, and the capacity it records is `2^63`, which is below
`size`. -/
theorem C12_counterexample :
    dictIsRehashing (dictCreate natType : dict Nat Nat) = false ∧
    (dictCreate natType : dict Nat Nat).ht0.used ≤ 2 ^ 63 + 1 ∧
    _dictNextPower (2 ^ 63 + 1) = some (2 ^ 63) ∧
    2 ^ 63 ≠ (dictCreate natType : dict Nat Nat).ht0.size ∧
    (dictExpand (dictCreate natType : dict Nat Nat) (2 ^ 63 + 1)).map
      (fun r => (r.2, r.1.ht0.size)) = some (DICT_OK, 2 ^ 63) ∧
    ¬ (2 ^ 63 + 1 ≤ 2 ^ 63) := by
  have h1 : _dictNextPower (2 ^ 63 + 1) = some (2 ^ 63) := by
    simp [_dictNextPower, LONG_MAX]
  refine ⟨rfl, by simp [dictCreate, _dictInit, _dictReset], h1,
    by simp [dictCreate, _dictInit, _dictReset], ?_, by norm_num⟩
  have h := (dictExpand_cases (dictCreate natType : dict Nat Nat) (2 ^ 63 + 1) (2 ^ 63) rfl
    (by simp [dictCreate, _dictInit, _dictReset]) h1).2.1
    (by simp [dictCreate, _dictInit, _dictReset]) rfl
  rw [h]
  rfl

theorem C12_witness :
    dictIsRehashing exampleSmall = false ∧ exampleSmall.ht0.used ≤ 5 ∧
    ∃ k, 2 ≤ k ∧ k ≤ 63 ∧ _dictNextPower 5 = some (2 ^ k) ∧
      (5 ≤ 2 ^ 63 → 5 ≤ 2 ^ k ∧ ∀ i, 2 ≤ i → 5 ≤ 2 ^ i → k ≤ i) ∧
      (2 ^ 63 < 5 → k = 63) ∧
      (5 ≤ 2 ^ 60 → dictExpand.bytes (2 ^ k) = 2 ^ k * 8) ∧
      (2 ^ k ≠ exampleSmall.ht0.size →
        (5 ≤ 2 ^ 60 → exampleSmall.ht0.table = none →
          exampleSmall.rehashidx = -1 ∧
          dictExpand exampleSmall 5 =
            some ({ exampleSmall with
                    ht0 := { table := some (List.replicate (2 ^ k) []), size := 2 ^ k,
                             sizemask := 2 ^ k - 1, used := 0 } }, DICT_OK)) ∧
        (5 ≤ 2 ^ 60 → exampleSmall.ht0.table ≠ none →
          dictExpand exampleSmall 5 =
            some ({ exampleSmall with
                    ht1 := { table := some (List.replicate (2 ^ k) []), size := 2 ^ k,
                             sizemask := 2 ^ k - 1, used := 0 },
                    rehashidx := 0 }, DICT_OK)) ∧
        ∃ d1, dictExpand exampleSmall 5 = some (d1, DICT_OK) ∧
          (exampleSmall.ht0.table = none →
            d1.ht0.size = 2 ^ k ∧ d1.ht0.sizemask = 2 ^ k - 1 ∧ d1.ht0.used = 0 ∧
            d1.ht1 = exampleSmall.ht1 ∧ d1.rehashidx = -1) ∧
          (exampleSmall.ht0.table ≠ none →
            d1.ht1.size = 2 ^ k ∧ d1.ht1.sizemask = 2 ^ k - 1 ∧ d1.ht1.used = 0 ∧
            d1.ht0 = exampleSmall.ht0 ∧ d1.rehashidx = 0)) :=
  ⟨by decide, by decide, C12_dictExpand_new_table exampleSmall 5 (by decide) (by decide)⟩

/-- C13 (amended): with resizing disabled and an allocated table that is not rehashing,
`_dictExpandIfNeeded` starts an expansion (to the smallest power-of-two capacity that is at
least `2 * used`) whenever the integer quotient `ht[0].used / ht[0].size` of the C expression
exceeds 5, that is from `used = 6 * size` on (for example `used = 24`, `size = 4`), and is a
no-op whenever that quotient is at most 5 (for example `used = 21`, `size = 4`). -/
theorem C13_forced_growth (d : dict K V) (hr : dictIsRehashing d = false)
    (ht : d.ht0.table ≠ none) (hsz : 0 < d.ht0.size) (hb : d.ht0.used < MAX_ENTRIES) :
    (d.ht0.used / d.ht0.size > dict_force_resize_ratio ↔ 6 * d.ht0.size ≤ d.ht0.used) ∧
    (d.ht0.used / d.ht0.size > dict_force_resize_ratio →
      ∃ k, k ≤ 63 ∧ d.ht0.used * 2 ≤ 2 ^ k ∧ (∀ i, 2 ≤ i → d.ht0.used * 2 ≤ 2 ^ i → k ≤ i) ∧
        _dictExpandIfNeeded false d =
          some ({ d with ht1 := { table := some (List.replicate (2 ^ k) []), size := 2 ^ k,
                                  sizemask := 2 ^ k - 1, used := 0 },
                         rehashidx := 0 }, DICT_OK)) ∧
    (d.ht0.used / d.ht0.size ≤ dict_force_resize_ratio →
      _dictExpandIfNeeded false d = some (d, DICT_OK)) := by
  have hz : d.ht0.size ≠ 0 := by omega
  have hiff : d.ht0.used / d.ht0.size > dict_force_resize_ratio ↔
      6 * d.ht0.size ≤ d.ht0.used := by
    unfold dict_force_resize_ratio
    constructor
    · intro hq
      have := (Nat.le_div_iff_mul_le hsz).1 (show 6 ≤ d.ht0.used / d.ht0.size from hq)
      omega
    · intro h
      have : 6 ≤ d.ht0.used / d.ht0.size := (Nat.le_div_iff_mul_le hsz).2 (by omega)
      omega
  refine ⟨hiff, fun hq => ?_, fun hq => ?_⟩
  · have hge := hiff.1 hq
    obtain ⟨k, h1, h2, h3, h4, -⟩ := dictNextPower_min (d.ht0.used * 2)
    have hle : d.ht0.used * 2 ≤ 2 ^ 63 := by unfold MAX_ENTRIES at hb; omega
    obtain ⟨h5, h6⟩ := h4 hle
    have hne : 2 ^ k ≠ d.ht0.size := by omega
    refine ⟨k, h2, h5, h6, ?_⟩
    have := (dictExpand_cases d (d.ht0.used * 2) (2 ^ k) hr (by omega) h3).2.2 hne ht
    have hge' : d.ht0.used ≥ d.ht0.size := by omega
    have hq' : 5 < d.ht0.used / d.ht0.size := hq
    simp [_dictExpandIfNeeded, hr, hz, hge', dict_force_resize_ratio, hq', this]
  · have : ¬ (5 < d.ht0.used / d.ht0.size) := by
      unfold dict_force_resize_ratio at hq; omega
    simp [_dictExpandIfNeeded, hr, hz, dict_force_resize_ratio, this]

/-- C13 (as stated) fails at its own example: the table of capacity 4 that 21 insertions with
resizing disabled leave, holding 21 entries (more than 5 per slot) and not rehashing, is left
as it is by `_dictExpandIfNeeded`: the quotient `21 / 4` of the C expression is 5, which does
not exceed 5, so no second table is created and no migration starts. -/
theorem C13_counterexample :
    runOps false (dictCreate natType) exampleCrowdedOps = some exampleCrowded ∧
    dictIsRehashing exampleCrowded = false ∧ exampleCrowded.ht0.used = 21 ∧
    exampleCrowded.ht0.size = 4 ∧ 5 * exampleCrowded.ht0.size < exampleCrowded.ht0.used ∧
    exampleCrowded.ht0.used / exampleCrowded.ht0.size = 5 ∧
    (_dictExpandIfNeeded false exampleCrowded).map
      (fun r => (r.2, r.1.rehashidx, r.1.ht1.size, r.1.ht0.size)) = some (DICT_OK, -1, 0, 4) := by
  refine ⟨rfl, by decide, by decide, by decide, by decide, by decide, by decide⟩

theorem C13_witness :
    dictIsRehashing exampleCrowded = false ∧ exampleCrowded.ht0.table ≠ none ∧
    0 < exampleCrowded.ht0.size ∧ exampleCrowded.ht0.used < MAX_ENTRIES ∧
    (exampleCrowded.ht0.used / exampleCrowded.ht0.size > dict_force_resize_ratio ↔
      6 * exampleCrowded.ht0.size ≤ exampleCrowded.ht0.used) ∧
    (exampleCrowded.ht0.used / exampleCrowded.ht0.size > dict_force_resize_ratio →
      ∃ k, k ≤ 63 ∧ exampleCrowded.ht0.used * 2 ≤ 2 ^ k ∧
        (∀ i, 2 ≤ i → exampleCrowded.ht0.used * 2 ≤ 2 ^ i → k ≤ i) ∧
        _dictExpandIfNeeded false exampleCrowded =
          some ({ exampleCrowded with
                  ht1 := { table := some (List.replicate (2 ^ k) []), size := 2 ^ k,
                           sizemask := 2 ^ k - 1, used := 0 },
                  rehashidx := 0 }, DICT_OK)) ∧
    (exampleCrowded.ht0.used / exampleCrowded.ht0.size ≤ dict_force_resize_ratio →
      _dictExpandIfNeeded false exampleCrowded = some (exampleCrowded, DICT_OK)) :=
  ⟨by decide, by simp [exampleCrowded], by decide, by decide,
    C13_forced_growth exampleCrowded (by decide) (by simp [exampleCrowded]) (by decide)
      (by decide)⟩

/-! ### The slots a migration visits -/

theorem take_drop_split {α : Type} (l : List α) (lo mid hi : Nat) (h1 : lo ≤ mid)
    (h2 : mid ≤ hi) :
    (l.drop lo).take (hi - lo) = (l.drop lo).take (mid - lo) ++ (l.drop mid).take (hi - mid) := by
  have : hi - lo = (mid - lo) + (hi - mid) := by omega
  rw [this, List.take_add, List.drop_drop]
  congr 3
  omega

theorem visited_split (ht : dictht K V) (lo mid hi : Nat) (h1 : lo ≤ mid) (h2 : mid ≤ hi) :
    ht.visited lo hi = ht.visited lo mid ++ ht.visited mid hi :=
  take_drop_split _ lo mid hi h1 h2

theorem visited_one (ht : dictht K V) (idx : Nat) (h : idx < ht.slots.length) :
    ht.visited idx (idx + 1) = [ht.slots[idx]] := by
  unfold dictht.visited
  rw [Nat.add_sub_cancel_left, List.drop_eq_getElem_cons h]
  rfl

theorem visited_length (ht : dictht K V) (lo hi : Nat) (h : hi ≤ ht.slots.length) :
    (ht.visited lo hi).length = hi - lo := by
  unfold dictht.visited
  simp
  omega

theorem visited_mem_empty (ht : dictht K V) (lo hi : Nat)
    (h : ∀ i (hi1 : i < ht.slots.length), lo ≤ i → i < hi → ht.slots[i].isEmpty = true) :
    ∀ ch ∈ ht.visited lo hi, ch.isEmpty = true := by
  intro ch hch
  unfold dictht.visited at hch
  obtain ⟨j, hj, rfl⟩ := List.getElem_of_mem hch
  simp only [List.length_take, List.length_drop] at hj
  simp only [List.getElem_take, List.getElem_drop]
  exact h _ (by omega) (by omega) (by omega)

theorem skipEmpty_trace (l : List (List (dictEntry K V))) (idx : Nat) (ev : Int)
    (hne : ∃ ch ∈ l, ch.isEmpty = false) :
    ∃ n ev1 b, dictRehash.skipEmpty l idx ev = some (idx + n, ev1, b) ∧ n ≤ l.length ∧
      (∀ j (hj : j < l.length), j < n → l[j].isEmpty = true) ∧
      (b = false → ∃ h : n < l.length, l[n].isEmpty = false) ∧
      (0 < ev → ev < 2 ^ 31 →
        (b = true → (n : Int) = ev) ∧ (b = false → ev1 = ev - n ∧ (n : Int) < ev)) ∧
      (b = true → 1 ≤ n) := by
  induction l generalizing idx ev with
  | nil => simp at hne
  | cons a tl ih =>
    unfold dictRehash.skipEmpty
    by_cases ha : a.isEmpty = true
    · simp only [ha, if_true]
      by_cases hev : toInt32 (ev - 1) = 0
      · refine ⟨1, toInt32 (ev - 1), true, by simp [hev], by simp, ?_, by simp, ?_,
          fun _ => le_refl _⟩
        · intro j hj hj1
          have : j = 0 := by omega
          subst this; simpa using ha
        · intro h0 h1
          refine ⟨fun _ => ?_, fun h => by simp at h⟩
          unfold toInt32 at hev
          push_cast
          omega
      · have hne1 : ∃ ch ∈ tl, ch.isEmpty = false := by
          obtain ⟨ch, hch, hc⟩ := hne
          rcases List.mem_cons.1 hch with rfl | h
          · simp [ha] at hc
          · exact ⟨ch, h, hc⟩
        obtain ⟨n, ev1, b, h1, h2, h3, h4, h5, -⟩ := ih (idx + 1) (toInt32 (ev - 1)) hne1
        refine ⟨n + 1, ev1, b, ?_, by simpa using h2, ?_, ?_, ?_, fun _ => by omega⟩
        · simp only [hev, if_false, h1]
          congr 2; omega
        · intro j hj hj1
          cases j with
          | zero => simpa using ha
          | succ j => simpa using h3 j (by simpa using hj) (by omega)
        · intro hb
          obtain ⟨h5, h6⟩ := h4 hb
          exact ⟨by simpa using h5, by simpa using h6⟩
        · intro h0 h1
          have he : toInt32 (ev - 1) = ev - 1 := by unfold toInt32; omega
          rw [he] at h5 hev
          obtain ⟨h6, h7⟩ := h5 (by omega) (by omega)
          refine ⟨fun hb => ?_, fun hb => ?_⟩
          · have := h6 hb
            push_cast; omega
          · obtain ⟨h8, h9⟩ := h7 hb
            push_cast; omega
    · refine ⟨0, ev, false, by simp [ha], by simp, by simp, ?_, ?_, fun h => by simp at h⟩
      · intro _
        exact ⟨by simp, by simpa using ha⟩
      · intro h0 _
        exact ⟨fun h => by simp at h, fun _ => ⟨by simp, by simpa using h0⟩⟩

theorem visited_self (ht : dictht K V) (lo : Nat) : ht.visited lo lo = [] := by
  simp [dictht.visited]

theorem countP_nonempty_of_empty (l : List (List (dictEntry K V)))
    (h : ∀ ch ∈ l, ch.isEmpty = true) : l.countP (fun ch => !ch.isEmpty) = 0 := by
  rw [List.countP_eq_zero]
  intro a ha
  simp [h a ha]

theorem flatten_of_empty (l : List (List (dictEntry K V)))
    (h : ∀ ch ∈ l, ch.isEmpty = true) : l.flatten = [] := by
  rw [List.flatten_eq_nil_iff]
  intro a ha
  exact List.isEmpty_iff.1 (h a ha)

/-- What the loop of `dictRehash` does to a well-formed dictionary in migration: it returns,
`rehashidx` moves forward over slots that end up empty, at most `n` of them held a chain
(one less when the loop gave up on empty slots), the chains are in `ht[1]` afterwards, and
the empty slots visited number at most `empty_visits`. -/
theorem rehashLoop_trace (n : Nat) (d : dict K V) (ev : Int) (hw : WellFormed d)
    (hr : d.rehashidx ≠ -1) :
    ∃ d1 b, dictRehash.loop n d ev = some (d1, b) ∧ WellFormed d1 ∧ d1.rehashidx ≠ -1 ∧
      SameContents d d1 ∧ (b = true → d1.ht0.used ≠ 0) ∧
      d.rehashidx ≤ d1.rehashidx ∧ d1.ht1.size = d.ht1.size ∧
      d1.ht0.slots.length = d.ht0.slots.length ∧
      (∀ i (_ : i < d1.ht0.slots.length) (_ : i < d.ht0.slots.length),
        d1.ht0.slots[i] =
          if d.rehashidx.toNat ≤ i ∧ i < d1.rehashidx.toNat then [] else d.ht0.slots[i]) ∧
      (d.ht0.visited d.rehashidx.toNat d1.rehashidx.toNat).countP (fun ch => !ch.isEmpty)
        + b.toNat ≤ n ∧
      d1.ht1.entries.Perm
        ((d.ht0.visited d.rehashidx.toNat d1.rehashidx.toNat).flatten ++ d.ht1.entries) ∧
      (0 < ev → ev < 2 ^ 31 →
        (((d.ht0.visited d.rehashidx.toNat d1.rehashidx.toNat).countP List.isEmpty : Nat) : Int)
          ≤ ev ∧
        (b = false →
          (((d.ht0.visited d.rehashidx.toNat d1.rehashidx.toNat).countP List.isEmpty : Nat) : Int)
            < ev)) ∧
      (b = true ∨ (d1.ht0.used ≠ 0 ∧ 1 ≤ n) → d.rehashidx < d1.rehashidx) := by
  induction n generalizing d ev with
  | zero =>
    refine ⟨d, false, rfl, hw, hr, SameContents.refl d, by simp, le_refl _, rfl, rfl, ?_, ?_, ?_,
      ?_, fun h => by simp at h⟩
    · intro i _ _
      rw [if_neg (by omega)]
    · simp [visited_self]
    · simp [visited_self]
    · intro h0 _
      simp only [visited_self, List.countP_nil, Nat.cast_zero]
      exact ⟨h0.le, fun _ => h0⟩
  | succ n ih =>
    unfold dictRehash.loop
    by_cases hu : d.ht0.used = 0
    · refine ⟨d, false, by simp [hu], hw, hr, SameContents.refl d, by simp, le_refl _, rfl, rfl,
        ?_, ?_, ?_, ?_, fun h => by simp [hu] at h⟩
      · intro i _ _
        rw [if_neg (by omega)]
      · simp [visited_self]
      · simp [visited_self]
      · intro h0 _
        simp only [visited_self, List.countP_nil, Nat.cast_zero]
        exact ⟨h0.le, fun _ => h0⟩
    · obtain ⟨h0, h1, hs0, hs1, hemp⟩ := hw.busy hr
      obtain ⟨j, hrj, hj, hjne⟩ := exists_nonempty_slot hw hr hu
      have hlen := hw.wf0.shaped.len
      have hrlt : d.rehashidx.toNat < d.ht0.slots.length := by omega
      simp only [hu, if_false, toULong_rehashidx hw hr, table_eq_slots hs0]
      have hassert : d.ht0.size > d.rehashidx.toNat := by omega
      simp only [hassert, not_true_eq_false, if_false]
      have hne : ∃ ch ∈ d.ht0.slots.drop d.rehashidx.toNat, ch.isEmpty = false := by
        refine ⟨d.ht0.slots[j], ?_, hjne⟩
        rw [List.mem_iff_getElem]
        refine ⟨j - d.rehashidx.toNat, by simp; omega, ?_⟩
        simp only [List.getElem_drop]
        congr 1; omega
      obtain ⟨m, ev1, b, hsk, hm, hskE, hskN, hskC, hskP⟩ :=
        skipEmpty_trace (d.ht0.slots.drop d.rehashidx.toNat) d.rehashidx.toNat ev hne
      rw [hsk]
      have hml : d.rehashidx.toNat + m ≤ d.ht0.slots.length := by
        simp at hm; omega
      have hbelow : ∀ i (h : i < d.ht0.slots.length), i < d.rehashidx.toNat + m →
          d.ht0.slots[i].isEmpty = true := by
        intro i hi hlt
        by_cases hir : (i : Int) < d.rehashidx
        · exact hemp i hi hir
        · have hge : d.rehashidx.toNat ≤ i := by omega
          have := hskE (i - d.rehashidx.toNat) (by simp; omega) (by omega)
          simp only [List.getElem_drop] at this
          convert this using 3; omega
      have hseg0 : ∀ ch ∈ d.ht0.visited d.rehashidx.toNat (d.rehashidx.toNat + m),
          ch.isEmpty = true :=
        visited_mem_empty _ _ _ (fun i hi _ hlt => hbelow i hi hlt)
      have hlen0 : (d.ht0.visited d.rehashidx.toNat (d.rehashidx.toNat + m)).length = m := by
        rw [visited_length _ _ _ hml]; omega
      have hc : (d.ht0.visited d.rehashidx.toNat (d.rehashidx.toNat + m)).countP List.isEmpty
          = m := (List.countP_eq_length.2 hseg0).trans hlen0
      cases b with
      | true =>
        have hm1 := hskP rfl
        refine ⟨{ d with rehashidx := ((d.rehashidx.toNat + m : Nat) : Int) }, true, rfl, ?_,
          ?_, SameContents.refl d, fun _ => hu, ?_, rfl, rfl, ?_, ?_, ?_, ?_,
          fun _ => by simp only; omega⟩
        · refine ⟨hw.lawful, hw.wf0, hw.wf1, hw.nodup, ?_, ?_⟩
          · intro h; simp only at h; omega
          · intro _
            refine ⟨by simp only; omega, by simp only; omega, hs0, hs1, ?_⟩
            intro i hi hlt
            exact hbelow i hi (by simp only at hlt; omega)
        · simp only; omega
        · simp only; omega
        · intro i _ hi0
          simp only [Int.toNat_ofNat]
          split
          · rename_i hc
            exact List.isEmpty_iff.1 (hbelow i hi0 hc.2)
          · rfl
        · simp only [Int.toNat_ofNat, countP_nonempty_of_empty _ hseg0, Bool.toNat_true]
          omega
        · simp only [Int.toNat_ofNat, flatten_of_empty _ hseg0, List.nil_append]
          exact List.Perm.refl _
        · intro e0 e1
          simp only [Int.toNat_ofNat]
          rw [hc]
          have := (hskC e0 e1).1 rfl
          exact ⟨by omega, fun h => by simp at h⟩
      | false =>
        obtain ⟨hmlt, hmne⟩ := hskN rfl
        have hidx : d.rehashidx.toNat + m < d.ht0.slots.length := by
          simp at hmlt; omega
        simp only [slot_eq_getElem hs0 _ hidx]
        obtain ⟨ht1, hmv, hsh1, hs11, hsz1, hu1, hp1⟩ :=
          moveChain_spec (d.ht0.slots[d.rehashidx.toNat + m])
            { d with rehashidx := ((d.rehashidx.toNat + m : Nat) : Int) } hw.wf1.shaped hs1
        rw [hmv]
        simp only at hsh1 hu1 hp1 hsz1 ⊢
        have hsl1 : ∀ u, (dictht.slots ({ d.ht0 with used := u } : dictht K V)) = d.ht0.slots :=
          fun _ => rfl
        rw [setSlot_eq (by exact hs0) _ _ (by rw [hsl1]; exact hidx)]
        simp only [hsl1]
        obtain ⟨hwf, hperm⟩ := moved_bucket_wf d hw hr _ hidx hbelow ht1 hsh1 hs11 hu1 hp1
        obtain ⟨d2, b, h2, h3, h4, h5, h6, h7, h8, h9, h10, h11, h12, h13, -⟩ :=
          ih _ ev1 hwf (by simp only; omega)
        simp only at h7 h8 h9 h10 h11 h12 h13
        have hlo1 : (((d.rehashidx.toNat + m : Nat) : Int) + 1).toNat =
            d.rehashidx.toNat + m + 1 := by
          omega
        rw [hlo1] at h10 h11 h12 h13
        have hhi : d.rehashidx.toNat + m + 1 ≤ d2.rehashidx.toNat := by omega
        have hslots : dictht.slots ({ d.ht0 with
            table := some (d.ht0.slots.set (d.rehashidx.toNat + m) []),
            used := d.ht0.used - (d.ht0.slots[d.rehashidx.toNat + m]).length } : dictht K V)
            = d.ht0.slots.set (d.rehashidx.toNat + m) [] := rfl
        have hvis : dictht.visited ({ d.ht0 with
            table := some (d.ht0.slots.set (d.rehashidx.toNat + m) []),
            used := d.ht0.used - (d.ht0.slots[d.rehashidx.toNat + m]).length } : dictht K V)
            (d.rehashidx.toNat + m + 1) d2.rehashidx.toNat
            = d.ht0.visited (d.rehashidx.toNat + m + 1) d2.rehashidx.toNat := by
          unfold dictht.visited
          rw [hslots, List.drop_set_of_lt _ _ (by omega)]
        rw [hvis] at h11 h12 h13
        rw [hslots] at h9 h10
        have hsplit : d.ht0.visited d.rehashidx.toNat d2.rehashidx.toNat =
            d.ht0.visited d.rehashidx.toNat (d.rehashidx.toNat + m) ++
              ([d.ht0.slots[d.rehashidx.toNat + m]] ++
                d.ht0.visited (d.rehashidx.toNat + m + 1) d2.rehashidx.toNat) := by
          rw [visited_split _ _ (d.rehashidx.toNat + m) _ (by omega) (by omega),
            visited_split _ (d.rehashidx.toNat + m) (d.rehashidx.toNat + m + 1) _ (by omega) hhi,
            visited_one _ _ hidx]
        have hne1 : (d.ht0.slots[d.rehashidx.toNat + m]).isEmpty = false := by
          have := hmne
          simp only [List.getElem_drop] at this
          exact this
        refine ⟨d2, b, h2, h3, h4, ⟨h5.1, h5.2.1, h5.2.2.trans hperm⟩, h6, by omega, h8.trans hsz1,
          by simpa using h9, ?_, ?_, ?_, ?_, fun _ => by omega⟩
        · intro i hi2 hi0
          have := h10 i hi2 (by simpa using hi0)
          rw [this, List.getElem_set]
          by_cases hc1 : d.rehashidx.toNat + m + 1 ≤ i ∧ i < d2.rehashidx.toNat
          · rw [if_pos hc1, if_pos ⟨by omega, hc1.2⟩]
          · rw [if_neg hc1]
            by_cases hc2 : d.rehashidx.toNat + m = i
            · rw [if_pos hc2, if_pos ⟨by omega, by omega⟩]
            · rw [if_neg hc2]
              by_cases hc3 : d.rehashidx.toNat ≤ i ∧ i < d2.rehashidx.toNat
              · rw [if_pos hc3]
                exact List.isEmpty_iff.1 (hbelow i hi0 (by omega))
              · rw [if_neg hc3]
        · rw [hsplit]
          simp only [List.countP_append, countP_nonempty_of_empty _ hseg0, List.countP_cons,
            List.countP_nil, hne1]
          simp only [Bool.not_false, if_true]
          omega
        · rw [hsplit]
          simp only [List.flatten_append, flatten_of_empty _ hseg0, List.nil_append,
            List.flatten_cons, List.flatten_nil, List.append_nil]
          refine h12.trans ?_
          refine (hp1.append_left _).trans ?_
          rw [← List.append_assoc]
          exact List.perm_append_comm.append_right _
        · intro e0 e1
          obtain ⟨-, hcf⟩ := hskC e0 e1
          obtain ⟨hev1, hmev⟩ := hcf rfl
          obtain ⟨h14, h15⟩ := h13 (by omega) (by omega)
          rw [hsplit]
          simp only [List.countP_append, hc, List.countP_cons, List.countP_nil, hne1]
          simp only [Bool.false_eq_true, if_false]
          push_cast
          refine ⟨by omega, fun hb => ?_⟩
          have := h15 hb
          omega

theorem used_eq_zero_iff {ty : dictType K} {ht : dictht K V} (hw : ht.WF ty) :
    ht.used = 0 ↔ ht.entries = [] := by
  rw [hw.used, List.length_eq_zero]

/-- C14: for every well-formed rehashing dictionary and every `n`, `dictRehash(d, n)` returns
0 if and only if `ht[0]` is empty when the loop of the call ends; then the former `ht[1]`,
which holds every entry, is `ht[0]`, `ht[1]` is reset (no table, size 0, used 0) and
`rehashidx` is -1; otherwise it returns 1 and the dictionary is still rehashing.  On a
dictionary that is not rehashing it returns 0 and changes nothing. -/
theorem C14_dictRehash_result (d : dict K V) (n : Nat) :
    (dictIsRehashing d = false → dictRehash d n = some (d, 0)) ∧
    (WellFormed d → dictIsRehashing d = true →
      ∃ d1 b d2 r, dictRehash.loop n d (toInt32 ((n : Int) * 10)) = some (d1, b) ∧
        dictRehash d n = some (d2, r) ∧
        (r = 0 ↔ d1.ht0.entries = []) ∧
        (r = 0 → d2.ht0 = d1.ht1 ∧ d2.ht1 = _dictReset ∧ d2.rehashidx = -1 ∧
          d2.ht0.size = d.ht1.size ∧ d2.ht0.entries.Perm (dictEntries d)) ∧
        (r ≠ 0 → r = 1 ∧ d2 = d1 ∧ dictIsRehashing d2 = true)) := by
  constructor
  · intro h
    simp [dictRehash, h]
  · intro hw hreh
    have hr : d.rehashidx ≠ -1 := by simpa [dictIsRehashing] using hreh
    obtain ⟨d1, b, h1, h2, h3, h4, h5, -, h7, -⟩ :=
      rehashLoop_trace n d (toInt32 ((n : Int) * 10)) hw hr
    have hreh1 : dictIsRehashing d1 = true := by simpa [dictIsRehashing] using h3
    have hiff := used_eq_zero_iff h2.wf0
    unfold dictRehash
    simp only [hreh, Bool.not_true, Bool.false_eq_true, if_false, h1]
    cases b with
    | true =>
      refine ⟨d1, true, d1, 1, rfl, rfl, ?_, fun h => by simp at h, fun _ => ⟨rfl, rfl, hreh1⟩⟩
      constructor
      · intro h; simp at h
      · intro h; exact absurd (hiff.2 h) (h5 rfl)
    | false =>
      by_cases hu : d1.ht0.used = 0
      · simp only [hu, if_true]
        refine ⟨d1, false, _, 0, rfl, rfl, ⟨fun _ => hiff.1 hu, fun _ => rfl⟩,
          fun _ => ⟨rfl, rfl, rfl, h7, ?_⟩, fun h => absurd rfl h⟩
        have := h4.2.2
        simp only [dictEntries, hiff.1 hu, List.nil_append] at this
        exact this
      · simp only [hu, if_false]
        refine ⟨d1, false, d1, 1, rfl, rfl, ?_, fun h => by simp at h, fun _ => ⟨rfl, rfl, hreh1⟩⟩
        constructor
        · intro h; simp at h
        · intro h; exact absurd (hiff.2 h) hu

theorem exampleSparse_wf : WellFormed exampleSparse :=
  ⟨natType_lawful,
    ⟨⟨by decide, by decide, fun _ => ⟨5, by decide, by decide⟩, by decide⟩, by decide⟩,
    ⟨⟨by decide, by decide, fun _ => ⟨6, by decide, by decide⟩, by decide⟩, by decide⟩,
    by decide, by decide,
    fun _ => ⟨by decide, by decide, by decide, by decide, by decide⟩⟩

theorem C14_witness :
    dictIsRehashing exampleSmall = false ∧ WellFormed exampleRehashing ∧
    dictIsRehashing exampleRehashing = true ∧
    dictRehash exampleSmall 1 = some (exampleSmall, 0) ∧
    ∃ d1 b d2 r, dictRehash.loop 1 exampleRehashing (toInt32 (((1 : Nat) : Int) * 10))
        = some (d1, b) ∧
      dictRehash exampleRehashing 1 = some (d2, r) ∧
      (r = 0 ↔ d1.ht0.entries = []) ∧
      (r = 0 → d2.ht0 = d1.ht1 ∧ d2.ht1 = _dictReset ∧ d2.rehashidx = -1 ∧
        d2.ht0.size = exampleRehashing.ht1.size ∧
        d2.ht0.entries.Perm (dictEntries exampleRehashing)) ∧
      (r ≠ 0 → r = 1 ∧ d2 = d1 ∧ dictIsRehashing d2 = true) :=
  ⟨by decide, exampleRehashing_wf, by decide,
    (C14_dictRehash_result exampleSmall 1).1 (by decide),
    (C14_dictRehash_result exampleRehashing 1).2 exampleRehashing_wf (by decide)⟩

theorem length_eq_empty_add_nonempty {α : Type} (l : List (List α)) :
    l.length = l.countP List.isEmpty + l.countP (fun ch => !ch.isEmpty) := by
  induction l with
  | nil => rfl
  | cons a tl ih =>
    simp only [List.length_cons, List.countP_cons, ih]
    cases a <;> simp <;> omega

/-- C15 (amended): for every well-formed rehashing dictionary and `n >= 1` (with `n * 10` in
the range of `int`), one call `dictRehash(d, n)` moves `rehashidx` over a run of `ht[0]` slots
of which at most `n` hold a chain and at most `n * 10` are empty (fewer than `n * 10 + n`
slots in all); the chains are moved into `ht[1]`, each moved entry linked in the slot
`hash(key) & ht[1].sizemask`, and the slots of the run are empty afterwards.  The state `d1`
is the one at the end of the loop, before a completed migration swaps the tables. -/
theorem C15_dictRehash_bounded (d : dict K V) (n : Nat) (hw : WellFormed d)
    (hr : dictIsRehashing d = true) (hn : 1 ≤ n) (hn10 : n * 10 < 2 ^ 31) :
    ∃ d1 b d2 r visited, dictRehash.loop n d ((n : Int) * 10) = some (d1, b) ∧
      dictRehash d n = some (d2, r) ∧
      (d2 = d1 ∨ d2 = { d1 with ht0 := d1.ht1, ht1 := _dictReset, rehashidx := -1 }) ∧
      d.rehashidx ≤ d1.rehashidx ∧ d1.rehashidx ≤ d.ht0.size ∧
      visited = d.ht0.visited d.rehashidx.toNat d1.rehashidx.toNat ∧
      (visited.length : Int) = d1.rehashidx - d.rehashidx ∧
      visited.countP (fun ch => !ch.isEmpty) ≤ n ∧
      visited.countP List.isEmpty ≤ n * 10 ∧
      visited.length < n * 10 + n ∧
      d1.ht1.entries.Perm (visited.flatten ++ d.ht1.entries) ∧
      (∀ e ∈ visited.flatten,
        ∃ h : dictHashKey d e.key &&& d.ht1.sizemask < d1.ht1.slots.length,
          e ∈ d1.ht1.slots[dictHashKey d e.key &&& d.ht1.sizemask]) ∧
      (∀ i (_ : i < d1.ht0.slots.length) (_ : i < d.ht0.slots.length),
        d1.ht0.slots[i] =
          if d.rehashidx.toNat ≤ i ∧ i < d1.rehashidx.toNat then [] else d.ht0.slots[i]) := by
  have hri : d.rehashidx ≠ -1 := by simpa [dictIsRehashing] using hr
  have hev : toInt32 ((n : Int) * 10) = (n : Int) * 10 := by
    unfold toInt32
    have : ((n * 10 : Nat) : Int) < 2 ^ 31 := by exact_mod_cast hn10
    push_cast at this
    omega
  obtain ⟨d1, b, h1, h2, h3, h4, h5, h6, h7, h8, h9, h10, h11, h12, -⟩ :=
    rehashLoop_trace n d ((n : Int) * 10) hw hri
  obtain ⟨h13, h14⟩ := h12 (by omega) (by
    have : ((n * 10 : Nat) : Int) < 2 ^ 31 := by exact_mod_cast hn10
    push_cast at this
    omega)
  obtain ⟨g0, g1, -⟩ := hw.busy hri
  obtain ⟨f0, f1, -⟩ := h2.busy h3
  have hlen1 := h2.wf0.shaped.len
  have hlen0 := hw.wf0.shaped.len
  have hsz : d1.ht0.size = d.ht0.size := by omega
  have hd2 : ∃ d2 r, dictRehash d n = some (d2, r) ∧
      (d2 = d1 ∨ d2 = { d1 with ht0 := d1.ht1, ht1 := _dictReset, rehashidx := -1 }) := by
    unfold dictRehash
    simp only [hr, Bool.not_true, Bool.false_eq_true, if_false, hev, h1]
    cases b with
    | true => exact ⟨d1, 1, rfl, Or.inl rfl⟩
    | false =>
      by_cases hu : d1.ht0.used = 0
      · simp only [hu, if_true]
        exact ⟨_, 0, rfl, Or.inr rfl⟩
      · simp only [hu, if_false]
        exact ⟨d1, 1, rfl, Or.inl rfl⟩
  obtain ⟨d2, r, hd2a, hd2b⟩ := hd2
  have hvl : (d.ht0.visited d.rehashidx.toNat d1.rehashidx.toNat).length =
      d1.rehashidx.toNat - d.rehashidx.toNat :=
    visited_length _ _ _ (by omega)
  have hcount := length_eq_empty_add_nonempty
    (d.ht0.visited d.rehashidx.toNat d1.rehashidx.toNat)
  refine ⟨d1, b, d2, r, _, h1, hd2a, hd2b, h6, by omega, rfl, by omega, by omega, by omega, ?_,
    h11, ?_, h9⟩
  · cases b with
    | true =>
      simp only [Bool.toNat_true] at h10
      omega
    | false =>
      have := h14 rfl
      simp only [Bool.toNat_false] at h10
      omega
  · intro e he
    have hmem : e ∈ d1.ht1.entries := h11.mem_iff.2 (List.mem_append_left _ he)
    obtain ⟨l, hl, hel⟩ := List.mem_flatten.1 hmem
    obtain ⟨i, hi, rfl⟩ := List.getElem_of_mem hl
    have hb := h2.wf1.shaped.bucket i hi e hel
    have hm1 := h2.wf1.shaped.mask
    have hm0 := hw.wf1.shaped.mask
    have hmask : d1.ht1.sizemask = d.ht1.sizemask := by rw [hm1, hm0, h7]
    rw [h4.1, hmask] at hb
    have hidx : dictHashKey d e.key &&& d.ht1.sizemask = i := hb
    refine ⟨by rw [hidx]; exact hi, ?_⟩
    simp only [hidx]
    exact hel

theorem exampleSparse_run :
    (dictExpand (dictCreate natType) 32).bind (fun r0 =>
      (dictAdd true r0.1 0 0).bind (fun r1 =>
        (dictAdd true r1.1 20 0).bind (fun r2 =>
          (dictAdd true r2.1 31 0).bind (fun r3 => dictExpand r3.1 64)))) =
    some (exampleSparse, DICT_OK) := by
  rfl

/-- C15 (as stated) fails: in the well-formed table of capacity 32 whose only chains are in
the slots 0, 20 and 31 (three insertions into a table expanded to 32, then an expansion to
64), one call `dictRehash(d, 2)` starting at `rehashidx = 0` moves the chains of the slots 0
and 20 and returns 1 with `rehashidx = 21`: it visited the 21 slots 0, ..., 20 (19 of them
empty), more than `n * 10 = 20`. -/
theorem C15_counterexample :
    WellFormed exampleSparse ∧ dictIsRehashing exampleSparse = true ∧
    exampleSparse.rehashidx = 0 ∧
    (dictRehash exampleSparse 2).map (fun r => (r.2, r.1.rehashidx)) = some (1, 21) ∧
    (exampleSparse.ht0.visited 0 21).length = 21 ∧
    (exampleSparse.ht0.visited 0 21).countP List.isEmpty = 19 ∧
    ¬ ((exampleSparse.ht0.visited 0 21).length ≤ 2 * 10) := by
  refine ⟨exampleSparse_wf, by decide, by decide, by decide, by decide, by decide, by decide⟩

theorem C15_witness :
    WellFormed exampleSparse ∧ dictIsRehashing exampleSparse = true ∧ 1 ≤ 2 ∧
    2 * 10 < 2 ^ 31 ∧
    ∃ d1 b d2 r visited, dictRehash.loop 2 exampleSparse (((2 : Nat) : Int) * 10) = some (d1, b) ∧
      dictRehash exampleSparse 2 = some (d2, r) ∧
      (d2 = d1 ∨ d2 = { d1 with ht0 := d1.ht1, ht1 := _dictReset, rehashidx := -1 }) ∧
      exampleSparse.rehashidx ≤ d1.rehashidx ∧ d1.rehashidx ≤ exampleSparse.ht0.size ∧
      visited = exampleSparse.ht0.visited exampleSparse.rehashidx.toNat d1.rehashidx.toNat ∧
      (visited.length : Int) = d1.rehashidx - exampleSparse.rehashidx ∧
      visited.countP (fun ch => !ch.isEmpty) ≤ 2 ∧
      visited.countP List.isEmpty ≤ 2 * 10 ∧
      visited.length < 2 * 10 + 2 ∧
      d1.ht1.entries.Perm (visited.flatten ++ exampleSparse.ht1.entries) ∧
      (∀ e ∈ visited.flatten,
        ∃ h : dictHashKey exampleSparse e.key &&& exampleSparse.ht1.sizemask
            < d1.ht1.slots.length,
          e ∈ d1.ht1.slots[dictHashKey exampleSparse e.key &&& exampleSparse.ht1.sizemask]) ∧
      (∀ i (_ : i < d1.ht0.slots.length) (_ : i < exampleSparse.ht0.slots.length),
        d1.ht0.slots[i] =
          if exampleSparse.rehashidx.toNat ≤ i ∧ i < d1.rehashidx.toNat then []
          else exampleSparse.ht0.slots[i]) :=
  ⟨exampleSparse_wf, by decide, by decide, by decide,
    C15_dictRehash_bounded exampleSparse 2 exampleSparse_wf (by decide) (by decide)
      (by decide)⟩

/-! ### What a returning call has done -/

theorem setSlot_some {ht ht1 : dictht K V} {i : Nat} {c : List (dictEntry K V)}
    (h : ht.setSlot i c = some ht1) :
    ht.table.isSome = true ∧ i < ht.slots.length ∧
      ht1 = { ht with table := some (ht.slots.set i c) } := by
  unfold dictht.setSlot at h
  cases ht with
  | mk t sz sm u =>
    cases t with
    | none => simp at h
    | some t =>
      simp only at h
      split at h
      · rename_i hlt
        injection h with h
        exact ⟨rfl, hlt, h.symm⟩
      · simp at h

theorem setSlot_fields {ht ht1 : dictht K V} {i : Nat} {c : List (dictEntry K V)}
    (h : ht.setSlot i c = some ht1) :
    ht1.size = ht.size ∧ ht1.sizemask = ht.sizemask ∧ ht1.used = ht.used ∧
      ht1.slots = ht.slots.set i c ∧ ht1.table.isSome = true := by
  obtain ⟨-, -, rfl⟩ := setSlot_some h
  exact ⟨rfl, rfl, rfl, rfl, rfl⟩

theorem Structural.rehashing_of_ht1 {d : dict K V} (hs : Structural d)
    (h : d.ht1.table.isSome = true) : d.rehashidx ≠ -1 := by
  intro hr
  have := hs.idle hr
  rw [this] at h
  simp [_dictReset] at h

theorem Structural.update0 {d : dict K V} (hs : Structural d) (ht : dictht K V)
    (hsz : ht.size = d.ht0.size) (hm : ht.sizemask = d.ht0.sizemask)
    (hsl : d.rehashidx ≠ -1 → ht.slots.length = d.ht0.slots.length ∧
      ∀ i (_ : i < ht.slots.length) (_ : i < d.ht0.slots.length),
        d.ht0.slots[i] = [] → ht.slots[i] = []) :
    Structural { d with ht0 := ht } := by
  refine ⟨by simpa [hsz] using hs.pow0, hs.pow1, by simpa [hsz, hm] using hs.mask0, hs.mask1,
    hs.idle, fun hr => ⟨(hs.busy hr).1, fun i hi hlt => ?_⟩⟩
  obtain ⟨hlen, hsl⟩ := hsl hr
  exact hsl i hi (by simpa [hlen] using hi) ((hs.busy hr).2 i (by simpa [hlen] using hi) hlt)

theorem Structural.update1 {d : dict K V} (hs : Structural d) (ht : dictht K V)
    (hsz : ht.size = d.ht1.size) (hm : ht.sizemask = d.ht1.sizemask)
    (hr : d.rehashidx ≠ -1) : Structural { d with ht1 := ht } :=
  ⟨hs.pow0, by simpa [hsz] using hs.pow1, hs.mask0, by simpa [hsz, hm] using hs.mask1,
    fun h => absurd h hr, hs.busy⟩

theorem dictExpand_structural {d d1 : dict K V} {size : Nat} {st : Status}
    (h : dictExpand d size = some (d1, st)) (hs : Structural d) : Structural d1 := by
  obtain ⟨k, -, -, hk, -⟩ := dictNextPower_spec size
  simp only [dictExpand, hk] at h
  split at h
  · simp only [Option.some.injEq, Prod.mk.injEq] at h
    rw [← h.1]; exact hs
  · rename_i hc
    have hr : d.rehashidx = -1 := by
      simp only [Bool.or_eq_true, decide_eq_true_eq, not_or, dictIsRehashing] at hc
      simpa using hc.1
    split at h
    · simp only [Option.some.injEq, Prod.mk.injEq] at h
      rw [← h.1]; exact hs
    · split at h
      · simp only [Option.some.injEq, Prod.mk.injEq] at h
        rw [← h.1]
        exact ⟨Or.inr ⟨k, rfl⟩, hs.pow1, rfl, hs.mask1, hs.idle, fun h' => absurd hr h'⟩
      · simp only [Option.some.injEq, Prod.mk.injEq] at h
        rw [← h.1]
        refine ⟨hs.pow0, Or.inr ⟨k, rfl⟩, hs.mask0, rfl, fun h' => by simp at h',
          fun _ => ⟨le_refl _, fun i _ hlt => ?_⟩⟩
        simp only at hlt
        omega

theorem moveChain_some (ch : List (dictEntry K V)) (d d1 : dict K V)
    (h : dictRehash.moveChain d ch = some d1) :
    d1.rehashidx = d.rehashidx ∧ d1.type = d.type ∧ d1.iterators = d.iterators ∧
      d1.ht0.table = d.ht0.table ∧ d1.ht0.size = d.ht0.size ∧
      d1.ht0.sizemask = d.ht0.sizemask ∧ d1.ht1.size = d.ht1.size ∧
      d1.ht1.sizemask = d.ht1.sizemask := by
  induction ch generalizing d with
  | nil =>
    simp only [dictRehash.moveChain, Option.some.injEq] at h
    subst h
    exact ⟨rfl, rfl, rfl, rfl, rfl, rfl, rfl, rfl⟩
  | cons de nextde ih =>
    unfold dictRehash.moveChain at h
    simp only at h
    split at h
    · simp at h
    · split at h
      · simp at h
      · rename_i ht1 hset
        obtain ⟨f1, f2, -, -, -⟩ := setSlot_fields hset
        obtain ⟨g1, g2, g3, g4, g5, g6, g7, g8⟩ := ih _ h
        simp only at g1 g2 g3 g4 g5 g6 g7 g8
        exact ⟨g1, g2, g3, g4, g5, g6, g7.trans f1, g8.trans f2⟩

theorem skipEmpty_some (l : List (List (dictEntry K V))) (idx : Nat) (ev : Int) (idx1 : Nat)
    (ev1 : Int) (b : Bool) (h : dictRehash.skipEmpty l idx ev = some (idx1, ev1, b)) :
    idx ≤ idx1 ∧ idx1 - idx ≤ l.length ∧
      ∀ j (hj : j < l.length), j < idx1 - idx → l[j] = [] := by
  induction l generalizing idx ev with
  | nil => simp [dictRehash.skipEmpty] at h
  | cons a tl ih =>
    unfold dictRehash.skipEmpty at h
    split at h
    · rename_i ha
      have ha' : a = [] := List.isEmpty_iff.1 ha
      simp only at h
      split at h
      · simp only [Option.some.injEq, Prod.mk.injEq] at h
        obtain ⟨rfl, -, -⟩ := h
        refine ⟨by omega, by simp, fun j hj hlt => ?_⟩
        have : j = 0 := by omega
        subst this
        simpa using ha'
      · obtain ⟨h1, h2, h3⟩ := ih _ _ h
        refine ⟨by omega, by simp; omega, fun j hj hlt => ?_⟩
        cases j with
        | zero => simpa using ha'
        | succ j => simpa using h3 j (by simpa using hj) (by omega)
    · simp only [Option.some.injEq, Prod.mk.injEq] at h
      obtain ⟨rfl, -, -⟩ := h
      exact ⟨le_refl _, by simp, fun j _ hlt => by omega⟩

theorem toULong_le {r : Int} (h : 0 ≤ r) : (toULong r : Int) ≤ r := by
  unfold toULong
  omega

theorem rehashLoop_structural (n : Nat) (d d1 : dict K V) (ev : Int) (b : Bool)
    (h : dictRehash.loop n d ev = some (d1, b)) (hs : Structural d) (hr : d.rehashidx ≠ -1) :
    Structural d1 ∧ d1.rehashidx ≠ -1 := by
  induction n generalizing d ev with
  | zero =>
    simp only [dictRehash.loop, Option.some.injEq, Prod.mk.injEq] at h
    rw [← h.1]; exact ⟨hs, hr⟩
  | succ n ih =>
    unfold dictRehash.loop at h
    split at h
    · simp only [Option.some.injEq, Prod.mk.injEq] at h
      rw [← h.1]; exact ⟨hs, hr⟩
    · split at h
      · simp at h
      · split at h
        · simp at h
        · rename_i t ht
          have hslots : d.ht0.slots = t := by simp [dictht.slots, ht]
          obtain ⟨h0, hemp⟩ := hs.busy hr
          have hule := toULong_le h0
          split at h
          · simp at h
          · rename_i idx ev1 hsk
            obtain ⟨k1, k2, k3⟩ := skipEmpty_some _ _ _ _ _ _ hsk
            simp only [Option.some.injEq, Prod.mk.injEq] at h
            rw [← h.1]
            refine ⟨⟨hs.pow0, hs.pow1, hs.mask0, hs.mask1, fun h' => ?_, fun _ => ⟨?_, ?_⟩⟩, ?_⟩
            · simp only at h'; omega
            · simp only; omega
            · intro i hi hlt
              simp only at hi hlt ⊢
              by_cases hc : (i : Int) < d.rehashidx
              · exact hemp i hi hc
              · have := k3 (i - toULong d.rehashidx) (by
                  simp only [List.length_drop, ← hslots]; omega) (by omega)
                simp only [List.getElem_drop] at this
                simp only [hslots]
                convert this using 2
                omega
            · simp only; omega
          · rename_i idx ev1 hsk
            obtain ⟨k1, k2, k3⟩ := skipEmpty_some _ _ _ _ _ _ hsk
            split at h
            · simp at h
            · rename_i de hde
              split at h
              · simp at h
              · rename_i dm hmv
                obtain ⟨m1, m2, m3, m4, m5, m6, m7, m8⟩ := moveChain_some _ _ _ hmv
                simp only at m1 m2 m3 m4 m5 m6 m7 m8
                split at h
                · simp at h
                · rename_i ht0 hset
                  obtain ⟨s1, s2, s3, s4, s5⟩ := setSlot_fields hset
                  obtain ⟨-, s6, -⟩ := setSlot_some hset
                  have hdm : dm.ht0.slots = d.ht0.slots := by simp [dictht.slots, m4]
                  refine ih _ _ h ⟨?_, ?_, ?_, ?_, ?_, ?_⟩ (by simp only; omega)
                  · simpa [s1, m5] using hs.pow0
                  · simpa [m7] using hs.pow1
                  · simpa [s1, s2, m5, m6] using hs.mask0
                  · simpa [m7, m8] using hs.mask1
                  · intro h'; simp only at h'; omega
                  · intro _
                    refine ⟨by simp only; omega, fun i hi hlt => ?_⟩
                    simp only at hi hlt ⊢
                    simp only [s4, hdm, List.getElem_set]
                    split
                    · rfl
                    · rename_i hne
                      have hi0 : i < d.ht0.slots.length := by
                        simpa [s4, hdm] using hi
                      by_cases hc : (i : Int) < d.rehashidx
                      · exact hemp i hi0 hc
                      · have := k3 (i - toULong d.rehashidx) (by
                          simp only [List.length_drop, ← hslots]; omega) (by omega)
                        simp only [List.getElem_drop] at this
                        simp only [hslots]
                        convert this using 2
                        omega

theorem dictRehash_structural {d d1 : dict K V} {n : Nat} {r : Int}
    (h : dictRehash d n = some (d1, r)) (hs : Structural d) : Structural d1 := by
  unfold dictRehash at h
  simp only at h
  split at h
  · simp only [Option.some.injEq, Prod.mk.injEq] at h
    rw [← h.1]; exact hs
  · rename_i hreh
    have hr : d.rehashidx ≠ -1 := by simpa [dictIsRehashing] using hreh
    split at h
    · simp at h
    · rename_i d2 hl
      simp only [Option.some.injEq, Prod.mk.injEq] at h
      rw [← h.1]
      exact (rehashLoop_structural _ _ _ _ _ hl hs hr).1
    · rename_i d2 hl
      obtain ⟨hs2, hr2⟩ := rehashLoop_structural _ _ _ _ _ hl hs hr
      split at h
      · simp only [Option.some.injEq, Prod.mk.injEq] at h
        rw [← h.1]
        exact ⟨hs2.pow1, Or.inl rfl, hs2.mask1, rfl, fun _ => rfl, fun h' => absurd rfl h'⟩
      · simp only [Option.some.injEq, Prod.mk.injEq] at h
        rw [← h.1]; exact hs2

theorem step_structural {d d1 : dict K V}
    (h : (if dictIsRehashing d then _dictRehashStep d else some d) = some d1)
    (hs : Structural d) : Structural d1 := by
  split at h
  · unfold _dictRehashStep at h
    split at h
    · cases hx : dictRehash d 1 with
      | none => simp [hx] at h
      | some p =>
        obtain ⟨d2, r⟩ := p
        simp only [hx, Option.map_some', Option.some.injEq] at h
        subst h
        exact dictRehash_structural hx hs
    · simp only [Option.some.injEq] at h
      subst h; exact hs
  · simp only [Option.some.injEq] at h
    subst h; exact hs

theorem expandIfNeeded_structural {g : Bool} {d d1 : dict K V} {st : Status}
    (h : _dictExpandIfNeeded g d = some (d1, st)) (hs : Structural d) : Structural d1 := by
  unfold _dictExpandIfNeeded at h
  split at h
  · simp only [Option.some.injEq, Prod.mk.injEq] at h
    rw [← h.1]; exact hs
  · split at h
    · exact dictExpand_structural h hs
    · split at h
      · exact dictExpand_structural h hs
      · simp only [Option.some.injEq, Prod.mk.injEq] at h
        rw [← h.1]; exact hs

theorem keyIndex_some {g : Bool} {d d1 : dict K V} {key : K} {hash : Nat} {idx : Int}
    {ex : Option EntryRef} (h : _dictKeyIndex g d key hash = some (d1, idx, ex)) :
    ∃ st, _dictExpandIfNeeded g d = some (d1, st) ∧ (st = DICT_OK → idx = -1 → ex ≠ none) ∧
      (idx ≠ -1 → 0 ≤ idx ∧ st = DICT_OK) := by
  unfold _dictKeyIndex at h
  split at h
  · simp at h
  · rename_i d2 he
    simp only [Option.some.injEq, Prod.mk.injEq] at h
    obtain ⟨rfl, rfl, rfl⟩ := h
    exact ⟨DICT_ERR, he, fun h' => by simp at h', fun h' => absurd rfl h'⟩
  · rename_i d2 he
    refine ⟨DICT_OK, ?_, ?_, ?_⟩
    all_goals
      simp only at h
      split at h
      · simp at h
      · split at h
        · simp only [Option.some.injEq, Prod.mk.injEq] at h
          obtain ⟨rfl, rfl, rfl⟩ := h
          first
            | exact he
            | exact fun _ _ => by simp
            | exact fun h' => absurd rfl h'
        · split at h
          · simp only [Option.some.injEq, Prod.mk.injEq] at h
            obtain ⟨rfl, rfl, rfl⟩ := h
            first
              | exact he
              | exact fun _ h' => by omega
              | exact fun _ => ⟨by omega, rfl⟩
          · split at h
            · simp at h
            · split at h
              · simp only [Option.some.injEq, Prod.mk.injEq] at h
                obtain ⟨rfl, rfl, rfl⟩ := h
                first
                  | exact he
                  | exact fun _ _ => by simp
                  | exact fun h' => absurd rfl h'
              · simp only [Option.some.injEq, Prod.mk.injEq] at h
                obtain ⟨rfl, rfl, rfl⟩ := h
                first
                  | exact he
                  | exact fun _ h' => by omega
                  | exact fun _ => ⟨by omega, rfl⟩

/-- What `dictAddRaw` has done when it returns: the migration step, the growth check, and
then either nothing (no entry returned) or one entry linked at the head of a slot of the
table that takes the insertions. -/
theorem addRaw_some {g : Bool} {d d1 : dict K V} {key : K} {v0 : V}
    {entry ex : Option EntryRef} (h : dictAddRaw g d key v0 = some (d1, entry, ex)) :
    ∃ d0 d2 st, (if dictIsRehashing d then _dictRehashStep d else some d) = some d0 ∧
      _dictExpandIfNeeded g d0 = some (d2, st) ∧
      ((entry = none ∧ d1 = d2 ∧ (st = DICT_OK → ex ≠ none)) ∨
       (∃ idx chain ht1, entry = some ⟨if dictIsRehashing d2 then 1 else 0, idx, 0⟩ ∧
          (d2.ht (if dictIsRehashing d2 then 1 else 0)).slot idx = some chain ∧
          (d2.ht (if dictIsRehashing d2 then 1 else 0)).setSlot idx
            ({ key := key, val := v0 } :: chain) = some ht1 ∧
          d1 = if (if dictIsRehashing d2 then 1 else 0) = 0
            then { d2 with ht0 := { ht1 with used := ht1.used + 1 } }
            else { d2 with ht1 := { ht1 with used := ht1.used + 1 } })) := by
  unfold dictAddRaw at h
  split at h
  · simp at h
  · rename_i d0 hstep
    split at h
    · simp at h
    · rename_i d2 index existing hki
      obtain ⟨st, hst, hex, -⟩ := keyIndex_some hki
      refine ⟨d0, d2, st, hstep, hst, ?_⟩
      split at h
      · rename_i hidx
        simp only [Option.some.injEq, Prod.mk.injEq] at h
        obtain ⟨rfl, rfl, rfl⟩ := h
        exact Or.inl ⟨rfl, rfl, fun hs => hex hs hidx⟩
      · simp only at h
        split at h
        · simp at h
        · rename_i chain hsl
          split at h
          · simp at h
          · rename_i ht1 hset
            simp only [Option.some.injEq, Prod.mk.injEq] at h
            obtain ⟨rfl, rfl, rfl⟩ := h
            exact Or.inr ⟨_, chain, ht1, rfl, hsl, hset, rfl⟩

theorem setVal_some {d d1 : dict K V} {entry : EntryRef} {val : V}
    (h : dictSetVal d entry val = some d1) :
    ∃ chain he ht, (d.ht entry.table).slot entry.idx = some chain ∧
      chain[entry.pos]? = some he ∧
      (d.ht entry.table).setSlot entry.idx (chain.set entry.pos { he with val := val })
        = some ht ∧
      d1 = if entry.table = 0 then { d with ht0 := ht } else { d with ht1 := ht } := by
  unfold dictSetVal at h
  split at h
  · simp at h
  · rename_i chain hsl
    split at h
    · simp at h
    · rename_i he hpos
      split at h
      · simp at h
      · rename_i ht hset
        refine ⟨chain, he, ht, hsl, hpos, hset, ?_⟩
        split at h
        · rename_i ht0
          simp only [Option.some.injEq] at h
          simp [ht0, h]
        · rename_i ht0
          simp only [Option.some.injEq] at h
          simp [ht0, h]

theorem inTable_some {d d1 : dict K V} {key : K} {hash table : Nat}
    {r : Option (dictEntry K V)}
    (h : dictGenericDelete.inTable d key hash table = some (d1, r)) :
    (r = none ∧ d1 = d) ∨
    (∃ chain he chain1 ht1,
      (d.ht table).slot (hash &&& (d.ht table).sizemask) = some chain ∧
      chainUnlink d key chain = some (he, chain1) ∧
      (d.ht table).setSlot (hash &&& (d.ht table).sizemask) chain1 = some ht1 ∧
      r = some he ∧
      d1 = if table = 0 then { d with ht0 := { ht1 with used := ht1.used - 1 } }
        else { d with ht1 := { ht1 with used := ht1.used - 1 } }) := by
  unfold dictGenericDelete.inTable at h
  simp only at h
  split at h
  · simp at h
  · rename_i chain hsl
    split at h
    · simp only [Option.some.injEq, Prod.mk.injEq] at h
      exact Or.inl ⟨h.2.symm, h.1.symm⟩
    · rename_i he chain1 hun
      split at h
      · simp at h
      · rename_i ht1 hset
        simp only [Option.some.injEq, Prod.mk.injEq] at h
        exact Or.inr ⟨chain, he, chain1, ht1, hsl, hun, hset, h.2.symm, h.1.symm⟩

theorem chainUnlink_sublist (d : dict K V) (key : K) (chain : List (dictEntry K V))
    (he : dictEntry K V) (chain1 : List (dictEntry K V))
    (h : chainUnlink d key chain = some (he, chain1)) : chain1.Sublist chain := by
  induction chain generalizing he chain1 with
  | nil => simp [chainUnlink] at h
  | cons a tl ih =>
    unfold chainUnlink at h
    split at h
    · simp only [Option.some.injEq, Prod.mk.injEq] at h
      rw [← h.2]
      exact List.sublist_cons_self _ _
    · cases hx : chainUnlink d key tl with
      | none => simp [hx] at h
      | some p =>
        obtain ⟨he', c'⟩ := p
        simp only [hx, Option.map_some', Option.some.injEq, Prod.mk.injEq] at h
        rw [← h.2]
        exact (ih _ _ hx).cons₂ _

theorem ht_zero (d : dict K V) : d.ht 0 = d.ht0 := rfl

theorem ht_of_ne_zero (d : dict K V) {t : Nat} (h : t ≠ 0) : d.ht t = d.ht1 := by
  simp [dict.ht, h]

/-- Replacing the chain of one slot by a chain that is empty whenever the old one was keeps
the structure. -/
theorem Structural.setSlot {d : dict K V} (hs : Structural d) (table idx : Nat)
    (chain chain1 : List (dictEntry K V)) (ht1 : dictht K V) (u : Nat)
    (hsl : (d.ht table).slot idx = some chain)
    (hset : (d.ht table).setSlot idx chain1 = some ht1)
    (hnil : d.rehashidx ≠ -1 → table = 0 → chain = [] → chain1 = []) :
    Structural (if table = 0 then { d with ht0 := { ht1 with used := u } }
      else { d with ht1 := { ht1 with used := u } }) := by
  obtain ⟨s1, s2, -, s4, s5⟩ := setSlot_fields hset
  obtain ⟨s6, s7, -⟩ := setSlot_some hset
  obtain ⟨-, s8, s9⟩ := slot_some hsl
  by_cases ht : table = 0
  · subst ht
    simp only [if_true]
    simp only [ht_zero] at s1 s2 s4 s7 s8 s9
    refine hs.update0 _ s1 s2 (fun hr => ⟨?_, fun i hi hi0 hnil0 => ?_⟩)
    · show ht1.slots.length = _
      rw [s4]; simp
    · show ht1.slots[i] = []
      simp only [s4, List.getElem_set]
      split
      · rename_i he
        subst he
        exact hnil hr rfl (by rw [← s9]; exact hnil0)
      · exact hnil0
  · simp only [ht, if_false]
    simp only [ht_of_ne_zero d ht] at s1 s2 s6
    exact hs.update1 _ s1 s2 (hs.rehashing_of_ht1 s6)

theorem addRaw_structural {g : Bool} {d d1 : dict K V} {key : K} {v0 : V}
    {entry ex : Option EntryRef} (h : dictAddRaw g d key v0 = some (d1, entry, ex))
    (hs : Structural d) : Structural d1 := by
  obtain ⟨d0, d2, st, h1, h2, h3⟩ := addRaw_some h
  have hs2 := expandIfNeeded_structural h2 (step_structural h1 hs)
  rcases h3 with ⟨-, rfl, -⟩ | ⟨idx, chain, ht1, -, hsl, hset, rfl⟩
  · exact hs2
  · refine hs2.setSlot _ idx chain _ ht1 _ hsl hset (fun hr ht => ?_)
    have : dictIsRehashing d2 = true := by simpa [dictIsRehashing] using hr
    simp [this] at ht

theorem setVal_structural {d d1 : dict K V} {entry : EntryRef} {val : V}
    (h : dictSetVal d entry val = some d1) (hs : Structural d) : Structural d1 := by
  obtain ⟨chain, he, ht, hsl, hpos, hset, rfl⟩ := setVal_some h
  have := hs.setSlot entry.table entry.idx chain _ ht ht.used hsl hset (fun _ _ hc => by
    rw [hc] at hpos; simp at hpos)
  exact this

theorem dictAdd_structural {g : Bool} {d d1 : dict K V} {key : K} {val : V} {st : Status}
    (h : dictAdd g d key val = some (d1, st)) (hs : Structural d) : Structural d1 := by
  unfold dictAdd at h
  split at h
  · simp at h
  · rename_i d2 _ hraw
    simp only [Option.some.injEq, Prod.mk.injEq] at h
    rw [← h.1]
    exact addRaw_structural hraw hs
  · rename_i d2 entry _ hraw
    split at h
    · simp at h
    · rename_i d3 hset
      simp only [Option.some.injEq, Prod.mk.injEq] at h
      rw [← h.1]
      exact setVal_structural hset (addRaw_structural hraw hs)

theorem dictReplace_structural {g : Bool} {d d1 : dict K V} {key : K} {val : V} {r : Int}
    (h : dictReplace g d key val = some (d1, r)) (hs : Structural d) : Structural d1 := by
  unfold dictReplace at h
  split at h
  · simp at h
  · rename_i d2 entry _ hraw
    split at h
    · simp at h
    · rename_i d3 hset
      simp only [Option.some.injEq, Prod.mk.injEq] at h
      rw [← h.1]
      exact setVal_structural hset (addRaw_structural hraw hs)
  · simp at h
  · rename_i d2 existing hraw
    split at h
    · simp at h
    · rename_i d3 hset
      simp only [Option.some.injEq, Prod.mk.injEq] at h
      rw [← h.1]
      exact setVal_structural hset (addRaw_structural hraw hs)

theorem inTable_structural {d d1 : dict K V} {key : K} {hash table : Nat}
    {r : Option (dictEntry K V)}
    (h : dictGenericDelete.inTable d key hash table = some (d1, r)) (hs : Structural d) :
    Structural d1 := by
  rcases inTable_some h with ⟨-, rfl⟩ | ⟨chain, he, chain1, ht1, hsl, hun, hset, -, rfl⟩
  · exact hs
  · refine hs.setSlot table _ chain chain1 ht1 _ hsl hset (fun _ _ hc => ?_)
    have := chainUnlink_sublist d key chain he chain1 hun
    rw [hc] at this
    exact List.sublist_nil.1 this

theorem genericDelete_structural {d d1 : dict K V} {key : K} {nofree : Bool}
    {r : Option (dictEntry K V)}
    (h : dictGenericDelete d key nofree = some (d1, r)) (hs : Structural d) :
    Structural d1 := by
  unfold dictGenericDelete at h
  split at h
  · simp only [Option.some.injEq, Prod.mk.injEq] at h
    rw [← h.1]; exact hs
  · split at h
    · simp at h
    · rename_i d0 hstep
      have hs0 := step_structural hstep hs
      simp only at h
      split at h
      · simp at h
      · rename_i d2 he h0
        simp only [Option.some.injEq, Prod.mk.injEq] at h
        rw [← h.1]
        exact inTable_structural h0 hs0
      · rename_i d2 h0
        have hs2 := inTable_structural h0 hs0
        split at h
        · simp only [Option.some.injEq, Prod.mk.injEq] at h
          rw [← h.1]; exact hs2
        · exact inTable_structural h hs2

theorem dictDelete_structural {d d1 : dict K V} {key : K} {st : Status}
    (h : dictDelete d key = some (d1, st)) (hs : Structural d) : Structural d1 := by
  unfold dictDelete at h
  split at h
  · simp at h
  · rename_i d2 _ hg
    simp only [Option.some.injEq, Prod.mk.injEq] at h
    rw [← h.1]
    exact genericDelete_structural hg hs
  · rename_i d2 hg
    simp only [Option.some.injEq, Prod.mk.injEq] at h
    rw [← h.1]
    exact genericDelete_structural hg hs

/-- What `dictFind` has done to the dictionary when it returns: the migration step. -/
theorem dictFind_some {d d1 : dict K V} {key : K} {r : Option (dictEntry K V)}
    (h : dictFind d key = some (d1, r)) :
    d1 = d ∨ (if dictIsRehashing d then _dictRehashStep d else some d) = some d1 := by
  unfold dictFind at h
  split at h
  · simp only [Option.some.injEq, Prod.mk.injEq] at h
    exact Or.inl h.1.symm
  · split at h
    · simp at h
    · rename_i d0 hstep
      right
      simp only at h
      split at h
      · simp at h
      · split at h
        · simp only [Option.some.injEq, Prod.mk.injEq] at h
          rw [← h.1]; exact hstep
        · split at h
          · simp only [Option.some.injEq, Prod.mk.injEq] at h
            rw [← h.1]; exact hstep
          · split at h
            · simp at h
            · simp only [Option.some.injEq, Prod.mk.injEq] at h
              rw [← h.1]; exact hstep

theorem dictFind_structural {d d1 : dict K V} {key : K} {r : Option (dictEntry K V)}
    (h : dictFind d key = some (d1, r)) (hs : Structural d) : Structural d1 := by
  rcases dictFind_some h with rfl | h1
  · exact hs
  · exact step_structural h1 hs

theorem dictCreate_structural (ty : dictType K) : Structural (dictCreate ty : dict K V) :=
  ⟨Or.inl rfl, Or.inl rfl, rfl, rfl, fun _ => rfl, fun h => absurd rfl h⟩

theorem dictScan_some {d d1 : dict K V} {v v1 : Nat} {es : List (dictEntry K V)}
    (h : dictScan d v = some (d1, v1, es)) : d1 = d := by
  unfold dictScan at h
  split at h
  · simp only [Option.some.injEq, Prod.mk.injEq] at h
    exact h.1.symm
  · simp only [Option.map_eq_some', Prod.mk.injEq] at h
    obtain ⟨_, -, h1, -⟩ := h
    rw [← h1]
    exact dict_iterators_restore d

theorem rehashMillisecondsLoop_structural (clock : Nat → Int) (start ms : Int) (fuel : Nat)
    (d d1 : dict K V) (rehashes r : Int) (tick : Nat)
    (h : dictRehashMilliseconds.loop clock start ms fuel d rehashes tick = some (d1, r))
    (hs : Structural d) : Structural d1 := by
  induction fuel generalizing d rehashes tick with
  | zero => simp [dictRehashMilliseconds.loop] at h
  | succ fuel ih =>
    unfold dictRehashMilliseconds.loop at h
    split at h
    · simp at h
    · rename_i d2 r2 hre
      have hs2 := dictRehash_structural hre hs
      split at h
      · simp only [Option.some.injEq, Prod.mk.injEq] at h
        rw [← h.1]; exact hs2
      · simp only at h
        split at h
        · simp only [Option.some.injEq, Prod.mk.injEq] at h
          rw [← h.1]; exact hs2
        · exact ih _ _ _ h hs2

theorem rehashMilliseconds_structural {clock : Nat → Int} {d d1 : dict K V} {ms r : Int}
    (h : dictRehashMilliseconds clock d ms = some (d1, r)) (hs : Structural d) :
    Structural d1 := by
  unfold dictRehashMilliseconds at h
  split at h
  · simp only [Option.some.injEq, Prod.mk.injEq] at h
    rw [← h.1]; exact hs
  · exact rehashMillisecondsLoop_structural _ _ _ _ _ _ _ _ _ h hs

/-- Every reachable dictionary has the structure, whatever the callbacks. -/
theorem reachable_structural {ty : dictType K} {d : dict K V} (h : Reachable ty d) :
    Structural d := by
  induction h with
  | create => exact dictCreate_structural ty
  | add g d key val d1 st _ h ih => exact dictAdd_structural h ih
  | replace g d key val d1 r _ h ih => exact dictReplace_structural h ih
  | delete d key d1 st _ h ih => exact dictDelete_structural h ih
  | find d key d1 r _ h ih => exact dictFind_structural h ih
  | expand d size d1 st _ h ih => exact dictExpand_structural h ih
  | rehash d n d1 r _ h ih => exact dictRehash_structural h ih
  | addRaw g d key v0 d1 entry existing _ h ih => exact addRaw_structural h ih
  | unlink d key nofree d1 r _ h ih => exact genericDelete_structural h ih
  | scan d v d1 v1 es _ h ih => rw [dictScan_some h]; exact ih
  | rehashMilliseconds clock d ms d1 r _ h ih => exact rehashMilliseconds_structural h ih

/-- A sequence of `dictAdd`, `dictReplace` and `dictDelete` calls leads from reachable
dictionaries to reachable dictionaries. -/
theorem reachable_runOps {ty : dictType K} (g : Bool) (ops : List (Op K V)) (d d1 : dict K V)
    (h : runOps g d ops = some d1) (hr : Reachable ty d) : Reachable ty d1 := by
  induction ops generalizing d with
  | nil =>
    simp only [runOps, Option.some.injEq] at h
    rw [← h]; exact hr
  | cons op ops ih =>
    unfold runOps at h
    split at h
    · simp at h
    · rename_i d2 hop
      refine ih d2 h ?_
      cases op with
      | add key val =>
        simp only [applyOp, Option.map_eq_some', Prod.exists, exists_and_right,
          exists_eq_right] at hop
        obtain ⟨st, hst⟩ := hop
        exact Reachable.add g d key val d2 st hr hst
      | replace key val =>
        simp only [applyOp, Option.map_eq_some', Prod.exists, exists_and_right,
          exists_eq_right] at hop
        obtain ⟨r, hst⟩ := hop
        exact Reachable.replace g d key val d2 r hr hst
      | delete key =>
        simp only [applyOp, Option.map_eq_some', Prod.exists, exists_and_right,
          exists_eq_right] at hop
        obtain ⟨st, hst⟩ := hop
        exact Reachable.delete d key d2 st hr hst

theorem exampleRehashing_reachable : Reachable natType exampleRehashing :=
  reachable_runOps true exampleOps (dictCreate natType) exampleRehashing rfl Reachable.create

/-- C17: every dictionary reachable from `dictCreate` through `dictAdd`, `dictReplace`,
`dictDelete`, `dictFind`, `dictExpand` and `dictRehash` (and the other operations of
`Reachable`), whatever the callbacks, satisfies: if `rehashidx = -1` then `ht[1]` is reset (no
table, size 0, used 0); if `rehashidx >= 0` then every slot of `ht[0]` with index below
`rehashidx` is empty; and `rehashidx` is -1 or not negative. -/
theorem C17_reachable_migration_invariant (ty : dictType K) (d : dict K V)
    (h : Reachable ty d) :
    (d.rehashidx = -1 → d.ht1.table = none ∧ d.ht1.size = 0 ∧ d.ht1.used = 0) ∧
    (0 ≤ d.rehashidx →
      ∀ i (hi : i < d.ht0.slots.length), (i : Int) < d.rehashidx → d.ht0.slots[i] = []) ∧
    (d.rehashidx = -1 ∨ 0 ≤ d.rehashidx) := by
  have hs := reachable_structural h
  refine ⟨fun hr => ?_, fun hr => (hs.busy (by omega)).2, ?_⟩
  · rw [hs.idle hr]
    exact ⟨rfl, rfl, rfl⟩
  · by_cases hr : d.rehashidx = -1
    · exact Or.inl hr
    · exact Or.inr (hs.busy hr).1

/-- C18: in every dictionary reachable from `dictCreate` through the operations of
`Reachable`, whatever the callbacks, the capacity of `ht[0]` and of `ht[1]` is 0 or a power of
two, and whenever the capacity is positive `sizemask` is `size - 1`. -/
theorem C18_reachable_capacity_invariant (ty : dictType K) (d : dict K V)
    (h : Reachable ty d) :
    (d.ht0.size = 0 ∨ ∃ k, d.ht0.size = 2 ^ k) ∧ (d.ht1.size = 0 ∨ ∃ k, d.ht1.size = 2 ^ k) ∧
    (0 < d.ht0.size → d.ht0.sizemask = d.ht0.size - 1) ∧
    (0 < d.ht1.size → d.ht1.sizemask = d.ht1.size - 1) := by
  have hs := reachable_structural h
  exact ⟨hs.pow0, hs.pow1, fun _ => hs.mask0, fun _ => hs.mask1⟩

theorem C17_witness :
    Reachable natType exampleRehashing ∧
    (exampleRehashing.rehashidx = -1 → exampleRehashing.ht1.table = none ∧
      exampleRehashing.ht1.size = 0 ∧ exampleRehashing.ht1.used = 0) ∧
    (0 ≤ exampleRehashing.rehashidx →
      ∀ i (hi : i < exampleRehashing.ht0.slots.length),
        (i : Int) < exampleRehashing.rehashidx → exampleRehashing.ht0.slots[i] = []) ∧
    (exampleRehashing.rehashidx = -1 ∨ 0 ≤ exampleRehashing.rehashidx) :=
  ⟨exampleRehashing_reachable,
    C17_reachable_migration_invariant natType exampleRehashing exampleRehashing_reachable⟩

theorem C18_witness :
    Reachable natType exampleRehashing ∧
    (exampleRehashing.ht0.size = 0 ∨ ∃ k, exampleRehashing.ht0.size = 2 ^ k) ∧
    (exampleRehashing.ht1.size = 0 ∨ ∃ k, exampleRehashing.ht1.size = 2 ^ k) ∧
    (0 < exampleRehashing.ht0.size →
      exampleRehashing.ht0.sizemask = exampleRehashing.ht0.size - 1) ∧
    (0 < exampleRehashing.ht1.size →
      exampleRehashing.ht1.sizemask = exampleRehashing.ht1.size - 1) :=
  ⟨exampleRehashing_reachable,
    C18_reachable_capacity_invariant natType exampleRehashing exampleRehashing_reachable⟩

/-! ### Operations while a safe iterator is live -/

theorem step_skipped {d : dict K V} (hi : 0 < d.iterators) :
    (if dictIsRehashing d then _dictRehashStep d else some d) = some d := by
  have : d.iterators ≠ 0 := by omega
  split
  · simp [_dictRehashStep, this]
  · rfl

theorem expandIfNeeded_rehashing {d : dict K V} (g : Bool) (hr : dictIsRehashing d = true) :
    _dictExpandIfNeeded g d = some (d, DICT_OK) := by
  simp [_dictExpandIfNeeded, hr]

theorem forall₂_sublist_set {α : Type} (l : List (List α)) (i : Nat) (hi : i < l.length)
    (c1 : List α) (h : c1.Sublist l[i]) : List.Forall₂ List.Sublist (l.set i c1) l := by
  induction l generalizing i with
  | nil => simp at hi
  | cons a tl ih =>
    cases i with
    | zero =>
      simp only [List.set_cons_zero]
      exact List.Forall₂.cons (by simpa using h)
        (List.forall₂_same.2 fun x _ => List.Sublist.refl x)
    | succ i =>
      simp only [List.set_cons_succ]
      exact List.Forall₂.cons (List.Sublist.refl a)
        (ih i (by simpa using hi) (by simpa using h))

theorem forall₂_sublist_refl {α : Type} (l : List (List α)) :
    List.Forall₂ List.Sublist l l :=
  List.forall₂_same.2 fun x _ => List.Sublist.refl x

/-- One round of the search of `dictGenericDelete` leaves `rehashidx` alone and only ever
shortens a chain. -/
theorem inTable_frame {d d1 : dict K V} {key : K} {hash table : Nat}
    {r : Option (dictEntry K V)}
    (h : dictGenericDelete.inTable d key hash table = some (d1, r)) :
    d1.rehashidx = d.rehashidx ∧ (r = none → d1 = d) ∧
      List.Forall₂ List.Sublist d1.ht0.slots d.ht0.slots ∧
      List.Forall₂ List.Sublist d1.ht1.slots d.ht1.slots := by
  rcases inTable_some h with ⟨-, rfl⟩ | ⟨chain, he, chain1, ht1, hsl, hun, hset, hr, rfl⟩
  · exact ⟨rfl, fun _ => rfl, forall₂_sublist_refl _, forall₂_sublist_refl _⟩
  · obtain ⟨-, -, -, s4, -⟩ := setSlot_fields hset
    obtain ⟨-, s7, -⟩ := setSlot_some hset
    obtain ⟨-, s8, s9⟩ := slot_some hsl
    have hsub := chainUnlink_sublist d key chain he chain1 hun
    rw [← s9] at hsub
    by_cases ht : table = 0
    · subst ht
      rw [if_pos rfl]
      refine ⟨rfl, fun h' => by simp [hr] at h', ?_, forall₂_sublist_refl _⟩
      show List.Forall₂ List.Sublist ht1.slots d.ht0.slots
      rw [s4]
      exact forall₂_sublist_set _ _ s8 _ hsub
    · rw [if_neg ht]
      refine ⟨rfl, fun h' => by simp [hr] at h', forall₂_sublist_refl _, ?_⟩
      show List.Forall₂ List.Sublist ht1.slots d.ht1.slots
      rw [s4]
      simp only [ht_of_ne_zero d ht] at s8 hsub ⊢
      exact forall₂_sublist_set _ _ s8 _ hsub

theorem genericDelete_frame {d d1 : dict K V} {key : K} {nofree : Bool}
    {r : Option (dictEntry K V)} (hi : 0 < d.iterators)
    (h : dictGenericDelete d key nofree = some (d1, r)) :
    d1.rehashidx = d.rehashidx ∧
      List.Forall₂ List.Sublist d1.ht0.slots d.ht0.slots ∧
      List.Forall₂ List.Sublist d1.ht1.slots d.ht1.slots := by
  unfold dictGenericDelete at h
  rw [step_skipped hi] at h
  split at h
  · simp only [Option.some.injEq, Prod.mk.injEq] at h
    rw [← h.1]
    exact ⟨rfl, forall₂_sublist_refl _, forall₂_sublist_refl _⟩
  · simp only at h
    split at h
    · simp at h
    · rename_i d2 he h0
      simp only [Option.some.injEq, Prod.mk.injEq] at h
      rw [← h.1]
      obtain ⟨f1, -, f3, f4⟩ := inTable_frame h0
      exact ⟨f1, f3, f4⟩
    · rename_i d2 h0
      obtain ⟨-, f2, -, -⟩ := inTable_frame h0
      have := f2 rfl
      subst this
      split at h
      · simp only [Option.some.injEq, Prod.mk.injEq] at h
        rw [← h.1]
        exact ⟨rfl, forall₂_sublist_refl _, forall₂_sublist_refl _⟩
      · obtain ⟨f1, -, f3, f4⟩ := inTable_frame h
        exact ⟨f1, f3, f4⟩

theorem dictDelete_frame {d d1 : dict K V} {key : K} {st : Status} (hi : 0 < d.iterators)
    (h : dictDelete d key = some (d1, st)) :
    d1.rehashidx = d.rehashidx ∧
      List.Forall₂ List.Sublist d1.ht0.slots d.ht0.slots ∧
      List.Forall₂ List.Sublist d1.ht1.slots d.ht1.slots := by
  unfold dictDelete at h
  split at h
  · simp at h
  · rename_i d2 _ hg
    simp only [Option.some.injEq, Prod.mk.injEq] at h
    rw [← h.1]
    exact genericDelete_frame hi hg
  · rename_i d2 hg
    simp only [Option.some.injEq, Prod.mk.injEq] at h
    rw [← h.1]
    exact genericDelete_frame hi hg

/-- The value store through an entry pointer leaves `rehashidx` alone and keeps, slot by
slot, the keys of both tables. -/
theorem setVal_frame {d d1 : dict K V} {entry : EntryRef} {val : V}
    (h : dictSetVal d entry val = some d1) :
    d1.rehashidx = d.rehashidx ∧
      d1.ht0.slots.map (List.map dictEntry.key) = d.ht0.slots.map (List.map dictEntry.key) ∧
      d1.ht1.slots.map (List.map dictEntry.key) = d.ht1.slots.map (List.map dictEntry.key) ∧
      (entry.table ≠ 0 → d1.ht0 = d.ht0) := by
  obtain ⟨chain, he, ht, hsl, hpos, hset, rfl⟩ := setVal_some h
  obtain ⟨-, -, -, s4, -⟩ := setSlot_fields hset
  obtain ⟨-, s8, s9⟩ := slot_some hsl
  obtain ⟨hp, hhe⟩ := List.getElem?_eq_some.1 hpos
  have hkeys : (ht.slots).map (List.map dictEntry.key) =
      ((d.ht entry.table).slots).map (List.map dictEntry.key) := by
    rw [s4, List.map_set]
    have : List.map dictEntry.key (chain.set entry.pos { he with val := val }) =
        List.map dictEntry.key chain := by
      rw [← hhe]
      exact map_key_set chain entry.pos hp val
    rw [this, ← s9]
    apply List.ext_getElem
    · simp
    · intro i h1 h2
      simp only [List.getElem_set, List.getElem_map]
      split
      · rename_i he'; subst he'; rfl
      · rfl
  by_cases ht0 : entry.table = 0
  · rw [if_pos ht0]
    rw [ht0] at hkeys
    exact ⟨rfl, hkeys, rfl, fun h' => absurd ht0 h'⟩
  · rw [if_neg ht0]
    rw [ht_of_ne_zero d ht0] at hkeys
    exact ⟨rfl, rfl, hkeys, fun _ => rfl⟩

/-- The function `dictAddRaw` on a well-formed dictionary in migration while a safe iterator
is live: the migration step and the growth check do nothing, an absent key is linked at the
head of a slot of `ht[1]`, a stored key is reported through `existing`. -/
theorem addRaw_blocked (g : Bool) (d : dict K V) (key : K) (v0 : V) (hw : WellFormed d)
    (hr : dictIsRehashing d = true) (hi : 0 < d.iterators) :
    (dictLookup d key = none ∧ ∃ d1 idx chain,
        dictAddRaw g d key v0 = some (d1, some ⟨1, idx, 0⟩, none) ∧ WellFormed d1 ∧
        d1.rehashidx = d.rehashidx ∧ d1.ht0 = d.ht0 ∧
        d1.ht1.slot idx = some (⟨key, v0⟩ :: chain) ∧
        (dictEntries d1).Perm (⟨key, v0⟩ :: dictEntries d)) ∨
    (dictLookup d key ≠ none ∧ ∃ tbl idx pos chain e,
        dictAddRaw g d key v0 = some (d, none, some ⟨tbl, idx, pos⟩) ∧ (tbl = 0 ∨ tbl = 1) ∧
        (d.ht tbl).slot idx = some chain ∧ chain[pos]? = some e ∧ key = e.key) := by
  have inv : ∀ {d1 : dict K V} {entry ex : Option EntryRef},
      dictAddRaw g d key v0 = some (d1, entry, ex) →
      (entry = none ∧ d1 = d ∧ ex ≠ none) ∨
      (∃ idx, entry = some ⟨1, idx, 0⟩ ∧ d1.rehashidx = d.rehashidx ∧ d1.ht0 = d.ht0) := by
    intro d1 entry ex h
    obtain ⟨d0, d2, st, h1, h2, h3⟩ := addRaw_some h
    rw [step_skipped hi] at h1
    injection h1 with h1
    subst h1
    rw [expandIfNeeded_rehashing g hr] at h2
    simp only [Option.some.injEq, Prod.mk.injEq] at h2
    obtain ⟨rfl, rfl⟩ := h2
    rcases h3 with ⟨e1, e2, e3⟩ | ⟨idx, chain, ht1, e1, -, -, e4⟩
    · exact Or.inl ⟨e1, e2, e3 rfl⟩
    · simp only [hr, if_true] at e1 e4
      rw [if_neg (by decide)] at e4
      subst e4
      exact Or.inr ⟨idx, e1, rfl, rfl⟩
  obtain ⟨d1, hw1, -, -, hc⟩ := dictAddRaw_spec g d key v0 hw
  rcases hc with ⟨-, -, h⟩ | ⟨habs, hperm, tbl, idx, chain, h, -, hsl⟩ |
      ⟨hperm, tbl, idx, pos, chain, e, h, ht, hsl, hpos, hk⟩
  · rcases inv h with ⟨-, -, c⟩ | ⟨_, c, -⟩
    · exact absurd rfl c
    · simp at c
  · rcases inv h with ⟨c, -, -⟩ | ⟨idx', c, f1, f2⟩
    · simp at c
    · simp only [Option.some.injEq, EntryRef.mk.injEq, and_true] at c
      obtain ⟨rfl, rfl⟩ := c
      exact Or.inl ⟨dictLookup_eq_none.2 habs, d1, idx, chain, h, hw1, f1, f2, hsl, hperm⟩
  · rcases inv h with ⟨-, c, -⟩ | ⟨_, c, -⟩
    · subst c
      refine Or.inr ⟨?_, tbl, idx, pos, chain, e, h, ht, hsl, hpos, hk⟩
      intro hn
      have he := mem_entries_of_slot hsl e (List.getElem?_mem hpos)
      exact dictLookup_eq_none.1 hn e he hk
    · simp at c

theorem dictLookup_of_perm_cons {d1 : dict K V} (hw1 : WellFormed d1) {key : K} {val : V}
    {l : List (dictEntry K V)} (hp : (dictEntries d1).Perm (⟨key, val⟩ :: l)) :
    dictLookup d1 key = some ⟨key, val⟩ :=
  (dictLookup_eq_some hw1).2 ⟨hp.mem_iff.2 (List.mem_cons_self _ _), rfl⟩

/-- C16: for every well-formed rehashing dictionary with `iterators > 0` the migration step is
skipped: `dictFind`, `dictAdd`, `dictReplace` and `dictDelete` return their normal results,
`rehashidx` is not advanced and no entry moves from `ht[0]` to `ht[1]` (`dictFind` changes
nothing, `dictAdd` leaves `ht[0]` as it is, `dictReplace` keeps the keys of every slot of
`ht[0]`, `dictDelete` only shortens a chain), and `dictRehashMilliseconds` returns 0 without
changing the dictionary. -/
theorem C16_safe_iterator_blocks_migration (g : Bool) (clock : Nat → Int) (d : dict K V)
    (key : K) (val : V) (ms : Int) (hw : WellFormed d) (hr : dictIsRehashing d = true)
    (hi : 0 < d.iterators) :
    dictFind d key = some (d, dictLookup d key) ∧
    (∃ d1 st, dictAdd g d key val = some (d1, st) ∧
      (st = DICT_OK ↔ dictLookup d key = none) ∧
      (st = DICT_OK → dictLookup d1 key = some ⟨key, val⟩) ∧ (st = DICT_ERR → d1 = d) ∧
      d1.rehashidx = d.rehashidx ∧ d1.ht0 = d.ht0) ∧
    (∃ d1 r, dictReplace g d key val = some (d1, r) ∧
      (r = if (dictLookup d key).isNone then 1 else 0) ∧
      dictLookup d1 key = some ⟨key, val⟩ ∧ d1.rehashidx = d.rehashidx ∧
      d1.ht0.slots.map (List.map dictEntry.key) = d.ht0.slots.map (List.map dictEntry.key)) ∧
    (∃ d1 st, dictDelete d key = some (d1, st) ∧
      (st = if (dictLookup d key).isSome then DICT_OK else DICT_ERR) ∧
      dictLookup d1 key = none ∧ d1.rehashidx = d.rehashidx ∧
      List.Forall₂ List.Sublist d1.ht0.slots d.ht0.slots ∧
      List.Forall₂ List.Sublist d1.ht1.slots d.ht1.slots) ∧
    dictRehashMilliseconds clock d ms = some (d, 0) := by
  refine ⟨?_, ?_, ?_, ?_, ?_⟩
  · obtain ⟨d1, h1, -, -⟩ := dictFind_spec d key hw
    rcases dictFind_some h1 with h2 | h2
    · rw [h2] at h1; exact h1
    · rw [step_skipped hi] at h2
      injection h2 with h2
      rw [← h2] at h1; exact h1
  · rcases addRaw_blocked g d key val hw hr hi with
      ⟨hl, d1, idx, chain, h, hw1, f1, f2, hsl, -⟩ |
      ⟨hl, tbl, idx, pos, chain, e, h, -, -, -, -⟩
    · obtain ⟨d3, h3, hw3, -, -, f3, hp3⟩ :=
        dictSetVal_spec d1 hw1 1 idx 0 _ ⟨key, val⟩ val (Or.inr rfl) hsl (by simp)
      obtain ⟨-, -, -, f4⟩ := setVal_frame h3
      refine ⟨d3, DICT_OK, by simp [dictAdd, h, h3], by simp [hl],
        fun _ => dictLookup_of_perm_cons hw3 hp3, fun h' => by simp at h', f3.trans f1, ?_⟩
      exact (f4 (by simp)).trans f2
    · exact ⟨d, DICT_ERR, by simp [dictAdd, h], by simp [hl], fun h' => by simp at h',
        fun _ => rfl, rfl, rfl⟩
  · rcases addRaw_blocked g d key val hw hr hi with
      ⟨hl, d1, idx, chain, h, hw1, f1, f2, hsl, -⟩ |
      ⟨hl, tbl, idx, pos, chain, e, h, ht, hsl, hpos, hk⟩
    · obtain ⟨d3, h3, hw3, -, -, f3, hp3⟩ :=
        dictSetVal_spec d1 hw1 1 idx 0 _ ⟨key, val⟩ val (Or.inr rfl) hsl (by simp)
      obtain ⟨-, -, -, f4⟩ := setVal_frame h3
      refine ⟨d3, 1, by simp [dictReplace, h, h3], by simp [hl],
        dictLookup_of_perm_cons hw3 hp3, f3.trans f1, ?_⟩
      rw [f4 (by simp), f2]
    · obtain ⟨d3, h3, hw3, -, -, f3, hp3⟩ :=
        dictSetVal_spec d hw tbl idx pos chain e val ht hsl hpos
      obtain ⟨-, f5, -, -⟩ := setVal_frame h3
      have hsome : (dictLookup d key).isNone = false := by
        cases hx : dictLookup d key with
        | none => exact absurd hx hl
        | some _ => rfl
      rw [← hk] at hp3
      exact ⟨d3, 0, by simp [dictReplace, h, h3], by simp [hsome],
        dictLookup_of_perm_cons hw3 hp3, f3, f5⟩
  · obtain ⟨d1, hw1, -, -, h1, hp⟩ := dictDelete_spec d key hw
    obtain ⟨f1, f2, f3⟩ := dictDelete_frame hi h1
    refine ⟨d1, _, h1, rfl, ?_, f1, f2, f3⟩
    rw [dictLookup_eq_none]
    intro e he
    have := hp.mem_iff.1 he
    simp only [List.mem_filter, Bool.not_eq_true', decide_eq_false_iff_not] at this
    exact this.2
  · have : ¬ d.iterators = 0 := by omega
    simp [dictRehashMilliseconds, hi]

/-! ### Rehashing for a time slice -/

/-- A call of `dictRehash` with `n >= 1` on a well-formed dictionary in migration either
finishes the migration or moves `rehashidx` forward. -/
theorem dictRehash_progress (d : dict K V) (n : Nat) (hw : WellFormed d)
    (hr : dictIsRehashing d = true) (hn : 1 ≤ n) :
    ∃ d1 r, dictRehash d n = some (d1, r) ∧ WellFormed d1 ∧ SameContents d d1 ∧
      (r = 0 ∨ (r = 1 ∧ dictIsRehashing d1 = true ∧ d.rehashidx < d1.rehashidx ∧
        d1.ht0.size = d.ht0.size)) := by
  have hri : d.rehashidx ≠ -1 := by simpa [dictIsRehashing] using hr
  obtain ⟨d1, b, h1, h2, h3, h4, -, -, -, h8, -, -, -, -, h13⟩ :=
    rehashLoop_trace n d (toInt32 ((n : Int) * 10)) hw hri
  have hreh1 : dictIsRehashing d1 = true := by simpa [dictIsRehashing] using h3
  have hsz : d1.ht0.size = d.ht0.size := by
    rw [← h2.wf0.shaped.len, ← hw.wf0.shaped.len, h8]
  obtain ⟨d2, r2, g1, g2, g3⟩ := dictRehash_spec d n hw
  unfold dictRehash at g1
  simp only [hr, Bool.not_true, Bool.false_eq_true, if_false, h1] at g1
  cases b with
  | true =>
    simp only [Option.some.injEq, Prod.mk.injEq] at g1
    obtain ⟨rfl, rfl⟩ := g1
    have hd : dictRehash d n = some (d1, 1) := by
      unfold dictRehash
      simp only [hr, Bool.not_true, Bool.false_eq_true, if_false, h1]
    exact ⟨d1, 1, hd, g2, g3, Or.inr ⟨rfl, hreh1, h13 (Or.inl rfl), hsz⟩⟩
  | false =>
    by_cases hu : d1.ht0.used = 0
    · simp only [hu, if_true, Option.some.injEq, Prod.mk.injEq] at g1
      have hd : dictRehash d n = some (d2, 0) := by
        unfold dictRehash
        simp only [hr, Bool.not_true, Bool.false_eq_true, if_false, h1, hu, if_true, g1.1]
      exact ⟨d2, 0, hd, g2, g3, Or.inl rfl⟩
    · simp only [hu, if_false, Option.some.injEq, Prod.mk.injEq] at g1
      obtain ⟨rfl, rfl⟩ := g1
      have hd : dictRehash d n = some (d1, 1) := by
        unfold dictRehash
        simp only [hr, Bool.not_true, Bool.false_eq_true, if_false, h1, hu]
      exact ⟨d1, 1, hd, g2, g3, Or.inr ⟨rfl, hreh1, h13 (Or.inr ⟨hu, hn⟩), hsz⟩⟩

theorem rehashMillisecondsLoop_returns (clock : Nat → Int) (start ms : Int) (fuel : Nat)
    (d : dict K V) (rehashes : Int) (tick : Nat) (hw : WellFormed d) (hf0 : 1 ≤ fuel)
    (hf : dictIsRehashing d = true → (d.ht0.size - d.rehashidx).toNat + 1 ≤ fuel) :
    ∃ d1 r, dictRehashMilliseconds.loop clock start ms fuel d rehashes tick = some (d1, r) ∧
      WellFormed d1 ∧ SameContents d d1 := by
  induction fuel generalizing d rehashes tick with
  | zero => omega
  | succ fuel ih =>
    unfold dictRehashMilliseconds.loop
    by_cases hr : dictIsRehashing d = true
    · obtain ⟨d1, r, h1, h2, h3, h4⟩ := dictRehash_progress d 100 hw hr (by norm_num)
      rw [h1]
      rcases h4 with rfl | ⟨rfl, hr1, hlt, hsz⟩
      · exact ⟨d1, rehashes, by simp, h2, h3⟩
      · simp only [one_ne_zero, if_false]
        by_cases hc : clock tick - start > ms
        · exact ⟨d1, toInt32 (rehashes + 100), by simp [hc], h2, h3⟩
        · simp only [hc, if_false]
          have hri1 : d1.rehashidx ≠ -1 := by simpa [dictIsRehashing] using hr1
          obtain ⟨b0, b1, -⟩ := h2.busy hri1
          have hfd := hf hr
          obtain ⟨d2, r2, g1, g2, g3⟩ := ih d1 (toInt32 (rehashes + 100)) (tick + 1) h2
            (by omega) (fun _ => by omega)
          exact ⟨d2, r2, g1, g2, h3.trans g3⟩
    · have hr' : dictIsRehashing d = false := by simpa using hr
      have : dictRehash d 100 = some (d, 0) := by simp [dictRehash, hr']
      rw [this]
      exact ⟨d, rehashes, by simp, hw, SameContents.refl d⟩

/-- The function `dictRehashMilliseconds` returns on every well-formed dictionary, whatever
the clock reads, and keeps it well formed with the same contents. -/
theorem dictRehashMilliseconds_returns (clock : Nat → Int) (d : dict K V) (ms : Int)
    (hw : WellFormed d) :
    ∃ d1 r, dictRehashMilliseconds clock d ms = some (d1, r) ∧ WellFormed d1 ∧
      SameContents d d1 := by
  unfold dictRehashMilliseconds
  by_cases hi : d.iterators > 0
  · exact ⟨d, 0, by simp [hi], hw, SameContents.refl d⟩
  · simp only [hi, if_false]
    refine rehashMillisecondsLoop_returns clock _ ms _ d 0 1 hw (by omega) (fun hr => ?_)
    have hri : d.rehashidx ≠ -1 := by simpa [dictIsRehashing] using hr
    obtain ⟨b0, -⟩ := hw.busy hri
    omega

theorem exampleCrowded_wf : WellFormed exampleCrowded :=
  ⟨natType_lawful,
    ⟨⟨by decide, by decide, fun _ => ⟨2, by decide, by decide⟩, by decide⟩, by decide⟩,
    reset_wf _, by decide, by decide, fun h => absurd rfl h⟩

theorem exampleIterating_wf : WellFormed exampleIterating :=
  ⟨natType_lawful,
    ⟨⟨by decide, by decide, fun _ => ⟨2, by decide, by decide⟩, by decide⟩, by decide⟩,
    ⟨⟨by decide, by decide, fun _ => ⟨3, by decide, by decide⟩, by decide⟩, by decide⟩,
    by decide, by decide,
    fun _ => ⟨by decide, by decide, by decide, by decide, by decide⟩⟩

theorem C16_witness :
    WellFormed exampleIterating ∧ dictIsRehashing exampleIterating = true ∧
    0 < exampleIterating.iterators ∧
    dictFind exampleIterating 5 = some (exampleIterating, dictLookup exampleIterating 5) ∧
    (∃ d1 st, dictAdd true exampleIterating 5 55 = some (d1, st) ∧
      (st = DICT_OK ↔ dictLookup exampleIterating 5 = none) ∧
      (st = DICT_OK → dictLookup d1 5 = some ⟨5, 55⟩) ∧ (st = DICT_ERR → d1 = exampleIterating) ∧
      d1.rehashidx = exampleIterating.rehashidx ∧ d1.ht0 = exampleIterating.ht0) ∧
    (∃ d1 r, dictReplace true exampleIterating 5 55 = some (d1, r) ∧
      (r = if (dictLookup exampleIterating 5).isNone then 1 else 0) ∧
      dictLookup d1 5 = some ⟨5, 55⟩ ∧ d1.rehashidx = exampleIterating.rehashidx ∧
      d1.ht0.slots.map (List.map dictEntry.key) =
        exampleIterating.ht0.slots.map (List.map dictEntry.key)) ∧
    (∃ d1 st, dictDelete exampleIterating 5 = some (d1, st) ∧
      (st = if (dictLookup exampleIterating 5).isSome then DICT_OK else DICT_ERR) ∧
      dictLookup d1 5 = none ∧ d1.rehashidx = exampleIterating.rehashidx ∧
      List.Forall₂ List.Sublist d1.ht0.slots exampleIterating.ht0.slots ∧
      List.Forall₂ List.Sublist d1.ht1.slots exampleIterating.ht1.slots) ∧
    dictRehashMilliseconds (fun _ => 0) exampleIterating 1 = some (exampleIterating, 0) :=
  ⟨exampleIterating_wf, by decide, by decide,
    C16_safe_iterator_blocks_migration true (fun _ => 0) exampleIterating 5 55 1
      exampleIterating_wf (by decide) (by decide)⟩

/-! ### Safety of a migration step -/

theorem moveChain_safe (ch : List (dictEntry K V)) (d : dict K V)
    (hs : d.ht1.table.isSome = true) (hm : d.ht1.sizemask < d.ht1.slots.length) :
    ∃ ht1 : dictht K V, dictRehash.moveChain d ch =
        some { d with ht0 := { d.ht0 with used := d.ht0.used - ch.length }, ht1 := ht1 } ∧
      ht1.table.isSome = true ∧ ht1.slots.length = d.ht1.slots.length ∧
      ht1.size = d.ht1.size ∧ ht1.sizemask = d.ht1.sizemask ∧
      ht1.used = d.ht1.used + ch.length ∧
      ht1.entries.length = d.ht1.entries.length + ch.length := by
  induction ch generalizing d with
  | nil => exact ⟨d.ht1, rfl, hs, rfl, rfl, rfl, rfl, rfl⟩
  | cons de nextde ih =>
    unfold dictRehash.moveChain
    have hi : dictHashKey d de.key &&& d.ht1.sizemask < d.ht1.slots.length :=
      lt_of_le_of_lt Nat.and_le_right hm
    simp only [slot_eq_getElem hs _ hi, setSlot_eq hs _ _ hi]
    set h := dictHashKey d de.key &&& d.ht1.sizemask with hh
    obtain ⟨ht1, h1, h2, h3, h4, h5, h6, h7⟩ :=
      ih { d with
          ht0 := { d.ht0 with used := d.ht0.used - 1 },
          ht1 := { d.ht1 with
            table := some (d.ht1.slots.set h (de :: d.ht1.slots[h])),
            used := d.ht1.used + 1 } } rfl
        (by simp only [dictht.slots, Option.getD_some, List.length_set]; exact hm)
    have hperm : (d.ht1.slots.set h (de :: d.ht1.slots[h])).flatten.Perm (de :: d.ht1.entries) :=
      flatten_set_cons_perm _ h hi de
    have h6' : ht1.used = d.ht1.used + 1 + nextde.length := h6
    have h7' : ht1.entries.length =
        (d.ht1.slots.set h (de :: d.ht1.slots[h])).flatten.length + nextde.length := h7
    have hl := hperm.length_eq
    simp only [List.length_cons] at hl
    refine ⟨ht1, ?_, h2, ?_, h4, h5, ?_, ?_⟩
    · rw [h1]; simp only [List.length_cons, Nat.sub_sub, Nat.add_comm]
    · rw [h3]; simp only [dictht.slots, Option.getD_some, List.length_set]
    · rw [h6']; simp only [List.length_cons]; omega
    · rw [h7', hl]
      simp only [dictht.entries, List.length_cons]
      omega

theorem Migrating.nonempty_slot {d : dict K V} (hw : Migrating d) (hu : d.ht0.used ≠ 0) :
    ∃ j, d.rehashidx.toNat ≤ j ∧ ∃ hj : j < d.ht0.slots.length,
      d.ht0.slots[j].isEmpty = false := by
  have hlen : d.ht0.entries.length ≠ 0 := by rw [← hw.used0]; exact hu
  obtain ⟨e, he⟩ := List.exists_mem_of_length_pos (Nat.pos_of_ne_zero hlen)
  obtain ⟨l, hl, hel⟩ := List.mem_flatten.1 he
  obtain ⟨j, hj, rfl⟩ := List.getElem_of_mem hl
  refine ⟨j, ?_, hj, ?_⟩
  · by_contra hlt
    have := hw.empty j hj (by have := hw.idx; omega)
    rw [List.isEmpty_iff] at this
    rw [this] at hel
    simp at hel
  · cases h : d.ht0.slots[j] with
    | nil => rw [h] at hel; simp at hel
    | cons a b => rfl

theorem Migrating.toULong {d : dict K V} (hw : Migrating d) (hu : d.ht0.used ≠ 0) :
    toULong d.rehashidx = d.rehashidx.toNat ∧ d.rehashidx.toNat < d.ht0.size := by
  obtain ⟨j, hrj, hj, _⟩ := hw.nonempty_slot hu
  have h0 := hw.idx
  have hlen := hw.len0
  have hr := hw.range0
  unfold ULONG_RANGE at hr
  refine ⟨?_, by omega⟩
  unfold Dict.toULong
  rw [Int.emod_eq_of_lt h0 (by omega)]

theorem rehashLoop_safe (n : Nat) (d : dict K V) (ev : Int) (hw : Migrating d) :
    ∃ d1 b, dictRehash.loop n d ev = some (d1, b) ∧ Migrating d1 ∧
      d1.ht0.size = d.ht0.size ∧ d1.ht1.size = d.ht1.size ∧ d.rehashidx ≤ d1.rehashidx := by
  induction n generalizing d ev with
  | zero => exact ⟨d, false, rfl, hw, rfl, rfl, le_refl _⟩
  | succ n ih =>
    unfold dictRehash.loop
    by_cases hu : d.ht0.used = 0
    · exact ⟨d, false, by simp [hu], hw, rfl, rfl, le_refl _⟩
    · have h0 := hw.idx
      have hs0 := hw.table0
      have hs1 := hw.table1
      have hemp := hw.empty
      obtain ⟨j, hrj, hj, hjne⟩ := hw.nonempty_slot hu
      obtain ⟨htu, hassert⟩ := hw.toULong hu
      have hlen := hw.len0
      have hrlt : d.rehashidx.toNat < d.ht0.slots.length := by omega
      simp only [hu, if_false, htu, table_eq_slots hs0]
      have hassert' : d.ht0.size > d.rehashidx.toNat := hassert
      simp only [hassert', not_true_eq_false, if_false]
      have hne : ∃ ch ∈ d.ht0.slots.drop d.rehashidx.toNat, ch.isEmpty = false := by
        refine ⟨d.ht0.slots[j], ?_, hjne⟩
        rw [List.mem_iff_getElem]
        refine ⟨j - d.rehashidx.toNat, by simp; omega, ?_⟩
        simp only [List.getElem_drop]
        congr 1; omega
      obtain ⟨m, ev1, b, hsk, hm, hskE, hskN⟩ :=
        skipEmpty_spec (d.ht0.slots.drop d.rehashidx.toNat) d.rehashidx.toNat ev hne
      rw [hsk]
      have hml : d.rehashidx.toNat + m ≤ d.ht0.slots.length := by
        simp at hm; omega
      have hbelow : ∀ i (h : i < d.ht0.slots.length), i < d.rehashidx.toNat + m →
          d.ht0.slots[i].isEmpty = true := by
        intro i hi hlt
        by_cases hir : (i : Int) < d.rehashidx
        · exact hemp i hi hir
        · have hge : d.rehashidx.toNat ≤ i := by omega
          have := hskE (i - d.rehashidx.toNat) (by simp; omega) (by omega)
          simp only [List.getElem_drop] at this
          convert this using 3; omega
      cases b with
      | true =>
        refine ⟨{ d with rehashidx := ((d.rehashidx.toNat + m : Nat) : Int) }, true, rfl, ?_,
          rfl, rfl, by simp only; omega⟩
        refine ⟨by simp only; omega, by simp only; omega, hs0, hs1, hw.len0, hw.len1,
          hw.range0, hw.mask1, hw.used0, ?_⟩
        intro i hi hlt
        exact hbelow i hi (by simp only at hlt; omega)
      | false =>
        obtain ⟨hmlt, hmne⟩ := hskN rfl
        have hidx : d.rehashidx.toNat + m < d.ht0.slots.length := by
          simp at hmlt; omega
        simp only [slot_eq_getElem hs0 _ hidx]
        obtain ⟨ht1, hmv, hs11, hl1, hsz1, hmk1, -, -⟩ :=
          moveChain_safe (d.ht0.slots[d.rehashidx.toNat + m])
            { d with rehashidx := ((d.rehashidx.toNat + m : Nat) : Int) } hs1
            (by have := hw.mask1; have := hw.len1; simp only; omega)
        rw [hmv]
        simp only at hl1 hsz1 hmk1 ⊢
        have hsl1 : ∀ u, (dictht.slots ({ d.ht0 with used := u } : dictht K V)) = d.ht0.slots :=
          fun _ => rfl
        rw [setSlot_eq (by exact hs0) _ _ (by rw [hsl1]; exact hidx)]
        simp only [hsl1]
        have hperm0 := flatten_perm_getElem d.ht0.slots _ hidx
        have hmig : Migrating ({ d with
            ht0 := { d.ht0 with
              table := some (d.ht0.slots.set (d.rehashidx.toNat + m) []),
              used := d.ht0.used - (d.ht0.slots[d.rehashidx.toNat + m]).length },
            ht1 := ht1,
            rehashidx := ((d.rehashidx.toNat + m : Nat) : Int) + 1 } : dict K V) := by
          refine ⟨by simp only; omega, by simp only; omega, rfl, hs11, ?_, ?_, hw.range0, ?_,
            ?_, ?_⟩
          · simp only [dictht.slots, Option.getD_some, List.length_set]
            exact hw.len0
          · simp only
            rw [hl1, hsz1]
            exact hw.len1
          · simp only
            rw [hmk1, hsz1]
            exact hw.mask1
          · show d.ht0.used - _ = (d.ht0.slots.set _ []).flatten.length
            have h2 := hw.used0
            have h3 := hperm0.length_eq
            simp only [dictht.entries, List.length_append] at h2 h3
            omega
          · intro i hi hlt
            simp only [dictht.slots, Option.getD_some, List.length_set] at hi hlt ⊢
            rw [List.getElem_set]
            split
            · rfl
            · exact hbelow i hi (by omega)
        obtain ⟨d2, b, h2, h3, h4, h5, h6⟩ := ih _ ev1 hmig
        refine ⟨d2, b, h2, h3, h4, ?_, ?_⟩
        · rw [h5]; exact hsz1
        · simp only at h6; omega

theorem WellFormed.migrating {d : dict K V} (hw : WellFormed d) (hr : d.rehashidx ≠ -1) :
    Migrating d := by
  obtain ⟨h0, h1, hs0, hs1, hemp⟩ := hw.busy hr
  have hsz := size_le_of_shaped hw.wf0.shaped
  obtain ⟨k, _, hk⟩ := hw.wf1.shaped.pow2 hs1
  have hpos : 0 < d.ht1.size := by rw [hk]; positivity
  refine ⟨hr, h0, hs0, hs1, hw.wf0.shaped.len, hw.wf1.shaped.len, ?_, ?_, hw.wf0.used, hemp⟩
  · unfold ULONG_RANGE; omega
  · rw [hw.wf1.shaped.mask]; omega

/-- C38: on a dictionary that is being rehashed, in which both tables are allocated with
`size` slots, the mask of `ht[1]` is below its size, the `used` counter of `ht[0]` is the
number of entries chained in it and every slot of `ht[0]` below `rehashidx` is empty
(`Migrating`; nothing is asked of the keys, their hashes or the counter of `ht[1]`),
`dictRehash(d, n)` returns for every `n`: the assertion `ht[0].size > rehashidx` holds every
time it is reached and every access to `ht[0].table[rehashidx]` and to
`ht[1].table[hash & ht[1].sizemask]` is within bounds (the model has no result for a failed
assertion or an access out of bounds).  The result is 0 or 1, and after the result 1 the
dictionary is as required again. -/
theorem C38_dictRehash_safe (d : dict K V) (n : Nat) (hw : Migrating d) :
    ∃ d1 r, dictRehash d n = some (d1, r) ∧ (r = 0 ∨ r = 1) ∧ (r = 1 → Migrating d1) := by
  unfold dictRehash
  have hreh : dictIsRehashing d = true := by simp [dictIsRehashing, hw.busy]
  obtain ⟨d1, b, h1, h2, -, -, -⟩ := rehashLoop_safe n d (toInt32 ((n : Int) * 10)) hw
  simp only [hreh, Bool.not_true, Bool.false_eq_true, if_false, h1]
  cases b with
  | true => exact ⟨d1, 1, rfl, Or.inr rfl, fun _ => h2⟩
  | false =>
    by_cases hu : d1.ht0.used = 0
    · simp only [hu, if_true]
      exact ⟨_, 0, rfl, Or.inl rfl, fun h => by cases h⟩
    · simp only [hu, if_false]
      exact ⟨d1, 1, rfl, Or.inr rfl, fun _ => h2⟩

theorem exampleMisplaced_migrating : Migrating exampleMisplaced :=
  ⟨by decide, by decide, by decide, by decide, by decide, by decide, by decide, by decide,
    by decide, by decide⟩

theorem exampleMisplaced_run :
    (dictRehash exampleMisplaced 1).map
      (fun r => (r.1.ht0.table, r.1.ht1.table, r.1.rehashidx, r.1.ht0.used, r.2)) =
      some (some [[], [], [], [⟨7, 70⟩]],
        some [[], [⟨1, 11⟩, ⟨1, 10⟩], [], [], [], [], [], []], 3, 1, 1) := by
  rfl

theorem C38_witness :
    Migrating exampleMisplaced ∧
    ∃ d1 r, dictRehash exampleMisplaced 1 = some (d1, r) ∧ (r = 0 ∨ r = 1) ∧
      (r = 1 → Migrating d1) :=
  ⟨exampleMisplaced_migrating, C38_dictRehash_safe exampleMisplaced 1 exampleMisplaced_migrating⟩

/-! ### The order of one scan during a migration -/

theorem rev_and_mask_div (v k : Nat) (hk : k ≤ 64) :
    rev (v &&& (2 ^ k - 1)) / 2 ^ (64 - k) = rev v / 2 ^ (64 - k) := by
  rw [← mask_eq_iff _ _ k hk, Nat.and_assoc, Nat.and_self]

theorem and_mask_lt (v k : Nat) : v &&& (2 ^ k - 1) < 2 ^ k := by
  have h1 : v &&& (2 ^ k - 1) ≤ 2 ^ k - 1 := Nat.and_le_right
  have h2 : 0 < 2 ^ k := by positivity
  omega

/-- The loop of `dictScan` over the larger table, bucket by bucket: `js` are the indices of the
buckets it visits, in order; their bit-reversed indices count up from that of the cursor to the
next multiple of `2 ^ (k1 - k0)`. -/
theorem expansions_exact {t1 : dictht K V} (hs : t1.table.isSome = true) (k0 k1 : Nat)
    (h01 : k0 ≤ k1) (hk1 : k1 ≤ 64) (hlen : t1.slots.length = 2 ^ k1) (fuel v : Nat)
    (hf : (rev v / 2 ^ (64 - k1) / 2 ^ (k1 - k0) + 1) * 2 ^ (k1 - k0) -
      rev v / 2 ^ (64 - k1) ≤ fuel) :
    ∃ (v1 : Nat) (js : List Nat),
      dictScan.expansions t1 (2 ^ k0 - 1) (2 ^ k1 - 1) fuel v =
        some (v1, (js.map (fun j => t1.slots.getD j [])).flatten) ∧
      v1 < 2 ^ 64 ∧ v1 &&& ((2 ^ k0 - 1) ^^^ (2 ^ k1 - 1)) = 0 ∧
      (∀ j ∈ js, j < 2 ^ k1) ∧
      js.map (fun j => rev j / 2 ^ (64 - k1)) =
        List.range' (rev v / 2 ^ (64 - k1))
          ((rev v / 2 ^ (64 - k1) / 2 ^ (k1 - k0) + 1) * 2 ^ (k1 - k0) -
            rev v / 2 ^ (64 - k1)) := by
  induction fuel generalizing v with
  | zero =>
    exfalso
    have hD : 0 < 2 ^ (k1 - k0) := by positivity
    have h3 := Nat.lt_div_mul_add hD (a := rev v / 2 ^ (64 - k1))
    rw [Nat.add_mul, Nat.one_mul] at hf
    omega
  | succ fuel ih =>
    set c := rev v / 2 ^ (64 - k1) with hc
    set D := 2 ^ (k1 - k0) with hDdef
    have hD : 0 < D := by positivity
    have hidx : v &&& (2 ^ k1 - 1) < t1.slots.length := by
      rw [hlen]; exact and_mask_lt v k1
    have hsl := slot_eq_getElem hs _ hidx
    unfold dictScan.expansions
    simp only [hsl]
    have hrev1 := rev_advance v k1 hk1
    rw [← hc] at hrev1
    have hc1 : rev (dictScan.advance v (2 ^ k1 - 1)) / 2 ^ (64 - k1) = (c + 1) % 2 ^ k1 := by
      rw [hrev1, mul_pow_mod_div _ _ hk1]
    have hdvd : D ∣ 2 ^ k1 := by
      rw [hDdef]; exact Nat.pow_dvd_pow 2 (by omega)
    have htest := scan_test_iff (dictScan.advance v (2 ^ k1 - 1)) k0 k1 h01 hk1
    rw [hc1, ← hDdef, Nat.mod_mod_of_dvd _ hdvd] at htest
    have hclt : c < 2 ^ k1 := rev_div_lt v k1 hk1
    have hdm := Nat.div_add_mod c D
    have hmlt := Nat.mod_lt c hD
    have hget : t1.slots.getD (v &&& (2 ^ k1 - 1)) [] = t1.slots[v &&& (2 ^ k1 - 1)] := by
      rw [List.getD_eq_getElem?_getD, List.getElem?_eq_getElem hidx]
      rfl
    by_cases hstop : (c + 1) % D = 0
    · have hz := htest.2 hstop
      have hend : (c / D + 1) * D = c + 1 := by
        have h1 := Nat.div_add_mod (c + 1) D
        rw [hstop] at h1
        have h2 : (c + 1) / D = c / D + 1 := by
          rw [Nat.succ_div]; simp [Nat.dvd_of_mod_eq_zero hstop]
        rw [h2] at h1
        rw [Nat.mul_comm]; omega
      refine ⟨dictScan.advance v (2 ^ k1 - 1), [v &&& (2 ^ k1 - 1)], ?_, advance_lt _ _, hz,
        ?_, ?_⟩
      · simp only [hz, ne_eq, not_true_eq_false, if_false, List.map_cons, List.map_nil,
          List.flatten_cons, List.flatten_nil, List.append_nil, hget]
      · intro j hj
        rw [List.mem_singleton] at hj
        rw [hj]; exact and_mask_lt v k1
      · rw [hend]
        simp only [List.map_cons, List.map_nil, rev_and_mask_div v k1 hk1, ← hc]
        have : c + 1 - c = 1 := by omega
        rw [this]
        rfl
    · have hnz : ¬ (dictScan.advance v (2 ^ k1 - 1) &&& ((2 ^ k0 - 1) ^^^ (2 ^ k1 - 1)) = 0) :=
        fun h => hstop (htest.1 h)
      have hc1lt : c + 1 < 2 ^ k1 := by
        by_contra hge
        have : c + 1 = 2 ^ k1 := by omega
        rw [this] at hstop
        exact hstop (Nat.mod_eq_zero_of_dvd hdvd)
      have hc1' : rev (dictScan.advance v (2 ^ k1 - 1)) / 2 ^ (64 - k1) = c + 1 := by
        rw [hc1, Nat.mod_eq_of_lt hc1lt]
      have hdiv : (c + 1) / D = c / D := succ_div_of_not_dvd c D hstop
      obtain ⟨v2, js, h1, h2, h3, h4, h5⟩ := ih (dictScan.advance v (2 ^ k1 - 1)) (by
        rw [hc1', hdiv]
        omega)
      rw [hc1', hdiv] at h5
      refine ⟨v2, (v &&& (2 ^ k1 - 1)) :: js, ?_, h2, h3, ?_, ?_⟩
      · simp only [hnz, ne_eq, not_false_eq_true, if_true, h1, Option.map_some', List.map_cons,
          List.flatten_cons, hget]
      · intro j hj
        rcases List.mem_cons.1 hj with rfl | hj
        · exact and_mask_lt v k1
        · exact h4 j hj
      · simp only [List.map_cons, rev_and_mask_div v k1 hk1, ← hc, h5]
        have h3' := Nat.lt_div_mul_add hD (a := c)
        have hlen2 : (c / D + 1) * D - c = ((c / D + 1) * D - (c + 1)) + 1 := by
          have hlt : (c + 1) ≤ (c / D + 1) * D := by
            rw [Nat.add_mul, Nat.one_mul]; omega
          omega
        rw [hlen2, List.range'_succ]

theorem div_eq_of_block (x c D : Nat) (hD : 0 < D) (hc : c % D = 0) :
    (c ≤ x ∧ x < c + D) ↔ x / D = c / D := by
  have h1 := Nat.div_add_mod c D
  rw [hc] at h1
  have h2 := Nat.div_add_mod x D
  have h3 := Nat.mod_lt x hD
  constructor
  · rintro ⟨ha, hb⟩
    have h4 : c / D ≤ x / D := Nat.div_le_div_right ha
    have h5 : x / D < c / D + 1 := by
      rw [Nat.div_lt_iff_lt_mul hD, Nat.add_mul, Nat.one_mul, Nat.mul_comm]
      omega
    omega
  · intro h
    rw [h] at h2
    constructor <;> omega

/-- The buckets of the larger table that one call of `dictScan` visits from a cursor whose bits
within `m0 ^ m1` are zero: every index that agrees with the cursor on the bits of `m0`, once
each. -/
theorem expansions_buckets {tl : dictht K V} (hsl : tl.table.isSome = true) (k0 k1 : Nat)
    (h01 : k0 ≤ k1) (hk1 : k1 ≤ 64) (hlen : tl.slots.length = 2 ^ k1) (v : Nat)
    (hv : v &&& ((2 ^ k0 - 1) ^^^ (2 ^ k1 - 1)) = 0) :
    ∃ (v1 : Nat) (js : List Nat),
      dictScan.expansions tl (2 ^ k0 - 1) (2 ^ k1 - 1) ULONG_RANGE v =
        some (v1, (js.map (fun j => tl.slots.getD j [])).flatten) ∧
      v1 < 2 ^ 64 ∧ v1 &&& ((2 ^ k0 - 1) ^^^ (2 ^ k1 - 1)) = 0 ∧ js.Nodup ∧
      ∀ j, j ∈ js ↔ j < 2 ^ k1 ∧ j &&& (2 ^ k0 - 1) = v &&& (2 ^ k0 - 1) := by
  have hk0 : k0 ≤ 64 := by omega
  have hD : 0 < 2 ^ (k1 - k0) := by positivity
  have hcD0 : (rev v / 2 ^ (64 - k1)) % 2 ^ (k1 - k0) = 0 :=
    (scan_test_iff v k0 k1 h01 hk1).1 hv
  have hpow : 2 ^ (64 - k1) * 2 ^ (k1 - k0) = 2 ^ (64 - k0) := by
    rw [← pow_add]; congr 1; omega
  have hdd : ∀ x, rev x / 2 ^ (64 - k1) / 2 ^ (k1 - k0) = rev x / 2 ^ (64 - k0) := by
    intro x
    rw [Nat.div_div_eq_div_mul, hpow]
  have hn : (rev v / 2 ^ (64 - k1) / 2 ^ (k1 - k0) + 1) * 2 ^ (k1 - k0) -
      rev v / 2 ^ (64 - k1) = 2 ^ (k1 - k0) := by
    have h1 := Nat.div_add_mod (rev v / 2 ^ (64 - k1)) (2 ^ (k1 - k0))
    rw [hcD0] at h1
    rw [Nat.add_mul, Nat.one_mul, Nat.mul_comm]
    omega
  have hfuel : (rev v / 2 ^ (64 - k1) / 2 ^ (k1 - k0) + 1) * 2 ^ (k1 - k0) -
      rev v / 2 ^ (64 - k1) ≤ ULONG_RANGE := by
    rw [hn]
    unfold ULONG_RANGE
    exact Nat.pow_le_pow_right (by norm_num) (by omega)
  obtain ⟨v1, js, h1, h2, h3, h4, h5⟩ :=
    expansions_exact hsl k0 k1 h01 hk1 hlen ULONG_RANGE v hfuel
  rw [hn] at h5
  have hmem : ∀ j, j ∈ js → (rev v / 2 ^ (64 - k1) ≤ rev j / 2 ^ (64 - k1) ∧
      rev j / 2 ^ (64 - k1) < rev v / 2 ^ (64 - k1) + 2 ^ (k1 - k0)) := by
    intro j hj
    have : rev j / 2 ^ (64 - k1) ∈ js.map (fun j => rev j / 2 ^ (64 - k1)) :=
      List.mem_map.2 ⟨j, hj, rfl⟩
    rw [h5] at this
    exact List.mem_range'_1.1 this
  refine ⟨v1, js, h1, h2, h3, ?_, ?_⟩
  · apply List.Nodup.of_map (fun j => rev j / 2 ^ (64 - k1))
    rw [h5]
    exact List.nodup_range' _ _
  · intro j
    constructor
    · intro hj
      refine ⟨h4 j hj, ?_⟩
      rw [mask_eq_iff j v k0 hk0, ← hdd, ← hdd]
      exact (div_eq_of_block _ _ _ hD hcD0).1 (hmem j hj)
    · rintro ⟨hjlt, hjm⟩
      rw [mask_eq_iff j v k0 hk0, ← hdd, ← hdd] at hjm
      have hb := (div_eq_of_block _ _ _ hD hcD0).2 hjm
      have : rev j / 2 ^ (64 - k1) ∈ js.map (fun j => rev j / 2 ^ (64 - k1)) := by
        rw [h5]; exact List.mem_range'_1.2 hb
      obtain ⟨j1, hj1, hj1e⟩ := List.mem_map.1 this
      have hj1e' : rev j1 / 2 ^ (64 - k1) = rev j / 2 ^ (64 - k1) := hj1e
      rw [← mask_eq_iff j1 j k1 hk1, Nat.and_pow_two_sub_one_eq_mod,
        Nat.and_pow_two_sub_one_eq_mod, Nat.mod_eq_of_lt (h4 j1 hj1),
        Nat.mod_eq_of_lt hjlt] at hj1e'
      rw [← hj1e']
      exact hj1

theorem getD_nil_of_entries_nil {ht : dictht K V} (h : ht.entries = []) (i : Nat) :
    ht.slots.getD i [] = [] := by
  rw [List.getD_eq_getElem?_getD]
  cases hi : ht.slots[i]? with
  | none => rfl
  | some ch =>
    have hmem := List.getElem?_mem hi
    have := List.flatten_eq_nil_iff.1 h ch hmem
    simpa using this

theorem flatten_map_nil_of_entries_nil {ht : dictht K V} (h : ht.entries = [])
    (js : List Nat) : (js.map (fun j => ht.slots.getD j [])).flatten = [] := by
  rw [List.flatten_eq_nil_iff]
  intro l hl
  obtain ⟨j, _, rfl⟩ := List.mem_map.1 hl
  exact getD_nil_of_entries_nil h j

theorem scan_rehashing_exact {ty : dictType K} {ts tl : dictht K V} (hws : ts.Shaped ty)
    (hwl : tl.Shaped ty) (hss : ts.table.isSome = true) (hsl : tl.table.isSome = true)
    (hle : ts.size ≤ tl.size) (v : Nat) (hv : v &&& (ts.sizemask ^^^ tl.sizemask) = 0) :
    ∃ (v1 : Nat) (js : List Nat),
      ts.slot (v &&& ts.sizemask) = some (ts.slots.getD (v &&& ts.sizemask) []) ∧
      dictScan.expansions tl ts.sizemask tl.sizemask ULONG_RANGE v =
        some (v1, (js.map (fun j => tl.slots.getD j [])).flatten) ∧
      v1 < 2 ^ 64 ∧ v1 &&& (ts.sizemask ^^^ tl.sizemask) = 0 ∧ js.Nodup ∧
      ∀ j, j ∈ js ↔ j < tl.size ∧ j &&& ts.sizemask = v &&& ts.sizemask := by
  obtain ⟨k0, hk0, hsz0⟩ := hws.pow2 hss
  obtain ⟨k1, hk1, hsz1⟩ := hwl.pow2 hsl
  have hk1' : k1 ≤ 64 := by omega
  have h01 : k0 ≤ k1 := by
    rw [hsz0, hsz1] at hle
    exact (Nat.pow_le_pow_iff_right (by norm_num)).1 hle
  have hm0 : ts.sizemask = 2 ^ k0 - 1 := by rw [hws.mask, hsz0]
  have hm1 : tl.sizemask = 2 ^ k1 - 1 := by rw [hwl.mask, hsz1]
  rw [hm0, hm1] at hv ⊢
  obtain ⟨v1, js, h1, h2, h3, h4, h5⟩ :=
    expansions_buckets hsl k0 k1 h01 hk1' (by rw [hwl.len, hsz1]) v hv
  have hidx : v &&& (2 ^ k0 - 1) < ts.slots.length := by
    rw [hws.len, hsz0]; exact and_mask_lt v k0
  refine ⟨v1, js, ?_, h1, h2, h3, h4, ?_⟩
  · rw [slot_eq_getElem hss _ hidx, List.getD_eq_getElem?_getD, List.getElem?_eq_getElem hidx]
    rfl
  · rw [hsz1]; exact h5

/-- C35: on a well-formed dictionary in which a migration runs, with `t0` the smaller and `t1`
the larger table as `dictScan` picks them, `m0` and `m1` their masks, and a cursor `v` with
`v & (m0 ^ m1) = 0`: one call of `dictScan` returns and leaves the dictionary as it was; the
entries it hands to the callback are, in this order, those of the bucket `v & m0` of `t0` and
then those of the buckets `js` of `t1`, bucket by bucket, where `js` lists every index `j` of
`t1` with `j & m0 = v & m0` exactly once; and the cursor it returns has the bits within
`m0 ^ m1` zero again. -/
theorem C35_scan_while_rehashing (d : dict K V) (v : Nat) (hw : WellFormed d)
    (hr : dictIsRehashing d = true)
    (hv : v &&& ((dictScan.t0 d).sizemask ^^^ (dictScan.t1 d).sizemask) = 0) :
    ∃ (v1 : Nat) (js : List Nat),
      dictScan d v = some (d, v1,
        (dictScan.t0 d).slots.getD (v &&& (dictScan.t0 d).sizemask) [] ++
          (js.map (fun j => (dictScan.t1 d).slots.getD j [])).flatten) ∧
      js.Nodup ∧
      (∀ j, j ∈ js ↔
        j < (dictScan.t1 d).size ∧
          j &&& (dictScan.t0 d).sizemask = v &&& (dictScan.t0 d).sizemask) ∧
      v1 < 2 ^ 64 ∧ v1 &&& ((dictScan.t0 d).sizemask ^^^ (dictScan.t1 d).sizemask) = 0 := by
  have hr' : d.rehashidx ≠ -1 := by simpa [dictIsRehashing] using hr
  obtain ⟨-, -, hs0, hs1, -⟩ := hw.busy hr'
  have key : ∀ (ts tl : dictht K V), ts.Shaped d.type → tl.Shaped d.type →
      ts.table.isSome = true → tl.table.isSome = true → ts.size ≤ tl.size →
      dictScan.t0 d = ts → dictScan.t1 d = tl →
      (dictSize d = 0 → ts.entries = [] ∧ tl.entries = []) →
      (dictSize d ≠ 0 → ∀ v1 es, ts.slot (v &&& ts.sizemask) = some
          (ts.slots.getD (v &&& ts.sizemask) []) →
        dictScan.expansions tl ts.sizemask tl.sizemask ULONG_RANGE v = some (v1, es) →
        dictScan d v = some (d, v1, ts.slots.getD (v &&& ts.sizemask) [] ++ es)) →
      ∃ (v1 : Nat) (js : List Nat),
        dictScan d v = some (d, v1,
          (dictScan.t0 d).slots.getD (v &&& (dictScan.t0 d).sizemask) [] ++
            (js.map (fun j => (dictScan.t1 d).slots.getD j [])).flatten) ∧
        js.Nodup ∧
        (∀ j, j ∈ js ↔
          j < (dictScan.t1 d).size ∧
            j &&& (dictScan.t0 d).sizemask = v &&& (dictScan.t0 d).sizemask) ∧
        v1 < 2 ^ 64 ∧
        v1 &&& ((dictScan.t0 d).sizemask ^^^ (dictScan.t1 d).sizemask) = 0 := by
    intro ts tl hws hwl hss hsl hle e0 e1 hzero hrun
    rw [e0, e1] at hv ⊢
    obtain ⟨v1, js, g1, g2, g3, g4, g5, g6⟩ :=
      scan_rehashing_exact hws hwl hss hsl hle v hv
    by_cases hz : dictSize d = 0
    · obtain ⟨n0, n1⟩ := hzero hz
      refine ⟨0, js, ?_, g5, g6, by norm_num, Nat.zero_and _⟩
      rw [getD_nil_of_entries_nil n0, flatten_map_nil_of_entries_nil n1]
      unfold dictScan
      simp [hz]
    · exact ⟨v1, js, hrun hz v1 _ g1 g2, g5, g6, g3, g4⟩
  have hreh : dictIsRehashing ({ d with iterators := d.iterators + 1 } : dict K V) = true := by
    simp [dictIsRehashing, hr']
  have hlen0 : dictSize d = 0 → d.ht0.entries = [] ∧ d.ht1.entries = [] := by
    intro hz
    have h1 := hw.wf0.used
    have h2 := hw.wf1.used
    unfold dictSize at hz
    exact ⟨List.length_eq_zero.1 (by omega), List.length_eq_zero.1 (by omega)⟩
  by_cases hgt : d.ht0.size > d.ht1.size
  · refine key d.ht1 d.ht0 hw.wf1.shaped hw.wf0.shaped hs1 hs0 (by omega)
      (by simp [dictScan.t0, hgt]) (by simp [dictScan.t1, hgt])
      (fun hz => (hlen0 hz).symm) ?_
    intro hz v1 es hsl hex
    unfold dictScan
    simp only [hz, if_false, hreh, Bool.not_true, Bool.false_eq_true, hgt, if_true, hsl, hex,
      Option.map_some', Nat.add_sub_cancel]
  · refine key d.ht0 d.ht1 hw.wf0.shaped hw.wf1.shaped hs0 hs1 (by omega)
      (by simp [dictScan.t0, hgt]) (by simp [dictScan.t1, hgt]) hlen0 ?_
    intro hz v1 es hsl hex
    unfold dictScan
    simp only [hz, if_false, hreh, Bool.not_true, Bool.false_eq_true, hgt, hsl, hex,
      Option.map_some', Nat.add_sub_cancel]

theorem exampleRehashing_scan :
    (dictScan exampleRehashing 1).map (fun r => (r.2.1, r.2.2)) =
      some (3, [⟨1, 10⟩, ⟨5, 50⟩]) := by
  decide

theorem C35_witness :
    WellFormed exampleRehashing ∧ dictIsRehashing exampleRehashing = true ∧
    1 &&& ((dictScan.t0 exampleRehashing).sizemask ^^^
      (dictScan.t1 exampleRehashing).sizemask) = 0 ∧
    ∃ (v1 : Nat) (js : List Nat),
      dictScan exampleRehashing 1 = some (exampleRehashing, v1,
        (dictScan.t0 exampleRehashing).slots.getD
            (1 &&& (dictScan.t0 exampleRehashing).sizemask) [] ++
          (js.map (fun j => (dictScan.t1 exampleRehashing).slots.getD j [])).flatten) ∧
      js.Nodup ∧
      (∀ j, j ∈ js ↔
        j < (dictScan.t1 exampleRehashing).size ∧
          j &&& (dictScan.t0 exampleRehashing).sizemask =
            1 &&& (dictScan.t0 exampleRehashing).sizemask) ∧
      v1 < 2 ^ 64 ∧
      v1 &&& ((dictScan.t0 exampleRehashing).sizemask ^^^
        (dictScan.t1 exampleRehashing).sizemask) = 0 :=
  ⟨exampleRehashing_wf, by decide, by decide,
    C35_scan_while_rehashing exampleRehashing 1 exampleRehashing_wf (by decide) (by decide)⟩

/-! ### Iterators -/

theorem pending_nil (d : dict K V) (t i : Nat) (hi : (d.ht t).slots.length ≤ i)
    (h : ¬ (t = 0 ∧ dictIsRehashing d = true)) : dictNext.pending d t i = [] := by
  unfold dictNext.pending
  rw [if_neg h, List.drop_eq_nil_of_le hi]
  rfl

theorem pending_switch (d : dict K V) (i : Nat) (hi : d.ht0.slots.length ≤ i)
    (h : dictIsRehashing d = true) : dictNext.pending d 0 i = dictNext.pending d 1 0 := by
  unfold dictNext.pending
  simp only [true_and, h, if_true, dict.ht, List.drop_zero, one_ne_zero, false_and, if_false,
    List.append_nil]
  rw [List.drop_eq_nil_of_le hi]
  rfl

theorem pending_cons (d : dict K V) (t i : Nat) (hi : i < (d.ht t).slots.length) :
    dictNext.pending d t i = (d.ht t).slots[i] ++ dictNext.pending d t (i + 1) := by
  unfold dictNext.pending
  rw [List.drop_eq_getElem_cons hi, List.flatten_cons, List.append_assoc]

theorem ht_iterators (d : dict K V) (n t : Nat) :
    ({ d with iterators := n } : dict K V).ht t = d.ht t := rfl

theorem pending_iterators (d : dict K V) (n t i : Nat) :
    dictNext.pending ({ d with iterators := n } : dict K V) t i = dictNext.pending d t i := rfl

theorem iterAt_iterators (d : dict K V) (n : Nat) (iter : dictIterator)
    (rest : List (dictEntry K V)) :
    IterAt ({ d with iterators := n } : dict K V) iter rest ↔ IterAt d iter rest := Iff.rfl

theorem Iterable.len {d : dict K V} (h : Iterable d) (t : Nat) :
    (d.ht t).slots.length = (d.ht t).size := by
  unfold dict.ht
  split
  · exact h.len0
  · exact h.len1

theorem Iterable.small {d : dict K V} (h : Iterable d) (t : Nat) : (d.ht t).size < 2 ^ 63 := by
  unfold dict.ht
  split
  · exact h.small0
  · exact h.small1

theorem toLong_size {n : Nat} (h : n < 2 ^ 63) : toLong (n : Int) = (n : Int) := by
  unfold toLong
  omega

theorem isSome_of_slots {ht : dictht K V} {i : Nat} (h : i < ht.slots.length) :
    ht.table.isSome = true := by
  cases ht with
  | mk t a b c =>
    cases t with
    | none => simp [dictht.slots] at h
    | some t => rfl

theorem head_of_lt (d : dict K V) (t i : Nat) (hi : i < (d.ht t).slots.length) :
    dictNext.head d t i =
      some (if (d.ht t).slots[i].isEmpty then none else some ⟨t, i, 0⟩) := by
  unfold dictNext.head
  rw [slot_eq_getElem (isSome_of_slots hi) i hi]

theorem next_of_slot (d : dict K V) (e : EntryRef) (chain : List (dictEntry K V))
    (hs : (d.ht e.table).slot e.idx = some chain) (hp : e.pos < chain.length) :
    dictNext.next d e =
      some (if e.pos + 1 < chain.length then some { e with pos := e.pos + 1 } else none) := by
  unfold dictNext.next
  rw [hs]
  simp only [hp, if_true]

theorem entryAt_of_slot (d : dict K V) (e : EntryRef) (chain : List (dictEntry K V))
    (hs : (d.ht e.table).slot e.idx = some chain) (hp : e.pos < chain.length) :
    dictEntryAt d e = some chain[e.pos] := by
  unfold dictEntryAt
  rw [hs]
  exact List.getElem?_eq_getElem hp

theorem register_fst (a0 a1 : Nat) (d : dict K V) (iter : dictIterator) :
    (dictNext.register a0 a1 d iter).1 = dictNext.counted d iter := by
  unfold dictNext.register dictNext.counted
  by_cases h1 : iter.index = -1 ∧ iter.table = 0
  · by_cases h2 : iter.safe ≠ 0
    · rw [if_pos h1, if_pos h2, if_pos ⟨h1.1, h1.2, h2⟩]
    · rw [if_pos h1, if_neg h2, if_neg (fun h => h2 h.2.2)]
  · rw [if_neg h1, if_neg (fun h => h1 ⟨h.1, h.2.1⟩)]

theorem register_snd (a0 a1 : Nat) (d : dict K V) (iter : dictIterator) :
    (dictNext.register a0 a1 d iter).2.index = iter.index ∧
    (dictNext.register a0 a1 d iter).2.table = iter.table ∧
    (dictNext.register a0 a1 d iter).2.safe = iter.safe ∧
    (dictNext.register a0 a1 d iter).2.entry = iter.entry ∧
    (dictNext.register a0 a1 d iter).2.nextEntry = iter.nextEntry := by
  unfold dictNext.register
  by_cases h1 : iter.index = -1 ∧ iter.table = 0
  · by_cases h2 : iter.safe ≠ 0
    · rw [if_pos h1, if_pos h2]; exact ⟨rfl, rfl, rfl, rfl, rfl⟩
    · rw [if_pos h1, if_neg h2]; exact ⟨rfl, rfl, rfl, rfl, rfl⟩
  · rw [if_neg h1]; exact ⟨rfl, rfl, rfl, rfl, rfl⟩

theorem counted_of_started (d : dict K V) (iter : dictIterator) (h : 0 ≤ iter.index) :
    dictNext.counted d iter = d := by
  unfold dictNext.counted
  rw [if_neg (fun h1 => by omega)]

theorem counted_ht (d : dict K V) (iter : dictIterator) (t : Nat) :
    (dictNext.counted d iter).ht t = d.ht t := by
  unfold dictNext.counted; split <;> rfl

theorem counted_rehashing (d : dict K V) (iter : dictIterator) :
    dictIsRehashing (dictNext.counted d iter) = dictIsRehashing d := by
  unfold dictNext.counted; split <;> rfl

theorem counted_head (d : dict K V) (iter : dictIterator) (t i : Nat) :
    dictNext.head (dictNext.counted d iter) t i = dictNext.head d t i := by
  unfold dictNext.counted; split <;> rfl

theorem counted_next (d : dict K V) (iter : dictIterator) (e : EntryRef) :
    dictNext.next (dictNext.counted d iter) e = dictNext.next d e := by
  unfold dictNext.counted; split <;> rfl

theorem counted_pending (d : dict K V) (iter : dictIterator) (t i : Nat) :
    dictNext.pending (dictNext.counted d iter) t i = dictNext.pending d t i := by
  unfold dictNext.counted; split <;> rfl

theorem counted_iterable (d : dict K V) (iter : dictIterator) :
    Iterable (dictNext.counted d iter) ↔ Iterable d := by
  unfold dictNext.counted
  split
  · exact ⟨fun h => ⟨h.len0, h.len1, h.small0, h.small1, h.busy⟩,
      fun h => ⟨h.len0, h.len1, h.small0, h.small1, h.busy⟩⟩
  · exact Iff.rfl

theorem counted_returned (d : dict K V) (iter : dictIterator) (rest : List (dictEntry K V))
    (iter1 : dictIterator) (r : Option EntryRef) :
    Returned (dictNext.counted d iter) rest iter1 r ↔ Returned d rest iter1 r := by
  unfold dictNext.counted
  split
  · exact Iff.rfl
  · exact Iff.rfl

theorem counted_size (d : dict K V) (iter : dictIterator) :
    (dictNext.counted d iter).ht0.size = d.ht0.size ∧
    (dictNext.counted d iter).ht1.size = d.ht1.size := by
  unfold dictNext.counted; split <;> exact ⟨rfl, rfl⟩

/-- The first branch of `dictNext`, between two slots: it leaves the loop after the last
slot, or moves on to `ht[1]`, or reads the next slot. -/
theorem advance_between (a0 a1 : Nat) (d : dict K V) (hd : Iterable d) (iter : dictIterator)
    (t i : Nat) (he : iter.entry = none) (htab : iter.table = (t : Int))
    (hidx : iter.index + 1 = (i : Int))
    (hval : t = 0 ∨ (t = 1 ∧ dictIsRehashing d = true)) :
    ∃ iter1 b, dictNext.advance a0 a1 d iter = some (dictNext.counted d iter, iter1, b) ∧
      iter1.safe = iter.safe ∧
      ((b = true ∧ (d.ht t).size ≤ i ∧ ¬ (t = 0 ∧ dictIsRehashing d = true) ∧
          iter1.entry = none ∧ iter1.table = (t : Int) ∧ iter1.index = (i : Int)) ∨
        (b = false ∧ (d.ht t).size ≤ i ∧ t = 0 ∧ dictIsRehashing d = true ∧
          iter1.table = 1 ∧ iter1.index = 0 ∧ some iter1.entry = dictNext.head d 1 0) ∨
        (b = false ∧ i < (d.ht t).size ∧ iter1.table = (t : Int) ∧ iter1.index = (i : Int) ∧
          some iter1.entry = dictNext.head d t i)) := by
  have ht01 : ¬ (iter.table < 0 ∨ iter.table > 1) := by
    rcases hval with h | ⟨h, _⟩ <;> omega
  have htn : iter.table.toNat = t := by omega
  obtain ⟨r1, r2, r3, r4, r5⟩ := register_snd a0 a1 d iter
  have hsm := hd.small t
  unfold dictNext.advance
  simp only [he, if_neg ht01, htn, register_fst, r1, r2, counted_rehashing, counted_head,
    toLong_size hsm, hidx]
  by_cases hge : (d.ht t).size ≤ i
  · have hge' : (i : Int) ≥ ((d.ht t).size : Int) := by omega
    rw [if_pos hge']
    by_cases hsw : dictIsRehashing d = true ∧ iter.table = 0
    · rw [if_pos hsw]
      have ht0 : t = 0 := by omega
      have h1 : 0 < (d.ht 1).slots.length := by
        rw [hd.len 1]; exact hd.busy hsw.1
      have hhead := head_of_lt d 1 0 h1
      simp only [Int.toNat_zero, hhead]
      refine ⟨_, false, rfl, r3, Or.inr (Or.inl ⟨rfl, hge, ht0, hsw.1, ?_, rfl, rfl⟩)⟩
      simp only [hsw.2]
      rfl
    · rw [if_neg hsw]
      refine ⟨_, true, rfl, r3, Or.inl ⟨rfl, hge, ?_, r4.trans he, htab, rfl⟩⟩
      intro h
      exact hsw ⟨h.2, by rw [htab, h.1]; rfl⟩
  · have hge' : ¬ (i : Int) ≥ ((d.ht t).size : Int) := by omega
    rw [if_neg hge', if_neg (by omega)]
    have hlt : i < (d.ht t).slots.length := by rw [hd.len t]; omega
    have hhead := head_of_lt d t i hlt
    simp only [Int.toNat_ofNat, hhead]
    exact ⟨_, false, rfl, r3, Or.inr (Or.inr ⟨rfl, by omega, htab, rfl, rfl⟩)⟩

theorem returned_in_chain (d : dict K V) (iter1 : dictIterator) (e : EntryRef)
    (chain : List (dictEntry K V)) (hslot : (d.ht e.table).slot e.idx = some chain)
    (hpos : e.pos < chain.length)
    (hval : e.table = 0 ∨ (e.table = 1 ∧ dictIsRehashing d = true))
    (htab : iter1.table = (e.table : Int)) (hidx : iter1.index = (e.idx : Int))
    (hentry : iter1.entry = some e) :
    ∃ n, dictNext.next d e = some n ∧
      Returned d (chain.drop e.pos ++ dictNext.pending d e.table (e.idx + 1))
        { iter1 with nextEntry := n } (some e) := by
  refine ⟨_, next_of_slot d e chain hslot hpos, ?_⟩
  rw [List.drop_eq_getElem_cons hpos, List.cons_append]
  exact ⟨e, rfl, entryAt_of_slot d e chain hslot hpos,
    Or.inr ⟨e, chain, hentry, htab, hidx, hval, hslot, hpos, rfl, rfl⟩⟩

theorem returned_at_head (d : dict K V) (iter1 : dictIterator) (t i : Nat)
    (hi : i < (d.ht t).slots.length) (hne : ¬ (d.ht t).slots[i].isEmpty = true)
    (hval : t = 0 ∨ (t = 1 ∧ dictIsRehashing d = true))
    (htab : iter1.table = (t : Int)) (hidx : iter1.index = (i : Int))
    (hentry : iter1.entry = some ⟨t, i, 0⟩) :
    ∃ n, dictNext.next d ⟨t, i, 0⟩ = some n ∧
      Returned d (dictNext.pending d t i) { iter1 with nextEntry := n } (some ⟨t, i, 0⟩) := by
  have hslot : (d.ht t).slot i = some (d.ht t).slots[i] :=
    slot_eq_getElem (isSome_of_slots hi) i hi
  have hpos : 0 < ((d.ht t).slots[i]).length := by
    cases hc : (d.ht t).slots[i] with
    | nil => rw [hc] at hne; simp at hne
    | cons a b => simp
  obtain ⟨n, h1, h2⟩ := returned_in_chain d iter1 ⟨t, i, 0⟩ _ hslot hpos hval htab hidx hentry
  refine ⟨n, h1, ?_⟩
  rw [pending_cons d t i hi]
  exact h2

theorem loop_between (a0 a1 : Nat) (fuel : Nat) :
    ∀ (d : dict K V) (_ : Iterable d) (iter : dictIterator) (t i : Nat),
      iter.entry = none → iter.table = (t : Int) → iter.index + 1 = (i : Int) →
      (t = 0 ∨ (t = 1 ∧ dictIsRehashing d = true)) →
      ((d.ht t).size - i) + (if t = 0 then d.ht1.size + 1 else 0) + 1 ≤ fuel →
      ∃ iter1 r, dictNext.loop a0 a1 fuel d iter = some (dictNext.counted d iter, iter1, r) ∧
        iter1.safe = iter.safe ∧ 0 ≤ iter1.index ∧
        Returned d (dictNext.pending d t i) iter1 r := by
  induction fuel with
  | zero =>
    intro d hd iter t i he htab hidx hval hfuel
    omega
  | succ fuel ih =>
    intro d hd iter t i he htab hidx hval hfuel
    obtain ⟨iter1, b, hadv, hsafe, hcase⟩ := advance_between a0 a1 d hd iter t i he htab hidx hval
    unfold dictNext.loop
    rw [hadv]
    -- what happens once the slot `(t1, i1)` has been read into `iter1.entry`
    have after : ∀ (t1 i1 : Nat), i1 < (d.ht t1).size →
        (t1 = 0 ∨ (t1 = 1 ∧ dictIsRehashing d = true)) →
        iter1.table = (t1 : Int) → iter1.index = (i1 : Int) →
        some iter1.entry = dictNext.head d t1 i1 →
        ((d.ht t1).size - (i1 + 1)) + (if t1 = 0 then d.ht1.size + 1 else 0) + 1 ≤ fuel →
        ∃ iter2 r,
          (match iter1.entry with
            | some e =>
              match dictNext.next (dictNext.counted d iter) e with
              | none => none
              | some n => some (dictNext.counted d iter, { iter1 with nextEntry := n }, some e)
            | none => dictNext.loop a0 a1 fuel (dictNext.counted d iter) iter1) =
            some (dictNext.counted d iter, iter2, r) ∧
          iter2.safe = iter.safe ∧ 0 ≤ iter2.index ∧
          Returned d (dictNext.pending d t1 i1) iter2 r := by
      intro t1 i1 hi1 hval1 htab1 hidx1 hhead hf1
      have hlt : i1 < (d.ht t1).slots.length := by rw [hd.len t1]; exact hi1
      rw [head_of_lt d t1 i1 hlt] at hhead
      by_cases hemp : (d.ht t1).slots[i1].isEmpty = true
      · rw [if_pos hemp] at hhead
        have hentry : iter1.entry = none := (Option.some.inj hhead)
        rw [hentry]
        have hd1 := (counted_iterable d iter).2 hd
        obtain ⟨iter2, r, h1, h2, h3, h4⟩ := ih (dictNext.counted d iter) hd1 iter1 t1
          (i1 + 1) hentry htab1 (by rw [hidx1]; norm_num)
          (by rw [counted_rehashing]; exact hval1)
          (by rw [counted_ht, (counted_size d iter).2]; exact hf1)
        rw [counted_of_started _ iter1 (by omega)] at h1
        rw [counted_pending, counted_returned] at h4
        refine ⟨iter2, r, h1, h2.trans hsafe, h3, ?_⟩
        rw [pending_cons d t1 i1 hlt, List.isEmpty_iff.1 hemp, List.nil_append]
        exact h4
      · rw [if_neg hemp] at hhead
        have hentry : iter1.entry = some ⟨t1, i1, 0⟩ := (Option.some.inj hhead)
        obtain ⟨n, hn, hret⟩ := returned_at_head d iter1 t1 i1 hlt hemp hval1 htab1 hidx1 hentry
        rw [hentry]
        simp only [counted_next, hn]
        rw [hentry] at hret
        exact ⟨_, _, rfl, hsafe, by simp only; omega, hret⟩
    rcases hcase with ⟨hb, hge, hnsw, hentry, htab1, hidx1⟩ |
      ⟨hb, hge, ht0, hreh, htab1, hidx1, hhead⟩ | ⟨hb, hlt, htab1, hidx1, hhead⟩
    · subst hb
      refine ⟨iter1, none, rfl, hsafe, by omega, ?_⟩
      rw [pending_nil d t i (by rw [hd.len t]; exact hge) hnsw]
      refine ⟨rfl, Or.inl ⟨t, i + 1, hentry, htab1, by rw [hidx1]; norm_num, hval, ?_⟩⟩
      rw [pending_nil d t (i + 1) (by rw [hd.len t]; omega) hnsw]
    · subst hb
      subst ht0
      simp only
      have hsz1 : 0 < (d.ht 1).size := hd.busy hreh
      obtain ⟨iter2, r, h1, h2, h3, h4⟩ := after 1 0 hsz1 (Or.inr ⟨rfl, hreh⟩) htab1 hidx1 hhead
        (by
          have : (d.ht 1).size = d.ht1.size := rfl
          simp only [one_ne_zero, if_false, if_true] at hfuel ⊢
          omega)
      refine ⟨iter2, r, h1, h2, h3, ?_⟩
      rw [pending_switch d i (by rw [hd.len0]; exact hge) hreh]
      exact h4
    · subst hb
      simp only
      exact after t i hlt hval htab1 hidx1 hhead (by omega)

theorem advance_in_chain (a0 a1 : Nat) (d : dict K V) (iter : dictIterator) (e : EntryRef)
    (he : iter.entry = some e) :
    dictNext.advance a0 a1 d iter = some (d, { iter with entry := iter.nextEntry }, false) := by
  unfold dictNext.advance
  rw [he]

/-- One call of `dictNext` from a position of the iterator: it returns the first of the
entries still to be returned, or `NULL` when there is none, and leaves the dictionary as it
was but for the count of safe iterators. -/
theorem dictNext_spec (a0 a1 : Nat) (d : dict K V) (hd : Iterable d) (iter : dictIterator)
    (rest : List (dictEntry K V)) (h : IterAt d iter rest) :
    ∃ iter1 r, dictNext a0 a1 d iter = some (dictNext.counted d iter, iter1, r) ∧
      iter1.safe = iter.safe ∧ 0 ≤ iter1.index ∧ Returned d rest iter1 r := by
  unfold dictNext
  rcases h with ⟨t, i, he, htab, hidx, hval, hrest⟩ |
    ⟨e, chain, he, htab, hidx, hval, hslot, hpos, hnext, hrest⟩
  · rw [hrest]
    refine loop_between a0 a1 _ d hd iter t i he htab hidx hval ?_
    have h0 : (d.ht t).size ≤ d.ht0.size + d.ht1.size := by
      unfold dict.ht; split <;> omega
    rcases hval with h | ⟨h, _⟩
    · subst h
      have : (d.ht 0).size = d.ht0.size := rfl
      simp only [if_true]
      omega
    · subst h
      have : (d.ht 1).size = d.ht1.size := rfl
      simp only [one_ne_zero, if_false]
      omega
  · have hcnt : dictNext.counted d iter = d := counted_of_started d iter (by omega)
    rw [hcnt]
    unfold dictNext.loop
    rw [advance_in_chain a0 a1 d iter e he]
    simp only
    by_cases hlt : e.pos + 1 < chain.length
    · rw [if_pos hlt] at hnext
      obtain ⟨n, hn, hret⟩ := returned_in_chain d { iter with entry := iter.nextEntry }
        { e with pos := e.pos + 1 } chain hslot hlt hval htab hidx hnext
      simp only [hnext, hn]
      rw [hrest]
      simp only [hnext] at hret
      exact ⟨_, _, rfl, rfl, by simp only; omega, hret⟩
    · rw [if_neg hlt] at hnext
      simp only [hnext]
      have hdrop : chain.drop (e.pos + 1) = [] := List.drop_eq_nil_of_le (by omega)
      rw [hrest, hdrop, List.nil_append]
      have hsz : (d.ht e.table).size ≤ d.ht0.size + d.ht1.size := by
        unfold dict.ht; split <;> omega
      obtain ⟨iter1, r, h1, h2, h3, h4⟩ := loop_between a0 a1 (d.ht0.size + d.ht1.size + 2) d hd
        { iter with entry := none, nextEntry := none } e.table (e.idx + 1) rfl htab
        (by simp only [hidx]; norm_num) hval (by
          rcases hval with h | ⟨h, _⟩
          · rw [h]
            have : (d.ht 0).size = d.ht0.size := rfl
            simp only [if_true]
            omega
          · rw [h]
            have : (d.ht 1).size = d.ht1.size := rfl
            simp only [one_ne_zero, if_false]
            omega)
      rw [counted_of_started d _ (by simp only; omega)] at h1
      exact ⟨iter1, r, h1, h2, h3, h4⟩

theorem counted_iterAt (d : dict K V) (iter iter1 : dictIterator)
    (rest : List (dictEntry K V)) :
    IterAt (dictNext.counted d iter) iter1 rest ↔ IterAt d iter1 rest := by
  unfold dictNext.counted
  split
  · exact Iff.rfl
  · exact Iff.rfl

theorem counted_entryAt (d : dict K V) (iter : dictIterator) (e : EntryRef) :
    dictEntryAt (dictNext.counted d iter) e = dictEntryAt d e := by
  unfold dictNext.counted; split <;> rfl

theorem returned_iterAt {d : dict K V} {rest : List (dictEntry K V)} {iter1 : dictIterator}
    {r : Option EntryRef} (h : Returned d rest iter1 r) :
    IterAt d iter1 rest.tail ∧ r.bind (dictEntryAt d) = rest.head? := by
  cases rest with
  | nil =>
    obtain ⟨h1, h2⟩ := h
    subst h1
    exact ⟨h2, rfl⟩
  | cons e rest1 =>
    obtain ⟨ref, h1, h2, h3⟩ := h
    subst h1
    exact ⟨h3, h2⟩

theorem returned_pointsTo {d : dict K V} {rest : List (dictEntry K V)} {iter1 : dictIterator}
    {r : Option EntryRef} (h : Returned d rest iter1 r) : PointsTo d r rest[0]? := by
  cases rest with
  | nil => exact h.1
  | cons e rest1 =>
    obtain ⟨ref, h1, h2, _⟩ := h
    have h0 : (e :: rest1)[0]? = some e := by simp
    rw [h0]
    exact ⟨ref, h1, h2⟩

theorem counted_pointsTo (d : dict K V) (iter : dictIterator) (r : Option EntryRef)
    (e : Option (dictEntry K V)) :
    PointsTo (dictNext.counted d iter) r e ↔ PointsTo d r e := by
  unfold dictNext.counted
  split
  · exact Iff.rfl
  · exact Iff.rfl

/-- The calls of `dictNext` on one iterator, `k` of them from a position with the entries
`rest` still to be returned: the call number `j` returns a pointer to the entry number `j` of
`rest`, and `NULL` when there is no such entry. -/
theorem dictNextTimes_returns (a0 a1 : Nat) (k : Nat) :
    ∀ (d : dict K V) (_ : Iterable d) (iter : dictIterator) (rest : List (dictEntry K V)),
      IterAt d iter rest →
      ∃ iter1 rs, dictNextTimes a0 a1 k d iter =
          some (if k = 0 then d else dictNext.counted d iter, iter1, rs) ∧
        iter1.safe = iter.safe ∧ (0 < k → 0 ≤ iter1.index) ∧ (k = 0 → iter1 = iter) ∧
        IterAt d iter1 (rest.drop k) ∧
        List.Forall₂ (PointsTo d) rs ((List.range k).map (fun j => rest[j]?)) := by
  induction k with
  | zero =>
    intro d hd iter rest h
    exact ⟨iter, [], rfl, rfl, fun h => absurd h (lt_irrefl 0), fun _ => rfl, h,
      List.Forall₂.nil⟩
  | succ k ih =>
    intro d hd iter rest h
    obtain ⟨iter1, r, h1, h2, h3, h4⟩ := dictNext_spec a0 a1 d hd iter rest h
    obtain ⟨h5, -⟩ := returned_iterAt h4
    have h6 := returned_pointsTo h4
    obtain ⟨iter2, rs, g1, g2, g3, g4, g5, g6⟩ := ih (dictNext.counted d iter)
      ((counted_iterable d iter).2 hd) iter1 rest.tail ((counted_iterAt d iter iter1 _).2 h5)
    have hd2 : (if k = 0 then dictNext.counted d iter
        else dictNext.counted (dictNext.counted d iter) iter1) = dictNext.counted d iter := by
      split
      · rfl
      · exact counted_of_started _ iter1 h3
    rw [hd2] at g1
    refine ⟨iter2, r :: rs, ?_, g2.trans h2, ?_, fun h => absurd h (Nat.succ_ne_zero k), ?_, ?_⟩
    · unfold dictNextTimes
      rw [h1]
      simp only [g1, Option.map_some', Nat.succ_ne_zero, if_false]
    · intro _
      rcases Nat.eq_zero_or_pos k with hk | hk
      · rw [g4 hk]; exact h3
      · exact g3 hk
    · rw [counted_iterAt] at g5
      cases rest with
      | nil => simpa using g5
      | cons e rest1 => simpa using g5
    · rw [List.range_succ_eq_map, List.map_cons, List.map_map]
      refine List.Forall₂.cons h6 ?_
      have hfun : (fun j => rest[j]?) ∘ Nat.succ = fun j => rest.tail[j]? := by
        funext j
        cases rest with
        | nil => simp
        | cons e rest1 => simp
      rw [hfun]
      exact g6.imp (fun a b hab => (counted_pointsTo d iter a b).1 hab)

theorem iterAt_fresh (d : dict K V) (safe : Int) :
    IterAt d { table := 0, index := -1, safe := safe, entry := none, nextEntry := none,
               fingerprint := 0 } (dictNext.pending d 0 0) :=
  Or.inl ⟨0, 0, rfl, rfl, by norm_num, Or.inl rfl, rfl⟩

theorem WellFormed.iterable {d : dict K V} (hw : WellFormed d) (h0 : d.ht0.size ≤ LONG_MAX)
    (h1 : d.ht1.size ≤ LONG_MAX) : Iterable d := by
  unfold LONG_MAX at h0 h1
  refine ⟨hw.wf0.shaped.len, hw.wf1.shaped.len, by omega, by omega, ?_⟩
  intro hr
  have hr' : d.rehashidx ≠ -1 := by simpa [dictIsRehashing] using hr
  obtain ⟨-, -, -, hs1, -⟩ := hw.busy hr'
  obtain ⟨k, _, hk⟩ := hw.wf1.shaped.pow2 hs1
  rw [hk]; positivity

theorem WellFormed.pending_all {d : dict K V} (hw : WellFormed d) :
    dictNext.pending d 0 0 = dictEntries d := by
  unfold dictNext.pending dictEntries
  simp only [List.drop_zero, true_and]
  by_cases hr : dictIsRehashing d = true
  · rw [if_pos hr]; rfl
  · rw [if_neg hr]
    have hr' : d.rehashidx = -1 := by
      by_contra h
      exact hr (by simp [dictIsRehashing, h])
    rw [entries_nil_of_none (hw.idle hr')]
    rfl

/-- C39: on a well-formed dictionary whose tables have at most `LONG_MAX` slots, and which
only `dictNext` touches during the iteration, `k` calls of `dictNext` on the iterator that
`dictGetIterator` or `dictGetSafeIterator` created return, for every `k`: the call number `j`
returns a pointer to the entry number `j` of the stored entries - those of `ht[0]` slot by
slot, then those of `ht[1]`, which has no slots unless a migration runs - and `NULL` when
there are not that many entries; no key is among these entries twice, and the tables and
`rehashidx` are as before.  A dictionary that was never initialised has no entries: every
call returns `NULL`. -/
theorem C39_dictNext_all (table0 table1 : Nat) (d : dict K V) (hw : WellFormed d)
    (h0 : d.ht0.size ≤ LONG_MAX) (h1 : d.ht1.size ≤ LONG_MAX) (safe : Bool) (k : Nat) :
    ∃ d1 iter1 rs,
      dictNextTimes table0 table1 k d
        (if safe then (dictGetSafeIterator d).2 else (dictGetIterator d).2) =
        some (d1, iter1, rs) ∧
      List.Forall₂ (PointsTo d) rs ((List.range k).map (fun j => (dictEntries d)[j]?)) ∧
      dictEntries d = d.ht0.slots.flatten ++ d.ht1.slots.flatten ∧
      (dictIsRehashing d = false → d.ht1.slots = []) ∧
      ((dictEntries d).map dictEntry.key).Nodup ∧
      d1.ht0 = d.ht0 ∧ d1.ht1 = d.ht1 ∧ d1.rehashidx = d.rehashidx := by
  have hd := hw.iterable h0 h1
  have hfresh : ∀ s : Int, IterAt d ⟨0, -1, s, none, none, 0⟩ (dictEntries d) := by
    intro s
    rw [← hw.pending_all]
    exact iterAt_fresh d s
  have hidle : dictIsRehashing d = false → d.ht1.slots = [] := by
    intro hr
    have hr' : d.rehashidx = -1 := by simpa [dictIsRehashing] using hr
    have := hw.idle hr'
    cases hd1 : d.ht1.table with
    | none => simp [dictht.slots, hd1]
    | some t => rw [hd1] at this; simp at this
  have hfields : ∀ iter : dictIterator,
      (if k = 0 then d else dictNext.counted d iter).ht0 = d.ht0 ∧
      (if k = 0 then d else dictNext.counted d iter).ht1 = d.ht1 ∧
      (if k = 0 then d else dictNext.counted d iter).rehashidx = d.rehashidx := by
    intro iter
    unfold dictNext.counted
    split
    · exact ⟨rfl, rfl, rfl⟩
    · split <;> exact ⟨rfl, rfl, rfl⟩
  cases safe with
  | true =>
    obtain ⟨iter1, rs, g1, -, -, -, -, g6⟩ :=
      dictNextTimes_returns table0 table1 k d hd _ _ (hfresh 1)
    exact ⟨_, iter1, rs, g1, g6, rfl, hidle, hw.nodup, hfields _⟩
  | false =>
    obtain ⟨iter1, rs, g1, -, -, -, -, g6⟩ :=
      dictNextTimes_returns table0 table1 k d hd _ _ (hfresh 0)
    exact ⟨_, iter1, rs, g1, g6, rfl, hidle, hw.nodup, hfields _⟩

/-- C36, as the code has it: `dictGetSafeIterator` leaves `d->iterators` as it is; the first
call of `dictNext` on the iterator increments it.  For every `k`, the `k` calls of `dictNext`
return; after them (`k >= 1`) the dictionary is as before but for `d->iterators`, which is
one greater, and `_dictRehashStep` does nothing; for `k = 0` the dictionary is unchanged.  In
both cases `dictReleaseIterator` gives back the dictionary as it was before the iterator was
created, so `d->iterators` has its initial value. -/
theorem C36_safe_iterator_counter (table0 table1 : Nat) (d : dict K V) (hd : Iterable d)
    (k : Nat) :
    (dictGetSafeIterator d).1 = d ∧
    ∃ d1 iter1 rs,
      dictNextTimes table0 table1 k (dictGetSafeIterator d).1 (dictGetSafeIterator d).2 =
        some (d1, iter1, rs) ∧
      (k = 0 → d1 = d) ∧
      (0 < k → d1 = { d with iterators := d.iterators + 1 } ∧ _dictRehashStep d1 = some d1) ∧
      dictReleaseIterator table0 table1 d1 iter1 = some d := by
  refine ⟨rfl, ?_⟩
  obtain ⟨iter1, rs, g1, g2, g3, g4, -, -⟩ :=
    dictNextTimes_returns table0 table1 k d hd (dictGetSafeIterator d).2 _ (iterAt_fresh d 1)
  have hsafe : iter1.safe = 1 := g2
  have hcnt : dictNext.counted d (dictGetSafeIterator d).2 =
      { d with iterators := d.iterators + 1 } := by
    unfold dictNext.counted
    rw [if_pos ⟨rfl, rfl, by show (1 : Int) ≠ 0; decide⟩]
  refine ⟨_, iter1, rs, g1, ?_, ?_, ?_⟩
  · intro hk
    rw [if_pos hk]
  · intro hk
    rw [if_neg (by omega), hcnt]
    refine ⟨rfl, ?_⟩
    unfold _dictRehashStep
    rw [if_neg (by simp only; omega)]
  · rcases Nat.eq_zero_or_pos k with hk | hk
    · rw [if_pos hk, g4 hk]
      unfold dictReleaseIterator
      rw [if_neg (by
        intro h
        exact h ⟨rfl, rfl⟩)]
    · have hidx := g3 hk
      rw [if_neg (by omega), hcnt]
      unfold dictReleaseIterator
      rw [if_pos (by
        intro h
        omega), if_pos (by rw [hsafe]; decide)]
      rfl

theorem exampleRehashing_iterable : Iterable exampleRehashing :=
  ⟨by decide, by decide, by decide, by decide, fun _ => by decide⟩

theorem exampleRehashing_next :
    (dictNextTimes 0 0 7 exampleRehashing (dictGetSafeIterator exampleRehashing).2).map
      (fun r => (r.1.iterators, r.2.2.map (fun e => e.bind (dictEntryAt exampleRehashing)))) =
      some (1, [some ⟨4, 40⟩, some ⟨1, 10⟩, some ⟨2, 20⟩, some ⟨3, 30⟩, some ⟨5, 50⟩,
        none, none]) ∧
    (dictNextTimes 0 0 2 (dictCreate natType : dict Nat Nat) (dictGetIterator
      (dictCreate natType : dict Nat Nat)).2).map (fun r => r.2.2) = some [none, none] := by
  refine ⟨by rfl, by rfl⟩

theorem C39_witness :
    WellFormed exampleRehashing ∧ exampleRehashing.ht0.size ≤ LONG_MAX ∧
    exampleRehashing.ht1.size ≤ LONG_MAX ∧
    ∃ d1 iter1 rs,
      dictNextTimes 0 0 6 exampleRehashing
        (if true then (dictGetSafeIterator exampleRehashing).2
          else (dictGetIterator exampleRehashing).2) =
        some (d1, iter1, rs) ∧
      List.Forall₂ (PointsTo exampleRehashing) rs
        ((List.range 6).map (fun j => (dictEntries exampleRehashing)[j]?)) ∧
      dictEntries exampleRehashing =
        exampleRehashing.ht0.slots.flatten ++ exampleRehashing.ht1.slots.flatten ∧
      (dictIsRehashing exampleRehashing = false → exampleRehashing.ht1.slots = []) ∧
      ((dictEntries exampleRehashing).map dictEntry.key).Nodup ∧
      d1.ht0 = exampleRehashing.ht0 ∧ d1.ht1 = exampleRehashing.ht1 ∧
      d1.rehashidx = exampleRehashing.rehashidx :=
  ⟨exampleRehashing_wf, by decide, by decide,
    C39_dictNext_all 0 0 exampleRehashing exampleRehashing_wf (by decide) (by decide) true 6⟩

theorem C36_counterexample :
    (dictGetSafeIterator exampleRehashing).1.iterators = 0 ∧
    ¬ ((dictGetSafeIterator exampleRehashing).1.iterators = exampleRehashing.iterators + 1) ∧
    (_dictRehashStep (dictGetSafeIterator exampleRehashing).1).map
      (fun d => (d.rehashidx, d.ht0.table)) =
      some (1, some [[], [⟨1, 10⟩], [⟨2, 20⟩], [⟨3, 30⟩]]) := by
  refine ⟨by decide, by decide, by rfl⟩

theorem C36_witness :
    Iterable exampleRehashing ∧
    (dictGetSafeIterator exampleRehashing).1 = exampleRehashing ∧
    ∃ d1 iter1 rs,
      dictNextTimes 0 0 2 (dictGetSafeIterator exampleRehashing).1
        (dictGetSafeIterator exampleRehashing).2 = some (d1, iter1, rs) ∧
      (2 = 0 → d1 = exampleRehashing) ∧
      (0 < 2 → d1 = { exampleRehashing with iterators := exampleRehashing.iterators + 1 } ∧
        _dictRehashStep d1 = some d1) ∧
      dictReleaseIterator 0 0 d1 iter1 = some exampleRehashing :=
  ⟨exampleRehashing_iterable, C36_safe_iterator_counter 0 0 exampleRehashing
    exampleRehashing_iterable 2⟩

end Dict

namespace Ae

/-! ### File events -/

/-- The function `aeProcessEvents` is the block `aeProcessEvents.poll`, the loop over the fired
descriptors and `processTimeEvents`, in this order. -/
theorem aeProcessEvents_eq (env : aeEnv) (w : aeWorld) (flags : Nat) :
    aeProcessEvents env w flags =
      if flags &&& AE_TIME_EVENTS = 0 ∧ flags &&& AE_FILE_EVENTS = 0 then some (w, 0)
      else
        match (if w.eventLoop.maxfd ≠ -1 ∨
                  (flags &&& AE_TIME_EVENTS ≠ 0 ∧ flags &&& AE_DONT_WAIT = 0) then
                aeProcessEvents.fileEvents env (aeProcessEvents.poll env w flags).2
                  (aeProcessEvents.poll env w flags).1 0 0
              else some (w, 0)) with
        | none => none
        | some (w4, processed) =>
          if flags &&& AE_TIME_EVENTS ≠ 0 then
            (processTimeEvents env w4).map (fun r => (r.1, processed + r.2))
          else some (w4, processed) := by
  rfl

/-- C19: in the loop of `aeProcessEvents` over the fired descriptors, in whatever state `w`
the loop reaches the `j`-th of them: for a descriptor reported ready for reading and writing
whose registered mask contains `AE_READABLE` and `AE_WRITABLE` with distinct callbacks R and
W, neither callback changing the registration of the descriptor: without `AE_BARRIER` in the
registered mask the callbacks are invoked in the order R then W, with `AE_BARRIER` in the
order W then R. -/
theorem C19_barrier_order (env : aeEnv) (w : aeWorld) (j : Nat) (fd : Int) (mask : Nat)
    (fe : aeFileEvent) (hj : w.eventLoop.fired[j]? = some { fd := fd, mask := mask })
    (hfd : 0 ≤ fd) (hfe : w.eventLoop.events[fd.toNat]? = some fe)
    (hr : fe.mask &&& mask &&& AE_READABLE ≠ 0) (hw : fe.mask &&& mask &&& AE_WRITABLE ≠ 0)
    (hne : fe.wfileProc ≠ fe.rfileProc)
    (hR : (env.fileProc fe.rfileProc w.eventLoop fd fe.clientData mask).events[fd.toNat]?
      = some fe)
    (hW : (env.fileProc fe.wfileProc w.eventLoop fd fe.clientData mask).events[fd.toNat]?
      = some fe) :
    (fe.mask &&& AE_BARRIER = 0 →
      ∃ w1, aeProcessEvents.fileEvent env w j = some w1 ∧
        w1.calls = w.calls ++ [aeCall.fileProc fe.rfileProc fd fe.clientData mask,
                               aeCall.fileProc fe.wfileProc fd fe.clientData mask]) ∧
    (fe.mask &&& AE_BARRIER ≠ 0 →
      ∃ w1, aeProcessEvents.fileEvent env w j = some w1 ∧
        w1.calls = w.calls ++ [aeCall.fileProc fe.wfileProc fd fe.clientData mask,
                               aeCall.fileProc fe.rfileProc fd fe.clientData mask]) := by
  have hfd' : ¬ fd < 0 := by omega
  constructor
  · intro hb
    refine ⟨callFileProc env (callFileProc env w fe.rfileProc fd fe.clientData mask)
      fe.wfileProc fd fe.clientData mask, ?_, ?_⟩
    · unfold aeProcessEvents.fileEvent
      simp only [hj, hfd', if_false, hfe, hb, true_and, ne_eq, hr, not_false_eq_true, if_true,
        callFileProc, hR, Option.map_some', hw, hne, or_true, and_self, not_true_eq_false]
    · simp [callFileProc]
  · intro hb
    refine ⟨callFileProc env (callFileProc env w fe.wfileProc fd fe.clientData mask)
      fe.rfileProc fd fe.clientData mask, ?_, ?_⟩
    · unfold aeProcessEvents.fileEvent
      simp only [hj, hfd', if_false, hfe, hb, false_and, ne_eq, hw, not_false_eq_true,
        true_or, and_self, if_true, callFileProc, hW, hr, hne, or_true]
    · simp [callFileProc]

/-! ### Timers -/

/-- One pass of `processTimeEvents` over a list of two live timers whose callbacks leave the
event loop alone: the head is fired if it is due at the first clock reading, then the second
timer if it is due at the latest clock reading. -/
theorem processTimeEvents_two (env : aeEnv) (w : aeWorld) (a b : aeTimeEvent)
    (hl : w.eventLoop.timeEventHead = [a, b])
    (ha : a.id ≠ AE_DELETED_EVENT_ID) (ha1 : a.id < w.eventLoop.timeEventNextId)
    (hb : b.id ≠ AE_DELETED_EVENT_ID) (hb1 : b.id < w.eventLoop.timeEventNextId)
    (hpa : ∀ l id c, (env.timeProc a.timeProc l id c).1 = l)
    (hpb : ∀ l id c, (env.timeProc b.timeProc l id c).1 = l) :
    ∃ w1 n, processTimeEvents env w = some (w1, n) ∧
      w1.calls = w.calls ++
        (if a.when ≤ env.getMonotonicUs w.clockReads
          then [aeCall.timeProc a.timeProc a.id a.clientData] else []) ++
        (if b.when ≤ (if a.when ≤ env.getMonotonicUs w.clockReads
            then env.getMonotonicUs (w.clockReads + 1) else env.getMonotonicUs w.clockReads)
          then [aeCall.timeProc b.timeProc b.id b.clientData] else []) := by
  have ha2 : ¬ a.id > w.eventLoop.timeEventNextId - 1 := by omega
  have hb2 : ¬ b.id > w.eventLoop.timeEventNextId - 1 := by omega
  unfold processTimeEvents
  simp only [getMonotonicUs, hl, List.length_cons, List.length_nil]
  by_cases hda : a.when ≤ env.getMonotonicUs w.clockReads
  · by_cases hdb : b.when ≤ env.getMonotonicUs (w.clockReads + 1)
    · simp [processTimeEvents.loop, timeEventAt, setTimeEventAt, getMonotonicUs, hl, ha, ha2,
        hb, hb2, hda, hdb, hpa, hpb]
    · simp [processTimeEvents.loop, timeEventAt, setTimeEventAt, getMonotonicUs, hl, ha, ha2,
        hb, hb2, hda, hdb, hpa, hpb]
  · by_cases hdb : b.when ≤ env.getMonotonicUs w.clockReads
    · simp [processTimeEvents.loop, timeEventAt, setTimeEventAt, getMonotonicUs, hl, ha, ha2,
        hb, hb2, hda, hdb, hpa, hpb]
    · simp [processTimeEvents.loop, timeEventAt, setTimeEventAt, getMonotonicUs, hl, ha, ha2,
        hb, hb2, hda, hdb, hpa, hpb]

/-- C20 (amended): two timers are created on a loop without timers, `a` first and `b` second,
with callbacks that leave the event loop alone; `da` and `db` are their deadlines.  The next
`processTimeEvents` pass, whenever it runs, walks the list from the timer created last: it
invokes `b`'s callback if `b` is due at the first clock reading `now0`, and then `a`'s callback
if `a` is due at the latest clock reading.  So when the timer with the earlier deadline was
created last (`db < da`), its callback is never invoked after the other one's; when it was
created first (`da < db`), a pass at a time in `[da, db)` invokes only its callback, but a pass
that first runs when both are due invokes the callback of the later deadline first and the
callback of the earlier deadline after it, in the same pass. -/
theorem C20_timer_order (env : aeEnv) (w0 : aeWorld) (msa msb : Int) (pa pb ca cb : Nat)
    (fa fb : Option Nat) (h0 : w0.eventLoop.timeEventHead = [])
    (hid : 0 ≤ w0.eventLoop.timeEventNextId)
    (hpa : ∀ l id c, (env.timeProc pa l id c).1 = l)
    (hpb : ∀ l id c, (env.timeProc pb l id c).1 = l)
    (da db now0 now1 : Nat)
    (hda : da = Dict.toULong ((env.getMonotonicUs w0.clockReads : Int) + msa * 1000))
    (hdb : db = Dict.toULong ((env.getMonotonicUs (w0.clockReads + 1) : Int) + msb * 1000))
    (hnow0 : now0 = env.getMonotonicUs (w0.clockReads + 2))
    (hnow1 : now1 = env.getMonotonicUs (w0.clockReads + 3)) :
    ∃ w1 n newCalls,
      processTimeEvents env
        (aeCreateTimeEvent env (aeCreateTimeEvent env w0 msa pa ca fa).1 msb pb cb fb).1
        = some (w1, n) ∧
      w1.calls = w0.calls ++ newCalls ∧
      newCalls =
        (if db ≤ now0
          then [aeCall.timeProc pb (w0.eventLoop.timeEventNextId + 1) cb] else []) ++
        (if da ≤ (if db ≤ now0 then now1 else now0)
          then [aeCall.timeProc pa w0.eventLoop.timeEventNextId ca] else []) ∧
      (db < da →
        newCalls = [] ∨
        newCalls = [aeCall.timeProc pb (w0.eventLoop.timeEventNextId + 1) cb] ∨
        newCalls = [aeCall.timeProc pb (w0.eventLoop.timeEventNextId + 1) cb,
                    aeCall.timeProc pa w0.eventLoop.timeEventNextId ca]) ∧
      (da < db → da ≤ now0 → now0 < db →
        newCalls = [aeCall.timeProc pa w0.eventLoop.timeEventNextId ca]) ∧
      (da < db → db ≤ now0 → now0 ≤ now1 →
        newCalls = [aeCall.timeProc pb (w0.eventLoop.timeEventNextId + 1) cb,
                    aeCall.timeProc pa w0.eventLoop.timeEventNextId ca]) := by
  obtain ⟨w1, n, h1, h2⟩ := processTimeEvents_two env
    (aeCreateTimeEvent env (aeCreateTimeEvent env w0 msa pa ca fa).1 msb pb cb fb).1
    { id := w0.eventLoop.timeEventNextId + 1, when := db, timeProc := pb, finalizerProc := fb,
      clientData := cb, refcount := 0, addr := (w0.eventLoop.timeEventNextId + 1).toNat }
    { id := w0.eventLoop.timeEventNextId, when := da, timeProc := pa, finalizerProc := fa,
      clientData := ca, refcount := 0, addr := w0.eventLoop.timeEventNextId.toNat }
    (by simp [aeCreateTimeEvent, getMonotonicUs, h0, hda, hdb])
    (by simp only [AE_DELETED_EVENT_ID]; omega)
    (by simp [aeCreateTimeEvent, getMonotonicUs])
    (by simp only [AE_DELETED_EVENT_ID]; omega)
    (by simp [aeCreateTimeEvent, getMonotonicUs]; omega)
    hpb hpa
  have hc : (aeCreateTimeEvent env (aeCreateTimeEvent env w0 msa pa ca fa).1 msb pb cb fb).1.calls
      = w0.calls := by simp [aeCreateTimeEvent, getMonotonicUs]
  have hk : (aeCreateTimeEvent env (aeCreateTimeEvent env w0 msa pa ca fa).1
      msb pb cb fb).1.clockReads = w0.clockReads + 2 := by
    simp [aeCreateTimeEvent, getMonotonicUs]
  rw [hc, hk, ← hnow0, show w0.clockReads + 2 + 1 = w0.clockReads + 3 from rfl, ← hnow1,
    List.append_assoc] at h2
  simp only at h2
  refine ⟨w1, n, _, h1, h2, rfl, ?_, ?_, ?_⟩
  · intro hlt
    by_cases c1 : db ≤ now0
    · by_cases c2 : da ≤ now1
      · simp [c1, c2]
      · simp [c1, c2]
    · have c2 : ¬ da ≤ now0 := by omega
      simp [c1, c2]
  · intro _ c1 c2
    have c3 : ¬ db ≤ now0 := by omega
    simp [c3, c1]
  · intro hlt c1 c2
    have c3 : da ≤ now1 := by omega
    simp [c1, c3]

/-- C20 (as stated) fails: T1 (callback 1, deadline 1000) is created before T2 (callback 2,
deadline 2000) on a fresh loop at clock reading 0, and the first `processTimeEvents` pass runs
at clock reading 5000: it invokes T2's callback first and T1's second. -/
theorem C20_counterexample :
    exampleTimers.eventLoop.timeEventHead.map (fun te => (te.timeProc, te.id, te.when)) =
      [(2, 1, 2000), (1, 0, 1000)] ∧
    exampleEnv.getMonotonicUs exampleTimers.clockReads = 5000 ∧
    (processTimeEvents exampleEnv exampleTimers).map (fun r => (r.1.calls, r.2)) =
      some ([aeCall.timeProc 2 1 0, aeCall.timeProc 1 0 0], 2) := by
  refine ⟨by decide, by decide, by decide⟩

theorem C20_witness :
    exampleStart.eventLoop.timeEventHead = [] ∧ 0 ≤ exampleStart.eventLoop.timeEventNextId ∧
    (∀ l id c, (exampleEnv.timeProc 1 l id c).1 = l) ∧
    (∀ l id c, (exampleEnv.timeProc 2 l id c).1 = l) ∧
    ∃ w1 n newCalls,
      processTimeEvents exampleEnv
        (aeCreateTimeEvent exampleEnv (aeCreateTimeEvent exampleEnv exampleStart 1 1 0 none).1
          2 2 0 none).1 = some (w1, n) ∧
      w1.calls = exampleStart.calls ++ newCalls ∧
      newCalls =
        (if 2000 ≤ 5000
          then [aeCall.timeProc 2 (exampleStart.eventLoop.timeEventNextId + 1) 0] else []) ++
        (if 1000 ≤ (if 2000 ≤ 5000 then 5000 else 5000)
          then [aeCall.timeProc 1 exampleStart.eventLoop.timeEventNextId 0] else []) ∧
      (2000 < 1000 →
        newCalls = [] ∨
        newCalls = [aeCall.timeProc 2 (exampleStart.eventLoop.timeEventNextId + 1) 0] ∨
        newCalls = [aeCall.timeProc 2 (exampleStart.eventLoop.timeEventNextId + 1) 0,
                    aeCall.timeProc 1 exampleStart.eventLoop.timeEventNextId 0]) ∧
      (1000 < 2000 → 1000 ≤ 5000 → 5000 < 2000 →
        newCalls = [aeCall.timeProc 1 exampleStart.eventLoop.timeEventNextId 0]) ∧
      (1000 < 2000 → 2000 ≤ 5000 → 5000 ≤ 5000 →
        newCalls = [aeCall.timeProc 2 (exampleStart.eventLoop.timeEventNextId + 1) 0,
                    aeCall.timeProc 1 exampleStart.eventLoop.timeEventNextId 0]) :=
  ⟨by decide, by decide, fun _ _ _ => rfl, fun _ _ _ => rfl,
    C20_timer_order exampleEnv exampleStart 1 2 1 2 0 0 none none (by decide) (by decide)
      (fun _ _ _ => rfl) (fun _ _ _ => rfl) 1000 2000 5000 5000 (by decide) (by decide)
      (by decide) (by decide)⟩

theorem exampleReady_run :
    (aeProcessEvents exampleEnv ((exampleRegister 0).getD exampleStart) AE_FILE_EVENTS).map
      (fun r => (r.1.calls, r.2)) =
    some ((exampleReady 0).calls ++ [aeCall.fileProc 11 3 0 3, aeCall.fileProc 22 3 0 3], 1) ∧
    (aeProcessEvents exampleEnv ((exampleRegister AE_BARRIER).getD exampleStart)
      AE_FILE_EVENTS).map (fun r => (r.1.calls, r.2)) =
    some ((exampleReady AE_BARRIER).calls ++
      [aeCall.fileProc 22 3 0 3, aeCall.fileProc 11 3 0 3], 1) := by
  refine ⟨by decide, by decide⟩

theorem C19_witness :
    (exampleReady 0).eventLoop.fired[0]? = some { fd := 3, mask := 3 } ∧
    (exampleReady 0).eventLoop.events[3]? =
      some { mask := 3, rfileProc := 11, wfileProc := 22, clientData := 0 } ∧
    (exampleReady AE_BARRIER).eventLoop.fired[0]? = some { fd := 3, mask := 3 } ∧
    (exampleReady AE_BARRIER).eventLoop.events[3]? =
      some { mask := 7, rfileProc := 11, wfileProc := 22, clientData := 0 } ∧
    (∃ w1, aeProcessEvents.fileEvent exampleEnv (exampleReady 0) 0 = some w1 ∧
      w1.calls = (exampleReady 0).calls ++
        [aeCall.fileProc 11 3 0 3, aeCall.fileProc 22 3 0 3]) ∧
    (∃ w1, aeProcessEvents.fileEvent exampleEnv (exampleReady AE_BARRIER) 0 = some w1 ∧
      w1.calls = (exampleReady AE_BARRIER).calls ++
        [aeCall.fileProc 22 3 0 3, aeCall.fileProc 11 3 0 3]) :=
  ⟨by decide, by decide, by decide, by decide,
   (C19_barrier_order exampleEnv (exampleReady 0) 0 3 3
      { mask := 3, rfileProc := 11, wfileProc := 22, clientData := 0 }
      (by decide) (by decide) (by decide) (by decide) (by decide) (by decide) (by decide)
      (by decide)).1 (by decide),
   (C19_barrier_order exampleEnv (exampleReady AE_BARRIER) 0 3 3
      { mask := 7, rfileProc := 11, wfileProc := 22, clientData := 0 }
      (by decide) (by decide) (by decide) (by decide) (by decide) (by decide) (by decide)
      (by decide)).2 (by decide)⟩

theorem CallsAdded.added_refl (p : aeCall → Bool) (w : aeWorld) : CallsAdded p w w :=
  ⟨[], by simp, by simp⟩

theorem CallsAdded.added_trans {p : aeCall → Bool} {w w1 w2 : aeWorld} (h1 : CallsAdded p w w1)
    (h2 : CallsAdded p w1 w2) : CallsAdded p w w2 := by
  obtain ⟨a, ha, hpa⟩ := h1
  obtain ⟨b, hb, hpb⟩ := h2
  refine ⟨a ++ b, by rw [hb, ha, List.append_assoc], ?_⟩
  intro c hc
  rcases List.mem_append.1 hc with h | h
  · exact hpa c h
  · exact hpb c h

theorem callFileProc_added (env : aeEnv) (w : aeWorld) (proc : Nat) (fd : Int)
    (clientData mask : Nat) :
    CallsAdded aeCall.isFileProc w (callFileProc env w proc fd clientData mask) :=
  ⟨[aeCall.fileProc proc fd clientData mask], rfl, by simp [aeCall.isFileProc]⟩

theorem fileEvent_added (env : aeEnv) (w w1 : aeWorld) (j : Nat)
    (h : aeProcessEvents.fileEvent env w j = some w1) :
    CallsAdded aeCall.isFileProc w w1 := by
  unfold aeProcessEvents.fileEvent at h
  split at h
  · cases h
  · rename_i e he
    simp only at h
    split at h
    · cases h
    · split at h
      · cases h
      · rename_i fe hfe
        split at h
        · cases h
        · rename_i wa fea fireda hr1
          have ha : CallsAdded aeCall.isFileProc w wa := by
            split at hr1
            · simp only [Option.map_eq_some'] at hr1
              obtain ⟨x, _, hx⟩ := hr1
              have : wa = callFileProc env w fe.rfileProc e.fd fe.clientData e.mask := by
                cases hx; rfl
              rw [this]; exact callFileProc_added _ _ _ _ _ _
            · cases hr1; exact CallsAdded.added_refl _ _
          have hb : CallsAdded aeCall.isFileProc wa
              (if fea.mask &&& e.mask &&& AE_WRITABLE ≠ 0 ∧
                  (fireda = 0 ∨ fea.wfileProc ≠ fea.rfileProc) then
                (callFileProc env wa fea.wfileProc e.fd fea.clientData e.mask, fireda + 1)
              else (wa, fireda)).1 := by
            split
            · exact callFileProc_added _ _ _ _ _ _
            · exact CallsAdded.added_refl _ _
          generalize (if fea.mask &&& e.mask &&& AE_WRITABLE ≠ 0 ∧
                  (fireda = 0 ∨ fea.wfileProc ≠ fea.rfileProc) then
                (callFileProc env wa fea.wfileProc e.fd fea.clientData e.mask, fireda + 1)
              else (wa, fireda)) = r2 at h hb
          split at h
          · split at h
            · cases h
            · split at h
              · cases h
                exact ha.added_trans (hb.added_trans (callFileProc_added _ _ _ _ _ _))
              · cases h
                exact ha.added_trans hb
          · cases h
            exact ha.added_trans hb

theorem fileEvents_added (env : aeEnv) (n : Nat) :
    ∀ (w w1 : aeWorld) (j : Nat) (processed r : Int),
      aeProcessEvents.fileEvents env n w j processed = some (w1, r) →
      CallsAdded aeCall.isFileProc w w1 ∧ r = processed + n := by
  induction n with
  | zero =>
    intro w w1 j processed r h
    simp only [aeProcessEvents.fileEvents, Option.some.injEq, Prod.mk.injEq] at h
    obtain ⟨rfl, rfl⟩ := h
    exact ⟨CallsAdded.added_refl _ _, by simp⟩
  | succ n ih =>
    intro w w1 j processed r h
    simp only [aeProcessEvents.fileEvents] at h
    split at h
    · cases h
    · rename_i wa ha
      obtain ⟨h1, h2⟩ := ih wa w1 (j + 1) (processed + 1) r h
      refine ⟨(fileEvent_added env w wa j ha).added_trans h1, ?_⟩
      rw [h2]; push_cast; ring

theorem loop_gone (env : aeEnv) (maxId : Int) (k : Nat) (w : aeWorld) (now : Nat)
    (processed : Int) (h : timeEventAt w (k + 1) = none) :
    processTimeEvents.loop env maxId (k + 1) w now processed = none := by
  rw [processTimeEvents.loop, h]

theorem loop_referenced (env : aeEnv) (maxId : Int) (k : Nat) (w : aeWorld) (now : Nat)
    (processed : Int) (te : aeTimeEvent) (h : timeEventAt w (k + 1) = some te)
    (hd : te.id = AE_DELETED_EVENT_ID) (hr : te.refcount ≠ 0) :
    processTimeEvents.loop env maxId (k + 1) w now processed =
      processTimeEvents.loop env maxId k w now processed := by
  rw [processTimeEvents.loop, h]
  simp only [hd, if_true, ne_eq, hr, not_false_eq_true]

theorem loop_unlink (env : aeEnv) (maxId : Int) (k : Nat) (w : aeWorld) (now : Nat)
    (processed : Int) (te : aeTimeEvent) (h : timeEventAt w (k + 1) = some te)
    (hd : te.id = AE_DELETED_EVENT_ID) (hr : te.refcount = 0) (hf : te.finalizerProc = none) :
    processTimeEvents.loop env maxId (k + 1) w now processed =
      processTimeEvents.loop env maxId k (unlinkTimeEventAt w (k + 1)) now processed := by
  rw [processTimeEvents.loop, h]
  simp only [hd, if_true, ne_eq, hr, not_true_eq_false, if_false, hf]

theorem loop_finalize (env : aeEnv) (maxId : Int) (k : Nat) (w : aeWorld) (now : Nat)
    (processed : Int) (te : aeTimeEvent) (finalizerProc : Nat)
    (h : timeEventAt w (k + 1) = some te)
    (hd : te.id = AE_DELETED_EVENT_ID) (hr : te.refcount = 0)
    (hf : te.finalizerProc = some finalizerProc) :
    processTimeEvents.loop env maxId (k + 1) w now processed =
      processTimeEvents.loop env maxId k
        (processTimeEvents.finalized env w (k + 1) te finalizerProc)
        (env.getMonotonicUs w.clockReads) processed := by
  rw [processTimeEvents.loop, h]
  simp only [hd, if_true, ne_eq, hr, not_true_eq_false, if_false, hf]
  rfl

theorem loop_future (env : aeEnv) (maxId : Int) (k : Nat) (w : aeWorld) (now : Nat)
    (processed : Int) (te : aeTimeEvent) (h : timeEventAt w (k + 1) = some te)
    (hd : te.id ≠ AE_DELETED_EVENT_ID) (hm : te.id > maxId) :
    processTimeEvents.loop env maxId (k + 1) w now processed =
      processTimeEvents.loop env maxId k w now processed := by
  rw [processTimeEvents.loop, h]
  simp only [hd, if_false, hm, if_true]

theorem loop_waiting (env : aeEnv) (maxId : Int) (k : Nat) (w : aeWorld) (now : Nat)
    (processed : Int) (te : aeTimeEvent) (h : timeEventAt w (k + 1) = some te)
    (hd : te.id ≠ AE_DELETED_EVENT_ID) (hn : now < te.when) :
    processTimeEvents.loop env maxId (k + 1) w now processed =
      processTimeEvents.loop env maxId k w now processed := by
  rw [processTimeEvents.loop, h]
  have hn1 : ¬ te.when ≤ now := by omega
  simp only [hd, if_false, hn1, ite_self]

theorem loop_fire (env : aeEnv) (maxId : Int) (k : Nat) (w : aeWorld) (now : Nat)
    (processed : Int) (te : aeTimeEvent) (h : timeEventAt w (k + 1) = some te)
    (hd : te.id ≠ AE_DELETED_EVENT_ID) (hm : te.id ≤ maxId) (hn : te.when ≤ now) :
    processTimeEvents.loop env maxId (k + 1) w now processed =
      match timeEventAt (processTimeEvents.called env w (k + 1) te) (k + 1) with
      | none => none
      | some te1 =>
        processTimeEvents.loop env maxId k
          (setTimeEventAt
            { processTimeEvents.called env w (k + 1) te with clockReads := w.clockReads + 1 }
            (k + 1)
            (processTimeEvents.rearm te1 (processTimeEvents.retval env w (k + 1) te)
              (env.getMonotonicUs w.clockReads)))
          (env.getMonotonicUs w.clockReads) (processed + 1) := by
  rw [processTimeEvents.loop, h]
  have hm1 : ¬ te.id > maxId := by omega
  simp only [hd, if_false, hm1, hn, if_true]
  rfl

theorem loop_calls (env : aeEnv) (maxId : Int) (k : Nat) :
    ∀ (w w1 : aeWorld) (now : Nat) (processed r : Int),
      processTimeEvents.loop env maxId k w now processed = some (w1, r) →
      ∃ cs, w1.calls = w.calls ++ cs ∧ (∀ c ∈ cs, aeCall.isTimer c = true) ∧
        r = processed + (cs.countP aeCall.isTimeProc : Nat) := by
  induction k with
  | zero =>
    intro w w1 now processed r h
    simp only [processTimeEvents.loop, Option.some.injEq, Prod.mk.injEq] at h
    obtain ⟨rfl, rfl⟩ := h
    exact ⟨[], by simp, by simp, by simp⟩
  | succ k ih =>
    intro w w1 now processed r h
    rcases hte : timeEventAt w (k + 1) with _ | te
    · rw [loop_gone env maxId k w now processed hte] at h
      cases h
    · by_cases hd : te.id = AE_DELETED_EVENT_ID
      · by_cases hr : te.refcount = 0
        · rcases hf : te.finalizerProc with _ | fin
          · rw [loop_unlink env maxId k w now processed te hte hd hr hf] at h
            obtain ⟨cs, h1, h2, h3⟩ := ih _ _ _ _ _ h
            exact ⟨cs, by rw [h1]; rfl, h2, h3⟩
          · rw [loop_finalize env maxId k w now processed te fin hte hd hr hf] at h
            obtain ⟨cs, h1, h2, h3⟩ := ih _ _ _ _ _ h
            refine ⟨aeCall.finalizerProc fin te.clientData :: cs, ?_, ?_, ?_⟩
            · rw [h1]; simp [processTimeEvents.finalized]
            · intro c hc
              rcases List.mem_cons.1 hc with rfl | hc
              · rfl
              · exact h2 c hc
            · rw [h3]; simp [aeCall.isTimeProc]
        · rw [loop_referenced env maxId k w now processed te hte hd hr] at h
          exact ih _ _ _ _ _ h
      · by_cases hm : te.id ≤ maxId
        · by_cases hn : te.when ≤ now
          · rw [loop_fire env maxId k w now processed te hte hd hm hn] at h
            rcases hte1 : timeEventAt (processTimeEvents.called env w (k + 1) te) (k + 1)
              with _ | te1
            · rw [hte1] at h; cases h
            · rw [hte1] at h
              obtain ⟨cs, h1, h2, h3⟩ := ih _ _ _ _ _ h
              refine ⟨aeCall.timeProc te.timeProc te.id te.clientData :: cs, ?_, ?_, ?_⟩
              · rw [h1]; simp [processTimeEvents.called, setTimeEventAt]
              · intro c hc
                rcases List.mem_cons.1 hc with rfl | hc
                · rfl
                · exact h2 c hc
              · rw [h3]; simp [aeCall.isTimeProc]; ring
          · rw [loop_waiting env maxId k w now processed te hte hd (by omega)] at h
            exact ih _ _ _ _ _ h
        · rw [loop_future env maxId k w now processed te hte hd (by omega)] at h
          exact ih _ _ _ _ _ h

theorem processTimeEvents_calls (env : aeEnv) (w w1 : aeWorld) (r : Int)
    (h : processTimeEvents env w = some (w1, r)) :
    ∃ cs, w1.calls = w.calls ++ cs ∧ (∀ c ∈ cs, aeCall.isTimer c = true) ∧
      r = (cs.countP aeCall.isTimeProc : Nat) := by
  unfold processTimeEvents at h
  obtain ⟨cs, h1, h2, h3⟩ := loop_calls env _ _ _ _ _ _ _ h
  exact ⟨cs, by rw [h1], h2, by rw [h3]; simp⟩

theorem resize_events_length (events : List aeFileEvent) (setsize : Nat) :
    (aeResizeSetSize.events events setsize).length = setsize := by
  simp only [aeResizeSetSize.events, List.length_append, List.length_take,
    List.length_replicate]
  omega

theorem resize_events_getElem? (events : List aeFileEvent) (setsize i : Nat)
    (h : i < setsize) (hi : i < events.length) :
    (aeResizeSetSize.events events setsize)[i]? = events[i]? := by
  simp only [aeResizeSetSize.events]
  rw [List.getElem?_append_left (by simp; omega), List.getElem?_take_of_lt h]

theorem resize_init_spec (n : Nat) :
    ∀ (i : Nat) (events : List aeFileEvent), i + n = events.length →
      ∃ ev, aeResizeSetSize.init n i events = some ev ∧ ev.length = events.length ∧
        (∀ j, j < i → ev[j]? = events[j]?) ∧
        (∀ j fe, i ≤ j → ev[j]? = some fe → fe.mask = AE_NONE) := by
  induction n with
  | zero =>
    intro i events h
    refine ⟨events, rfl, rfl, fun _ _ => rfl, ?_⟩
    intro j fe hj hfe
    have := (List.getElem?_eq_some_iff.1 hfe).1
    omega
  | succ n ih =>
    intro i events h
    have hi : i < events.length := by omega
    rw [aeResizeSetSize.init, List.getElem?_eq_getElem hi]
    obtain ⟨ev, h1, h2, h3, h4⟩ := ih (i + 1)
      (events.set i { events[i] with mask := AE_NONE }) (by simp; omega)
    refine ⟨ev, h1, by simpa using h2, ?_, ?_⟩
    · intro j hj
      rw [h3 j (by omega), List.getElem?_set_ne (by omega)]
    · intro j fe hj hfe
      rcases Nat.eq_or_lt_of_le hj with rfl | hlt
      · rw [h3 i (by omega), List.getElem?_set_self hi] at hfe
        cases hfe
        rfl
      · exact h4 j fe hlt hfe

theorem exampleRegistered_maxfdExact : MaxfdExact exampleRegistered.eventLoop := by
  refine ⟨by decide, by decide, Or.inr ⟨by decide, by decide, by decide⟩⟩

/-- C22: `aeCreateFileEvent` with `fd >= setsize` returns `AE_ERR` and leaves everything as it
was: no entry of `events`, nor `maxfd`, is changed, and the multiplexing layer is not called
(no call is added to the calls that left `ae.c`). -/
theorem C22_aeCreateFileEvent_out_of_range (env : aeEnv) (w : aeWorld) (fd : Int)
    (mask proc clientData : Nat) (h : fd ≥ w.eventLoop.setsize) :
    ∃ w1, aeCreateFileEvent env w fd mask proc clientData = some (w1, AE_ERR) ∧
      w1.eventLoop.events = w.eventLoop.events ∧ w1.eventLoop.maxfd = w.eventLoop.maxfd ∧
      w1.calls = w.calls ∧ w1 = w := by
  refine ⟨w, ?_, rfl, rfl, rfl, rfl⟩
  unfold aeCreateFileEvent
  rw [if_pos h]

theorem C22_witness :
    (8 : Int) ≥ exampleRegistered.eventLoop.setsize ∧
    ∃ w1, aeCreateFileEvent exampleEnv exampleRegistered 8 AE_WRITABLE 22 0 =
        some (w1, AE_ERR) ∧
      w1.eventLoop.events = exampleRegistered.eventLoop.events ∧
      w1.eventLoop.maxfd = exampleRegistered.eventLoop.maxfd ∧
      w1.calls = exampleRegistered.calls ∧ w1 = exampleRegistered :=
  ⟨by decide, C22_aeCreateFileEvent_out_of_range exampleEnv exampleRegistered 8 AE_WRITABLE 22 0
    (by decide)⟩

/-- C23: on an event loop whose `maxfd` is the highest registered descriptor, and for a set
size `n ≥ 0`: when some registered descriptor is at or above `n`, `aeResizeSetSize(loop, n)`
returns `AE_ERR` and changes nothing (the multiplexing layer is not called either); when no
registered descriptor is at or above `n` and the resize of the multiplexing layer succeeds, it
returns `AE_OK`, `setsize` is `n`, `maxfd` is the same, every registered event is in its slot as
before, and every slot above `maxfd` has the mask `AE_NONE`. -/
theorem C23_aeResizeSetSize (env : aeEnv) (w : aeWorld) (n : Int)
    (hinv : MaxfdExact w.eventLoop) (hn : 0 ≤ n) :
    ((∃ (fd : Nat) (fe : aeFileEvent), w.eventLoop.events[fd]? = some fe ∧ fe.mask ≠ AE_NONE ∧
        n ≤ (fd : Int)) →
      aeResizeSetSize env w n = some (w, AE_ERR)) ∧
    ((∀ (fd : Nat) (fe : aeFileEvent), w.eventLoop.events[fd]? = some fe → fe.mask ≠ AE_NONE →
        (fd : Int) < n) →
      env.aeApiResize w.eventLoop n ≠ -1 →
      ∃ w1, aeResizeSetSize env w n = some (w1, AE_OK) ∧
        w1.eventLoop.setsize = n ∧ (w1.eventLoop.events.length : Int) = n ∧
        w1.eventLoop.maxfd = w.eventLoop.maxfd ∧
        (∀ (fd : Nat) (fe : aeFileEvent), w.eventLoop.events[fd]? = some fe → fe.mask ≠ AE_NONE →
          w1.eventLoop.events[fd]? = some fe) ∧
        (∀ (i : Nat) (fe : aeFileEvent), w1.eventLoop.events[i]? = some fe →
            w1.eventLoop.maxfd < (i : Int) →
          fe.mask = AE_NONE)) := by
  have habove : ∀ (fd : Nat) (fe : aeFileEvent), w.eventLoop.events[fd]? = some fe →
      fe.mask ≠ AE_NONE →
      (fd : Int) ≤ w.eventLoop.maxfd := by
    intro fd fe hfe hm
    by_contra hlt
    obtain ⟨hlen, hget⟩ := List.getElem?_eq_some_iff.1 hfe
    have := hinv.above fd hlen (by omega)
    rw [hget] at this
    exact hm this
  constructor
  · rintro ⟨fd, fe, hfe, hm, hle⟩
    have h1 := habove fd fe hfe hm
    have hlen := (List.getElem?_eq_some_iff.1 hfe).1
    have hsz := hinv.size
    unfold aeResizeSetSize
    rw [if_neg (by omega), if_pos (by omega)]
  · intro hnone hapi
    have hsz := hinv.size
    by_cases hs : n = w.eventLoop.setsize
    · refine ⟨w, ?_, hs.symm, by omega, rfl, fun _ _ h _ => h, ?_⟩
      · unfold aeResizeSetSize
        rw [if_pos hs]
      · intro i fe hfe hi
        obtain ⟨hlen, hget⟩ := List.getElem?_eq_some_iff.1 hfe
        have := hinv.above i hlen hi
        rw [hget] at this
        exact this
    · have hmax : w.eventLoop.maxfd < n := by
        rcases hinv.top with h | ⟨h0, hlt, hm⟩
        · omega
        · have := hnone w.eventLoop.maxfd.toNat _ (List.getElem?_eq_getElem hlt) hm
          omega
      have hlo : -1 ≤ w.eventLoop.maxfd := by
        rcases hinv.top with h | ⟨h0, _⟩ <;> omega
      obtain ⟨ev, h1, h2, h3, h4⟩ := resize_init_spec (n - (w.eventLoop.maxfd + 1)).toNat
        (w.eventLoop.maxfd + 1).toNat (aeResizeSetSize.events w.eventLoop.events n.toNat)
        (by rw [resize_events_length]; omega)
      refine ⟨{ w with
          calls := w.calls ++ [aeCall.aeApiResize n],
          eventLoop := { w.eventLoop with
            events := ev, fired := w.eventLoop.fired.take n.toNat, setsize := n } },
        ?_, ?_, ?_, ?_, ?_, ?_⟩
      · unfold aeResizeSetSize
        rw [if_neg hs, if_neg (by omega), if_neg hapi]
        simp only [h1]
      · rfl
      · simp only [h2, resize_events_length]
        omega
      · rfl
      · intro fd fe hfe hm
        have hle := habove fd fe hfe hm
        have hlen := (List.getElem?_eq_some_iff.1 hfe).1
        simp only
        rw [h3 fd (by omega), resize_events_getElem? _ _ _ (by omega) hlen, hfe]
      · intro i fe hfe hi
        exact h4 i fe (by simp only at hi; omega) hfe

theorem C23_witness :
    MaxfdExact exampleRegistered.eventLoop ∧ (0 : Int) ≤ 3 ∧ (0 : Int) ≤ 16 ∧
    (∃ (fd : Nat) (fe : aeFileEvent), exampleRegistered.eventLoop.events[fd]? = some fe ∧
        fe.mask ≠ AE_NONE ∧
      (3 : Int) ≤ (fd : Int)) ∧
    aeResizeSetSize exampleEnv exampleRegistered 3 = some (exampleRegistered, AE_ERR) ∧
    (∀ (fd : Nat) (fe : aeFileEvent), exampleRegistered.eventLoop.events[fd]? = some fe →
        fe.mask ≠ AE_NONE →
      (fd : Int) < 16) ∧
    exampleEnv.aeApiResize exampleRegistered.eventLoop 16 ≠ -1 ∧
    ∃ w1, aeResizeSetSize exampleEnv exampleRegistered 16 = some (w1, AE_OK) ∧
      w1.eventLoop.setsize = 16 ∧ (w1.eventLoop.events.length : Int) = 16 ∧
      w1.eventLoop.maxfd = exampleRegistered.eventLoop.maxfd ∧
      (∀ (fd : Nat) (fe : aeFileEvent), exampleRegistered.eventLoop.events[fd]? = some fe →
          fe.mask ≠ AE_NONE →
        w1.eventLoop.events[fd]? = some fe) ∧
      (∀ (i : Nat) (fe : aeFileEvent), w1.eventLoop.events[i]? = some fe →
          w1.eventLoop.maxfd < (i : Int) →
        fe.mask = AE_NONE) :=
  have h16 : ∀ (fd : Nat) (fe : aeFileEvent), exampleRegistered.eventLoop.events[fd]? = some fe →
      fe.mask ≠ AE_NONE → (fd : Int) < 16 := by
    intro fd fe hfe _
    have := (List.getElem?_eq_some_iff.1 hfe).1
    have h8 : exampleRegistered.eventLoop.events.length = 8 := by decide
    omega
  ⟨exampleRegistered_maxfdExact, by decide, by decide,
    ⟨3, { mask := 1, rfileProc := 11, wfileProc := 0, clientData := 0 },
      by decide, by decide, by decide⟩,
    (C23_aeResizeSetSize exampleEnv exampleRegistered 3 exampleRegistered_maxfdExact
      (by decide)).1
      ⟨3, { mask := 1, rfileProc := 11, wfileProc := 0, clientData := 0 },
        by decide, by decide, by decide⟩,
    h16, by decide,
    (C23_aeResizeSetSize exampleEnv exampleRegistered 16 exampleRegistered_maxfdExact
      (by decide)).2 h16 (by decide)⟩

/-- C24 (the code at the boundary): on the loop of 8 slots whose only registered descriptor is
3, `aeResizeSetSize(loop, 4)` - a smaller set size, with descriptor 3 in use at the requested
set size minus one - returns `AE_OK` and sets `setsize` to 4; `AE_ERR` comes only for a set
size of 3 or less. -/
theorem C24_resize_at_boundary :
    exampleRegistered.eventLoop.setsize = 8 ∧ exampleRegistered.eventLoop.maxfd = 3 ∧
    (exampleRegistered.eventLoop.events[3]?).map (fun fe => fe.mask) = some AE_READABLE ∧
    (aeResizeSetSize exampleEnv exampleRegistered 4).map
      (fun r => (r.2, r.1.eventLoop.setsize)) = some (AE_OK, 4) ∧
    (aeResizeSetSize exampleEnv exampleRegistered 3).map
      (fun r => (r.2, r.1.eventLoop.setsize)) = some (AE_ERR, 8) := by
  refine ⟨by decide, by decide, by decide, by decide, by decide⟩

theorem tvp_world (env : aeEnv) (w : aeWorld) (flags : Nat) :
    (aeProcessEvents.tvp env w flags).1.calls = w.calls ∧
    (aeProcessEvents.tvp env w flags).1.eventLoop = w.eventLoop ∧
    (aeProcessEvents.tvp env w flags).1.polls = w.polls := by
  unfold aeProcessEvents.tvp msUntilEarliestTimer
  dsimp only
  split
  · split <;> simp [getMonotonicUs]
  · simp

theorem hook_calls (env : aeEnv) (w0 : aeWorld) (hook : Option Nat) (asked : Prop)
    [Decidable asked] (call : Nat → aeCall) :
    ∃ cs,
      (match hook with
        | some proc =>
          if asked then
            { w0 with eventLoop := env.sleepProc proc w0.eventLoop,
                      calls := w0.calls ++ [call proc] }
          else w0
        | none => w0).calls = w0.calls ++ cs ∧
      (cs = [] ∨ ∃ proc, cs = [call proc]) := by
  rcases hook with _ | proc
  · exact ⟨[], by simp, Or.inl rfl⟩
  · by_cases h : asked
    · exact ⟨[call proc], by simp [h], Or.inr ⟨proc, rfl⟩⟩
    · exact ⟨[], by simp [h], Or.inl rfl⟩

theorem beforesleep_calls (env : aeEnv) (w : aeWorld) (flags : Nat) :
    ∃ bs, (aeProcessEvents.beforesleep env w flags).calls = w.calls ++ bs ∧
      (bs = [] ∨ ∃ proc, bs = [aeCall.beforesleep proc]) := by
  obtain ⟨hc, -, -⟩ := tvp_world env w flags
  unfold aeProcessEvents.beforesleep
  dsimp only
  rcases (aeProcessEvents.tvp env w flags).1.eventLoop.beforesleep with _ | b
  · exact ⟨[], by simp [hc], Or.inl rfl⟩
  · by_cases hf : flags &&& AE_CALL_BEFORE_SLEEP = 0
    · exact ⟨[], by simp [hc, hf], Or.inl rfl⟩
    · exact ⟨[aeCall.beforesleep b], by simp [hc, hf], Or.inr ⟨b, rfl⟩⟩

theorem poll_calls (env : aeEnv) (w : aeWorld) (flags : Nat) :
    ∃ bs as,
      (aeProcessEvents.poll env w flags).1.calls =
        w.calls ++ bs ++ [aeCall.aeApiPoll (aeProcessEvents.tvp env w flags).2] ++ as ∧
      (bs = [] ∨ ∃ proc, bs = [aeCall.beforesleep proc]) ∧
      (as = [] ∨ ∃ proc, as = [aeCall.aftersleep proc]) := by
  obtain ⟨bs, hbs, hbs1⟩ := beforesleep_calls env w flags
  unfold aeProcessEvents.poll
  dsimp only
  rcases (aeProcessEvents.beforesleep env w flags).eventLoop.aftersleep with _ | a
  · exact ⟨bs, [], by simp [hbs], hbs1, Or.inl rfl⟩
  · by_cases hf : flags &&& AE_CALL_AFTER_SLEEP = 0
    · exact ⟨bs, [], by simp [hbs, hf], hbs1, Or.inl rfl⟩
    · exact ⟨bs, [aeCall.aftersleep a], by simp [hbs, hf], hbs1, Or.inr ⟨a, rfl⟩⟩

theorem earliest_some (e : aeTimeEvent) (l : List aeTimeEvent) :
    ∃ e1, msUntilEarliestTimer.earliest (some e) l = some e1 ∧ (e1 = e ∨ e1 ∈ l) ∧
      e1.when ≤ e.when ∧ ∀ te ∈ l, e1.when ≤ te.when := by
  induction l generalizing e with
  | nil => exact ⟨e, rfl, Or.inl rfl, le_refl _, by simp⟩
  | cons te next ih =>
    rw [msUntilEarliestTimer.earliest]
    split
    · rename_i hlt
      obtain ⟨e1, h1, h2, h3, h4⟩ := ih te
      refine ⟨e1, h1, ?_, by omega, ?_⟩
      · rcases h2 with rfl | h2
        · exact Or.inr (List.mem_cons_self _ _)
        · exact Or.inr (List.mem_cons_of_mem _ h2)
      · intro x hx
        rcases List.mem_cons.1 hx with rfl | hx
        · exact h3
        · exact h4 x hx
    · rename_i hge
      obtain ⟨e1, h1, h2, h3, h4⟩ := ih e
      refine ⟨e1, h1, ?_, h3, ?_⟩
      · rcases h2 with rfl | h2
        · exact Or.inl rfl
        · exact Or.inr (List.mem_cons_of_mem _ h2)
      · intro x hx
        rcases List.mem_cons.1 hx with rfl | hx
        · omega
        · exact h4 x hx

theorem earliest_spec (l : List aeTimeEvent) (hl : l ≠ []) :
    ∃ e, msUntilEarliestTimer.earliest none l = some e ∧ e ∈ l ∧ ∀ te ∈ l, e.when ≤ te.when := by
  rcases l with _ | ⟨te, next⟩
  · exact absurd rfl hl
  · rw [msUntilEarliestTimer.earliest]
    obtain ⟨e1, h1, h2, h3, h4⟩ := earliest_some te next
    refine ⟨e1, h1, ?_, ?_⟩
    · rcases h2 with rfl | h2
      · exact List.mem_cons_self _ _
      · exact List.mem_cons_of_mem _ h2
    · intro x hx
      rcases List.mem_cons.1 hx with rfl | hx
      · exact h3
      · exact h4 x hx

theorem msUntilEarliestTimer_spec (env : aeEnv) (w : aeWorld) :
    (w.eventLoop.timeEventHead = [] → msUntilEarliestTimer env w = (w, -1)) ∧
    ∀ m, m ∈ w.eventLoop.timeEventHead.map (fun te => te.when) →
      (∀ te ∈ w.eventLoop.timeEventHead, m ≤ te.when) →
      (msUntilEarliestTimer env w).2 =
        if env.getMonotonicUs w.clockReads ≥ m then 0
        else (((m - env.getMonotonicUs w.clockReads) / 1000 : Nat) : Int) := by
  constructor
  · intro h
    simp [msUntilEarliestTimer, h, msUntilEarliestTimer.earliest]
  · intro m hm hmin
    have hl : w.eventLoop.timeEventHead ≠ [] := by
      intro h; rw [h] at hm; simp at hm
    obtain ⟨e, h1, h2, h3⟩ := earliest_spec _ hl
    obtain ⟨x, hx, rfl⟩ := List.mem_map.1 hm
    have : e.when = x.when := le_antisymm (h3 x hx) (hmin e h2)
    simp only [msUntilEarliestTimer, h1, getMonotonicUs, this]

theorem aeProcessEvents_calls (env : aeEnv) (w : aeWorld) (flags : Nat) (r : aeWorld × Int)
    (h : aeProcessEvents env w flags = some r) :
    ∃ files timers,
      r.1.calls =
        (if ¬ (flags &&& AE_TIME_EVENTS = 0 ∧ flags &&& AE_FILE_EVENTS = 0) ∧
            (w.eventLoop.maxfd ≠ -1 ∨
              (flags &&& AE_TIME_EVENTS ≠ 0 ∧ flags &&& AE_DONT_WAIT = 0)) then
          (aeProcessEvents.poll env w flags).1.calls
        else w.calls) ++ files ++ timers ∧
      (∀ c ∈ files, aeCall.isFileProc c = true) ∧ (∀ c ∈ timers, aeCall.isTimer c = true) ∧
      (flags &&& AE_TIME_EVENTS = 0 → timers = []) := by
  rw [aeProcessEvents_eq] at h
  by_cases h0 : flags &&& AE_TIME_EVENTS = 0 ∧ flags &&& AE_FILE_EVENTS = 0
  · rw [if_pos h0] at h
    cases h
    refine ⟨[], [], ?_, by simp, by simp, fun _ => rfl⟩
    rw [if_neg (by tauto)]
    simp
  · rw [if_neg h0] at h
    have tail : ∀ (w4 : aeWorld) (processed : Int),
        (if flags &&& AE_TIME_EVENTS ≠ 0 then
          (processTimeEvents env w4).map (fun r => (r.1, processed + r.2))
        else some (w4, processed)) = some r →
        ∃ timers, r.1.calls = w4.calls ++ timers ∧
          (∀ c ∈ timers, aeCall.isTimer c = true) ∧
          (flags &&& AE_TIME_EVENTS = 0 → timers = []) := by
      intro w4 processed ht
      by_cases hT : flags &&& AE_TIME_EVENTS = 0
      · rw [if_neg (by simpa using hT)] at ht
        cases ht
        exact ⟨[], by simp, by simp, fun _ => rfl⟩
      · rw [if_pos hT] at ht
        obtain ⟨x, hx, rfl⟩ := Option.map_eq_some'.1 ht
        obtain ⟨cs, h1, h2, -⟩ := processTimeEvents_calls env w4 x.1 x.2 hx
        exact ⟨cs, h1, h2, fun h => absurd h hT⟩
    by_cases h1 : w.eventLoop.maxfd ≠ -1 ∨
        (flags &&& AE_TIME_EVENTS ≠ 0 ∧ flags &&& AE_DONT_WAIT = 0)
    · rw [if_pos h1] at h
      rw [if_pos ⟨h0, h1⟩]
      rcases hf : aeProcessEvents.fileEvents env (aeProcessEvents.poll env w flags).2
        (aeProcessEvents.poll env w flags).1 0 0 with _ | ⟨w4, processed⟩
      · rw [hf] at h; cases h
      · rw [hf] at h
        obtain ⟨⟨files, hfc, hfp⟩, -⟩ := fileEvents_added env _ _ _ _ _ _ hf
        obtain ⟨timers, ht1, ht2, ht3⟩ := tail w4 processed h
        exact ⟨files, timers, by rw [ht1, hfc], hfp, ht2, ht3⟩
    · rw [if_neg h1] at h
      rw [if_neg (by tauto)]
      obtain ⟨timers, ht1, ht2, ht3⟩ := tail w 0 h
      exact ⟨[], timers, by rw [ht1]; simp, by simp, ht2, ht3⟩

/-- C25 (amended): on an event loop without timers and without registered descriptors
(`maxfd = -1`), `aeProcessEvents` returns 0 without calling `aeApiPoll` or any callback for
every `flags` that lacks `AE_TIME_EVENTS` or has `AE_DONT_WAIT`.  For `flags` with
`AE_TIME_EVENTS` and without `AE_DONT_WAIT` (such as `AE_ALL_EVENTS`, as `aeMain` passes it) it
does call `aeApiPoll`, after the beforesleep hook if that is set and asked for, with the timeout
`NULL` (wait forever), or zero when `eventLoop->flags` has `AE_DONT_WAIT`. -/
theorem C25_idle_loop (env : aeEnv) (w : aeWorld) (flags : Nat)
    (h0 : w.eventLoop.timeEventHead = []) (hm : w.eventLoop.maxfd = -1) :
    (flags &&& AE_TIME_EVENTS = 0 ∨ flags &&& AE_DONT_WAIT ≠ 0 →
      ∃ w1, aeProcessEvents env w flags = some (w1, 0) ∧ w1.calls = w.calls ∧
        w1.eventLoop = w.eventLoop ∧ w1.polls = w.polls) ∧
    (flags &&& AE_TIME_EVENTS ≠ 0 → flags &&& AE_DONT_WAIT = 0 →
      (aeProcessEvents.tvp env w flags).2 =
        (if w.eventLoop.flags &&& AE_DONT_WAIT ≠ 0 then some (0, 0) else none) ∧
      (∃ bs as,
        (aeProcessEvents.poll env w flags).1.calls =
          w.calls ++ bs ++ [aeCall.aeApiPoll (aeProcessEvents.tvp env w flags).2] ++ as ∧
        (bs = [] ∨ ∃ proc, bs = [aeCall.beforesleep proc]) ∧
        (as = [] ∨ ∃ proc, as = [aeCall.aftersleep proc])) ∧
      ∀ r, aeProcessEvents env w flags = some r →
        ∃ rest, r.1.calls = (aeProcessEvents.poll env w flags).1.calls ++ rest) := by
  constructor
  · intro hf
    rw [aeProcessEvents_eq]
    by_cases hn : flags &&& AE_TIME_EVENTS = 0 ∧ flags &&& AE_FILE_EVENTS = 0
    · rw [if_pos hn]
      exact ⟨w, rfl, rfl, rfl, rfl⟩
    · rw [if_neg hn, if_neg (by rw [hm]; tauto)]
      by_cases hT : flags &&& AE_TIME_EVENTS = 0
      · simp only [hT, ne_eq, not_true_eq_false, if_false]
        exact ⟨w, rfl, rfl, rfl, rfl⟩
      · simp only [hT, ne_eq, not_false_eq_true, if_true]
        refine ⟨{ w with clockReads := w.clockReads + 1 }, ?_, rfl, rfl, rfl⟩
        simp [processTimeEvents, getMonotonicUs, h0, processTimeEvents.loop]
  · intro hT hD
    refine ⟨?_, poll_calls env w flags, ?_⟩
    · simp [aeProcessEvents.tvp, hT, hD, msUntilEarliestTimer, h0,
        msUntilEarliestTimer.earliest]
    · intro r hr
      obtain ⟨files, timers, h1, -⟩ := aeProcessEvents_calls env w flags r hr
      rw [if_pos ⟨by tauto, Or.inr ⟨hT, hD⟩⟩] at h1
      exact ⟨files ++ timers, by rw [h1, List.append_assoc]⟩

/-- C25 (as stated) fails: on the fresh event loop (no timer, `maxfd = -1`) and with a
multiplexing layer that reports no event, `aeProcessEvents(loop, AE_ALL_EVENTS)` returns 0
after it has called `aeApiPoll` with the timeout `NULL`. -/
theorem C25_counterexample :
    exampleStart.eventLoop.timeEventHead = [] ∧ exampleStart.eventLoop.maxfd = -1 ∧
    (aeProcessEvents exampleQuiet exampleStart AE_ALL_EVENTS).map (fun r => (r.1.calls, r.2)) =
      some ([aeCall.aeApiPoll none], 0) := by
  refine ⟨by decide, by decide, by decide⟩

theorem C25_witness :
    exampleStart.eventLoop.timeEventHead = [] ∧ exampleStart.eventLoop.maxfd = -1 ∧
    (AE_FILE_EVENTS &&& AE_TIME_EVENTS = 0 ∨ AE_FILE_EVENTS &&& AE_DONT_WAIT ≠ 0) ∧
    (∃ w1, aeProcessEvents exampleQuiet exampleStart AE_FILE_EVENTS = some (w1, 0) ∧
      w1.calls = exampleStart.calls ∧ w1.eventLoop = exampleStart.eventLoop ∧
      w1.polls = exampleStart.polls) ∧
    AE_ALL_EVENTS &&& AE_TIME_EVENTS ≠ 0 ∧ AE_ALL_EVENTS &&& AE_DONT_WAIT = 0 ∧
    (aeProcessEvents.tvp exampleQuiet exampleStart AE_ALL_EVENTS).2 =
      (if exampleStart.eventLoop.flags &&& AE_DONT_WAIT ≠ 0 then some (0, 0) else none) ∧
    (∃ bs as,
      (aeProcessEvents.poll exampleQuiet exampleStart AE_ALL_EVENTS).1.calls =
        exampleStart.calls ++ bs ++
          [aeCall.aeApiPoll (aeProcessEvents.tvp exampleQuiet exampleStart AE_ALL_EVENTS).2]
          ++ as ∧
      (bs = [] ∨ ∃ proc, bs = [aeCall.beforesleep proc]) ∧
      (as = [] ∨ ∃ proc, as = [aeCall.aftersleep proc])) ∧
    ∀ r, aeProcessEvents exampleQuiet exampleStart AE_ALL_EVENTS = some r →
      ∃ rest, r.1.calls =
        (aeProcessEvents.poll exampleQuiet exampleStart AE_ALL_EVENTS).1.calls ++ rest :=
  ⟨by decide, by decide, by decide,
    (C25_idle_loop exampleQuiet exampleStart AE_FILE_EVENTS (by decide) (by decide)).1
      (by decide),
    by decide, by decide,
    (C25_idle_loop exampleQuiet exampleStart AE_ALL_EVENTS (by decide) (by decide)).2
      (by decide) (by decide)⟩

/-- C26: the one call of `aeApiPoll` that `aeProcessEvents` makes (after the calls `bs` of the
beforesleep hook; file and timer callbacks follow it) has the timeout
`aeProcessEvents.tvp`.  With `AE_TIME_EVENTS` set and `AE_DONT_WAIT` neither in `flags` nor in
`eventLoop->flags`, that timeout is `NULL` (wait forever) when there is no timer; and when `m`
is the minimum deadline over the whole list of timers and `now` the clock reading, it is zero
when `m <= now` and otherwise the `timeval` of `(m - now) / 1000` milliseconds, rounded down.
With `AE_DONT_WAIT` in `flags` or in `eventLoop->flags` the timeout is zero. -/
theorem C26_poll_timeout (env : aeEnv) (w : aeWorld) (flags : Nat) :
    (∃ bs as,
      (aeProcessEvents.poll env w flags).1.calls =
        w.calls ++ bs ++ [aeCall.aeApiPoll (aeProcessEvents.tvp env w flags).2] ++ as ∧
      (bs = [] ∨ ∃ proc, bs = [aeCall.beforesleep proc]) ∧
      (as = [] ∨ ∃ proc, as = [aeCall.aftersleep proc])) ∧
    (∀ r, aeProcessEvents env w flags = some r →
      ∃ files timers,
        r.1.calls =
          (if ¬ (flags &&& AE_TIME_EVENTS = 0 ∧ flags &&& AE_FILE_EVENTS = 0) ∧
              (w.eventLoop.maxfd ≠ -1 ∨
                (flags &&& AE_TIME_EVENTS ≠ 0 ∧ flags &&& AE_DONT_WAIT = 0)) then
            (aeProcessEvents.poll env w flags).1.calls
          else w.calls) ++ files ++ timers ∧
        (∀ c ∈ files, aeCall.isFileProc c = true) ∧
        (∀ c ∈ timers, aeCall.isTimer c = true)) ∧
    (flags &&& AE_TIME_EVENTS ≠ 0 → flags &&& AE_DONT_WAIT = 0 →
      w.eventLoop.flags &&& AE_DONT_WAIT = 0 →
      (w.eventLoop.timeEventHead = [] → (aeProcessEvents.tvp env w flags).2 = none) ∧
      ∀ m, m ∈ w.eventLoop.timeEventHead.map (fun te => te.when) →
        (∀ te ∈ w.eventLoop.timeEventHead, m ≤ te.when) →
        (m ≤ env.getMonotonicUs w.clockReads →
          (aeProcessEvents.tvp env w flags).2 = some (0, 0)) ∧
        (env.getMonotonicUs w.clockReads < m →
          ∃ ms : Nat, ms = (m - env.getMonotonicUs w.clockReads) / 1000 ∧
            (aeProcessEvents.tvp env w flags).2 =
              some ((ms : Int) / 1000, (ms : Int) % 1000 * 1000))) ∧
    (flags &&& AE_DONT_WAIT ≠ 0 ∨ w.eventLoop.flags &&& AE_DONT_WAIT ≠ 0 →
      (aeProcessEvents.tvp env w flags).2 = some (0, 0)) := by
  refine ⟨poll_calls env w flags, ?_, ?_, ?_⟩
  · intro r hr
    obtain ⟨files, timers, h1, h2, h3, -⟩ := aeProcessEvents_calls env w flags r hr
    exact ⟨files, timers, h1, h2, h3⟩
  · intro hT hD hL
    obtain ⟨hs1, hs2⟩ := msUntilEarliestTimer_spec env w
    have hw : (msUntilEarliestTimer env w).1.eventLoop = w.eventLoop := by
      unfold msUntilEarliestTimer
      split <;> rfl
    constructor
    · intro h0
      simp [aeProcessEvents.tvp, hT, hD, hs1 h0, hL]
    · intro m hm hmin
      have h2 := hs2 m hm hmin
      constructor
      · intro hle
        rw [if_pos hle] at h2
        simp [aeProcessEvents.tvp, hT, hD, h2, hw, hL]
      · intro hlt
        rw [if_neg (by omega)] at h2
        refine ⟨_, rfl, ?_⟩
        have hnn : (0 : Int) ≤ (((m - env.getMonotonicUs w.clockReads) / 1000 : Nat) : Int) :=
          Int.natCast_nonneg _
        simp only [aeProcessEvents.tvp, ne_eq, hT, not_false_eq_true, hD, and_self, if_true,
          h2, ge_iff_le, hnn, hw, hL, not_true_eq_false, if_false]
  · intro h
    rcases h with h | h
    · unfold aeProcessEvents.tvp
      have h1 : ¬ (flags &&& AE_TIME_EVENTS ≠ 0 ∧ flags &&& AE_DONT_WAIT = 0) := by tauto
      simp only [h1, if_false, h, ne_eq, not_false_eq_true, if_true]
      simp
    · have hw : (msUntilEarliestTimer env w).1.eventLoop = w.eventLoop := by
        unfold msUntilEarliestTimer
        split <;> rfl
      unfold aeProcessEvents.tvp
      dsimp only
      split
      · rw [hw, if_pos h]
      · rfl

theorem C26_witness :
    AE_ALL_EVENTS &&& AE_TIME_EVENTS ≠ 0 ∧ AE_ALL_EVENTS &&& AE_DONT_WAIT = 0 ∧
    exampleBusy.eventLoop.flags &&& AE_DONT_WAIT = 0 ∧
    exampleTimers.eventLoop.flags &&& AE_DONT_WAIT = 0 ∧
    1000 ∈ exampleBusy.eventLoop.timeEventHead.map (fun te => te.when) ∧
    (∀ te ∈ exampleBusy.eventLoop.timeEventHead, 1000 ≤ te.when) ∧
    exampleEnv.getMonotonicUs exampleBusy.clockReads < 1000 ∧
    (∃ ms : Nat, ms = (1000 - exampleEnv.getMonotonicUs exampleBusy.clockReads) / 1000 ∧
      (aeProcessEvents.tvp exampleEnv exampleBusy AE_ALL_EVENTS).2 =
        some ((ms : Int) / 1000, (ms : Int) % 1000 * 1000)) ∧
    1000 ∈ exampleTimers.eventLoop.timeEventHead.map (fun te => te.when) ∧
    (∀ te ∈ exampleTimers.eventLoop.timeEventHead, 1000 ≤ te.when) ∧
    1000 ≤ exampleEnv.getMonotonicUs exampleTimers.clockReads ∧
    (aeProcessEvents.tvp exampleEnv exampleTimers AE_ALL_EVENTS).2 = some (0, 0) ∧
    (AE_ALL_EVENTS ||| AE_DONT_WAIT) &&& AE_DONT_WAIT ≠ 0 ∧
    (aeProcessEvents.tvp exampleEnv exampleBusy (AE_ALL_EVENTS ||| AE_DONT_WAIT)).2 =
      some (0, 0) :=
  ⟨by decide, by decide, by decide, by decide, by decide, by decide, by decide,
    (((C26_poll_timeout exampleEnv exampleBusy AE_ALL_EVENTS).2.2.1
      (by decide) (by decide) (by decide)).2 1000 (by decide) (by decide)).2 (by decide),
    by decide, by decide, by decide,
    (((C26_poll_timeout exampleEnv exampleTimers AE_ALL_EVENTS).2.2.1
      (by decide) (by decide) (by decide)).2 1000 (by decide) (by decide)).1 (by decide),
    by decide,
    (C26_poll_timeout exampleEnv exampleBusy (AE_ALL_EVENTS ||| AE_DONT_WAIT)).2.2.2
      (Or.inl (by decide))⟩

/-- C29: in every call of `aeProcessEvents` that returns, the calls that leave `ae.c` come in
three phases: first the block phase (the beforesleep hook, `aeApiPoll`, the aftersleep hook),
then the file callbacks of the descriptors that `aeApiPoll` reported, then the timer callbacks
and finalizers of `processTimeEvents`.  So every file callback of the call is invoked before
any timer callback of the call.  With `AE_TIME_EVENTS` and without `AE_DONT_WAIT` in `flags`
(as for `AE_ALL_EVENTS`) the block phase is never empty: it holds the call of `aeApiPoll`. -/
theorem C29_phase_order (env : aeEnv) (w : aeWorld) (flags : Nat) (r : aeWorld × Int)
    (h : aeProcessEvents env w flags = some r) :
    ∃ block files timers,
      r.1.calls = w.calls ++ block ++ files ++ timers ∧
      (∀ c ∈ block, aeCall.isBlock c = true) ∧
      (∀ c ∈ files, aeCall.isFileProc c = true) ∧
      (∀ c ∈ timers, aeCall.isTimer c = true) ∧
      (flags &&& AE_TIME_EVENTS ≠ 0 → flags &&& AE_DONT_WAIT = 0 →
        ∃ bs as, block = bs ++ [aeCall.aeApiPoll (aeProcessEvents.tvp env w flags).2] ++ as ∧
          (bs = [] ∨ ∃ proc, bs = [aeCall.beforesleep proc]) ∧
          (as = [] ∨ ∃ proc, as = [aeCall.aftersleep proc])) := by
  obtain ⟨files, timers, h1, h2, h3, -⟩ := aeProcessEvents_calls env w flags r h
  obtain ⟨bs, as, hp, hbs, has⟩ := poll_calls env w flags
  have hblock : ∀ c ∈ bs ++ [aeCall.aeApiPoll (aeProcessEvents.tvp env w flags).2] ++ as,
      aeCall.isBlock c = true := by
    intro c hc
    simp only [List.mem_append, List.mem_singleton] at hc
    rcases hc with (hc | rfl) | hc
    · rcases hbs with rfl | ⟨p, rfl⟩
      · cases hc
      · rw [List.mem_singleton.1 hc]; rfl
    · rfl
    · rcases has with rfl | ⟨p, rfl⟩
      · cases hc
      · rw [List.mem_singleton.1 hc]; rfl
  by_cases hc : ¬ (flags &&& AE_TIME_EVENTS = 0 ∧ flags &&& AE_FILE_EVENTS = 0) ∧
      (w.eventLoop.maxfd ≠ -1 ∨ (flags &&& AE_TIME_EVENTS ≠ 0 ∧ flags &&& AE_DONT_WAIT = 0))
  · rw [if_pos hc, hp] at h1
    refine ⟨bs ++ [aeCall.aeApiPoll (aeProcessEvents.tvp env w flags).2] ++ as, files, timers,
      ?_, hblock, h2, h3, fun _ _ => ⟨bs, as, rfl, hbs, has⟩⟩
    rw [h1]
    simp only [List.append_assoc]
  · rw [if_neg hc] at h1
    refine ⟨[], files, timers, by rw [h1]; simp, by simp, h2, h3, ?_⟩
    intro hT hD
    exact absurd ⟨by tauto, Or.inr ⟨hT, hD⟩⟩ hc

theorem C29_witness :
    ∃ r, aeProcessEvents exampleEnv exampleBusy AE_ALL_EVENTS = some r ∧
      r.1.calls = exampleBusy.calls ++
        [aeCall.aeApiPoll (some (0, 1000)), aeCall.fileProc 11 3 0 3, aeCall.timeProc 1 0 0] ∧
      ∃ block files timers,
        r.1.calls = exampleBusy.calls ++ block ++ files ++ timers ∧
        (∀ c ∈ block, aeCall.isBlock c = true) ∧
        (∀ c ∈ files, aeCall.isFileProc c = true) ∧
        (∀ c ∈ timers, aeCall.isTimer c = true) ∧
        (AE_ALL_EVENTS &&& AE_TIME_EVENTS ≠ 0 → AE_ALL_EVENTS &&& AE_DONT_WAIT = 0 →
          ∃ bs as,
            block = bs ++
              [aeCall.aeApiPoll (aeProcessEvents.tvp exampleEnv exampleBusy AE_ALL_EVENTS).2]
              ++ as ∧
            (bs = [] ∨ ∃ proc, bs = [aeCall.beforesleep proc]) ∧
            (as = [] ∨ ∃ proc, as = [aeCall.aftersleep proc])) :=
  ⟨_, Option.eq_some_of_isSome (by decide), by decide,
    C29_phase_order exampleEnv exampleBusy AE_ALL_EVENTS _
      (Option.eq_some_of_isSome (by decide))⟩

theorem Marked.marked_refl (a : aeTimeEvent) : aeTimeEvent.Marked a a := Or.inl rfl

theorem Marked.marked_trans {a b c : aeTimeEvent} (h1 : aeTimeEvent.Marked a b)
    (h2 : aeTimeEvent.Marked b c) : aeTimeEvent.Marked a c := by
  rcases h1 with rfl | rfl
  · exact h2
  · rcases h2 with rfl | rfl
    · exact Or.inr rfl
    · exact Or.inr rfl

theorem forall₂_marked_refl (l : List aeTimeEvent) : List.Forall₂ aeTimeEvent.Marked l l := by
  induction l with
  | nil => exact List.Forall₂.nil
  | cons a l ih => exact List.Forall₂.cons (Marked.marked_refl a) ih

theorem forall₂_marked_trans {a b c : List aeTimeEvent}
    (h1 : List.Forall₂ aeTimeEvent.Marked a b) (h2 : List.Forall₂ aeTimeEvent.Marked b c) :
    List.Forall₂ aeTimeEvent.Marked a c := by
  induction h1 generalizing c with
  | nil => cases h2; exact List.Forall₂.nil
  | cons hab _ ih =>
    cases h2 with
    | cons hbc h2 => exact List.Forall₂.cons (Marked.marked_trans hab hbc) (ih h2)

theorem forall₂_append_split {α β : Type} {R : α → β → Prop} :
    ∀ (a b : List α) (l : List β), List.Forall₂ R (a ++ b) l →
      ∃ l1 l2, l = l1 ++ l2 ∧ List.Forall₂ R a l1 ∧ List.Forall₂ R b l2 := by
  intro a
  induction a with
  | nil => intro b l h; exact ⟨[], l, rfl, List.Forall₂.nil, h⟩
  | cons x a ih =>
    intro b l h
    cases h with
    | cons hx h =>
      obtain ⟨l1, l2, rfl, h1, h2⟩ := ih b _ h
      exact ⟨_ :: l1, l2, rfl, List.Forall₂.cons hx h1, h2⟩

theorem TimersGrown.grown_refl (l : List aeTimeEvent) : TimersGrown l l :=
  ⟨[], l, rfl, forall₂_marked_refl l⟩

theorem TimersGrown.grown_trans {a b c : List aeTimeEvent} (h1 : TimersGrown a b)
    (h2 : TimersGrown b c) : TimersGrown a c := by
  obtain ⟨f1, o1, rfl, m1⟩ := h1
  obtain ⟨f2, o2, rfl, m2⟩ := h2
  obtain ⟨l1, l2, rfl, _, m4⟩ := forall₂_append_split f1 o1 o2 m2
  exact ⟨f2 ++ l1, l2, by simp, forall₂_marked_trans m1 m4⟩

theorem TimersGrown.split {pre suf l : List aeTimeEvent} (h : TimersGrown (pre ++ suf) l) :
    ∃ p s, l = p ++ s ∧ TimersGrown pre p ∧ List.Forall₂ aeTimeEvent.Marked suf s := by
  obtain ⟨f, o, rfl, m⟩ := h
  obtain ⟨l1, l2, rfl, m1, m2⟩ := forall₂_append_split pre suf o m
  exact ⟨f ++ l1, l2, by simp, ⟨f, l1, rfl, m1⟩, m2⟩

theorem timeEventAt_split (w : aeWorld) (pre suf : List aeTimeEvent) (te : aeTimeEvent)
    (k : Nat) (h : w.eventLoop.timeEventHead = pre ++ te :: suf) (hk : suf.length = k) :
    timeEventAt w (k + 1) = some te := by
  subst hk
  unfold timeEventAt
  rw [h, if_neg (by simp)]
  have : (pre ++ te :: suf).length - (suf.length + 1) = pre.length := by simp
  rw [this, List.getElem?_append_right (le_refl _)]
  simp

theorem setTimeEventAt_split (w : aeWorld) (pre suf : List aeTimeEvent) (te x : aeTimeEvent)
    (k : Nat) (h : w.eventLoop.timeEventHead = pre ++ te :: suf) (hk : suf.length = k) :
    (setTimeEventAt w (k + 1) x).eventLoop.timeEventHead = pre ++ x :: suf := by
  subst hk
  unfold setTimeEventAt
  have : (pre ++ te :: suf).length - (suf.length + 1) = pre.length := by simp
  simp only [h, this]
  simp

theorem unlinkTimeEventAt_split (w : aeWorld) (pre suf : List aeTimeEvent) (te : aeTimeEvent)
    (k : Nat) (h : w.eventLoop.timeEventHead = pre ++ te :: suf) (hk : suf.length = k) :
    (unlinkTimeEventAt w (k + 1)).eventLoop.timeEventHead = pre ++ suf := by
  subst hk
  unfold unlinkTimeEventAt
  have : (pre ++ te :: suf).length - (suf.length + 1) = pre.length := by simp
  simp only [h, this]
  rw [List.eraseIdx_append_of_length_le (le_refl _)]
  simp

theorem row_rebase {env : aeEnv} {maxId : Int} {now now1 lo lo1 hi : Nat} (a : aeTimeEvent)
    (r : TimerRow) (hm : aeTimeEvent.Marked a r.before)
    (hok : TimerRow.Ok env maxId now1 lo1 hi r)
    (hnow : ∀ x, x ≤ now1 → x ≤ now ∨ ∃ n, lo ≤ n ∧ n < hi ∧ x ≤ env.getMonotonicUs n)
    (hlo : lo ≤ lo1) :
    TimerRow.Ok env maxId now lo hi { r with before := a } ∧
    TimerRow.call { r with before := a } = TimerRow.call r ∧
    TimerRow.survivor { r with before := a } = TimerRow.survivor r ∧
    TimerRow.isFired { r with before := a } = TimerRow.isFired r := by
  have hfields : r.before.timeProc = a.timeProc ∧ r.before.finalizerProc = a.finalizerProc ∧
      r.before.clientData = a.clientData ∧ r.before.refcount = a.refcount ∧
      r.before.when = a.when ∧
      (r.before.id = a.id ∨ r.before.id = AE_DELETED_EVENT_ID) ∧
      (a.id = AE_DELETED_EVENT_ID → r.before.id = AE_DELETED_EVENT_ID) := by
    rcases hm with h | h <;> rw [h] <;> simp
  obtain ⟨f1, f2, f3, f4, f5, f6, f7⟩ := hfields
  have hlive : r.before.id ≠ AE_DELETED_EVENT_ID → r.before = a := by
    intro hl
    rcases hm with h | h
    · exact h
    · rw [h] at hl; exact absurd rfl hl
  refine ⟨⟨?_, ?_, ?_, ?_, ?_⟩, ?_, rfl, rfl⟩
  · intro hf
    obtain ⟨g1, g2, g3, g4, g5⟩ := hok.same hf
    refine ⟨g1.trans f1, g2.trans f2, g3.trans f3, g4.trans f4, ?_⟩
    rcases g5 with g5 | g5
    · rcases f6 with f6 | f6
      · exact Or.inl (g5.trans f6)
      · exact Or.inr (g5.trans f6)
    · exact Or.inr g5
  · intro hf
    exact (hok.kept hf).trans f5
  · intro hf
    exact f4 ▸ hok.unlinked hf
  · intro hd
    obtain ⟨d1, d2⟩ := hok.deleted (f7 hd)
    exact ⟨fun h => d1 (f4.trans h), fun h => d2 (by rw [f4]; exact h)⟩
  · intro hf
    obtain ⟨e1, e2, e3⟩ := hok.fired hf
    have := hlive e1
    rw [this] at e1 e2 e3
    refine ⟨e1, e2, ?_⟩
    rcases e3 with e3 | ⟨n, n1, n2, n3⟩
    · exact hnow _ e3
    · exact Or.inr ⟨n, by omega, n2, n3⟩
  · unfold TimerRow.call
    dsimp only
    rcases hfate : r.fate with _ | _ | _
    · rfl
    · have hl := (hok.fired hfate).1
      rw [hlive hl]
    · simp only [f2, f3]

theorem rows_rebase {env : aeEnv} {maxId : Int} {now now1 lo lo1 hi : Nat}
    (hnow : ∀ x, x ≤ now1 → x ≤ now ∨ ∃ n, lo ≤ n ∧ n < hi ∧ x ≤ env.getMonotonicUs n)
    (hlo : lo ≤ lo1) :
    ∀ (suf s0 : List aeTimeEvent) (rows0 : List TimerRow),
      List.Forall₂ aeTimeEvent.Marked suf s0 → rows0.map (fun r => r.before) = s0 →
      (∀ r ∈ rows0, TimerRow.Ok env maxId now1 lo1 hi r) →
      ∃ rows : List TimerRow, rows.map (fun r => r.before) = suf ∧
        rows.filterMap TimerRow.survivor = rows0.filterMap TimerRow.survivor ∧
        rows.filterMap TimerRow.call = rows0.filterMap TimerRow.call ∧
        rows.countP TimerRow.isFired = rows0.countP TimerRow.isFired ∧
        ∀ r ∈ rows, TimerRow.Ok env maxId now lo hi r := by
  intro suf s0 rows0 hm
  induction hm generalizing rows0 with
  | nil =>
    intro h _
    have : rows0 = [] := by simpa using h
    subst this
    exact ⟨[], rfl, rfl, rfl, rfl, by simp⟩
  | @cons a b l1 l2 hab _ ih =>
    intro h hok
    rcases rows0 with _ | ⟨r, rows0⟩
    · simp at h
    · simp only [List.map_cons, List.cons.injEq] at h
      obtain ⟨hb, hrest⟩ := h
      obtain ⟨rows, h1, h2, h3, h4, h5⟩ := ih rows0 hrest
        (fun x hx => hok x (List.mem_cons_of_mem _ hx))
      obtain ⟨k1, k2, k3, k4⟩ := row_rebase a r (hb ▸ hab)
        (hok r (List.mem_cons_self _ _)) hnow hlo
      refine ⟨{ r with before := a } :: rows, by simp [h1], ?_, ?_, ?_, ?_⟩
      · simp only [List.filterMap_cons, k3, h2]
      · simp only [List.filterMap_cons, k2, h3]
      · simp only [List.countP_cons, k4, h4]
      · intro x hx
        rcases List.mem_cons.1 hx with rfl | hx
        · exact k1
        · exact h5 x hx

theorem row_kept_ok (env : aeEnv) (maxId : Int) (now lo hi : Nat) (te te1 : aeTimeEvent)
    (hm : aeTimeEvent.Marked te te1) (hd : te.id = AE_DELETED_EVENT_ID → te.refcount ≠ 0) :
    TimerRow.Ok env maxId now lo hi { before := te, fate := .kept, after := te1 } := by
  refine ⟨?_, ?_, ?_, ?_, ?_⟩
  · intro _
    rcases hm with h | h <;> rw [h] <;> simp
  · intro _
    rcases hm with h | h <;> rw [h]
  · intro h; cases h
  · intro h
    exact ⟨fun h0 => absurd h0 (hd h), fun _ => rfl⟩
  · intro h; cases h

theorem row_unlinked_ok (env : aeEnv) (maxId : Int) (now lo hi : Nat) (te : aeTimeEvent)
    (hr : te.refcount = 0) :
    TimerRow.Ok env maxId now lo hi { before := te, fate := .unlinked, after := te } := by
  refine ⟨?_, ?_, ?_, ?_, ?_⟩
  · intro h; exact absurd rfl h
  · intro h; cases h
  · intro _; exact hr
  · intro _
    exact ⟨fun _ => rfl, fun h => absurd hr h⟩
  · intro h; cases h

theorem loop_rows (env : aeEnv) (maxId : Int)
    (hT : ∀ proc l id c,
      TimersGrown l.timeEventHead (env.timeProc proc l id c).1.timeEventHead)
    (hF : ∀ proc l c, TimersGrown l.timeEventHead (env.finalizerProc proc l c).timeEventHead)
    (k : Nat) :
    ∀ (w : aeWorld) (now : Nat) (processed : Int) (pre suf : List aeTimeEvent),
      w.eventLoop.timeEventHead = pre ++ suf → suf.length = k →
      ∃ (w1 : aeWorld) (rows : List TimerRow) (p : List aeTimeEvent),
        processTimeEvents.loop env maxId k w now processed =
          some (w1, processed + (rows.countP TimerRow.isFired : Nat)) ∧
        rows.map (fun r => r.before) = suf ∧
        w1.eventLoop.timeEventHead = p ++ rows.filterMap TimerRow.survivor ∧
        TimersGrown pre p ∧
        w1.calls = w.calls ++ rows.filterMap TimerRow.call ∧
        w.clockReads ≤ w1.clockReads ∧
        ∀ r ∈ rows, TimerRow.Ok env maxId now w.clockReads w1.clockReads r := by
  induction k with
  | zero =>
    intro w now processed pre suf h hlen
    have : suf = [] := List.length_eq_zero.1 hlen
    subst this
    refine ⟨w, [], pre, ?_, rfl, by simpa using h, TimersGrown.grown_refl _, by simp, le_refl _,
      by simp⟩
    simp [processTimeEvents.loop]
  | succ k ih =>
    intro w now processed pre suf h hlen
    rcases suf with _ | ⟨te, suf1⟩
    · simp at hlen
    have hk : suf1.length = k := by simpa using hlen
    subst hk
    have hte : timeEventAt w (suf1.length + 1) = some te := timeEventAt_split w pre suf1 te _ h rfl
    -- the timer is walked over
    have keep : processTimeEvents.loop env maxId (suf1.length + 1) w now processed =
          processTimeEvents.loop env maxId suf1.length w now processed →
        (te.id = AE_DELETED_EVENT_ID → te.refcount ≠ 0) →
        ∃ (w1 : aeWorld) (rows : List TimerRow) (p : List aeTimeEvent),
          processTimeEvents.loop env maxId (suf1.length + 1) w now processed =
            some (w1, processed + (rows.countP TimerRow.isFired : Nat)) ∧
          rows.map (fun r => r.before) = te :: suf1 ∧
          w1.eventLoop.timeEventHead = p ++ rows.filterMap TimerRow.survivor ∧
          TimersGrown pre p ∧
          w1.calls = w.calls ++ rows.filterMap TimerRow.call ∧
          w.clockReads ≤ w1.clockReads ∧
          ∀ r ∈ rows, TimerRow.Ok env maxId now w.clockReads w1.clockReads r := by
      intro heq hd
      obtain ⟨w1, rows1, p1, h1, h2, h3, h4, h5, h6, h7⟩ :=
        ih w now processed (pre ++ [te]) suf1 (by simp [h]) rfl
      obtain ⟨p, s, rfl, hp, hs⟩ := h4.split
      cases hs with
      | cons hm hnil =>
        cases hnil
        rename_i te1
        refine ⟨w1, { before := te, fate := .kept, after := te1 } :: rows1, p, ?_, ?_, ?_, hp,
          ?_, h6, ?_⟩
        · rw [heq, h1]
          simp [TimerRow.isFired]
        · simp [h2]
        · rw [h3]
          simp [TimerRow.survivor]
        · rw [h5]
          simp [TimerRow.call]
        · intro r hr
          rcases List.mem_cons.1 hr with rfl | hr
          · exact row_kept_ok env maxId now _ _ te te1 hm hd
          · exact h7 r hr
    by_cases hd : te.id = AE_DELETED_EVENT_ID
    · by_cases hr : te.refcount = 0
      · rcases hf : te.finalizerProc with _ | fin
        · -- unlinked, no finalizer
          have heq := loop_unlink env maxId suf1.length w now processed te hte hd hr hf
          obtain ⟨w1, rows1, p, h1, h2, h3, h4, h5, h6, h7⟩ :=
            ih (unlinkTimeEventAt w (suf1.length + 1)) now processed pre suf1
              (unlinkTimeEventAt_split w pre suf1 te _ h rfl) rfl
          refine ⟨w1, { before := te, fate := .unlinked, after := te } :: rows1, p, ?_, ?_, ?_,
            h4, ?_, h6, ?_⟩
          · rw [heq, h1]
            simp [TimerRow.isFired]
          · simp [h2]
          · rw [h3]
            simp [TimerRow.survivor]
          · rw [h5]
            simp [TimerRow.call, hf, unlinkTimeEventAt]
          · intro r hr1
            rcases List.mem_cons.1 hr1 with rfl | hr1
            · exact row_unlinked_ok env maxId now _ _ te hr
            · exact h7 r hr1
        · -- unlinked, finalizer called
          have heq := loop_finalize env maxId suf1.length w now processed te fin hte hd hr hf
          have hg := hF fin (unlinkTimeEventAt w (suf1.length + 1)).eventLoop te.clientData
          rw [unlinkTimeEventAt_split w pre suf1 te _ h rfl] at hg
          obtain ⟨p0, s0, hl, hp0, hs0⟩ := hg.split
          obtain ⟨w1, rows0, p, h1, h2, h3, h4, h5, h6, h7⟩ :=
            ih (processTimeEvents.finalized env w (suf1.length + 1) te fin)
              (env.getMonotonicUs w.clockReads) processed p0 s0 hl hs0.length_eq.symm
          have hc : w.clockReads + 1 ≤ w1.clockReads := h6
          obtain ⟨rows1, g1, g2, g3, g4, g5⟩ :=
            @rows_rebase env maxId now _ w.clockReads _ _
              (fun x hx => Or.inr ⟨w.clockReads, le_refl _, by omega, hx⟩)
              (Nat.le_succ _) suf1 s0 rows0 hs0 h2 h7
          refine ⟨w1, { before := te, fate := .unlinked, after := te } :: rows1, p, ?_, ?_, ?_,
            hp0.grown_trans h4, ?_, by omega, ?_⟩
          · rw [heq, h1, ← g4]
            simp [TimerRow.isFired]
          · simp [g1]
          · rw [h3, ← g2]
            simp [TimerRow.survivor]
          · rw [h5, ← g3]
            simp [TimerRow.call, hf, processTimeEvents.finalized]
          · intro r hr1
            rcases List.mem_cons.1 hr1 with rfl | hr1
            · exact row_unlinked_ok env maxId now _ _ te hr
            · exact g5 r hr1
      · exact keep (loop_referenced env maxId suf1.length w now processed te hte hd hr)
          (fun _ => hr)
    · by_cases hm : te.id ≤ maxId
      · by_cases hn : te.when ≤ now
        · -- fired
          have heq := loop_fire env maxId suf1.length w now processed te hte hd hm hn
          have hg := hT te.timeProc
            (setTimeEventAt w (suf1.length + 1)
              { te with refcount := te.refcount + 1 }).eventLoop te.id te.clientData
          rw [setTimeEventAt_split w pre suf1 te _ _ h rfl] at hg
          obtain ⟨p0, s, hl, hp0, hs⟩ := hg.split
          cases hs with
          | cons hm1 hs0 =>
            rename_i te1 s0
            have hl1 : (processTimeEvents.called env w (suf1.length + 1) te).eventLoop.timeEventHead
                = p0 ++ te1 :: s0 := hl
            have hlen0 : s0.length = suf1.length := hs0.length_eq.symm
            have hte1 : timeEventAt (processTimeEvents.called env w (suf1.length + 1) te)
                (suf1.length + 1) = some te1 :=
              timeEventAt_split _ p0 s0 te1 _ hl1 hlen0
            rw [hte1] at heq
            dsimp only at heq
            obtain ⟨w1, rows0, p1, h1, h2, h3, h4, h5, h6, h7⟩ :=
              ih (setTimeEventAt
                  { processTimeEvents.called env w (suf1.length + 1) te with
                    clockReads := w.clockReads + 1 }
                  (suf1.length + 1)
                  (processTimeEvents.rearm te1
                    (processTimeEvents.retval env w (suf1.length + 1) te)
                    (env.getMonotonicUs w.clockReads)))
                (env.getMonotonicUs w.clockReads) (processed + 1)
                (p0 ++ [processTimeEvents.rearm te1
                    (processTimeEvents.retval env w (suf1.length + 1) te)
                    (env.getMonotonicUs w.clockReads)]) s0
                (by
                  rw [setTimeEventAt_split
                    { processTimeEvents.called env w (suf1.length + 1) te with
                      clockReads := w.clockReads + 1 } p0 s0 te1 _ _ hl1 hlen0]
                  simp)
                hlen0
            have hc : w.clockReads + 1 ≤ w1.clockReads := h6
            obtain ⟨p, s1, rfl, hp, hs1⟩ := h4.split
            cases hs1 with
            | cons hm2 hnil =>
              cases hnil
              rename_i te2
              obtain ⟨rows1, g1, g2, g3, g4, g5⟩ :=
                @rows_rebase env maxId now _ w.clockReads _ _
                  (fun x hx => Or.inr ⟨w.clockReads, le_refl _, by omega, hx⟩)
                  (Nat.le_succ _) suf1 s0 rows0 hs0 h2 h7
              refine ⟨w1, { before := te, fate := .fired, after := te2 } :: rows1, p, ?_, ?_,
                ?_, hp0.grown_trans hp, ?_, by omega, ?_⟩
              · rw [heq, h1, ← g4]
                simp [TimerRow.isFired]
                ring
              · simp [g1]
              · rw [h3, ← g2]
                simp [TimerRow.survivor]
              · rw [h5, ← g3]
                simp [TimerRow.call, processTimeEvents.called, setTimeEventAt]
              · intro r hr1
                rcases List.mem_cons.1 hr1 with rfl | hr1
                · refine ⟨?_, ?_, ?_, ?_, ?_⟩
                  · intro _
                    have e1 : te1.timeProc = te.timeProc ∧
                        te1.finalizerProc = te.finalizerProc ∧
                        te1.clientData = te.clientData ∧ te1.refcount = te.refcount + 1 ∧
                        (te1.id = te.id ∨ te1.id = AE_DELETED_EVENT_ID) := by
                      rcases hm1 with e | e <;> rw [e] <;> simp
                    have e2 : te2.timeProc = te1.timeProc ∧
                        te2.finalizerProc = te1.finalizerProc ∧
                        te2.clientData = te1.clientData ∧ te2.refcount = te1.refcount - 1 ∧
                        (te2.id = te1.id ∨ te2.id = AE_DELETED_EVENT_ID) := by
                      rcases hm2 with e | e <;> rw [e] <;>
                        unfold processTimeEvents.rearm <;> split <;> simp
                    obtain ⟨a1, a2, a3, a4, a5⟩ := e1
                    obtain ⟨b1, b2, b3, b4, b5⟩ := e2
                    refine ⟨b1.trans a1, b2.trans a2, b3.trans a3, by rw [b4, a4]; ring, ?_⟩
                    rcases b5 with b5 | b5
                    · rcases a5 with a5 | a5
                      · exact Or.inl (b5.trans a5)
                      · exact Or.inr (b5.trans a5)
                    · exact Or.inr b5
                  · intro e; cases e
                  · intro e; cases e
                  · intro e; exact absurd e hd
                  · intro _; exact ⟨hd, hm, Or.inl hn⟩
                · exact g5 r hr1
        · exact keep (loop_waiting env maxId suf1.length w now processed te hte hd (by omega))
            (fun e => absurd e hd)
      · exact keep (loop_future env maxId suf1.length w now processed te hte hd (by omega))
          (fun e => absurd e hd)

theorem TimerApi.timers {l l1 : aeEventLoop} (h : TimerApi l l1) :
    TimersGrown l.timeEventHead l1.timeEventHead := by
  obtain ⟨fresh, old1, h1, h2, -, -⟩ := h.grown
  exact ⟨fresh, old1, h1, h2⟩

theorem TimerApi.api_refl (l : aeEventLoop) : TimerApi l l :=
  ⟨⟨[], l.timeEventHead, rfl, forall₂_marked_refl _, by simp, by simp⟩, le_refl _⟩

theorem processTimeEvents_rows (env : aeEnv) (henv : env.TimersByApi) (w : aeWorld) :
    ∃ (w1 : aeWorld) (rows : List TimerRow) (fresh : List aeTimeEvent),
      processTimeEvents env w = some (w1, ((rows.countP TimerRow.isFired : Nat) : Int)) ∧
      rows.map (fun r => r.before) = w.eventLoop.timeEventHead ∧
      w1.eventLoop.timeEventHead = fresh ++ rows.filterMap TimerRow.survivor ∧
      w1.calls = w.calls ++ rows.filterMap TimerRow.call ∧
      w.clockReads < w1.clockReads ∧
      ∀ r ∈ rows, TimerRow.Ok env (w.eventLoop.timeEventNextId - 1)
        (env.getMonotonicUs w.clockReads) (w.clockReads + 1) w1.clockReads r := by
  obtain ⟨w1, rows, p, h1, h2, h3, -, h5, h6, h7⟩ :=
    loop_rows env (w.eventLoop.timeEventNextId - 1)
      (fun proc l id c => (henv.timeProc proc l id c).timers)
      (fun proc l c => (henv.finalizerProc proc l c).timers)
      w.eventLoop.timeEventHead.length
      { w with clockReads := w.clockReads + 1 } (env.getMonotonicUs w.clockReads) 0
      [] w.eventLoop.timeEventHead rfl rfl
  refine ⟨w1, rows, p, ?_, h2, h3, h5, h6, h7⟩
  unfold processTimeEvents
  simp only [getMonotonicUs]
  rw [h1]
  simp

theorem exampleEnv_timersByApi : exampleEnv.TimersByApi :=
  ⟨fun _ l _ _ _ => TimerApi.api_refl l, fun _ l _ _ => TimerApi.api_refl l,
    fun _ l _ => TimerApi.api_refl l, fun _ l => TimerApi.api_refl l⟩

theorem mark_spec (id : Int) (l : List aeTimeEvent) :
    (aeDeleteTimeEvent.mark id l = none ∧ ∀ te ∈ l, te.id ≠ id) ∨
    ∃ pre te suf, l = pre ++ te :: suf ∧ te.id = id ∧ (∀ x ∈ pre, x.id ≠ id) ∧
      aeDeleteTimeEvent.mark id l = some (pre ++ { te with id := AE_DELETED_EVENT_ID } :: suf) := by
  induction l with
  | nil => exact Or.inl ⟨rfl, by simp⟩
  | cons a l ih =>
    by_cases ha : a.id = id
    · exact Or.inr ⟨[], a, l, rfl, ha, by simp, by simp [aeDeleteTimeEvent.mark, ha]⟩
    · rcases ih with ⟨h1, h2⟩ | ⟨pre, te, suf, h1, h2, h3, h4⟩
      · refine Or.inl ⟨by simp [aeDeleteTimeEvent.mark, ha, h1], ?_⟩
        intro te hte
        rcases List.mem_cons.1 hte with rfl | hte
        · exact ha
        · exact h2 te hte
      · refine Or.inr ⟨a :: pre, te, suf, by simp [h1], h2, ?_, by
          simp [aeDeleteTimeEvent.mark, ha, h4]⟩
        intro x hx
        rcases List.mem_cons.1 hx with rfl | hx
        · exact ha
        · exact h3 x hx

theorem aeDeleteTimeEvent_spec (l : aeEventLoop) (id : Int) :
    (aeDeleteTimeEvent l id = (l, AE_ERR) ∧ ∀ te ∈ l.timeEventHead, te.id ≠ id) ∨
    ∃ pre te suf, l.timeEventHead = pre ++ te :: suf ∧ te.id = id ∧ (∀ x ∈ pre, x.id ≠ id) ∧
      aeDeleteTimeEvent l id =
        ({ l with timeEventHead := pre ++ { te with id := AE_DELETED_EVENT_ID } :: suf },
          AE_OK) := by
  rcases mark_spec id l.timeEventHead with ⟨h1, h2⟩ | ⟨pre, te, suf, h1, h2, h3, h4⟩
  · exact Or.inl ⟨by simp [aeDeleteTimeEvent, h1], h2⟩
  · exact Or.inr ⟨pre, te, suf, h1, h2, h3, by simp [aeDeleteTimeEvent, h4]⟩

theorem survivor_mem (rows : List TimerRow) (fresh : List aeTimeEvent) (r : TimerRow)
    (hr : r ∈ rows) (hf : r.fate ≠ .unlinked) :
    r.after ∈ fresh ++ rows.filterMap TimerRow.survivor := by
  refine List.mem_append_right _ (List.mem_filterMap.2 ⟨r, hr, ?_⟩)
  unfold TimerRow.survivor
  split
  · rename_i h; exact absurd h hf
  · rfl

theorem exampleNested_run :
    (processTimeEvents exampleEnv exampleNested).map
      (fun r => (r.1.calls, r.2, r.1.eventLoop.timeEventHead.map
        (fun te => (te.timeProc, te.id, te.refcount)))) =
      some ([aeCall.timeProc 3 2 3, aeCall.finalizerProc 8 2], 1,
        [(3, AE_DELETED_EVENT_ID, 0), (1, AE_DELETED_EVENT_ID, 1)]) := by
  decide

theorem rearm_spec (te1 : aeTimeEvent) (retval : Int) (now : Nat) :
    (retval = AE_NOMORE →
      processTimeEvents.rearm te1 retval now =
        { te1 with refcount := te1.refcount - 1, id := AE_DELETED_EVENT_ID }) ∧
    (retval ≠ AE_NOMORE → -2 ^ 31 ≤ retval * 1000 → retval * 1000 < 2 ^ 31 →
      0 ≤ (now : Int) + retval * 1000 → (now : Int) + retval * 1000 < 2 ^ 64 →
      processTimeEvents.rearm te1 retval now =
        { te1 with refcount := te1.refcount - 1,
                   when := ((now : Int) + retval * 1000).toNat }) := by
  constructor
  · intro h
    simp [processTimeEvents.rearm, h]
  · intro h h1 h2 h3 h4
    have e1 : Dict.toInt32 (retval * 1000) = retval * 1000 := by
      unfold Dict.toInt32
      omega
    have e2 : Dict.toULong ((now : Int) + retval * 1000) =
        ((now : Int) + retval * 1000).toNat := by
      unfold Dict.toULong
      omega
    simp [processTimeEvents.rearm, h, e1, e2]

theorem rows_timeProc_count (rows : List TimerRow) :
    (rows.filterMap TimerRow.call).countP aeCall.isTimeProc = rows.countP TimerRow.isFired := by
  induction rows with
  | nil => rfl
  | cons r rows ih =>
    rcases hf : r.fate with _ | _ | _
    · simp [List.filterMap_cons, TimerRow.call, TimerRow.isFired, hf, ih]
    · simp [List.filterMap_cons, TimerRow.call, TimerRow.isFired, hf, ih, aeCall.isTimeProc]
    · rcases hp : r.before.finalizerProc with _ | proc
      · simp [List.filterMap_cons, TimerRow.call, TimerRow.isFired, hf, ih, hp]
      · simp [List.filterMap_cons, TimerRow.call, TimerRow.isFired, hf, ih, hp,
          aeCall.isTimeProc]

/-- C27: firing of timers, for callbacks that work on the timers through `aeCreateTimeEvent`
and `aeDeleteTimeEvent`.  When the walk of `processTimeEvents` is at a timer `te` that is not
deleted, has an id up to `maxId` and a deadline `<= now`, it calls the callback once (one call
is added to the calls that left `ae.c`), reads the clock, stores the timer back in its place as
`processTimeEvents.rearm` gives it, counts one more processed timer, and goes on with the next
timer; at a timer with a deadline `> now` it goes on with nothing changed.  The timer stored
back has the id `AE_DELETED_EVENT_ID` when the callback returned `AE_NOMORE`, and otherwise the
deadline `now1 + retval * 1000`, `now1` being the clock reading after the callback (for a
`retval * 1000` that fits an `int` and a sum that fits the clock).  Every pass returns, and
with `rows` the timers of the list before the pass, in order: the callback calls of the pass
are, in order, one call for every fired timer, and no other; the return value is the number of
these calls; a fired timer was not deleted, had an id up to the largest id at the start, and
was due at a clock reading of the pass; a timer whose deadline is after every clock reading of
the pass is not fired. -/
theorem C27_fired_timers (env : aeEnv) (henv : env.TimersByApi) (w : aeWorld) :
    (∀ maxId k now processed te, timeEventAt w (k + 1) = some te →
      te.id ≠ AE_DELETED_EVENT_ID →
      (te.id ≤ maxId → te.when ≤ now →
        ∀ te1, timeEventAt (processTimeEvents.called env w (k + 1) te) (k + 1) = some te1 →
          processTimeEvents.loop env maxId (k + 1) w now processed =
            processTimeEvents.loop env maxId k
              (setTimeEventAt
                { processTimeEvents.called env w (k + 1) te with
                  clockReads := w.clockReads + 1 }
                (k + 1)
                (processTimeEvents.rearm te1 (processTimeEvents.retval env w (k + 1) te)
                  (env.getMonotonicUs w.clockReads)))
              (env.getMonotonicUs w.clockReads) (processed + 1) ∧
          (processTimeEvents.called env w (k + 1) te).calls =
            w.calls ++ [aeCall.timeProc te.timeProc te.id te.clientData]) ∧
      (now < te.when →
        processTimeEvents.loop env maxId (k + 1) w now processed =
          processTimeEvents.loop env maxId k w now processed)) ∧
    (∀ (te1 : aeTimeEvent) (retval : Int) (now1 : Nat),
      (retval = AE_NOMORE →
        processTimeEvents.rearm te1 retval now1 =
          { te1 with refcount := te1.refcount - 1, id := AE_DELETED_EVENT_ID }) ∧
      (retval ≠ AE_NOMORE → -2 ^ 31 ≤ retval * 1000 → retval * 1000 < 2 ^ 31 →
        0 ≤ (now1 : Int) + retval * 1000 → (now1 : Int) + retval * 1000 < 2 ^ 64 →
        processTimeEvents.rearm te1 retval now1 =
          { te1 with refcount := te1.refcount - 1,
                     when := ((now1 : Int) + retval * 1000).toNat })) ∧
    ∃ (w1 : aeWorld) (rows : List TimerRow) (fresh : List aeTimeEvent),
      processTimeEvents env w = some (w1, ((rows.countP TimerRow.isFired : Nat) : Int)) ∧
      rows.map (fun r => r.before) = w.eventLoop.timeEventHead ∧
      w1.eventLoop.timeEventHead = fresh ++ rows.filterMap TimerRow.survivor ∧
      w1.calls = w.calls ++ rows.filterMap TimerRow.call ∧
      (rows.filterMap TimerRow.call).countP aeCall.isTimeProc =
        rows.countP TimerRow.isFired ∧
      ∀ r ∈ rows,
        (r.fate = .fired →
          r.call = some (aeCall.timeProc r.before.timeProc r.before.id r.before.clientData) ∧
          r.before.id ≠ AE_DELETED_EVENT_ID ∧ r.before.id ≤ w.eventLoop.timeEventNextId - 1 ∧
          (∃ n, w.clockReads ≤ n ∧ n < w1.clockReads ∧
            r.before.when ≤ env.getMonotonicUs n) ∧
          r.after ∈ w1.eventLoop.timeEventHead) ∧
        (r.fate ≠ .fired → ∀ proc id c, r.call ≠ some (aeCall.timeProc proc id c)) ∧
        ((∀ n, w.clockReads ≤ n → n < w1.clockReads →
            env.getMonotonicUs n < r.before.when) → r.fate ≠ .fired) := by
  refine ⟨?_, rearm_spec, ?_⟩
  · intro maxId k now processed te hte hd
    refine ⟨?_, fun hn => loop_waiting env maxId k w now processed te hte hd hn⟩
    intro hm hn te1 hte1
    rw [loop_fire env maxId k w now processed te hte hd hm hn, hte1]
    exact ⟨rfl, rfl⟩
  · obtain ⟨w1, rows, fresh, h1, h2, h3, h4, h5, h6⟩ := processTimeEvents_rows env henv w
    refine ⟨w1, rows, fresh, h1, h2, h3, h4, rows_timeProc_count rows, ?_⟩
    intro r hr
    have hok := h6 r hr
    have hdue : r.fate = .fired →
        ∃ n, w.clockReads ≤ n ∧ n < w1.clockReads ∧ r.before.when ≤ env.getMonotonicUs n := by
      intro hf
      rcases (hok.fired hf).2.2 with h | ⟨n, n1, n2, n3⟩
      · exact ⟨w.clockReads, le_refl _, h5, h⟩
      · exact ⟨n, by omega, n2, n3⟩
    refine ⟨?_, ?_, ?_⟩
    · intro hf
      refine ⟨by simp [TimerRow.call, hf], (hok.fired hf).1, (hok.fired hf).2.1, hdue hf, ?_⟩
      rw [h3]
      exact survivor_mem rows fresh r hr (by rw [hf]; decide)
    · intro hf proc id c
      unfold TimerRow.call
      rcases hfate : r.fate with _ | _ | _
      · simp
      · exact absurd hfate hf
      · rcases r.before.finalizerProc with _ | p <;> simp
    · intro hall hf
      obtain ⟨n, n1, n2, n3⟩ := hdue hf
      have := hall n n1 n2
      omega

theorem C27_witness :
    exampleEnv.TimersByApi ∧
    (∀ maxId k now processed te, timeEventAt exampleNested (k + 1) = some te →
      te.id ≠ AE_DELETED_EVENT_ID →
      (te.id ≤ maxId → te.when ≤ now →
        ∀ te1, timeEventAt (processTimeEvents.called exampleEnv exampleNested (k + 1) te) (k + 1) =
            some te1 →
          processTimeEvents.loop exampleEnv maxId (k + 1) exampleNested now processed =
            processTimeEvents.loop exampleEnv maxId k
              (setTimeEventAt
                { processTimeEvents.called exampleEnv exampleNested (k + 1) te with
                  clockReads := exampleNested.clockReads + 1 }
                (k + 1)
                (processTimeEvents.rearm te1
                  (processTimeEvents.retval exampleEnv exampleNested (k + 1) te)
                  (exampleEnv.getMonotonicUs exampleNested.clockReads)))
              (exampleEnv.getMonotonicUs exampleNested.clockReads) (processed + 1) ∧
          (processTimeEvents.called exampleEnv exampleNested (k + 1) te).calls =
            exampleNested.calls ++ [aeCall.timeProc te.timeProc te.id te.clientData]) ∧
      (now < te.when →
        processTimeEvents.loop exampleEnv maxId (k + 1) exampleNested now processed =
          processTimeEvents.loop exampleEnv maxId k exampleNested now processed)) ∧
    (∀ (te1 : aeTimeEvent) (retval : Int) (now1 : Nat),
      (retval = AE_NOMORE →
        processTimeEvents.rearm te1 retval now1 =
          { te1 with refcount := te1.refcount - 1, id := AE_DELETED_EVENT_ID }) ∧
      (retval ≠ AE_NOMORE → -2 ^ 31 ≤ retval * 1000 → retval * 1000 < 2 ^ 31 →
        0 ≤ (now1 : Int) + retval * 1000 → (now1 : Int) + retval * 1000 < 2 ^ 64 →
        processTimeEvents.rearm te1 retval now1 =
          { te1 with refcount := te1.refcount - 1,
                     when := ((now1 : Int) + retval * 1000).toNat })) ∧
    ∃ (w1 : aeWorld) (rows : List TimerRow) (fresh : List aeTimeEvent),
      processTimeEvents exampleEnv exampleNested =
          some (w1, ((rows.countP TimerRow.isFired : Nat) : Int)) ∧
      rows.map (fun r => r.before) = exampleNested.eventLoop.timeEventHead ∧
      w1.eventLoop.timeEventHead = fresh ++ rows.filterMap TimerRow.survivor ∧
      w1.calls = exampleNested.calls ++ rows.filterMap TimerRow.call ∧
      (rows.filterMap TimerRow.call).countP aeCall.isTimeProc =
        rows.countP TimerRow.isFired ∧
      ∀ r ∈ rows,
        (r.fate = .fired →
          r.call = some (aeCall.timeProc r.before.timeProc r.before.id r.before.clientData) ∧
          r.before.id ≠ AE_DELETED_EVENT_ID ∧
              r.before.id ≤ exampleNested.eventLoop.timeEventNextId - 1 ∧
          (∃ n, exampleNested.clockReads ≤ n ∧ n < w1.clockReads ∧
            r.before.when ≤ exampleEnv.getMonotonicUs n) ∧
          r.after ∈ w1.eventLoop.timeEventHead) ∧
        (r.fate ≠ .fired → ∀ proc id c, r.call ≠ some (aeCall.timeProc proc id c)) ∧
        ((∀ n, exampleNested.clockReads ≤ n → n < w1.clockReads →
            exampleEnv.getMonotonicUs n < r.before.when) → r.fate ≠ .fired)
 :=
  ⟨exampleEnv_timersByApi, C27_fired_timers exampleEnv exampleEnv_timersByApi exampleNested⟩

theorem set_of_getElem? {α : Type} (l : List α) (i : Nat) (v : α) (h : l[i]? = some v) :
    l.set i v = l := by
  induction l generalizing i with
  | nil => rfl
  | cons a l ih =>
    cases i with
    | zero =>
      simp only [List.getElem?_cons_zero, Option.some.injEq] at h
      rw [List.set_cons_zero, h]
    | succ i =>
      rw [List.getElem?_cons_succ] at h
      rw [List.set_cons_succ, ih i h]

theorem ids_pairwise_set (ids : List Int) (i : Nat) (v : Int)
    (h : ids.Pairwise (fun i j => i = j → i = AE_DELETED_EVENT_ID))
    (hv : ids[i]? = some v ∨ v = AE_DELETED_EVENT_ID) :
    (ids.set i v).Pairwise (fun i j => i = j → i = AE_DELETED_EVENT_ID) := by
  rcases hv with hv | hv
  · rw [set_of_getElem? ids i v hv]; exact h
  · subst hv
    induction ids generalizing i with
    | nil => simp
    | cons a ids ih =>
      rw [List.pairwise_cons] at h
      cases i with
      | zero =>
        rw [List.set_cons_zero, List.pairwise_cons]
        refine ⟨fun _ _ _ => rfl, h.2⟩
      | succ i =>
        rw [List.set_cons_succ, List.pairwise_cons]
        refine ⟨?_, ih i h.2⟩
        intro b hb hab
        rcases List.mem_or_eq_of_mem_set hb with hb | hb
        · exact h.1 b hb hab
        · rw [hab, hb]

theorem timerIds_set (l : aeEventLoop) (i : Nat) (x y : aeTimeEvent) (h : TimerIds l)
    (hy : l.timeEventHead[i]? = some y) (hx : x.id = y.id ∨ x.id = AE_DELETED_EVENT_ID) :
    TimerIds { l with timeEventHead := l.timeEventHead.set i x } := by
  constructor
  · simp only [List.map_set]
    refine ids_pairwise_set _ i x.id h.1 ?_
    rcases hx with hx | hx
    · left
      rw [List.getElem?_map, hy, hx]
      rfl
    · exact Or.inr hx
  · intro te hte hlive
    rcases List.mem_or_eq_of_mem_set hte with hte | rfl
    · exact h.2 te hte hlive
    · rcases hx with hx | hx
      · rw [hx]
        exact h.2 y (List.getElem?_mem hy) (by rw [← hx]; exact hlive)
      · exact absurd hx hlive

theorem timerIds_eraseIdx (l : aeEventLoop) (i : Nat) (h : TimerIds l) :
    TimerIds { l with timeEventHead := l.timeEventHead.eraseIdx i } := by
  constructor
  · exact h.1.sublist ((List.eraseIdx_sublist _ _).map _)
  · intro te hte hlive
    exact h.2 te ((List.eraseIdx_sublist _ _).subset hte) hlive

theorem forall₂_marked_mem {old old1 : List aeTimeEvent}
    (h : List.Forall₂ aeTimeEvent.Marked old old1) :
    ∀ b ∈ old1, ∃ a ∈ old, aeTimeEvent.Marked a b := by
  induction h with
  | nil => intro b hb; cases hb
  | @cons a b l1 l2 hab _ ih =>
    intro x hx
    rcases List.mem_cons.1 hx with rfl | hx
    · exact ⟨a, List.mem_cons_self _ _, hab⟩
    · obtain ⟨y, hy, hm⟩ := ih x hx
      exact ⟨y, List.mem_cons_of_mem _ hy, hm⟩

theorem marked_live {a b : aeTimeEvent} (h : aeTimeEvent.Marked a b)
    (hb : b.id ≠ AE_DELETED_EVENT_ID) : b = a := by
  rcases h with h | h
  · exact h
  · rw [h] at hb; exact absurd rfl hb

theorem forall₂_marked_ids {old old1 : List aeTimeEvent}
    (h : List.Forall₂ aeTimeEvent.Marked old old1)
    (hp : (old.map (fun te => te.id)).Pairwise (fun i j => i = j → i = AE_DELETED_EVENT_ID)) :
    (old1.map (fun te => te.id)).Pairwise (fun i j => i = j → i = AE_DELETED_EVENT_ID) := by
  induction h with
  | nil => simp
  | @cons a b l1 l2 hab hrest ih =>
    rw [List.map_cons, List.pairwise_cons] at hp ⊢
    refine ⟨?_, ih hp.2⟩
    intro j hj hbj
    by_contra hlive
    have hba : b = a := marked_live hab hlive
    obtain ⟨b1, hb1, rfl⟩ := List.mem_map.1 hj
    obtain ⟨a1, ha1, hm⟩ := forall₂_marked_mem hrest b1 hb1
    have hb1a : b1 = a1 := marked_live hm (by rw [← hbj]; exact hlive)
    subst hba hb1a
    exact hlive (hp.1 b1.id (List.mem_map.2 ⟨b1, ha1, rfl⟩) hbj)

theorem TimerApi.timerIds {l l1 : aeEventLoop} (h : TimerApi l l1) (hl : TimerIds l) :
    TimerIds l1 := by
  obtain ⟨fresh, old1, h1, h2, h3, h4⟩ := h.grown
  have hn := h.nextId
  have hold : ∀ b ∈ old1, b.id ≠ AE_DELETED_EVENT_ID → b.id < l.timeEventNextId := by
    intro b hb hlive
    obtain ⟨a, ha, hm⟩ := forall₂_marked_mem h2 b hb
    rw [marked_live hm hlive]
    exact hl.2 a ha (by rw [← marked_live hm hlive]; exact hlive)
  constructor
  · rw [h1, List.map_append, List.pairwise_append]
    refine ⟨h3, forall₂_marked_ids h2 hl.1, ?_⟩
    intro x hx y hy hxy
    by_contra hlive
    obtain ⟨te, hte, rfl⟩ := List.mem_map.1 hx
    obtain ⟨b, hb, rfl⟩ := List.mem_map.1 hy
    have c1 := (h4 te hte hlive).1
    have c2 := hold b hb (by rw [← hxy]; exact hlive)
    omega
  · intro te hte hlive
    rw [h1] at hte
    rcases List.mem_append.1 hte with hte | hte
    · exact (h4 te hte hlive).2
    · have := hold te hte hlive
      omega

theorem TimerApi.of_eq {l l1 : aeEventLoop} (h1 : l1.timeEventHead = l.timeEventHead)
    (h2 : l1.timeEventNextId = l.timeEventNextId) : TimerApi l l1 :=
  ⟨⟨[], l.timeEventHead, by simp [h1], forall₂_marked_refl _, by simp, by simp⟩, by omega⟩

theorem aeCreateTimeEvent_timerApi (env : aeEnv) (w : aeWorld) (milliseconds : Int)
    (proc clientData : Nat) (finalizerProc : Option Nat) :
    TimerApi w.eventLoop
      (aeCreateTimeEvent env w milliseconds proc clientData finalizerProc).1.eventLoop := by
  refine ⟨⟨[_], w.eventLoop.timeEventHead, rfl, forall₂_marked_refl _, by simp, ?_⟩, ?_⟩
  · intro te hte _
    rw [List.mem_singleton.1 hte]
    simp [aeCreateTimeEvent, getMonotonicUs]
  · simp [aeCreateTimeEvent, getMonotonicUs]

theorem aeDeleteTimeEvent_timerApi (l : aeEventLoop) (id : Int) :
    TimerApi l (aeDeleteTimeEvent l id).1 := by
  rcases aeDeleteTimeEvent_spec l id with ⟨h1, -⟩ | ⟨pre, te, suf, h1, -, -, h4⟩
  · rw [h1]; exact TimerApi.api_refl l
  · rw [h4]
    refine ⟨⟨[], _, rfl, ?_, by simp, by simp⟩, le_refl _⟩
    rw [h1]
    exact List.rel_append (forall₂_marked_refl pre)
      (List.Forall₂.cons (Or.inr rfl) (forall₂_marked_refl suf))

theorem timeEventAt_getElem? (w : aeWorld) (k : Nat) (te : aeTimeEvent)
    (h : timeEventAt w k = some te) :
    w.eventLoop.timeEventHead[w.eventLoop.timeEventHead.length - k]? = some te := by
  unfold timeEventAt at h
  split at h
  · cases h
  · exact h

theorem rearm_id (te1 : aeTimeEvent) (retval : Int) (now : Nat) :
    (processTimeEvents.rearm te1 retval now).id = te1.id ∨
    (processTimeEvents.rearm te1 retval now).id = AE_DELETED_EVENT_ID := by
  unfold processTimeEvents.rearm
  split
  · exact Or.inl rfl
  · exact Or.inr rfl

theorem loop_timerIds (env : aeEnv) (henv : env.TimersByApi) (maxId : Int) (k : Nat) :
    ∀ (w w1 : aeWorld) (now : Nat) (processed r : Int),
      TimerIds w.eventLoop →
      processTimeEvents.loop env maxId k w now processed = some (w1, r) →
      TimerIds w1.eventLoop ∧
        w.eventLoop.timeEventNextId ≤ w1.eventLoop.timeEventNextId := by
  induction k with
  | zero =>
    intro w w1 now processed r hi h
    simp only [processTimeEvents.loop, Option.some.injEq, Prod.mk.injEq] at h
    obtain ⟨rfl, rfl⟩ := h
    exact ⟨hi, le_refl _⟩
  | succ k ih =>
    intro w w1 now processed r hi h
    rcases hte : timeEventAt w (k + 1) with _ | te
    · rw [loop_gone env maxId k w now processed hte] at h
      cases h
    · have hget := timeEventAt_getElem? w (k + 1) te hte
      by_cases hd : te.id = AE_DELETED_EVENT_ID
      · by_cases hr : te.refcount = 0
        · rcases hf : te.finalizerProc with _ | fin
          · rw [loop_unlink env maxId k w now processed te hte hd hr hf] at h
            exact ih (unlinkTimeEventAt w (k + 1)) w1 _ _ _
              (timerIds_eraseIdx w.eventLoop _ hi) h
          · rw [loop_finalize env maxId k w now processed te fin hte hd hr hf] at h
            have ha := henv.finalizerProc fin (unlinkTimeEventAt w (k + 1)).eventLoop
              te.clientData
            obtain ⟨h1, h2⟩ := ih (processTimeEvents.finalized env w (k + 1) te fin) w1 _ _ _
              (ha.timerIds (timerIds_eraseIdx w.eventLoop _ hi)) h
            exact ⟨h1, le_trans ha.nextId h2⟩
        · rw [loop_referenced env maxId k w now processed te hte hd hr] at h
          exact ih w w1 _ _ _ hi h
      · by_cases hm : te.id ≤ maxId
        · by_cases hn : te.when ≤ now
          · rw [loop_fire env maxId k w now processed te hte hd hm hn] at h
            rcases hte1 : timeEventAt (processTimeEvents.called env w (k + 1) te) (k + 1)
              with _ | te1
            · rw [hte1] at h; cases h
            · rw [hte1] at h
              have hi1 : TimerIds (setTimeEventAt w (k + 1)
                  { te with refcount := te.refcount + 1 }).eventLoop :=
                timerIds_set w.eventLoop _ _ te hi hget (Or.inl rfl)
              have ha := henv.timeProc te.timeProc
                (setTimeEventAt w (k + 1) { te with refcount := te.refcount + 1 }).eventLoop
                te.id te.clientData
              have hi2 : TimerIds (processTimeEvents.called env w (k + 1) te).eventLoop :=
                ha.timerIds hi1
              have hget1 := timeEventAt_getElem? _ (k + 1) te1 hte1
              obtain ⟨h1, h2⟩ := ih
                (setTimeEventAt
                  { processTimeEvents.called env w (k + 1) te with
                    clockReads := w.clockReads + 1 }
                  (k + 1)
                  (processTimeEvents.rearm te1 (processTimeEvents.retval env w (k + 1) te)
                    (env.getMonotonicUs w.clockReads))) w1 _ _ _
                (timerIds_set (processTimeEvents.called env w (k + 1) te).eventLoop _
                  (processTimeEvents.rearm te1 (processTimeEvents.retval env w (k + 1) te)
                    (env.getMonotonicUs w.clockReads)) te1 hi2 hget1 (rearm_id _ _ _)) h
              exact ⟨h1, le_trans ha.nextId h2⟩
          · rw [loop_waiting env maxId k w now processed te hte hd (by omega)] at h
            exact ih w w1 _ _ _ hi h
        · rw [loop_future env maxId k w now processed te hte hd (by omega)] at h
          exact ih w w1 _ _ _ hi h

theorem processTimeEvents_timerIds (env : aeEnv) (henv : env.TimersByApi) (w w1 : aeWorld)
    (r : Int) (hi : TimerIds w.eventLoop) (h : processTimeEvents env w = some (w1, r)) :
    TimerIds w1.eventLoop ∧ w.eventLoop.timeEventNextId ≤ w1.eventLoop.timeEventNextId := by
  unfold processTimeEvents at h
  exact loop_timerIds env henv _ _ { w with clockReads := w.clockReads + 1 } w1 _ _ _ hi h

theorem TimerApi.api_trans {l l1 l2 : aeEventLoop} (h1 : TimerApi l l1) (h2 : TimerApi l1 l2) :
    TimerApi l l2 := by
  obtain ⟨f1, o1, e1, m1, p1, b1⟩ := h1.grown
  obtain ⟨f2, o2, e2, m2, p2, b2⟩ := h2.grown
  have n1 := h1.nextId
  have n2 := h2.nextId
  rw [e1] at m2
  obtain ⟨f1', o1', rfl, mf, mo⟩ := forall₂_append_split f1 o1 o2 m2
  have hf1 : ∀ te ∈ f1', te.id ≠ AE_DELETED_EVENT_ID →
      l.timeEventNextId ≤ te.id ∧ te.id < l1.timeEventNextId := by
    intro te hte hlive
    obtain ⟨a, ha, hm⟩ := forall₂_marked_mem mf te hte
    rw [marked_live hm hlive]
    exact b1 a ha (by rw [← marked_live hm hlive]; exact hlive)
  refine ⟨⟨f2 ++ f1', o1', by rw [e2, List.append_assoc], forall₂_marked_trans m1 mo, ?_, ?_⟩,
    le_trans n1 n2⟩
  · rw [List.map_append, List.pairwise_append]
    refine ⟨p2, forall₂_marked_ids mf p1, ?_⟩
    intro x hx y hy hxy
    by_contra hlive
    obtain ⟨te, hte, rfl⟩ := List.mem_map.1 hx
    obtain ⟨b, hb, rfl⟩ := List.mem_map.1 hy
    have c1 := (b2 te hte hlive).1
    have c2 := (hf1 b hb (by rw [← hxy]; exact hlive)).2
    omega
  · intro te hte hlive
    rcases List.mem_append.1 hte with hte | hte
    · have := b2 te hte hlive
      omega
    · have := hf1 te hte hlive
      omega

theorem fileEvent_rel (env : aeEnv) (Rel : aeWorld → aeWorld → Prop)
    (hrefl : ∀ w, Rel w w) (htrans : ∀ w w1 w2, Rel w w1 → Rel w1 w2 → Rel w w2)
    (hcall : ∀ w proc fd c m, Rel w (callFileProc env w proc fd c m))
    (w w1 : aeWorld) (j : Nat) (h : aeProcessEvents.fileEvent env w j = some w1) :
    Rel w w1 := by
  unfold aeProcessEvents.fileEvent at h
  split at h
  · cases h
  · rename_i e he
    simp only at h
    split at h
    · cases h
    · split at h
      · cases h
      · rename_i fe hfe
        split at h
        · cases h
        · rename_i wa fea fireda hr1
          have ha : Rel w wa := by
            split at hr1
            · simp only [Option.map_eq_some'] at hr1
              obtain ⟨x, _, hx⟩ := hr1
              have : wa = callFileProc env w fe.rfileProc e.fd fe.clientData e.mask := by
                cases hx; rfl
              rw [this]; exact hcall _ _ _ _ _
            · cases hr1; exact hrefl _
          have hb : Rel wa
              (if fea.mask &&& e.mask &&& AE_WRITABLE ≠ 0 ∧
                  (fireda = 0 ∨ fea.wfileProc ≠ fea.rfileProc) then
                (callFileProc env wa fea.wfileProc e.fd fea.clientData e.mask, fireda + 1)
              else (wa, fireda)).1 := by
            split
            · exact hcall _ _ _ _ _
            · exact hrefl _
          generalize (if fea.mask &&& e.mask &&& AE_WRITABLE ≠ 0 ∧
                  (fireda = 0 ∨ fea.wfileProc ≠ fea.rfileProc) then
                (callFileProc env wa fea.wfileProc e.fd fea.clientData e.mask, fireda + 1)
              else (wa, fireda)) = r2 at h hb
          split at h
          · split at h
            · cases h
            · split at h
              · cases h
                exact htrans _ _ _ ha (htrans _ _ _ hb (hcall _ _ _ _ _))
              · cases h
                exact htrans _ _ _ ha hb
          · cases h
            exact htrans _ _ _ ha hb

theorem fileEvents_rel (env : aeEnv) (Rel : aeWorld → aeWorld → Prop)
    (hrefl : ∀ w, Rel w w) (htrans : ∀ w w1 w2, Rel w w1 → Rel w1 w2 → Rel w w2)
    (hcall : ∀ w proc fd c m, Rel w (callFileProc env w proc fd c m)) (n : Nat) :
    ∀ (w w1 : aeWorld) (j : Nat) (processed r : Int),
      aeProcessEvents.fileEvents env n w j processed = some (w1, r) → Rel w w1 := by
  induction n with
  | zero =>
    intro w w1 j processed r h
    simp only [aeProcessEvents.fileEvents, Option.some.injEq, Prod.mk.injEq] at h
    obtain ⟨rfl, rfl⟩ := h
    exact hrefl _
  | succ n ih =>
    intro w w1 j processed r h
    simp only [aeProcessEvents.fileEvents] at h
    split at h
    · cases h
    · rename_i wa ha
      exact htrans _ _ _ (fileEvent_rel env Rel hrefl htrans hcall w wa j ha)
        (ih wa w1 (j + 1) (processed + 1) r h)

theorem poll_timerApi (env : aeEnv) (henv : env.TimersByApi) (w : aeWorld) (flags : Nat) :
    TimerApi w.eventLoop (aeProcessEvents.poll env w flags).1.eventLoop := by
  have h0 : (aeProcessEvents.tvp env w flags).1.eventLoop = w.eventLoop :=
    (tvp_world env w flags).2.1
  have h1 : TimerApi w.eventLoop (aeProcessEvents.beforesleep env w flags).eventLoop := by
    unfold aeProcessEvents.beforesleep
    dsimp only
    rcases (aeProcessEvents.tvp env w flags).1.eventLoop.beforesleep with _ | b
    · rw [h0]; exact TimerApi.api_refl _
    · by_cases hf : flags &&& AE_CALL_BEFORE_SLEEP = 0
      · simp only [hf, ne_eq, not_true_eq_false, if_false]
        rw [h0]; exact TimerApi.api_refl _
      · simp only [hf, ne_eq, not_false_eq_true, if_true]
        rw [h0]; exact henv.sleepProc b _
  unfold aeProcessEvents.poll
  dsimp only
  rcases (aeProcessEvents.beforesleep env w flags).eventLoop.aftersleep with _ | a
  · exact h1.api_trans (TimerApi.of_eq rfl rfl)
  · by_cases hf : flags &&& AE_CALL_AFTER_SLEEP = 0
    · simp only [hf, ne_eq, not_true_eq_false, if_false]
      exact h1.api_trans (TimerApi.of_eq rfl rfl)
    · simp only [hf, ne_eq, not_false_eq_true, if_true]
      refine h1.api_trans (TimerApi.api_trans ?_ (henv.sleepProc a _))
      exact TimerApi.of_eq rfl rfl

theorem aeProcessEvents_timerIds (env : aeEnv) (henv : env.TimersByApi) (w : aeWorld)
    (flags : Nat) (r : aeWorld × Int) (hi : TimerIds w.eventLoop)
    (h : aeProcessEvents env w flags = some r) :
    TimerIds r.1.eventLoop ∧ w.eventLoop.timeEventNextId ≤ r.1.eventLoop.timeEventNextId := by
  rw [aeProcessEvents_eq] at h
  by_cases h0 : flags &&& AE_TIME_EVENTS = 0 ∧ flags &&& AE_FILE_EVENTS = 0
  · rw [if_pos h0] at h
    cases h
    exact ⟨hi, le_refl _⟩
  · rw [if_neg h0] at h
    have tail : ∀ (w4 : aeWorld) (processed : Int), TimerIds w4.eventLoop →
        (if flags &&& AE_TIME_EVENTS ≠ 0 then
          (processTimeEvents env w4).map (fun r => (r.1, processed + r.2))
        else some (w4, processed)) = some r →
        TimerIds r.1.eventLoop ∧
          w4.eventLoop.timeEventNextId ≤ r.1.eventLoop.timeEventNextId := by
      intro w4 processed hi4 ht
      by_cases hT : flags &&& AE_TIME_EVENTS = 0
      · rw [if_neg (by simpa using hT)] at ht
        cases ht
        exact ⟨hi4, le_refl _⟩
      · rw [if_pos hT] at ht
        obtain ⟨x, hx, rfl⟩ := Option.map_eq_some'.1 ht
        exact processTimeEvents_timerIds env henv w4 x.1 x.2 hi4 hx
    by_cases h1 : w.eventLoop.maxfd ≠ -1 ∨
        (flags &&& AE_TIME_EVENTS ≠ 0 ∧ flags &&& AE_DONT_WAIT = 0)
    · rw [if_pos h1] at h
      rcases hf : aeProcessEvents.fileEvents env (aeProcessEvents.poll env w flags).2
        (aeProcessEvents.poll env w flags).1 0 0 with _ | ⟨w4, processed⟩
      · rw [hf] at h; cases h
      · rw [hf] at h
        have ha : TimerApi (aeProcessEvents.poll env w flags).1.eventLoop w4.eventLoop :=
          fileEvents_rel env (fun a b => TimerApi a.eventLoop b.eventLoop)
            (fun a => TimerApi.api_refl _) (fun _ _ _ x y => x.api_trans y)
            (fun a proc fd c m => henv.fileProc proc a.eventLoop fd c m) _ _ _ _ _ _ hf
        have hb := (poll_timerApi env henv w flags).api_trans ha
        obtain ⟨t1, t2⟩ := tail w4 processed (hb.timerIds hi) h
        exact ⟨t1, le_trans hb.nextId t2⟩
    · rw [if_neg h1] at h
      exact tail w 0 hi h

theorem aeCreateFileEvent_timers (env : aeEnv) (w w1 : aeWorld) (fd : Int)
    (mask proc clientData : Nat) (r : Int)
    (h : aeCreateFileEvent env w fd mask proc clientData = some (w1, r)) :
    w1.eventLoop.timeEventHead = w.eventLoop.timeEventHead ∧
    w1.eventLoop.timeEventNextId = w.eventLoop.timeEventNextId := by
  unfold aeCreateFileEvent at h
  split at h
  · cases h; exact ⟨rfl, rfl⟩
  · dsimp only at h
    split at h
    · cases h; exact ⟨rfl, rfl⟩
    · split at h
      · cases h
      · split at h
        · cases h
        · cases h; exact ⟨rfl, rfl⟩

theorem aeDeleteFileEvent_timers (w w1 : aeWorld) (fd : Int) (mask : Nat)
    (h : aeDeleteFileEvent w fd mask = some w1) :
    w1.eventLoop.timeEventHead = w.eventLoop.timeEventHead ∧
    w1.eventLoop.timeEventNextId = w.eventLoop.timeEventNextId := by
  unfold aeDeleteFileEvent at h
  dsimp only at h
  repeat' (first | (cases h; done) | (cases h; exact ⟨rfl, rfl⟩) | split at h)

theorem aeResizeSetSize_timers (env : aeEnv) (w w1 : aeWorld) (setsize r : Int)
    (h : aeResizeSetSize env w setsize = some (w1, r)) :
    w1.eventLoop.timeEventHead = w.eventLoop.timeEventHead ∧
    w1.eventLoop.timeEventNextId = w.eventLoop.timeEventNextId := by
  unfold aeResizeSetSize at h
  split at h
  · cases h; exact ⟨rfl, rfl⟩
  · split at h
    · cases h; exact ⟨rfl, rfl⟩
    · dsimp only at h
      split at h
      · cases h; exact ⟨rfl, rfl⟩
      · split at h
        · cases h
        · cases h; exact ⟨rfl, rfl⟩

theorem timerIds_of_eq {l l1 : aeEventLoop} (h : TimerIds l ∧ 0 ≤ l.timeEventNextId)
    (h1 : l1.timeEventHead = l.timeEventHead)
    (h2 : l1.timeEventNextId = l.timeEventNextId) :
    TimerIds l1 ∧ 0 ≤ l1.timeEventNextId := by
  unfold TimerIds at h ⊢
  rw [h1, h2]
  exact h

theorem reachable_timerIds (env : aeEnv) (henv : env.TimersByApi) (w : aeWorld)
    (h : Reachable env w) : TimerIds w.eventLoop ∧ 0 ≤ w.eventLoop.timeEventNextId := by
  induction h with
  | create w setsize h =>
    rw [h]
    exact ⟨⟨by simp [aeCreateEventLoop], by simp [aeCreateEventLoop]⟩, by
      simp [aeCreateEventLoop]⟩
  | createFileEvent fd mask proc clientData r _ h ih =>
    obtain ⟨h1, h2⟩ := aeCreateFileEvent_timers _ _ _ _ _ _ _ _ h
    exact timerIds_of_eq ih h1 h2
  | deleteFileEvent fd mask _ h ih =>
    obtain ⟨h1, h2⟩ := aeDeleteFileEvent_timers _ _ _ _ h
    exact timerIds_of_eq ih h1 h2
  | resizeSetSize setsize r _ h ih =>
    obtain ⟨h1, h2⟩ := aeResizeSetSize_timers _ _ _ _ _ h
    exact timerIds_of_eq ih h1 h2
  | @createTimeEvent w milliseconds proc clientData finalizerProc _ ih =>
    have ha := aeCreateTimeEvent_timerApi env w milliseconds proc clientData finalizerProc
    exact ⟨ha.timerIds ih.1, le_trans ih.2 ha.nextId⟩
  | @deleteTimeEvent w id _ ih =>
    have ha := aeDeleteTimeEvent_timerApi w.eventLoop id
    exact ⟨ha.timerIds ih.1, le_trans ih.2 ha.nextId⟩
  | @processEvents w w1 flags r _ h ih =>
    obtain ⟨h1, h2⟩ := aeProcessEvents_timerIds env henv w flags (w1, r) ih.1 h
    exact ⟨h1, le_trans ih.2 h2⟩
  | stop _ ih => exact timerIds_of_eq ih rfl rfl
  | setDontWait noWait _ ih =>
    refine timerIds_of_eq ih ?_ ?_ <;> (unfold aeSetDontWait; split <;> rfl)
  | setBeforeSleepProc _ _ ih => exact timerIds_of_eq ih rfl rfl
  | setAfterSleepProc _ _ ih => exact timerIds_of_eq ih rfl rfl

theorem aeCreateTimeEvents_ids (env : aeEnv) (args : List (Int × Nat × Nat × Option Nat)) :
    ∀ w : aeWorld, (aeCreateTimeEvents env w args).2 =
      (List.range args.length).map
        (fun (i : Nat) => w.eventLoop.timeEventNextId + (i : Int)) := by
  induction args with
  | nil => intro w; rfl
  | cons a args ih =>
    intro w
    obtain ⟨milliseconds, proc, clientData, finalizerProc⟩ := a
    simp only [aeCreateTimeEvents, List.length_cons, List.range_succ_eq_map, List.map_cons,
      List.map_map, ih]
    refine congrArg₂ _ ?_ ?_
    · simp [aeCreateTimeEvent]
    · apply List.map_congr_left
      intro i _
      simp [aeCreateTimeEvent, getMonotonicUs]
      ring

theorem exampleFired_reachable : Reachable exampleEnv exampleFired :=
  Reachable.processEvents (AE_ALL_EVENTS ||| AE_DONT_WAIT) 2
    (Reachable.createTimeEvent 2 2 0 none
      (Reachable.createTimeEvent 1 1 0 none (Reachable.create exampleStart 8 rfl)))
    (by decide)

/-- C28: timer ids are unique and monotonic.  `aeCreateTimeEvent` returns the current
`timeEventNextId` and increments it, so successive calls on an event loop whose counter is 0
return 0, 1, 2, ...  In every state that calls of the functions of `ae.c` reach from
`aeCreateEventLoop` - with callbacks that work on the timers through `aeCreateTimeEvent` and
`aeDeleteTimeEvent` - no two timers of the list that are not marked deleted have the same id,
and every id that is not `AE_DELETED_EVENT_ID` is less than `timeEventNextId`, which is never
negative.  (The ids are mathematical integers: the `long long` counter does not wrap before
`2 ^ 63` timers have been created.) -/
theorem C28_timer_ids (env : aeEnv) (henv : env.TimersByApi) :
    (∀ (w : aeWorld) (milliseconds : Int) (proc clientData : Nat) (finalizerProc : Option Nat),
      (aeCreateTimeEvent env w milliseconds proc clientData finalizerProc).2 =
        w.eventLoop.timeEventNextId ∧
      (aeCreateTimeEvent env w milliseconds proc clientData
        finalizerProc).1.eventLoop.timeEventNextId = w.eventLoop.timeEventNextId + 1) ∧
    (∀ (w : aeWorld) (args : List (Int × Nat × Nat × Option Nat)),
      w.eventLoop.timeEventNextId = 0 →
      (aeCreateTimeEvents env w args).2 =
        (List.range args.length).map (fun (i : Nat) => (i : Int))) ∧
    (∀ w : aeWorld, Reachable env w →
      (w.eventLoop.timeEventHead.map (fun te => te.id)).Pairwise
        (fun i j => i = j → i = AE_DELETED_EVENT_ID) ∧
      (∀ te ∈ w.eventLoop.timeEventHead, te.id ≠ AE_DELETED_EVENT_ID →
        te.id < w.eventLoop.timeEventNextId) ∧
      0 ≤ w.eventLoop.timeEventNextId) := by
  refine ⟨?_, ?_, ?_⟩
  · intro w milliseconds proc clientData finalizerProc
    simp [aeCreateTimeEvent, getMonotonicUs]
  · intro w args h0
    rw [aeCreateTimeEvents_ids, h0]
    simp
  · intro w hw
    obtain ⟨⟨h1, h2⟩, h3⟩ := reachable_timerIds env henv w hw
    exact ⟨h1, h2, h3⟩

theorem C28_witness :
    exampleEnv.TimersByApi ∧ exampleStart.eventLoop.timeEventNextId = 0 ∧
    (aeCreateTimeEvents exampleEnv exampleStart
      [(1, 1, 0, none), (2, 2, 0, none), (3, 3, 0, none)]).2 =
      (List.range 3).map (fun (i : Nat) => (i : Int)) ∧
    Reachable exampleEnv exampleFired ∧
    exampleFired.eventLoop.timeEventHead.map (fun te => te.id) =
      [AE_DELETED_EVENT_ID, AE_DELETED_EVENT_ID] ∧
    (exampleFired.eventLoop.timeEventHead.map (fun te => te.id)).Pairwise
      (fun i j => i = j → i = AE_DELETED_EVENT_ID) ∧
    (∀ te ∈ exampleFired.eventLoop.timeEventHead, te.id ≠ AE_DELETED_EVENT_ID →
      te.id < exampleFired.eventLoop.timeEventNextId) ∧
    0 ≤ exampleFired.eventLoop.timeEventNextId :=
  ⟨exampleEnv_timersByApi, by decide,
    (C28_timer_ids exampleEnv exampleEnv_timersByApi).2.1 exampleStart
      [(1, 1, 0, none), (2, 2, 0, none), (3, 3, 0, none)] (by decide),
    exampleFired_reachable, by decide,
    (C28_timer_ids exampleEnv exampleEnv_timersByApi).2.2 exampleFired exampleFired_reachable⟩

/-! ### The registry of file events -/

theorem intNot_testBit (m i : Nat) :
    Nat.testBit (intNot m) i = (decide (i < 32) && !Nat.testBit (m % 2 ^ 32) i) := by
  unfold intNot
  have h3 : m % 2 ^ 32 < 2 ^ 32 := Nat.mod_lt _ (by norm_num)
  have h4 : 2 ^ 32 - 1 - m % 2 ^ 32 = 2 ^ 32 - (m % 2 ^ 32 + 1) := by omega
  rw [h4, Nat.testBit_two_pow_sub_succ h3]

theorem maxfd_loop_spec (events : List aeFileEvent) (n : Nat) (hn : n ≤ events.length) :
    ∃ j : Int, aeDeleteFileEvent.maxfd events n = some j ∧ -1 ≤ j ∧ j < (n : Int) ∧
      (∀ (i : Nat) (fe : aeFileEvent), j < (i : Int) → i < n → events[i]? = some fe →
        fe.mask = AE_NONE) ∧
      (j ≠ -1 → ∃ fe, events[j.toNat]? = some fe ∧ fe.mask ≠ AE_NONE) := by
  induction n with
  | zero =>
    refine ⟨-1, rfl, le_refl _, by norm_num, ?_, fun h => absurd rfl h⟩
    intro i fe _ hi
    omega
  | succ n ih =>
    have hlt : n < events.length := by omega
    unfold aeDeleteFileEvent.maxfd
    rw [List.getElem?_eq_getElem hlt]
    dsimp only
    by_cases hm : events[n].mask ≠ AE_NONE
    · rw [if_pos hm]
      refine ⟨(n : Int), rfl, by omega, by omega, ?_, ?_⟩
      · intro i fe h1 h2
        omega
      · intro _
        refine ⟨events[n], ?_, hm⟩
        simp [List.getElem?_eq_getElem hlt]
    · rw [if_neg hm]
      obtain ⟨j, h1, h2, h3, h4, h5⟩ := ih (by omega)
      refine ⟨j, h1, h2, by omega, ?_, h5⟩
      intro i fe hji hi hfe
      by_cases hin : i = n
      · subst hin
        rw [List.getElem?_eq_getElem hlt] at hfe
        cases hfe
        simpa using hm
      · exact h4 i fe hji (by omega) hfe

theorem and_writable_iff (mask : Nat) : mask &&& AE_WRITABLE ≠ 0 ↔ mask.testBit 1 = true := by
  have h := Dict.and_eq_zero_iff_testBit mask AE_WRITABLE
  have h2 : ∀ i, Nat.testBit AE_WRITABLE i = decide (1 = i) := by
    intro i
    have : AE_WRITABLE = 2 ^ 1 := rfl
    rw [this, Nat.testBit_two_pow]
  constructor
  · intro hne
    by_contra hb
    apply hne
    rw [h]
    intro i hi
    rw [h2] at hi
    have : i = 1 := by simpa [eq_comm] using hi
    subst this
    simpa using hb
  · intro hb hz
    rw [h] at hz
    have := hz 1 (by rw [h2]; simp)
    rw [hb] at this
    cases this

theorem deleted_mask_testBit (m mask i : Nat) (hm : m < 2 ^ 32) :
    Nat.testBit
      (m &&& intNot (if mask &&& AE_WRITABLE ≠ 0 then mask ||| AE_BARRIER else mask)) i =
      (m.testBit i && !mask.testBit i && !(decide (i = 2) && mask.testBit 1)) := by
  rw [Nat.testBit_and, intNot_testBit, Nat.testBit_mod_two_pow]
  by_cases hi : i < 32
  · by_cases hw : mask &&& AE_WRITABLE ≠ 0
    · have hb := (and_writable_iff mask).1 hw
      rw [if_pos hw, Nat.testBit_or, hb]
      have h4 : Nat.testBit AE_BARRIER i = decide (2 = i) := by
        have : AE_BARRIER = 2 ^ 2 := rfl
        rw [this, Nat.testBit_two_pow]
      rw [h4]
      by_cases h2 : i = 2
      · subst h2; simp
      · have : ¬ 2 = i := fun h => h2 h.symm
        simp [hi, h2, this]
    · have hb : mask.testBit 1 = false := by
        by_contra hb
        exact hw ((and_writable_iff mask).2 (by simpa using hb))
      rw [if_neg hw, hb]
      simp [hi]
  · have h0 : m.testBit i = false :=
      Nat.testBit_lt_two_pow (lt_of_lt_of_le hm (Nat.pow_le_pow_right (by norm_num) (by omega)))
    simp [h0]

theorem aeDeleteFileEvent_registered (w : aeWorld) (fd : Int) (mask : Nat) (fe : aeFileEvent)
    (h0 : 0 ≤ fd) (hlt : fd < w.eventLoop.setsize)
    (hfe : w.eventLoop.events[fd.toNat]? = some fe) (hm : fe.mask ≠ AE_NONE) :
    ∃ j : Int,
      aeDeleteFileEvent w fd mask =
        some { w with
          calls := w.calls ++ [aeCall.aeApiDelEvent fd
            (if mask &&& AE_WRITABLE ≠ 0 then mask ||| AE_BARRIER else mask)],
          eventLoop := { w.eventLoop with
            events := w.eventLoop.events.set fd.toNat
              { fe with mask := fe.mask &&&
                  intNot (if mask &&& AE_WRITABLE ≠ 0 then mask ||| AE_BARRIER else mask) },
            maxfd := j } } ∧
      (¬ (fd = w.eventLoop.maxfd ∧
          fe.mask &&& intNot (if mask &&& AE_WRITABLE ≠ 0 then mask ||| AE_BARRIER else mask)
            = AE_NONE) → j = w.eventLoop.maxfd) ∧
      (fd = w.eventLoop.maxfd →
        fe.mask &&& intNot (if mask &&& AE_WRITABLE ≠ 0 then mask ||| AE_BARRIER else mask)
          = AE_NONE →
        -1 ≤ j ∧ j < fd ∧
        (∀ (i : Nat) (fe2 : aeFileEvent), j < (i : Int) → (i : Int) < fd →
          w.eventLoop.events[i]? = some fe2 → fe2.mask = AE_NONE) ∧
        (j ≠ -1 → ∃ fe2, w.eventLoop.events[j.toNat]? = some fe2 ∧ fe2.mask ≠ AE_NONE)) := by
  have hlen := (List.getElem?_eq_some_iff.1 hfe).1
  have h1 : ¬ fd ≥ w.eventLoop.setsize := by omega
  have h2 : ¬ fd < 0 := by omega
  unfold aeDeleteFileEvent
  rw [if_neg h1, if_neg h2]
  simp only [hfe]
  rw [if_neg hm]
  by_cases hc : fd = w.eventLoop.maxfd ∧
      fe.mask &&& intNot (if mask &&& AE_WRITABLE ≠ 0 then mask ||| AE_BARRIER else mask)
        = AE_NONE
  · rw [if_pos hc]
    have hfdn : (w.eventLoop.maxfd.toNat : Int) = fd := by rw [← hc.1]; omega
    obtain ⟨j, g1, g2, g3, g4, g5⟩ := maxfd_loop_spec
      (w.eventLoop.events.set fd.toNat
        { fe with mask := fe.mask &&&
            intNot (if mask &&& AE_WRITABLE ≠ 0 then mask ||| AE_BARRIER else mask) })
      w.eventLoop.maxfd.toNat (by rw [List.length_set, ← hc.1]; omega)
    refine ⟨j, ?_, fun hn => absurd hc hn, ?_⟩
    · simp only [g1]
    · intro _ _
      have g3' : j < fd := by rw [← hfdn]; exact g3
      refine ⟨g2, g3', ?_, ?_⟩
      · intro i fe2 hji hi hfe2
        have hi1 : i < w.eventLoop.maxfd.toNat := by clear g4 g5; omega
        have hi2 : fd.toNat ≠ i := by clear g4 g5; omega
        refine g4 i fe2 hji hi1 ?_
        rw [List.getElem?_set_ne hi2]
        exact hfe2
      · intro hj
        have hj2 : fd.toNat ≠ j.toNat := by clear g4 g5; omega
        obtain ⟨fe2, k1, k2⟩ := g5 hj
        refine ⟨fe2, ?_, k2⟩
        rw [List.getElem?_set_ne hj2] at k1
        exact k1
  · rw [if_neg hc]
    refine ⟨w.eventLoop.maxfd, ?_, fun _ => rfl, fun a b => absurd ⟨a, b⟩ hc⟩
    rfl

theorem aeDeleteFileEvent_beyond (w : aeWorld) (fd : Int) (mask : Nat)
    (h : w.eventLoop.setsize ≤ fd) : aeDeleteFileEvent w fd mask = some w := by
  unfold aeDeleteFileEvent
  rw [if_pos h]

theorem aeDeleteFileEvent_unregistered (w : aeWorld) (fd : Int) (mask : Nat) (fe : aeFileEvent)
    (h0 : 0 ≤ fd) (hfe : w.eventLoop.events[fd.toNat]? = some fe) (hm : fe.mask = AE_NONE) :
    aeDeleteFileEvent w fd mask = some w := by
  unfold aeDeleteFileEvent
  by_cases h : fd ≥ w.eventLoop.setsize
  · rw [if_pos h]
  · rw [if_neg h, if_neg (by omega)]
    simp only [hfe]
    rw [if_pos hm]

theorem or_ne_zero (a b : Nat) (hb : b ≠ 0) : a ||| b ≠ 0 := by
  obtain ⟨i, hi⟩ := Nat.ne_zero_implies_bit_true hb
  intro hz
  have := Nat.testBit_or a b i
  rw [hz, hi] at this
  simp at this

theorem MaxfdExact.registered_le {l : aeEventLoop} (h : MaxfdExact l) (fd : Nat)
    (fe : aeFileEvent) (hfe : l.events[fd]? = some fe) (hm : fe.mask ≠ AE_NONE) :
    (fd : Int) ≤ l.maxfd := by
  by_contra hlt
  obtain ⟨hlen, hget⟩ := List.getElem?_eq_some_iff.1 hfe
  have := h.above fd hlen (by omega)
  rw [hget] at this
  exact hm this

theorem MaxfdExact.lt_setsize {l : aeEventLoop} (h : MaxfdExact l) :
    -1 ≤ l.maxfd ∧ l.maxfd < l.setsize := by
  have hs := h.size
  rcases h.top with h1 | ⟨h0, hlt, _⟩
  · omega
  · omega

theorem aeCreateEventLoop_maxfdExact (setsize : Int) (h0 : 0 ≤ setsize) :
    MaxfdExact (aeCreateEventLoop setsize) := by
  refine ⟨?_, ?_, Or.inl rfl⟩
  · simp only [aeCreateEventLoop, List.length_replicate]
    omega
  · intro i h _
    simp [aeCreateEventLoop]

theorem aeCreateFileEvent_maxfdExact (env : aeEnv) (w : aeWorld) (fd : Int)
    (mask proc clientData : Nat) (hinv : MaxfdExact w.eventLoop) (h0 : 0 ≤ fd)
    (hm : mask ≠ AE_NONE) :
    ∃ w1 r, aeCreateFileEvent env w fd mask proc clientData = some (w1, r) ∧
      MaxfdExact w1.eventLoop := by
  have hsz := hinv.size
  unfold aeCreateFileEvent
  by_cases h1 : fd ≥ w.eventLoop.setsize
  · rw [if_pos h1]
    exact ⟨w, AE_ERR, rfl, hinv⟩
  · rw [if_neg h1]
    dsimp only
    by_cases h2 : env.aeApiAddEvent w.eventLoop fd mask = -1
    · rw [if_pos h2]
      exact ⟨_, AE_ERR, rfl, hinv⟩
    · rw [if_neg h2, if_neg (by omega)]
      have hlt : fd.toNat < w.eventLoop.events.length := by omega
      rw [List.getElem?_eq_getElem hlt]
      dsimp only
      refine ⟨_, AE_OK, rfl, ?_, ?_, ?_⟩
      · simp only [List.length_set]
        exact hsz
      · intro i hi hgt
        simp only [List.length_set] at hi
        simp only at hgt
        have hne : fd.toNat ≠ i := by
          split at hgt <;> omega
        have hgt2 : w.eventLoop.maxfd < (i : Int) := by
          split at hgt <;> omega
        simp only [List.getElem_set_ne hne]
        exact hinv.above i hi hgt2
      · right
        simp only
        by_cases hgt : fd > w.eventLoop.maxfd
        · rw [if_pos hgt]
          refine ⟨h0, by simpa using hlt, ?_⟩
          simp only [List.getElem_set_self]
          exact or_ne_zero _ _ hm
        · rw [if_neg hgt]
          rcases hinv.top with ht | ⟨ht0, htlt, htm⟩
          · omega
          · refine ⟨ht0, by simpa using htlt, ?_⟩
            by_cases he : fd.toNat = w.eventLoop.maxfd.toNat
            · simp only [he, List.getElem_set_self]
              exact or_ne_zero _ _ hm
            · simp only [List.getElem_set_ne he]
              exact htm

theorem aeDeleteFileEvent_maxfdExact (w : aeWorld) (fd : Int) (mask : Nat)
    (hinv : MaxfdExact w.eventLoop) (h0 : 0 ≤ fd) :
    ∃ w1, aeDeleteFileEvent w fd mask = some w1 ∧ MaxfdExact w1.eventLoop := by
  have hsz := hinv.size
  by_cases h1 : w.eventLoop.setsize ≤ fd
  · exact ⟨w, aeDeleteFileEvent_beyond w fd mask h1, hinv⟩
  · have hlt : fd.toNat < w.eventLoop.events.length := by omega
    have hfe := List.getElem?_eq_getElem hlt
    by_cases hm : w.eventLoop.events[fd.toNat].mask = AE_NONE
    · exact ⟨w, aeDeleteFileEvent_unregistered w fd mask _ h0 hfe hm, hinv⟩
    · obtain ⟨j, g1, g2, g3⟩ :=
        aeDeleteFileEvent_registered w fd mask _ h0 (by omega) hfe hm
      have hle : fd ≤ w.eventLoop.maxfd := by
        have := hinv.registered_le fd.toNat _ hfe hm
        omega
      refine ⟨_, g1, ?_, ?_, ?_⟩
      · simp only [List.length_set]
        exact hsz
      · intro i hi hgt
        simp only [List.length_set] at hi
        simp only at hgt
        by_cases hc : fd = w.eventLoop.maxfd ∧
            w.eventLoop.events[fd.toNat].mask &&&
              intNot (if mask &&& AE_WRITABLE ≠ 0 then mask ||| AE_BARRIER else mask) = AE_NONE
        · obtain ⟨k1, k2, k3, k4⟩ := g3 hc.1 hc.2
          by_cases hif : fd.toNat = i
          · subst hif
            simp only [List.getElem_set_self]
            exact hc.2
          · simp only [List.getElem_set_ne hif]
            by_cases hbig : w.eventLoop.maxfd < (i : Int)
            · exact hinv.above i hi hbig
            · have hi2 : (i : Int) < fd := by
                have := hc.1
                clear k3 k4 g2 g3
                omega
              exact k3 i _ hgt hi2 (List.getElem?_eq_getElem hi)
        · have hj := g2 hc
          rw [hj] at hgt
          have hif : fd.toNat ≠ i := by clear g2 g3; omega
          simp only [List.getElem_set_ne hif]
          exact hinv.above i hi hgt
      · simp only
        by_cases hc : fd = w.eventLoop.maxfd ∧
            w.eventLoop.events[fd.toNat].mask &&&
              intNot (if mask &&& AE_WRITABLE ≠ 0 then mask ||| AE_BARRIER else mask) = AE_NONE
        · obtain ⟨k1, k2, k3, k4⟩ := g3 hc.1 hc.2
          by_cases hj : j = -1
          · exact Or.inl hj
          · right
            obtain ⟨fe2, m1, m2⟩ := k4 hj
            obtain ⟨hl2, hg2⟩ := List.getElem?_eq_some_iff.1 m1
            have hj0 : 0 ≤ j := by clear k3 k4 g2 g3; omega
            have hne : fd.toNat ≠ j.toNat := by clear k3 k4 g2 g3; omega
            refine ⟨hj0, by simpa using hl2, ?_⟩
            simp only [List.getElem_set_ne hne, hg2]
            exact m2
        · have hj := g2 hc
          rw [hj]
          rcases hinv.top with ht | ⟨ht0, htlt, htm⟩
          · exfalso; clear g2 g3; omega
          · right
            refine ⟨ht0, by simpa using htlt, ?_⟩
            by_cases he : fd.toNat = w.eventLoop.maxfd.toNat
            · have hfd : fd = w.eventLoop.maxfd := by clear g2 g3; omega
              simp only [he, List.getElem_set_self]
              intro hz
              apply hc
              refine ⟨hfd, ?_⟩
              rw [← hz]
              simp only [he]
            · simp only [List.getElem_set_ne he]
              exact htm

theorem aeResizeSetSize_maxfdExact (env : aeEnv) (w : aeWorld) (n : Int)
    (hinv : MaxfdExact w.eventLoop) :
    ∃ w1 r, aeResizeSetSize env w n = some (w1, r) ∧ MaxfdExact w1.eventLoop ∧
      (r = AE_OK → w1.eventLoop.setsize = n) := by
  have hsz := hinv.size
  obtain ⟨hlo, hhi⟩ := hinv.lt_setsize
  unfold aeResizeSetSize
  by_cases hs : n = w.eventLoop.setsize
  · rw [if_pos hs]
    exact ⟨w, AE_OK, rfl, hinv, fun _ => hs.symm⟩
  · rw [if_neg hs]
    by_cases hge : w.eventLoop.maxfd ≥ n
    · rw [if_pos hge]
      exact ⟨w, AE_ERR, rfl, hinv, fun h => by cases h⟩
    · rw [if_neg hge]
      dsimp only
      by_cases hapi : env.aeApiResize w.eventLoop n = -1
      · rw [if_pos hapi]
        exact ⟨_, AE_ERR, rfl, hinv, fun h => by cases h⟩
      · rw [if_neg hapi]
        obtain ⟨ev, h1, h2, h3, h4⟩ := resize_init_spec (n - (w.eventLoop.maxfd + 1)).toNat
          (w.eventLoop.maxfd + 1).toNat (aeResizeSetSize.events w.eventLoop.events n.toNat)
          (by rw [resize_events_length]; omega)
        simp only [h1]
        refine ⟨_, AE_OK, rfl, ⟨?_, ?_, ?_⟩, fun _ => rfl⟩
        · simp only [h2, resize_events_length]
          omega
        · intro i hi hgt
          simp only at hi hgt
          exact h4 i _ (by omega) (List.getElem?_eq_getElem hi)
        · simp only
          rcases hinv.top with ht | ⟨ht0, htlt, htm⟩
          · exact Or.inl ht
          · right
            have hl : w.eventLoop.maxfd.toNat < ev.length := by
              rw [h2, resize_events_length]; omega
            refine ⟨ht0, hl, ?_⟩
            have h5 := h3 w.eventLoop.maxfd.toNat (by omega)
            rw [resize_events_getElem? _ _ _ (by omega) htlt, List.getElem?_eq_getElem hl,
              List.getElem?_eq_getElem htlt] at h5
            have heq := Option.some.inj h5
            rw [heq]
            exact htm

theorem fileReachable_maxfdExact (env : aeEnv) (w : aeWorld) (h : FileReachable env w) :
    MaxfdExact w.eventLoop := by
  induction h with
  | create w setsize h0 h => rw [h]; exact aeCreateEventLoop_maxfdExact setsize h0
  | createFileEvent fd mask proc clientData r _ h0 hm hr ih =>
    obtain ⟨w2, r2, g1, g2⟩ := aeCreateFileEvent_maxfdExact env _ fd mask proc clientData ih h0 hm
    rw [hr] at g1
    cases g1
    exact g2
  | deleteFileEvent fd mask _ hr ih =>
    by_cases h0 : 0 ≤ fd
    · obtain ⟨w2, g1, g2⟩ := aeDeleteFileEvent_maxfdExact _ fd mask ih h0
      rw [hr] at g1
      cases g1
      exact g2
    · rename_i w0 w1 _
      by_cases h1 : w0.eventLoop.setsize ≤ fd
      · rw [aeDeleteFileEvent_beyond _ fd mask h1] at hr
        cases hr
        exact ih
      · unfold aeDeleteFileEvent at hr
        rw [if_neg (by omega), if_pos (by omega)] at hr
        cases hr
  | resizeSetSize setsize r _ hr ih =>
    obtain ⟨w2, r2, g1, g2, _⟩ := aeResizeSetSize_maxfdExact env _ setsize ih
    rw [hr] at g1
    cases g1
    exact g2

/-- C37: for a descriptor `0 <= fd < setsize` whose slot has a mask `m` other than `AE_NONE`,
`aeDeleteFileEvent(loop, fd, mask)` returns with only that slot and `maxfd` changed: the
callbacks and the client data of the slot are the same, and bit `i` of the new mask is set
exactly when it is set in `m`, is not set in `mask`, and is not the bit of `AE_BARRIER`
(bit 2) while `mask` has the bit of `AE_WRITABLE` (bit 1).  When `fd` was `maxfd` and the new
mask is `AE_NONE`, the new `maxfd` is below `fd`, every slot between it and `fd` has the mask
`AE_NONE`, and it is -1 or a slot whose mask is not `AE_NONE`; otherwise `maxfd` is the same.
For `fd >= setsize`, and for a slot whose mask is `AE_NONE`, nothing changes. -/
theorem C37_aeDeleteFileEvent (w : aeWorld) (fd : Int) (mask : Nat) :
    (∀ fe : aeFileEvent, 0 ≤ fd → fd < w.eventLoop.setsize →
      w.eventLoop.events[fd.toNat]? = some fe → fe.mask ≠ AE_NONE → fe.mask < 2 ^ 32 →
      ∃ (w1 : aeWorld) (fe1 : aeFileEvent), aeDeleteFileEvent w fd mask = some w1 ∧
        w1.eventLoop.events = w.eventLoop.events.set fd.toNat fe1 ∧
        fe1.rfileProc = fe.rfileProc ∧ fe1.wfileProc = fe.wfileProc ∧
        fe1.clientData = fe.clientData ∧
        (∀ i, fe1.mask.testBit i =
          (fe.mask.testBit i && !mask.testBit i && !(decide (i = 2) && mask.testBit 1))) ∧
        w1.eventLoop.setsize = w.eventLoop.setsize ∧
        (¬ (fd = w.eventLoop.maxfd ∧ fe1.mask = AE_NONE) →
          w1.eventLoop.maxfd = w.eventLoop.maxfd) ∧
        (fd = w.eventLoop.maxfd → fe1.mask = AE_NONE →
          -1 ≤ w1.eventLoop.maxfd ∧ w1.eventLoop.maxfd < fd ∧
          (∀ (i : Nat) (fe2 : aeFileEvent), w1.eventLoop.maxfd < (i : Int) → (i : Int) < fd →
            w1.eventLoop.events[i]? = some fe2 → fe2.mask = AE_NONE) ∧
          (w1.eventLoop.maxfd ≠ -1 → ∃ fe2,
            w1.eventLoop.events[w1.eventLoop.maxfd.toNat]? = some fe2 ∧
              fe2.mask ≠ AE_NONE))) ∧
    (w.eventLoop.setsize ≤ fd → aeDeleteFileEvent w fd mask = some w) ∧
    (∀ fe : aeFileEvent, 0 ≤ fd → w.eventLoop.events[fd.toNat]? = some fe →
      fe.mask = AE_NONE → aeDeleteFileEvent w fd mask = some w) := by
  refine ⟨?_, aeDeleteFileEvent_beyond w fd mask,
    fun fe h0 hfe hm => aeDeleteFileEvent_unregistered w fd mask fe h0 hfe hm⟩
  intro fe h0 hlt hfe hm h32
  obtain ⟨j, g1, g2, g3⟩ := aeDeleteFileEvent_registered w fd mask fe h0 hlt hfe hm
  refine ⟨_, _, g1, rfl, rfl, rfl, rfl, fun i => deleted_mask_testBit fe.mask mask i h32, rfl,
    g2, ?_⟩
  intro hfd hnone
  obtain ⟨k1, k2, k3, k4⟩ := g3 hfd hnone
  refine ⟨k1, k2, ?_, ?_⟩
  · intro i fe2 hji hi hfe2
    have hne : fd.toNat ≠ i := by clear k3 k4 g2 g3; omega
    simp only [List.getElem?_set_ne hne] at hfe2
    exact k3 i fe2 hji hi hfe2
  · intro hj
    obtain ⟨fe2, m1, m2⟩ := k4 hj
    have hne : fd.toNat ≠ j.toNat := by
      simp only at hj
      clear k3 k4 g2 g3; omega
    refine ⟨fe2, ?_, m2⟩
    simp only [List.getElem?_set_ne hne]
    exact m1

theorem exampleRegistered_fileReachable : FileReachable exampleEnv exampleRegistered :=
  FileReachable.createFileEvent 3 AE_READABLE 11 0 AE_OK
    (FileReachable.create exampleStart 8 (by decide) rfl) (by decide) (by decide) (by decide)

/-- C40: in every state that calls of `aeCreateFileEvent` (with `0 <= fd` and a mask other
than `AE_NONE`), `aeDeleteFileEvent` and `aeResizeSetSize` (successful or not) reach from
`aeCreateEventLoop(setsize)`, `setsize >= 0`: every descriptor whose registered mask is not
`AE_NONE` is at most `maxfd`; `maxfd` is -1 or a descriptor whose registered mask is not
`AE_NONE`; `maxfd < setsize`; and the array of events has `setsize` slots.  In such a state
each of the three functions returns (for `fd >= 0`). -/
theorem C40_maxfd_invariant (env : aeEnv) (w : aeWorld) (h : FileReachable env w) :
    (∀ (fd : Nat) (fe : aeFileEvent), w.eventLoop.events[fd]? = some fe → fe.mask ≠ AE_NONE →
      (fd : Int) ≤ w.eventLoop.maxfd) ∧
    (w.eventLoop.maxfd = -1 ∨ 0 ≤ w.eventLoop.maxfd ∧ ∃ fe,
      w.eventLoop.events[w.eventLoop.maxfd.toNat]? = some fe ∧ fe.mask ≠ AE_NONE) ∧
    w.eventLoop.maxfd < w.eventLoop.setsize ∧
    (w.eventLoop.events.length : Int) = w.eventLoop.setsize ∧
    (∀ (fd : Int) (mask proc clientData : Nat), 0 ≤ fd → mask ≠ AE_NONE →
      ∃ r, aeCreateFileEvent env w fd mask proc clientData = some r) ∧
    (∀ (fd : Int) (mask : Nat), 0 ≤ fd → ∃ w1, aeDeleteFileEvent w fd mask = some w1) ∧
    (∀ n : Int, ∃ r, aeResizeSetSize env w n = some r) := by
  have hinv := fileReachable_maxfdExact env w h
  refine ⟨hinv.registered_le, ?_, hinv.lt_setsize.2, hinv.size, ?_, ?_, ?_⟩
  · rcases hinv.top with ht | ⟨ht0, htlt, htm⟩
    · exact Or.inl ht
    · exact Or.inr ⟨ht0, _, List.getElem?_eq_getElem htlt, htm⟩
  · intro fd mask proc clientData h0 hm
    obtain ⟨w1, r, g, _⟩ := aeCreateFileEvent_maxfdExact env w fd mask proc clientData hinv h0 hm
    exact ⟨_, g⟩
  · intro fd mask h0
    obtain ⟨w1, g, _⟩ := aeDeleteFileEvent_maxfdExact w fd mask hinv h0
    exact ⟨_, g⟩
  · intro n
    obtain ⟨w1, r, g, _⟩ := aeResizeSetSize_maxfdExact env w n hinv
    exact ⟨_, g⟩

theorem exampleDelete_run :
    (exampleReady AE_BARRIER).eventLoop.maxfd = 3 ∧
    ((exampleReady AE_BARRIER).eventLoop.events[3]?).map (fun fe => fe.mask) =
      some (AE_READABLE ||| AE_WRITABLE ||| AE_BARRIER) ∧
    (aeDeleteFileEvent (exampleReady AE_BARRIER) 3 AE_WRITABLE).map
      (fun w => (w.eventLoop.maxfd, (w.eventLoop.events[3]?).map (fun fe => fe.mask))) =
      some (3, some AE_READABLE) ∧
    (aeDeleteFileEvent exampleRegistered 3 AE_READABLE).map
      (fun w => (w.eventLoop.maxfd, (w.eventLoop.events[3]?).map (fun fe => fe.mask))) =
      some (-1, some AE_NONE) ∧
    aeDeleteFileEvent exampleRegistered 8 AE_READABLE = some exampleRegistered ∧
    aeDeleteFileEvent exampleRegistered 2 AE_READABLE = some exampleRegistered := by
  refine ⟨by decide, by decide, by decide, by decide, by decide, by decide⟩

theorem C37_witness :
    (0 : Int) ≤ 3 ∧ (3 : Int) < exampleRegistered.eventLoop.setsize ∧
    exampleRegistered.eventLoop.events[(3 : Int).toNat]? =
      some { mask := AE_READABLE, rfileProc := 11, wfileProc := 0, clientData := 0 } ∧
    AE_READABLE ≠ AE_NONE ∧ AE_READABLE < 2 ^ 32 ∧
    ∃ (w1 : aeWorld) (fe1 : aeFileEvent),
      aeDeleteFileEvent exampleRegistered 3 AE_READABLE = some w1 ∧
      w1.eventLoop.events = exampleRegistered.eventLoop.events.set (3 : Int).toNat fe1 ∧
      fe1.rfileProc = 11 ∧ fe1.wfileProc = 0 ∧ fe1.clientData = 0 ∧
      (∀ i, fe1.mask.testBit i =
        (AE_READABLE.testBit i && !AE_READABLE.testBit i &&
          !(decide (i = 2) && AE_READABLE.testBit 1))) ∧
      w1.eventLoop.setsize = exampleRegistered.eventLoop.setsize ∧
      (¬ ((3 : Int) = exampleRegistered.eventLoop.maxfd ∧ fe1.mask = AE_NONE) →
        w1.eventLoop.maxfd = exampleRegistered.eventLoop.maxfd) ∧
      ((3 : Int) = exampleRegistered.eventLoop.maxfd → fe1.mask = AE_NONE →
        -1 ≤ w1.eventLoop.maxfd ∧ w1.eventLoop.maxfd < 3 ∧
        (∀ (i : Nat) (fe2 : aeFileEvent), w1.eventLoop.maxfd < (i : Int) → (i : Int) < 3 →
          w1.eventLoop.events[i]? = some fe2 → fe2.mask = AE_NONE) ∧
        (w1.eventLoop.maxfd ≠ -1 → ∃ fe2,
          w1.eventLoop.events[w1.eventLoop.maxfd.toNat]? = some fe2 ∧
            fe2.mask ≠ AE_NONE)) :=
  ⟨by decide, by decide, by decide, by decide, by decide,
    (C37_aeDeleteFileEvent exampleRegistered 3 AE_READABLE).1
      { mask := AE_READABLE, rfileProc := 11, wfileProc := 0, clientData := 0 }
      (by decide) (by decide) (by decide) (by decide) (by decide)⟩

theorem C40_witness :
    FileReachable exampleEnv exampleRegistered ∧
    (∀ (fd : Nat) (fe : aeFileEvent), exampleRegistered.eventLoop.events[fd]? = some fe →
      fe.mask ≠ AE_NONE → (fd : Int) ≤ exampleRegistered.eventLoop.maxfd) ∧
    (exampleRegistered.eventLoop.maxfd = -1 ∨ 0 ≤ exampleRegistered.eventLoop.maxfd ∧ ∃ fe,
      exampleRegistered.eventLoop.events[exampleRegistered.eventLoop.maxfd.toNat]? = some fe ∧
        fe.mask ≠ AE_NONE) ∧
    exampleRegistered.eventLoop.maxfd < exampleRegistered.eventLoop.setsize ∧
    (exampleRegistered.eventLoop.events.length : Int) = exampleRegistered.eventLoop.setsize ∧
    (∀ (fd : Int) (mask proc clientData : Nat), 0 ≤ fd → mask ≠ AE_NONE →
      ∃ r, aeCreateFileEvent exampleEnv exampleRegistered fd mask proc clientData = some r) ∧
    (∀ (fd : Int) (mask : Nat), 0 ≤ fd →
      ∃ w1, aeDeleteFileEvent exampleRegistered fd mask = some w1) ∧
    (∀ n : Int, ∃ r, aeResizeSetSize exampleEnv exampleRegistered n = some r) :=
  ⟨exampleRegistered_fileReachable,
    C40_maxfd_invariant exampleEnv exampleRegistered exampleRegistered_fileReachable⟩

theorem aeDeleteFileEvent_clears (w0 wd : aeWorld) (fd : Int) (mask : Nat) (fe0 : aeFileEvent)
    (h0 : 0 ≤ fd) (hlt : fd < w0.eventLoop.setsize)
    (hfe0 : w0.eventLoop.events[fd.toNat]? = some fe0)
    (hd : aeDeleteFileEvent w0 fd mask = some wd) :
    ∃ fe1, wd.eventLoop.events[fd.toNat]? = some fe1 ∧
      fe1.rfileProc = fe0.rfileProc ∧ fe1.wfileProc = fe0.wfileProc ∧
      fe1.clientData = fe0.clientData ∧
      ∀ i, i < 32 → mask.testBit i = true → fe1.mask.testBit i = false := by
  have hlen := (List.getElem?_eq_some_iff.1 hfe0).1
  by_cases hm : fe0.mask = AE_NONE
  · rw [aeDeleteFileEvent_unregistered w0 fd mask fe0 h0 hfe0 hm] at hd
    cases hd
    refine ⟨fe0, hfe0, rfl, rfl, rfl, ?_⟩
    intro i _ _
    rw [hm]
    exact Nat.zero_testBit i
  · obtain ⟨j, g1, _, _⟩ := aeDeleteFileEvent_registered w0 fd mask fe0 h0 hlt hfe0 hm
    rw [g1] at hd
    cases hd
    refine ⟨{ fe0 with
              mask := fe0.mask &&&
                intNot (if mask &&& AE_WRITABLE ≠ 0 then mask ||| AE_BARRIER else mask) },
      by simp only [List.getElem?_set_self hlen], rfl, rfl, rfl, ?_⟩
    intro i hi hb
    simp only [Nat.testBit_and, intNot_testBit, Nat.testBit_mod_two_pow, hi, decide_True,
      Bool.true_and]
    by_cases hw : mask &&& AE_WRITABLE ≠ 0
    · rw [if_pos hw, Nat.testBit_or, hb]
      simp
    · rw [if_neg hw, hb]
      simp

theorem and_and_eq_zero (m x b i : Nat) (hb : b = 2 ^ i) (h : m.testBit i = false) :
    m &&& x &&& b = 0 := by
  rw [Dict.and_eq_zero_iff_testBit]
  intro k hk
  rw [hb, Nat.testBit_two_pow] at hk
  have : i = k := by simpa using hk
  subst this
  rw [Nat.testBit_and, h]
  rfl

/-- C34: in the loop of `aeProcessEvents` over the fired descriptors, in whatever state `w`
the loop reaches the `j`-th of them, `fd` with the reported bits `mask` and the registered
event `fe`.  Without `AE_BARRIER` in the registered mask and with the descriptor registered and
reported readable, the read callback is invoked first; when that callback ends with
`aeDeleteFileEvent(eventLoop, fd, AE_WRITABLE)` (called in some state `w0` in which `fd` is
below `setsize`), the write callback is not invoked for the descriptor in this pass: the read
callback is the only call.  With `AE_BARRIER` and the descriptor registered and reported
writable, the write callback is invoked first; when it ends with
`aeDeleteFileEvent(eventLoop, fd, AE_READABLE)`, the read callback is not invoked. -/
theorem C34_mask_reread (env : aeEnv) (w : aeWorld) (j : Nat) (fd : Int) (mask : Nat)
    (fe : aeFileEvent) (hj : w.eventLoop.fired[j]? = some { fd := fd, mask := mask })
    (hfd : 0 ≤ fd) (hfe : w.eventLoop.events[fd.toNat]? = some fe) :
    (fe.mask &&& AE_BARRIER = 0 → fe.mask &&& mask &&& AE_READABLE ≠ 0 →
      ∀ (w0 wd : aeWorld) (fe0 : aeFileEvent), fd < w0.eventLoop.setsize →
        w0.eventLoop.events[fd.toNat]? = some fe0 →
        aeDeleteFileEvent w0 fd AE_WRITABLE = some wd →
        env.fileProc fe.rfileProc w.eventLoop fd fe.clientData mask = wd.eventLoop →
        ∃ w1, aeProcessEvents.fileEvent env w j = some w1 ∧
          w1.eventLoop = wd.eventLoop ∧
          w1.calls = w.calls ++ [aeCall.fileProc fe.rfileProc fd fe.clientData mask]) ∧
    (fe.mask &&& AE_BARRIER ≠ 0 → fe.mask &&& mask &&& AE_WRITABLE ≠ 0 →
      ∀ (w0 wd : aeWorld) (fe0 : aeFileEvent), fd < w0.eventLoop.setsize →
        w0.eventLoop.events[fd.toNat]? = some fe0 →
        aeDeleteFileEvent w0 fd AE_READABLE = some wd →
        env.fileProc fe.wfileProc w.eventLoop fd fe.clientData mask = wd.eventLoop →
        ∃ w1, aeProcessEvents.fileEvent env w j = some w1 ∧
          w1.eventLoop = wd.eventLoop ∧
          w1.calls = w.calls ++ [aeCall.fileProc fe.wfileProc fd fe.clientData mask]) := by
  have hfd' : ¬ fd < 0 := by omega
  constructor
  · intro hb hr w0 wd fe0 hlt hfe0 hd hcb
    obtain ⟨fe1, g1, _, _, _, g5⟩ :=
      aeDeleteFileEvent_clears w0 wd fd AE_WRITABLE fe0 hfd hlt hfe0 hd
    have hz : fe1.mask &&& mask &&& AE_WRITABLE = 0 :=
      and_and_eq_zero fe1.mask mask AE_WRITABLE 1 rfl (g5 1 (by norm_num) (by decide))
    refine ⟨callFileProc env w fe.rfileProc fd fe.clientData mask, ?_, ?_, ?_⟩
    · unfold aeProcessEvents.fileEvent
      simp only [hj, hfd', if_false, hfe, hb, true_and, ne_eq, hr, not_false_eq_true, if_true,
        callFileProc, hcb, g1, Option.map_some', hz, not_true_eq_false, false_and]
    · simp only [callFileProc, hcb]
    · simp [callFileProc]
  · intro hb hwr w0 wd fe0 hlt hfe0 hd hcb
    obtain ⟨fe1, g1, _, _, _, g5⟩ :=
      aeDeleteFileEvent_clears w0 wd fd AE_READABLE fe0 hfd hlt hfe0 hd
    have hz : fe1.mask &&& mask &&& AE_READABLE = 0 :=
      and_and_eq_zero fe1.mask mask AE_READABLE 0 rfl (g5 0 (by norm_num) (by decide))
    refine ⟨callFileProc env w fe.wfileProc fd fe.clientData mask, ?_, ?_, ?_⟩
    · unfold aeProcessEvents.fileEvent
      simp only [hj, hfd', if_false, hfe, hb, false_and, ne_eq, hwr, not_false_eq_true,
        true_or, and_self, if_true, callFileProc, hcb, g1, hz, not_true_eq_false]
    · simp only [callFileProc, hcb]
    · simp [callFileProc]

theorem exampleDeregister_run :
    (aeProcessEvents.fileEvent exampleEnv (exampleReady 0) 0).map
      (fun w => w.calls.drop (exampleReady 0).calls.length) =
      some [aeCall.fileProc 11 3 0 (AE_READABLE ||| AE_WRITABLE),
            aeCall.fileProc 22 3 0 (AE_READABLE ||| AE_WRITABLE)] ∧
    (aeProcessEvents.fileEvent exampleDeregister (exampleReady 0) 0).map
      (fun w => (w.calls.drop (exampleReady 0).calls.length,
        (w.eventLoop.events[3]?).map (fun fe => fe.mask))) =
      some ([aeCall.fileProc 11 3 0 (AE_READABLE ||| AE_WRITABLE)], some AE_READABLE) ∧
    (aeProcessEvents.fileEvent exampleDeregister (exampleReady AE_BARRIER) 0).map
      (fun w => (w.calls.drop (exampleReady AE_BARRIER).calls.length,
        (w.eventLoop.events[3]?).map (fun fe => fe.mask))) =
      some ([aeCall.fileProc 22 3 0 (AE_READABLE ||| AE_WRITABLE)],
        some (AE_WRITABLE ||| AE_BARRIER)) := by
  refine ⟨by decide, by decide, by decide⟩

theorem C34_witness :
    (exampleReady 0).eventLoop.fired[0]? =
      some { fd := 3, mask := AE_READABLE ||| AE_WRITABLE } ∧
    (0 : Int) ≤ 3 ∧
    (exampleReady 0).eventLoop.events[(3 : Int).toNat]? =
      some { mask := AE_READABLE ||| AE_WRITABLE, rfileProc := 11, wfileProc := 22,
             clientData := 0 } ∧
    (AE_READABLE ||| AE_WRITABLE) &&& AE_BARRIER = 0 ∧
    (AE_READABLE ||| AE_WRITABLE) &&& (AE_READABLE ||| AE_WRITABLE) &&& AE_READABLE ≠ 0 ∧
    (3 : Int) < (exampleReady 0).eventLoop.setsize ∧
    aeDeleteFileEvent (exampleReady 0) 3 AE_WRITABLE =
      some ((aeDeleteFileEvent (exampleReady 0) 3 AE_WRITABLE).getD exampleStart) ∧
    exampleDeregister.fileProc 11 (exampleReady 0).eventLoop 3 0
        (AE_READABLE ||| AE_WRITABLE) =
      ((aeDeleteFileEvent (exampleReady 0) 3 AE_WRITABLE).getD exampleStart).eventLoop ∧
    ∃ w1, aeProcessEvents.fileEvent exampleDeregister (exampleReady 0) 0 = some w1 ∧
      w1.eventLoop =
        ((aeDeleteFileEvent (exampleReady 0) 3 AE_WRITABLE).getD exampleStart).eventLoop ∧
      w1.calls = (exampleReady 0).calls ++
        [aeCall.fileProc 11 3 0 (AE_READABLE ||| AE_WRITABLE)] :=
  ⟨by decide, by decide, by decide, by decide, by decide, by decide, by decide, by decide,
    (C34_mask_reread exampleDeregister (exampleReady 0) 0 3 (AE_READABLE ||| AE_WRITABLE)
      { mask := AE_READABLE ||| AE_WRITABLE, rfileProc := 11, wfileProc := 22,
        clientData := 0 } (by decide) (by decide) (by decide)).1 (by decide) (by decide)
      (exampleReady 0) ((aeDeleteFileEvent (exampleReady 0) 3 AE_WRITABLE).getD exampleStart)
      { mask := AE_READABLE ||| AE_WRITABLE, rfileProc := 11, wfileProc := 22,
        clientData := 0 } (by decide) (by decide) (by decide) (by decide)⟩

/-! ### Passes that run inside a callback -/

theorem Touched.touched_refl (a : aeTimeEvent) : aeTimeEvent.Touched a a :=
  ⟨rfl, rfl, rfl, rfl, rfl, Or.inl rfl⟩

theorem Touched.touched_trans {a b c : aeTimeEvent} (h1 : aeTimeEvent.Touched a b)
    (h2 : aeTimeEvent.Touched b c) : aeTimeEvent.Touched a c := by
  obtain ⟨a1, a2, a3, a4, a5, a6⟩ := h1
  obtain ⟨b1, b2, b3, b4, b5, b6⟩ := h2
  refine ⟨b1.trans a1, b2.trans a2, b3.trans a3, b4.trans a4, b5.trans a5, ?_⟩
  rcases b6 with h | h
  · rcases a6 with h3 | h3
    · exact Or.inl (h.trans h3)
    · exact Or.inr (h.trans h3)
  · exact Or.inr h

theorem Touched.of_marked {a b : aeTimeEvent} (h : aeTimeEvent.Marked a b) :
    aeTimeEvent.Touched a b := by
  rcases h with rfl | rfl
  · exact Touched.touched_refl _
  · exact ⟨rfl, rfl, rfl, rfl, rfl, Or.inr rfl⟩

theorem TimersEvolved.evolved_refl {P : aeTimeEvent → Prop} :
    ∀ (l : List aeTimeEvent), (∀ a ∈ l, P a) → TimersEvolved P l l
  | [], _ => TimersEvolved.nil
  | a :: l, h =>
    TimersEvolved.keep (Touched.touched_refl a) (h a (List.mem_cons_self a l))
      (TimersEvolved.evolved_refl l (fun x hx => h x (List.mem_cons_of_mem a hx)))

theorem TimersEvolved.length_le {P : aeTimeEvent → Prop} {l l1 : List aeTimeEvent}
    (h : TimersEvolved P l l1) : l1.length ≤ l.length := by
  induction h with
  | nil => exact Nat.le_refl _
  | keep _ _ _ ih => simpa using ih
  | drop _ _ ih => simp only [List.length_cons]; omega

theorem TimersEvolved.evolved_split {P : aeTimeEvent → Prop} :
    ∀ (l : List aeTimeEvent) {m r : List aeTimeEvent}, TimersEvolved P (l ++ m) r →
      ∃ l1 m1, r = l1 ++ m1 ∧ TimersEvolved P l l1 ∧ TimersEvolved P m m1
  | [], m, r, h => ⟨[], r, rfl, TimersEvolved.nil, h⟩
  | a :: l, m, r, h => by
    cases h with
    | keep ht hp h1 =>
      obtain ⟨l1, m1, e, h2, h3⟩ := TimersEvolved.evolved_split l h1
      exact ⟨_ :: l1, m1, by rw [e]; rfl, TimersEvolved.keep ht hp h2, h3⟩
    | drop hr h1 =>
      obtain ⟨l1, m1, e, h2, h3⟩ := TimersEvolved.evolved_split l h1
      exact ⟨l1, m1, e, TimersEvolved.drop hr h2, h3⟩

theorem TimersEvolved.evolved_trans {P Q : aeTimeEvent → Prop} {l l1 : List aeTimeEvent}
    (h : TimersEvolved P l l1) :
    ∀ {l2 : List aeTimeEvent}, TimersEvolved Q l1 l2 → TimersEvolved P l l2 := by
  induction h with
  | nil => intro l2 h2; cases h2; exact TimersEvolved.nil
  | keep ht hp _ ih =>
    intro l2 h2
    cases h2 with
    | keep ht2 _ h3 => exact TimersEvolved.keep (Touched.touched_trans ht ht2) hp (ih h3)
    | drop hr h3 => exact TimersEvolved.drop (ht.2.1 ▸ hr) (ih h3)
  | drop hr _ ih => intro l2 h2; exact TimersEvolved.drop hr (ih h2)

theorem TimersEvolved.addrs {P : aeTimeEvent → Prop} {l l1 : List aeTimeEvent}
    (h : TimersEvolved P l l1) :
    (l1.map (fun te => te.addr)).Sublist (l.map (fun te => te.addr)) := by
  induction h with
  | nil => exact List.Sublist.refl _
  | keep ht _ _ ih =>
    simp only [List.map_cons, ht.1]
    exact List.Sublist.cons₂ _ ih
  | drop _ _ ih => exact List.Sublist.cons _ ih

theorem timeEventIndex_spec (pre suf : List aeTimeEvent) (te : aeTimeEvent)
    (h : te.addr ∉ pre.map (fun x => x.addr)) :
    timeEventIndex (pre ++ te :: suf) te.addr = pre.length := by
  unfold timeEventIndex
  induction pre with
  | nil => simp [List.findIdx_cons]
  | cons a pre ih =>
    have h1 : a.addr ≠ te.addr := by
      intro e; apply h; simp [e]
    have h2 : te.addr ∉ pre.map (fun x => x.addr) := by
      intro e; apply h; simp only [List.map_cons]; exact List.mem_cons_of_mem _ e
    simp only [List.cons_append, List.findIdx_cons, h1, decide_False, cond_false, ih h2,
      List.length_cons]

theorem TimerInv.fresh_addr {l : aeEventLoop} {pre suf : List aeTimeEvent}
    {te : aeTimeEvent} (h : TimerInv l) (hl : l.timeEventHead = pre ++ te :: suf) :
    te.addr ∉ pre.map (fun x => x.addr) := by
  have h1 := h.nodup
  rw [hl, List.map_append, List.map_cons] at h1
  intro hm
  exact (List.nodup_append.1 h1).2.2 hm (List.mem_cons_self _ _)

theorem TimerInv.store {l : aeEventLoop} {pre suf : List aeTimeEvent} {te : aeTimeEvent}
    (h : TimerInv l) (hl : l.timeEventHead = pre ++ te :: suf) (te1 : aeTimeEvent)
    (ha : te1.addr = te.addr) (hr : 0 ≤ te1.refcount) :
    TimerInv { l with timeEventHead := pre ++ te1 :: suf } := by
  have hmem : ∀ x ∈ pre ++ te1 :: suf, x = te1 ∨ x ∈ l.timeEventHead := by
    intro x hx
    rw [hl]
    rcases List.mem_append.1 hx with hx | hx
    · exact Or.inr (List.mem_append_left _ hx)
    · rcases List.mem_cons.1 hx with rfl | hx
      · exact Or.inl rfl
      · exact Or.inr (List.mem_append_right _ (List.mem_cons_of_mem _ hx))
  have hte : te ∈ l.timeEventHead := by
    rw [hl]; exact List.mem_append_right _ (List.mem_cons_self _ _)
  refine ⟨?_, ?_, h.counter, ?_⟩
  · have h1 := h.nodup
    rw [hl, List.map_append, List.map_cons] at h1
    show ((pre ++ te1 :: suf).map (fun x => x.addr)).Nodup
    rw [List.map_append, List.map_cons, ha]
    exact h1
  · intro x hx
    rcases hmem x hx with rfl | hx
    · exact hr
    · exact h.refs x hx
  · intro x hx
    rcases hmem x hx with rfl | hx
    · show (x.addr : Int) < l.timeEventNextId
      rw [ha]; exact h.below te hte
    · exact h.below x hx

theorem TimerInv.unlink {l : aeEventLoop} {pre suf : List aeTimeEvent} {te : aeTimeEvent}
    (h : TimerInv l) (hl : l.timeEventHead = pre ++ te :: suf) :
    TimerInv { l with timeEventHead := pre ++ suf } := by
  have hmem : ∀ x ∈ pre ++ suf, x ∈ l.timeEventHead := by
    intro x hx
    rw [hl]
    rcases List.mem_append.1 hx with hx | hx
    · exact List.mem_append_left _ hx
    · exact List.mem_append_right _ (List.mem_cons_of_mem _ hx)
  refine ⟨?_, fun x hx => h.refs x (hmem x hx), h.counter, fun x hx => h.below x (hmem x hx)⟩
  have h1 := h.nodup
  rw [hl, List.map_append, List.map_cons] at h1
  show ((pre ++ suf).map (fun x => x.addr)).Nodup
  rw [List.map_append]
  exact h1.sublist (List.Sublist.append_left (List.sublist_cons_self _ _) _)

theorem getElem?_mid (pre suf : List aeTimeEvent) (te : aeTimeEvent) :
    (pre ++ te :: suf)[pre.length]? = some te := by
  rw [List.getElem?_append_right (Nat.le_refl _)]
  simp

theorem getElem?_next (pre suf : List aeTimeEvent) (te : aeTimeEvent) :
    (pre ++ te :: suf)[pre.length + 1]? = suf.head? := by
  rw [List.getElem?_append_right (by omega)]
  have : pre.length + 1 - pre.length = 1 := by omega
  rw [this]
  cases suf <;> simp

theorem set_mid (pre suf : List aeTimeEvent) (te te1 : aeTimeEvent) :
    (pre ++ te :: suf).set pre.length te1 = pre ++ te1 :: suf := by
  simp

theorem eraseIdx_mid (pre suf : List aeTimeEvent) (te : aeTimeEvent) :
    (pre ++ te :: suf).eraseIdx pre.length = pre ++ suf := by
  rw [List.eraseIdx_append_of_length_le (Nat.le_refl _)]
  simp

theorem walk_null (env : aeEnv) (maxId : Int) (fuel : Nat) (w : aeWorld) (now : Nat)
    (processed : Int) :
    processTimeEvents.walk env maxId fuel w none now processed = some (w, processed) := by
  cases fuel <;> rfl

theorem walk_skip (env : aeEnv) (maxId : Int) (fuel : Nat) (w : aeWorld)
    (pre suf : List aeTimeEvent) (te : aeTimeEvent) (now : Nat) (processed : Int)
    (hl : w.eventLoop.timeEventHead = pre ++ te :: suf)
    (hf : te.addr ∉ pre.map (fun x => x.addr))
    (h : (te.id = AE_DELETED_EVENT_ID ∧ te.refcount ≠ 0) ∨
      (te.id ≠ AE_DELETED_EVENT_ID ∧ (maxId < te.id ∨ now < te.when))) :
    processTimeEvents.walk env maxId (fuel + 1) w (some te.addr) now processed =
      processTimeEvents.walk env maxId fuel w (suf.head?.map (fun x => x.addr)) now
        processed := by
  rw [processTimeEvents.walk]
  simp only [hl, timeEventIndex_spec pre suf te hf, getElem?_mid, getElem?_next]
  rcases h with ⟨h1, h2⟩ | ⟨h1, h2 | h2⟩
  · rw [if_pos h1, if_pos h2]
  · rw [if_neg h1, if_pos (by omega)]
  · rw [if_neg h1]
    split
    · rfl
    · rw [if_neg (by omega)]

theorem walk_unlink (env : aeEnv) (maxId : Int) (fuel : Nat) (w : aeWorld)
    (pre suf : List aeTimeEvent) (te : aeTimeEvent) (now : Nat) (processed : Int)
    (hl : w.eventLoop.timeEventHead = pre ++ te :: suf)
    (hf : te.addr ∉ pre.map (fun x => x.addr))
    (h1 : te.id = AE_DELETED_EVENT_ID) (h2 : te.refcount = 0) :
    processTimeEvents.walk env maxId (fuel + 1) w (some te.addr) now processed =
      match te.finalizerProc with
      | some finalizerProc =>
        processTimeEvents.walk env maxId fuel
          { w with
            eventLoop := env.finalizerProc finalizerProc
              { w.eventLoop with timeEventHead := pre ++ suf } te.clientData,
            clockReads := w.clockReads + 1,
            calls := w.calls ++ [aeCall.finalizerProc finalizerProc te.clientData] }
          (suf.head?.map (fun x => x.addr)) (env.getMonotonicUs w.clockReads) processed
      | none =>
        processTimeEvents.walk env maxId fuel
          { w with eventLoop := { w.eventLoop with timeEventHead := pre ++ suf } }
          (suf.head?.map (fun x => x.addr)) now processed := by
  rw [processTimeEvents.walk]
  simp only [hl, timeEventIndex_spec pre suf te hf, getElem?_mid, getElem?_next,
    eraseIdx_mid]
  rw [if_pos h1, if_neg (by simp [h2])]
  cases te.finalizerProc <;> rfl

theorem walk_fire (env : aeEnv) (maxId : Int) (fuel : Nat) (w : aeWorld)
    (pre suf pre1 suf1 : List aeTimeEvent) (te te1 : aeTimeEvent) (now : Nat)
    (processed : Int) (r : aeEventLoop × Int)
    (hl : w.eventLoop.timeEventHead = pre ++ te :: suf)
    (hf : te.addr ∉ pre.map (fun x => x.addr))
    (h1 : te.id ≠ AE_DELETED_EVENT_ID) (h2 : te.id ≤ maxId) (h3 : te.when ≤ now)
    (hr : env.timeProc te.timeProc
        { w.eventLoop with
          timeEventHead := pre ++ { te with refcount := te.refcount + 1 } :: suf }
        te.id te.clientData = r)
    (hl1 : r.1.timeEventHead = pre1 ++ te1 :: suf1)
    (ha : te1.addr = te.addr) (hf1 : te1.addr ∉ pre1.map (fun x => x.addr)) :
    processTimeEvents.walk env maxId (fuel + 1) w (some te.addr) now processed =
      processTimeEvents.walk env maxId fuel
        { w with
          eventLoop :=
            { r.1 with
              timeEventHead :=
                pre1 ++ processTimeEvents.rearm te1 r.2 (env.getMonotonicUs w.clockReads) ::
                  suf1 },
          clockReads := w.clockReads + 1,
          calls := w.calls ++ [aeCall.timeProc te.timeProc te.id te.clientData] }
        (suf1.head?.map (fun x => x.addr)) (env.getMonotonicUs w.clockReads)
        (processed + 1) := by
  rw [processTimeEvents.walk]
  simp only [hl, timeEventIndex_spec pre suf te hf, getElem?_mid, getElem?_next, set_mid]
  rw [if_neg h1, if_neg (by omega), if_pos h3]
  have hi := timeEventIndex_spec pre1 suf1 te1 hf1
  rw [ha] at hi
  dsimp only at hr
  simp only [hr, hl1, hi, getElem?_mid, getElem?_next, set_mid, getMonotonicUs]

theorem TimersEvolved.source {P : aeTimeEvent → Prop} {l l1 : List aeTimeEvent}
    (h : TimersEvolved P l l1) : ∀ b ∈ l1, ∃ a ∈ l, aeTimeEvent.Touched a b := by
  induction h with
  | nil => intro b hb; cases hb
  | keep ht _ _ ih =>
    intro b hb
    rcases List.mem_cons.1 hb with rfl | hb
    · exact ⟨_, List.mem_cons_self _ _, ht⟩
    · obtain ⟨a, ha, h1⟩ := ih b hb
      exact ⟨a, List.mem_cons_of_mem _ ha, h1⟩
  | drop _ _ ih =>
    intro b hb
    obtain ⟨a, ha, h1⟩ := ih b hb
    exact ⟨a, List.mem_cons_of_mem _ ha, h1⟩

theorem forall₂_head_addr {l l1 : List aeTimeEvent}
    (h : List.Forall₂ aeTimeEvent.Touched l l1) :
    l1.head?.map (fun x => x.addr) = l.head?.map (fun x => x.addr) := by
  cases h with
  | nil => rfl
  | cons ht _ => simp [ht.1]

theorem rearm_touched {te te1 : aeTimeEvent} (retval : Int) (now : Nat)
    (h : aeTimeEvent.Touched { te with refcount := te.refcount + 1 } te1) :
    aeTimeEvent.Touched te (processTimeEvents.rearm te1 retval now) := by
  obtain ⟨a1, a2, a3, a4, a5, a6⟩ := h
  have a2 : te1.refcount = te.refcount + 1 := a2
  unfold processTimeEvents.rearm
  split
  · exact ⟨a1, by show te1.refcount - 1 = te.refcount; omega, a3, a4, a5, a6⟩
  · exact ⟨a1, by show te1.refcount - 1 = te.refcount; omega, a3, a4, a5, Or.inr rfl⟩

theorem TimersEvolved.fate {P : aeTimeEvent → Prop} {l l1 : List aeTimeEvent}
    (h : TimersEvolved P l l1) (hn : (l.map (fun te => te.addr)).Nodup) :
    ∀ a ∈ l, (∃ b ∈ l1, aeTimeEvent.Touched a b) ∨
      (a.refcount = 0 ∧ a.addr ∉ l1.map (fun te => te.addr)) := by
  induction h with
  | nil => intro a ha; cases ha
  | keep ht _ h1 ih =>
    rename_i x y l l1
    rw [List.map_cons, List.nodup_cons] at hn
    intro a ha
    rcases List.mem_cons.1 ha with rfl | ha
    · exact Or.inl ⟨_, List.mem_cons_self _ _, ht⟩
    · rcases ih hn.2 a ha with ⟨b, hb, hab⟩ | ⟨h0, hm⟩
      · exact Or.inl ⟨b, List.mem_cons_of_mem _ hb, hab⟩
      · refine Or.inr ⟨h0, ?_⟩
        rw [List.map_cons]
        intro hc
        rcases List.mem_cons.1 hc with e | hc
        · apply hn.1
          rw [← ht.1, ← e]
          exact List.mem_map.2 ⟨a, ha, rfl⟩
        · exact hm hc
  | drop h0 h1 ih =>
    rename_i x l l1
    rw [List.map_cons, List.nodup_cons] at hn
    intro a ha
    rcases List.mem_cons.1 ha with rfl | ha
    · exact Or.inr ⟨h0, fun hc => hn.1 (h1.addrs.subset hc)⟩
    · exact ih hn.2 a ha

set_option maxHeartbeats 800000

set_option maxHeartbeats 200000

theorem Reenters.reenters_refl (l : aeEventLoop) : Reenters l l :=
  fun h => ⟨h, [], l.timeEventHead, rfl, TimersEvolved.evolved_refl _ (fun _ _ => trivial)⟩

theorem Reenters.reenters_trans {a b c : aeEventLoop} (h1 : Reenters a b)
    (h2 : Reenters b c) : Reenters a c := by
  intro ha
  obtain ⟨hb, f1, r1, e1, t1⟩ := h1 ha
  obtain ⟨hc, f2, r2, e2, t2⟩ := h2 hb
  rw [e1] at t2
  obtain ⟨f1', r1', rfl, _, t3⟩ := TimersEvolved.evolved_split f1 t2
  exact ⟨hc, f2 ++ f1', r1', by rw [e2, List.append_assoc], t1.evolved_trans t3⟩

theorem Grows.grows_refl (l : aeEventLoop) : Grows l l :=
  fun h => ⟨h, [], l.timeEventHead, rfl,
    List.forall₂_same.2 (fun a _ => Touched.touched_refl a)⟩

/-- A callback may create timers: `aeCreateTimeEvent` links the new timer before the others,
at a new address. -/
theorem aeCreateTimeEvent_grows (env : aeEnv) (w : aeWorld) (milliseconds : Int)
    (proc clientData : Nat) (finalizerProc : Option Nat) :
    Grows w.eventLoop
      (aeCreateTimeEvent env w milliseconds proc clientData finalizerProc).1.eventLoop := by
  intro hinv
  have hc := hinv.counter
  have hn : ((w.eventLoop.timeEventNextId.toNat : Nat) : Int) = w.eventLoop.timeEventNextId :=
    Int.toNat_of_nonneg hc
  refine ⟨⟨?_, ?_, ?_, ?_⟩, [_], w.eventLoop.timeEventHead, rfl,
    List.forall₂_same.2 (fun a _ => Touched.touched_refl a)⟩
  · show ((_ :: w.eventLoop.timeEventHead).map (fun te => te.addr)).Nodup
    rw [List.map_cons, List.nodup_cons]
    refine ⟨?_, hinv.nodup⟩
    intro hm
    obtain ⟨te, hte, e⟩ := List.mem_map.1 hm
    have := hinv.below te hte
    have e : te.addr = w.eventLoop.timeEventNextId.toNat := e
    rw [e, hn] at this
    omega
  · intro te hte
    rcases List.mem_cons.1 hte with rfl | hte
    · exact Int.le_refl 0
    · exact hinv.refs te hte
  · show 0 ≤ w.eventLoop.timeEventNextId + 1
    omega
  · intro te hte
    show (te.addr : Int) < w.eventLoop.timeEventNextId + 1
    rcases List.mem_cons.1 hte with rfl | hte
    · show ((w.eventLoop.timeEventNextId.toNat : Nat) : Int) < _
      rw [hn]; omega
    · have := hinv.below te hte
      omega

/-- A pass over `exampleReentry`: timer B is not due; timer A is fired, and its callback runs
a pass of its own, which fires B (now due), whose callback deletes A, then walks over A
(deleted, `refcount` 1) and unlinks C.  Back in the outer pass A is found at its address and
stored back with `refcount` 0; it is still linked, deleted, and the next pass unlinks B and A
and calls the finalizer of each once.  The loop that finds A by its distance from the tail
stores to B instead, after C has gone. -/
theorem exampleReentry_run :
    (processTimeEvents.reentrant exampleOuter exampleReentry).map
      (fun r => (r.1.calls, r.2, r.1.eventLoop.timeEventHead.map
        (fun te => (te.addr, te.id, te.refcount)))) =
      some ([aeCall.timeProc 1 1 10], 1,
        [(2, AE_DELETED_EVENT_ID, 0), (1, AE_DELETED_EVENT_ID, 0)]) ∧
    ((processTimeEvents.reentrant exampleOuter exampleReentry).bind
      (fun r => processTimeEvents.reentrant exampleOuter r.1)).map
      (fun r => (r.1.calls, r.2, r.1.eventLoop.timeEventHead)) =
      some ([aeCall.timeProc 1 1 10, aeCall.finalizerProc 8 20, aeCall.finalizerProc 7 10],
        0, []) ∧
    (processTimeEvents exampleOuter exampleReentry).map
      (fun r => r.1.eventLoop.timeEventHead.map (fun te => (te.addr, te.id, te.refcount))) =
      some [(2, AE_DELETED_EVENT_ID, -1), (1, AE_DELETED_EVENT_ID, 1)] :=
  ⟨by decide, by decide, by decide⟩

/-! ### The two forms of the loop of `processTimeEvents` -/

theorem setTimeEventAt_eq (w : aeWorld) (pre suf : List aeTimeEvent) (te x : aeTimeEvent)
    (k : Nat) (h : w.eventLoop.timeEventHead = pre ++ te :: suf) (hk : suf.length = k) :
    setTimeEventAt w (k + 1) x =
      { w with eventLoop := { w.eventLoop with timeEventHead := pre ++ x :: suf } } := by
  subst hk
  unfold setTimeEventAt
  have : (pre ++ te :: suf).length - (suf.length + 1) = pre.length := by simp
  simp only [h, this, set_mid]

theorem unlinkTimeEventAt_eq (w : aeWorld) (pre suf : List aeTimeEvent) (te : aeTimeEvent)
    (k : Nat) (h : w.eventLoop.timeEventHead = pre ++ te :: suf) (hk : suf.length = k) :
    unlinkTimeEventAt w (k + 1) =
      { w with eventLoop := { w.eventLoop with timeEventHead := pre ++ suf } } := by
  subst hk
  unfold unlinkTimeEventAt
  have : (pre ++ te :: suf).length - (suf.length + 1) = pre.length := by simp
  simp only [h, this, eraseIdx_mid]

theorem forall₂_marked_touched {l l1 : List aeTimeEvent}
    (h : List.Forall₂ aeTimeEvent.Marked l l1) : List.Forall₂ aeTimeEvent.Touched l l1 :=
  h.imp (fun _ _ hm => Touched.of_marked hm)

/-- For callbacks that only create and delete timers, the loop with `te` as a pointer is the
loop with `te` as a distance from the tail. -/
theorem walk_eq_loop (env : aeEnv) (hapi : env.TimersByApi) (henv : env.Reentrant)
    (maxId : Int) :
    ∀ (k : Nat) (todo done : List aeTimeEvent) (w : aeWorld) (now : Nat) (processed : Int),
      todo.length = k → w.eventLoop.timeEventHead = done ++ todo → TimerInv w.eventLoop →
      processTimeEvents.walk env maxId k w (todo.head?.map (fun x => x.addr)) now processed =
        processTimeEvents.loop env maxId k w now processed := by
  intro k
  induction k with
  | zero =>
    intro todo done w now processed hk hl hinv
    have : todo = [] := List.length_eq_zero.1 hk
    subst this
    rw [processTimeEvents.loop]
    exact walk_null env maxId 0 w now processed
  | succ k ih =>
    intro todo done w now processed hk hl hinv
    cases todo with
    | nil => simp at hk
    | cons te suf =>
      have hk1 : suf.length = k := by simpa using hk
      have hfa := hinv.fresh_addr hl
      have hat := timeEventAt_split w done suf te k hl hk1
      have hte0 : 0 ≤ te.refcount :=
        hinv.refs te (by rw [hl]; exact List.mem_append_right _ (List.mem_cons_self _ _))
      show processTimeEvents.walk env maxId (k + 1) w (some te.addr) now processed = _
      have hnext : ∀ now1 processed1,
          processTimeEvents.walk env maxId k w (suf.head?.map (fun x => x.addr)) now1
              processed1 =
            processTimeEvents.loop env maxId k w now1 processed1 :=
        fun now1 processed1 =>
          ih suf (done ++ [te]) w now1 processed1 hk1 (by simp [hl]) hinv
      by_cases hd : te.id = AE_DELETED_EVENT_ID
      · by_cases hr : te.refcount = 0
        · rw [walk_unlink env maxId k w done suf te now processed hl hfa hd hr]
          have hinv1 := hinv.unlink hl
          cases hfin : te.finalizerProc with
          | none =>
            rw [loop_unlink env maxId k w now processed te hat hd hr hfin,
              unlinkTimeEventAt_eq w done suf te k hl hk1]
            exact ih suf done _ now processed hk1 rfl hinv1
          | some proc =>
            rw [loop_finalize env maxId k w now processed te proc hat hd hr hfin]
            unfold processTimeEvents.finalized
            rw [unlinkTimeEventAt_eq w done suf te k hl hk1]
            obtain ⟨hinv2, -⟩ := henv.finalizerProc proc
              { w.eventLoop with timeEventHead := done ++ suf } te.clientData hinv1
            obtain ⟨fresh, old1, hl2, hm, -⟩ := (hapi.finalizerProc proc
              { w.eventLoop with timeEventHead := done ++ suf } te.clientData).grown
            obtain ⟨dA, sufA, rfl, -, hsufA⟩ := forall₂_append_split done suf old1 hm
            have hl3 := hl2.trans (List.append_assoc fresh dA sufA).symm
            rw [← forall₂_head_addr (forall₂_marked_touched hsufA)]
            exact ih sufA (fresh ++ dA) _ (env.getMonotonicUs w.clockReads) processed
              (hsufA.length_eq.symm.trans hk1) hl3 hinv2
        · rw [walk_skip env maxId k w done suf te now processed hl hfa (Or.inl ⟨hd, hr⟩),
            loop_referenced env maxId k w now processed te hat hd hr]
          exact hnext now processed
      · by_cases hm : maxId < te.id
        · rw [walk_skip env maxId k w done suf te now processed hl hfa
              (Or.inr ⟨hd, Or.inl hm⟩),
            loop_future env maxId k w now processed te hat hd hm]
          exact hnext now processed
        · by_cases hn : now < te.when
          · rw [walk_skip env maxId k w done suf te now processed hl hfa
                (Or.inr ⟨hd, Or.inr hn⟩),
              loop_waiting env maxId k w now processed te hat hd hn]
            exact hnext now processed
          · have hm1 : te.id ≤ maxId := by omega
            have hn1 : te.when ≤ now := by omega
            rw [loop_fire env maxId k w now processed te hat hd hm1 hn1]
            unfold processTimeEvents.called processTimeEvents.retval
            rw [setTimeEventAt_eq w done suf te { te with refcount := te.refcount + 1 } k hl
              hk1]
            have hinv1 := hinv.store hl { te with refcount := te.refcount + 1 } rfl
              (by show 0 ≤ te.refcount + 1; omega)
            obtain ⟨r, hr⟩ : ∃ r, env.timeProc te.timeProc
                { w.eventLoop with
                  timeEventHead := done ++ { te with refcount := te.refcount + 1 } :: suf }
                te.id te.clientData = r := ⟨_, rfl⟩
            have hre := henv.timeProc te.timeProc
              { w.eventLoop with
                timeEventHead := done ++ { te with refcount := te.refcount + 1 } :: suf }
              te.id te.clientData hinv1
            have hgr := (hapi.timeProc te.timeProc
              { w.eventLoop with
                timeEventHead := done ++ { te with refcount := te.refcount + 1 } :: suf }
              te.id te.clientData).grown
            dsimp only at hr hre hgr ⊢
            rw [hr] at hre hgr ⊢
            obtain ⟨hinv2, -⟩ := hre
            obtain ⟨fresh, old1, hl2, hmk, -⟩ := hgr
            obtain ⟨dA, x, rfl, -, hx⟩ := forall₂_append_split done _ old1 hmk
            cases hx with
            | cons hte1 hsufA =>
              rename_i te1 sufA
              have hl3 : r.1.timeEventHead = (fresh ++ dA) ++ te1 :: sufA := by
                rw [hl2, List.append_assoc]
              have hkA : sufA.length = k := hsufA.length_eq.symm.trans hk1
              have htouch := Touched.of_marked hte1
              rw [walk_fire env maxId k w done suf (fresh ++ dA) sufA te te1 now processed r
                hl hfa hd hm1 hn1 hr hl3 htouch.1 (hinv2.fresh_addr hl3)]
              rw [timeEventAt_split _ (fresh ++ dA) sufA te1 k hl3 hkA]
              dsimp only
              rw [setTimeEventAt_eq _ (fresh ++ dA) sufA te1 _ k hl3 hkA]
              have ht2 := rearm_touched r.2 (env.getMonotonicUs w.clockReads) htouch
              have hinv3 := hinv2.store hl3
                (processTimeEvents.rearm te1 r.2 (env.getMonotonicUs w.clockReads))
                (ht2.1.trans htouch.1.symm) (ht2.2.1 ▸ hte0)
              exact ih sufA ((fresh ++ dA) ++
                  [processTimeEvents.rearm te1 r.2 (env.getMonotonicUs w.clockReads)]) _
                (env.getMonotonicUs w.clockReads) (processed + 1) hkA (by simp) hinv3

theorem reentrant_eq (env : aeEnv) (hapi : env.TimersByApi) (henv : env.Reentrant)
    (w : aeWorld) (hinv : TimerInv w.eventLoop) :
    processTimeEvents.reentrant env w = processTimeEvents env w :=
  walk_eq_loop env hapi henv (w.eventLoop.timeEventNextId - 1)
    w.eventLoop.timeEventHead.length w.eventLoop.timeEventHead []
    { w with clockReads := w.clockReads + 1 } (env.getMonotonicUs w.clockReads) 0 rfl rfl hinv

/-- A fresh event loop has the invariant of the timers. -/
theorem aeCreateEventLoop_timerInv (setsize : Int) : TimerInv (aeCreateEventLoop setsize) :=
  ⟨List.nodup_nil, fun _ h => (by cases h), Int.le_refl 0, fun _ h => (by cases h)⟩

theorem exampleEnv_reentrant : exampleEnv.Reentrant :=
  ⟨fun _ l _ _ => Reenters.reenters_refl l, fun _ l _ => Grows.grows_refl l⟩

theorem exampleNested_agree :
    TimerInv exampleNested.eventLoop ∧
    processTimeEvents.reentrant exampleEnv exampleNested =
      processTimeEvents exampleEnv exampleNested :=
  ⟨⟨by decide, by decide, by decide, by decide⟩,
    reentrant_eq exampleEnv exampleEnv_timersByApi exampleEnv_reentrant exampleNested
      ⟨by decide, by decide, by decide, by decide⟩⟩

end Ae

namespace Sds

/-! ### Ranges -/

theorem toSsize_toSize (x : Int) (h1 : -2 ^ 63 ≤ x) (h2 : x < 2 ^ 63) :
    toSsize (toSize x) = x := by
  unfold toSsize toSize
  omega

theorem toSize_toSsize (x : Int) (h1 : 0 ≤ x) (h2 : x ≤ 2 ^ 63) :
    toSize (toSsize x) = x.toNat := by
  unfold toSsize toSize
  omega

theorem toSsize_nat (n : Nat) (h : n < 2 ^ 63) : toSsize (n : Int) = n := by
  unfold toSsize
  omega

theorem type_eq_mod (flags : Nat) : flags &&& SDS_TYPE_MASK = flags % 8 :=
  Nat.and_pow_two_sub_one_eq_mod flags 3

theorem sdslen_type5 (s : sds) (h : s.flags % 8 = 0) : sdslen s = s.flags / 8 := by
  unfold sdslen
  simp only [type_eq_mod, h, SDS_TYPE_5, if_true, SDS_TYPE_5_LEN, SDS_TYPE_BITS,
    Nat.shiftRight_eq_div_pow]

theorem sdslen_other (s : sds) (h0 : s.flags % 8 ≠ 0) (h4 : s.flags % 8 ≤ 4) :
    sdslen s = s.len := by
  unfold sdslen
  simp only [type_eq_mod, SDS_TYPE_5, SDS_TYPE_8, SDS_TYPE_16, SDS_TYPE_32, SDS_TYPE_64]
  have : s.flags % 8 = 1 ∨ s.flags % 8 = 2 ∨ s.flags % 8 = 3 ∨ s.flags % 8 = 4 := by omega
  rcases this with h | h | h | h <;> simp [h]

theorem sdssetlen_buf (s : sds) (newlen : Nat) : (sdssetlen s newlen).buf = s.buf := by
  unfold sdssetlen
  dsimp only
  repeat' split
  all_goals rfl

theorem sdssetlen_spec (s : sds) (newlen : Nat) (hf : s.flags < 2 ^ 8)
    (ht : s.flags &&& SDS_TYPE_MASK ≤ SDS_TYPE_64)
    (hl : s.flags &&& SDS_TYPE_MASK ≠ SDS_TYPE_5 →
      s.len < 2 ^ (2 ^ ((s.flags &&& SDS_TYPE_MASK) + 2)))
    (hn : newlen ≤ sdslen s) :
    sdslen (sdssetlen s newlen) = newlen ∧
    (sdssetlen s newlen).flags < 2 ^ 8 ∧
    (sdssetlen s newlen).flags &&& SDS_TYPE_MASK ≤ SDS_TYPE_64 ∧
    ((sdssetlen s newlen).flags &&& SDS_TYPE_MASK ≠ SDS_TYPE_5 →
      (sdssetlen s newlen).len < 2 ^ (2 ^ (((sdssetlen s newlen).flags &&& SDS_TYPE_MASK) + 2)))
    := by
  rw [type_eq_mod] at ht hl
  simp only [SDS_TYPE_64, SDS_TYPE_5] at ht hl
  have hcases : s.flags % 8 = 0 ∨ s.flags % 8 = 1 ∨ s.flags % 8 = 2 ∨ s.flags % 8 = 3 ∨
      s.flags % 8 = 4 := by omega
  rcases hcases with h | h | h | h | h
  · have hlen := sdslen_type5 s h
    have e : sdssetlen s newlen = { s with flags := newlen * 8 } := by
      unfold sdssetlen
      simp only [type_eq_mod, h, SDS_TYPE_5, if_true, SDS_TYPE_BITS, Nat.zero_or,
        Nat.shiftLeft_eq]
      have : newlen * 2 ^ 3 % 2 ^ 8 = newlen * 8 := by omega
      rw [this]
    rw [e]
    refine ⟨?_, ?_, ?_, ?_⟩
    · rw [sdslen_type5 _ (by simp)]
      simp
    · simp only; omega
    · rw [type_eq_mod]; simp [SDS_TYPE_64]
    · rw [type_eq_mod]; simp [SDS_TYPE_5]
  all_goals
    have hlen := sdslen_other s (by omega) (by omega)
    have hl1 := hl (by omega)
    rw [h] at hl1
    norm_num at hl1
    have e : sdssetlen s newlen = { s with len := newlen } := by
      unfold sdssetlen
      simp only [type_eq_mod, h, SDS_TYPE_5, SDS_TYPE_8, SDS_TYPE_16, SDS_TYPE_32,
        SDS_TYPE_64]
      norm_num
      omega
    rw [e]
    refine ⟨?_, hf, ?_, ?_⟩
    · rw [sdslen_other _ (by simp only; omega) (by simp only; omega)]
    · rw [type_eq_mod]; simp only [SDS_TYPE_64]; omega
    · intro _
      rw [type_eq_mod]
      simp only [h]
      norm_num
      omega

theorem index_spec (len : Nat) (index : Int) (hL : len < 2 ^ 63) (h1 : -2 ^ 63 ≤ index)
    (h2 : index < 2 ^ 63) :
    sdsrange.index len index = if index < 0 then max 0 ((len : Int) + index) else index := by
  unfold sdsrange.index
  split
  · rw [toSsize_toSize _ (by omega) (by omega)]
    dsimp only
    split <;> omega
  · rfl

theorem newlen_spec (len : Nat) (start end_ : Int) (h0 : 0 < len) (hL : len < 2 ^ 63)
    (hs1 : 0 ≤ start) (hs2 : start < 2 ^ 63) (he1 : 0 ≤ end_) (he2 : end_ < 2 ^ 63) :
    sdsrange.newlen len start end_ =
      if start > min end_ ((len : Int) - 1) ∨ start ≥ (len : Int) then 0
      else (min end_ ((len : Int) - 1) - start + 1).toNat := by
  unfold sdsrange.newlen
  rw [toSsize_nat len hL, toSsize_toSize _ (by omega) (by omega)]
  dsimp only
  by_cases hse : start > end_
  · simp only [hse, if_true, ne_eq, not_true_eq_false, if_false]
    rw [if_pos (by omega)]
  · simp only [hse, if_false]
    rw [toSize_toSsize _ (by omega) (by omega)]
    have hne : (end_ - start + 1).toNat ≠ 0 := by omega
    simp only [ne_eq, hne, not_false_eq_true, if_true]
    by_cases hsl : start ≥ (len : Int)
    · rw [if_pos hsl, if_pos (Or.inr hsl)]
    · rw [if_neg hsl]
      by_cases hel : end_ ≥ (len : Int)
      · rw [if_pos hel, if_neg (by omega), toSize_toSsize _ (by omega) (by omega),
          if_neg (by omega)]
        congr 1
        omega
      · rw [if_neg hel, if_neg (by omega)]
        congr 1
        omega

theorem sdslen_buf (s : sds) (buf : List Nat) : sdslen { s with buf := buf } = sdslen s := rfl

theorem take_drop_take (l : List Nat) (len k n : Nat) (h : k + n ≤ len) :
    ((l.take len).drop k).take n = (l.drop k).take n := by
  rw [List.drop_take, List.take_take]
  congr 1
  omega

theorem moved_spec (buf : List Nat) (st n len : Nat) (hn : n ≠ 0 → st + n ≤ len)
    (hlen : len < buf.length) (hnl : n ≤ len) :
    ∃ buf1, (if (st : Int) ≠ 0 ∧ n ≠ 0 then memmove buf st n else some buf) = some buf1 ∧
      buf1.length = buf.length ∧ buf1.take n = (buf.drop st).take n := by
  by_cases hc : (st : Int) ≠ 0 ∧ n ≠ 0
  · rw [if_pos hc]
    have h1 := hn hc.2
    refine ⟨(buf.drop st).take n ++ buf.drop n, ?_, ?_, ?_⟩
    · unfold memmove
      rw [if_pos (by omega)]
    · simp only [List.length_append, List.length_take, List.length_drop]
      omega
    · rw [List.take_append_of_le_length (by simp; omega), List.take_take]
      simp
  · rw [if_neg hc]
    refine ⟨buf, rfl, rfl, ?_⟩
    by_cases hn0 : n = 0
    · simp [hn0]
    · have : st = 0 := by
        by_contra h
        exact hc ⟨by exact_mod_cast h, hn0⟩
      simp [this]

theorem exampleCiao_wf : exampleCiao.WellFormed := by
  refine ⟨by decide, by decide, by decide, by decide, ?_, by decide⟩
  have : exampleCiao.buf.length = 8 := by decide
  rw [this]
  norm_num

/-- C30: for every well-formed, non-empty `sds` string `s` and all `start`, `end` of type
`ssize_t`, `sdsrange(s, start, end)` returns, and afterwards the bytes of `s` are the
substring `rangeSpec` of its former bytes (negative indices count from the end and are clamped
to 0, `end` is clamped to `len - 1`, empty when the start is after the end or not below the
length, otherwise the inclusive substring), the stored length is the length of that substring,
the byte after the string is zero, and the string is well-formed again. -/
theorem C30_sdsrange (s : sds) (start end_ : Int) (hw : s.WellFormed) (hne : sdslen s ≠ 0)
    (hs1 : -2 ^ 63 ≤ start) (hs2 : start < 2 ^ 63) (he1 : -2 ^ 63 ≤ end_)
    (he2 : end_ < 2 ^ 63) :
    ∃ s1, sdsrange s start end_ = some s1 ∧
      s1.content = rangeSpec s.content start end_ ∧
      sdslen s1 = (rangeSpec s.content start end_).length ∧
      s1.buf[sdslen s1]? = some 0 ∧ s1.WellFormed := by
  have hroom := hw.room
  have hsmall := hw.small
  have hL : sdslen s < 2 ^ 63 := by omega
  have hclen : s.content.length = sdslen s := by
    simp only [sds.content, List.length_take]
    omega
  -- the indices and the new length, as the code computes them
  have hst := index_spec (sdslen s) start hL hs1 hs2
  have hen := index_spec (sdslen s) end_ hL he1 he2
  have hst0 : 0 ≤ sdsrange.index (sdslen s) start := by rw [hst]; split <;> omega
  have hst1 : sdsrange.index (sdslen s) start < 2 ^ 63 := by rw [hst]; split <;> omega
  have hen0 : 0 ≤ sdsrange.index (sdslen s) end_ := by rw [hen]; split <;> omega
  have hen1 : sdsrange.index (sdslen s) end_ < 2 ^ 63 := by rw [hen]; split <;> omega
  have hnew := newlen_spec (sdslen s) _ _ (by omega) hL hst0 hst1 hen0 hen1
  generalize hstv : sdsrange.index (sdslen s) start = st at hst hst0 hst1 hnew
  generalize henv : sdsrange.index (sdslen s) end_ = en at hen hen0 hen1 hnew
  generalize hnv : sdsrange.newlen (sdslen s) st en = n at hnew
  have hnl : n ≤ sdslen s := by rw [hnew]; split <;> omega
  have hsum : n ≠ 0 → st.toNat + n ≤ sdslen s := by
    intro h
    rw [hnew] at h ⊢
    split at h
    · exact absurd rfl h
    · rw [if_neg (by assumption)]
      omega
  -- the specification computes the same substring
  have hspec : rangeSpec s.content start end_ = (s.buf.drop st.toNat).take n := by
    unfold rangeSpec
    simp only [hclen]
    rw [← hst, ← hen, hnew]
    by_cases hc : st > min en ((sdslen s : Int) - 1) ∨ st ≥ (sdslen s : Int)
    · rw [if_pos hc, if_pos hc]
      simp
    · rw [if_neg hc, if_neg hc]
      unfold sds.content
      exact take_drop_take _ _ _ _ (by omega)
  obtain ⟨buf1, hm, hlen1, htake⟩ := moved_spec s.buf st.toNat n (sdslen s) hsum hroom hnl
  have hstnat : ((st.toNat : Nat) : Int) = st := Int.toNat_of_nonneg hst0
  rw [hstnat] at hm
  have hset := sdssetlen_spec { s with buf := buf1.set n 0 } n hw.flags hw.type hw.len
    (by rw [sdslen_buf]; exact hnl)
  obtain ⟨g1, g2, g3, g4⟩ := hset
  have hbuf : (sdssetlen { s with buf := buf1.set n 0 } n).buf = buf1.set n 0 :=
    sdssetlen_buf _ _
  have hterm : (sdssetlen { s with buf := buf1.set n 0 } n).buf[
      sdslen (sdssetlen { s with buf := buf1.set n 0 } n)]? = some 0 := by
    rw [g1, hbuf, List.getElem?_set_self (by omega)]
  refine ⟨sdssetlen { s with buf := buf1.set n 0 } n, ?_, ?_, ?_, hterm, ?_⟩
  · unfold sdsrange
    simp only [hne, if_false, hstv, henv, hnv, hm]
    rw [if_pos (by omega)]
  · rw [hspec]
    unfold sds.content
    rw [g1, hbuf, ← htake, List.set_take, List.set_eq_of_length_le (by simp)]
  · rw [g1, hspec]
    simp only [List.length_take, List.length_drop]
    by_cases h0 : n = 0
    · omega
    · have := hsum h0
      omega
  · exact ⟨g2, g3, g4, by rw [g1, hbuf, List.length_set]; omega,
      by rw [hbuf, List.length_set]; omega, hterm⟩

/-- The cases of `sdsTest` for `sdsrange` on "ciao": the code and the specification give "i",
"iao", "ao", "", "iao" and "", each followed by a zero byte. -/
theorem exampleCiao_ranges :
    exampleCiao.content = [99, 105, 97, 111] ∧
    (sdsrange exampleCiao 1 1).map (fun s => (sdslen s, s.buf.take (sdslen s + 1))) =
      some (1, [105, 0]) ∧
    (sdsrange exampleCiao 1 (-1)).map (fun s => (sdslen s, s.buf.take (sdslen s + 1))) =
      some (3, [105, 97, 111, 0]) ∧
    (sdsrange exampleCiao (-2) (-1)).map (fun s => (sdslen s, s.buf.take (sdslen s + 1))) =
      some (2, [97, 111, 0]) ∧
    (sdsrange exampleCiao 2 1).map (fun s => (sdslen s, s.buf.take (sdslen s + 1))) =
      some (0, [0]) ∧
    (sdsrange exampleCiao 1 100).map (fun s => (sdslen s, s.buf.take (sdslen s + 1))) =
      some (3, [105, 97, 111, 0]) ∧
    (sdsrange exampleCiao 100 100).map (fun s => (sdslen s, s.buf.take (sdslen s + 1))) =
      some (0, [0]) ∧
    rangeSpec [99, 105, 97, 111] 1 1 = [105] ∧
    rangeSpec [99, 105, 97, 111] 1 (-1) = [105, 97, 111] ∧
    rangeSpec [99, 105, 97, 111] (-2) (-1) = [97, 111] ∧
    rangeSpec [99, 105, 97, 111] 2 1 = [] ∧
    rangeSpec [99, 105, 97, 111] 1 100 = [105, 97, 111] ∧
    rangeSpec [99, 105, 97, 111] 100 100 = [] := by
  refine ⟨by decide, by decide, by decide, by decide, by decide, by decide, by decide,
    by decide, by decide, by decide, by decide, by decide, by decide⟩

theorem C30_witness :
    exampleCiao.WellFormed ∧ sdslen exampleCiao ≠ 0 ∧
    (-2 ^ 63 : Int) ≤ -2 ∧ (-2 : Int) < 2 ^ 63 ∧ (-2 ^ 63 : Int) ≤ -1 ∧ (-1 : Int) < 2 ^ 63 ∧
    ∃ s1, sdsrange exampleCiao (-2) (-1) = some s1 ∧
      s1.content = rangeSpec exampleCiao.content (-2) (-1) ∧
      sdslen s1 = (rangeSpec exampleCiao.content (-2) (-1)).length ∧
      s1.buf[sdslen s1]? = some 0 ∧ s1.WellFormed :=
  ⟨exampleCiao_wf, by decide, by decide, by decide, by decide, by decide,
    C30_sdsrange exampleCiao (-2) (-1) exampleCiao_wf (by decide) (by decide)
      (by decide) (by decide) (by decide)⟩

/-! ### Trimming -/

theorem strchr_isSome (cset : List Nat) (ch : Nat) (hc : (strlen cset).isSome = true) :
    (strchr cset ch).isSome = true := by
  induction cset with
  | nil => simp [strlen] at hc
  | cons b rest ih =>
    unfold strchr
    by_cases h1 : b = ch
    · simp [h1]
    · rw [if_neg h1]
      by_cases h2 : b = 0
      · simp [h2]
      · rw [if_neg h2]
        have : (strlen rest).isSome = true := by
          unfold strlen at hc
          rw [if_neg h2] at hc
          simpa using hc
        simpa using ih this

theorem found_iff (cset : List Nat) (ch m : Nat) (hc : strlen cset = some m) :
    sdstrim.found cset ch = true ↔ ch = 0 ∨ ch ∈ cset.take m := by
  induction cset generalizing m with
  | nil => simp [strlen] at hc
  | cons b rest ih =>
    unfold sdstrim.found strchr
    by_cases h1 : b = ch
    · rw [if_pos h1]
      simp only [true_iff]
      by_cases h2 : b = 0
      · left; omega
      · right
        unfold strlen at hc
        rw [if_neg h2] at hc
        cases hr : strlen rest with
        | none => simp [hr] at hc
        | some k =>
          simp only [hr, Option.map_some', Option.some.injEq] at hc
          subst hc
          simp [h1]
    · rw [if_neg h1]
      by_cases h2 : b = 0
      · rw [if_pos h2]
        unfold strlen at hc
        rw [if_pos h2] at hc
        simp only [Option.some.injEq] at hc
        subst hc
        simp only [List.take_zero, List.not_mem_nil, or_false]
        constructor
        · intro h; cases h
        · intro h; omega
      · rw [if_neg h2]
        unfold strlen at hc
        rw [if_neg h2] at hc
        cases hr : strlen rest with
        | none => simp [hr] at hc
        | some k =>
          simp only [hr, Option.map_some', Option.some.injEq] at hc
          subst hc
          have ih1 := ih k hr
          unfold sdstrim.found at ih1
          simp only [List.take_succ_cons, List.mem_cons]
          have hne : ch ≠ b := fun h => h1 h.symm
          simp only [hne, false_or]
          rw [← ih1]
          cases strchr rest ch with
          | none => simp
          | some r => cases r <;> simp

theorem strchr_cases (cset : List Nat) (ch : Nat) (hc : (strlen cset).isSome = true) :
    (strchr cset ch = some none ∧ sdstrim.found cset ch = false) ∨
    ∃ i, strchr cset ch = some (some i) ∧ sdstrim.found cset ch = true := by
  have h := strchr_isSome cset ch hc
  unfold sdstrim.found
  cases hr : strchr cset ch with
  | none => simp [hr] at h
  | some r => cases r <;> simp

theorem left_spec (cset buf : List Nat) (len : Nat) (hc : (strlen cset).isSome = true)
    (hlen : len ≤ buf.length) (fuel sp : Nat) (hsp : sp ≤ len) (hf : len - sp < fuel) :
    sdstrim.left cset buf ((len : Int) - 1) fuel sp =
      some (sp + (((buf.take len).drop sp).takeWhile (sdstrim.found cset)).length) := by
  induction fuel generalizing sp with
  | zero => omega
  | succ fuel ih =>
    unfold sdstrim.left
    by_cases h1 : (sp : Int) ≤ (len : Int) - 1
    · rw [if_pos h1]
      have hlt : sp < len := by omega
      have hb : buf[sp]? = some buf[sp] := List.getElem?_eq_getElem (by omega)
      rw [hb]
      simp only
      have hd : (buf.take len).drop sp = buf[sp] :: (buf.take len).drop (sp + 1) := by
        rw [List.drop_eq_getElem_cons (by simp; omega)]
        simp
      rw [hd, List.takeWhile_cons]
      rcases strchr_cases cset buf[sp] hc with ⟨hr, hfnd⟩ | ⟨i, hr, hfnd⟩
      · rw [hr]
        simp [hfnd]
      · rw [hr]
        simp only
        rw [ih (sp + 1) (by omega) (by omega)]
        simp only [hfnd, if_true, List.length_cons]
        congr 1
        omega
    · rw [if_neg h1]
      have : sp = len := by omega
      subst this
      simp

theorem right_spec (cset buf : List Nat) (sp : Nat) (hc : (strlen cset).isSome = true)
    (hsp : sp < buf.length) (hnot : sdstrim.found cset buf[sp] = false)
    (fuel k : Nat) (hk : sp + k < buf.length) (hf : k < fuel) :
    ∃ n : Nat, sdstrim.right cset buf sp fuel ((sp : Int) + k) = some ((sp : Int) + n) ∧
      (((buf.drop sp).take (k + 1)).rdropWhile (sdstrim.found cset)).length = n + 1 := by
  induction fuel generalizing k with
  | zero => omega
  | succ fuel ih =>
    unfold sdstrim.right
    cases k with
    | zero =>
      refine ⟨0, by simp, ?_⟩
      have hd : (buf.drop sp).take 1 = [] ++ [buf[sp]] := by
        rw [List.drop_eq_getElem_cons hsp, List.take_succ_cons, List.take_zero]
        rfl
      rw [hd, List.rdropWhile_concat_neg _ _ _ (by simp [hnot])]
      simp
    | succ k =>
      rw [if_pos (by omega)]
      have hidx : ((sp : Int) + ((k + 1 : Nat) : Int)).toNat = sp + (k + 1) := by omega
      rw [hidx]
      have hb : buf[sp + (k + 1)]? = some buf[sp + (k + 1)] :=
        List.getElem?_eq_getElem (by omega)
      rw [hb]
      simp only
      have hd : (buf.drop sp).take (k + 1 + 1) =
          (buf.drop sp).take (k + 1) ++ [buf[sp + (k + 1)]] := by
        rw [List.take_succ]
        congr 1
        rw [List.getElem?_drop, hb]
        rfl
      rw [hd]
      rcases strchr_cases cset buf[sp + (k + 1)] hc with ⟨hr, hfnd⟩ | ⟨i, hr, hfnd⟩
      · rw [hr, List.rdropWhile_concat_neg _ _ _ (by simp [hfnd])]
        refine ⟨k + 1, rfl, ?_⟩
        simp only [List.length_append, List.length_take, List.length_drop, List.length_cons,
          List.length_nil]
        omega
      · rw [hr, List.rdropWhile_concat_pos _ _ _ hfnd]
        simp only
        obtain ⟨n, h1, h2⟩ := ih k (by omega) (by omega)
        refine ⟨n, ?_, h2⟩
        rw [← h1]
        congr 1
        push_cast
        omega

theorem dropWhile_head (p : Nat → Bool) (l : List Nat) (a : Nat) (rest : List Nat)
    (h : l.dropWhile p = a :: rest) : p a = false := by
  induction l with
  | nil => simp at h
  | cons b tl ih =>
    rw [List.dropWhile_cons] at h
    by_cases hb : p b = true
    · rw [if_pos hb] at h
      exact ih h
    · rw [if_neg hb] at h
      simp only [List.cons.injEq] at h
      rw [← h.1]
      simpa using hb

theorem trim_loops (cset buf : List Nat) (len : Nat) (hc : (strlen cset).isSome = true)
    (hlen : len < buf.length) (hsmall : buf.length < 2 ^ 63) :
    ∃ (sp : Nat) (ep : Int) (n : Nat),
      sdstrim.left cset buf ((len : Int) - 1) (len + 1) 0 = some sp ∧
      sdstrim.right cset buf sp (len + 1) ((len : Int) - 1) = some ep ∧
      (if (sp : Int) > ep then 0 else toSize ((ep - sp) + 1)) = n ∧
      sp + n ≤ len ∧ (buf.drop sp).take n = trimSpec (sdstrim.found cset) (buf.take len) := by
  have hl := left_spec cset buf len hc (by omega) (len + 1) 0 (by omega) (by omega)
  simp only [List.drop_zero, Nat.zero_add] at hl
  have hsplit := List.takeWhile_append_dropWhile (sdstrim.found cset) (buf.take len)
  have hlens : ((buf.take len).takeWhile (sdstrim.found cset)).length +
      ((buf.take len).dropWhile (sdstrim.found cset)).length = len := by
    rw [← List.length_append, hsplit, List.length_take]
    omega
  have hdrop : (buf.take len).drop ((buf.take len).takeWhile (sdstrim.found cset)).length =
      (buf.take len).dropWhile (sdstrim.found cset) := by
    have h := @List.drop_left _ ((buf.take len).takeWhile (sdstrim.found cset))
      ((buf.take len).dropWhile (sdstrim.found cset))
    rw [hsplit] at h
    exact h
  generalize hsp : ((buf.take len).takeWhile (sdstrim.found cset)).length = sp at hl hlens hdrop
  generalize hdw : (buf.take len).dropWhile (sdstrim.found cset) = dw at hlens hdrop
  have hts : trimSpec (sdstrim.found cset) (buf.take len) =
      dw.rdropWhile (sdstrim.found cset) := by
    unfold trimSpec
    rw [hdw]
  rw [hts]
  by_cases hall : sp = len
  · -- every byte is in the set
    have hnil : dw = [] := List.eq_nil_of_length_eq_zero (by omega)
    refine ⟨sp, (len : Int) - 1, 0, hl, ?_, ?_, by omega, ?_⟩
    · unfold sdstrim.right
      rw [if_neg (by omega)]
    · rw [if_pos (by omega)]
    · rw [hnil]
      simp [List.rdropWhile]
  · have hlt : sp < len := by omega
    have hdw2 : dw = (buf.drop sp).take (len - sp) := by
      rw [← hdrop, List.drop_take]
    have hne : dw ≠ [] := by
      intro h
      rw [h] at hlens
      simp at hlens
      omega
    have hspb : sp < buf.length := by omega
    obtain ⟨a, rest, hd⟩ : ∃ a rest, dw = a :: rest := by
      cases dw with
      | nil => exact absurd rfl hne
      | cons a rest => exact ⟨a, rest, rfl⟩
    have hhead : sdstrim.found cset buf[sp] = false := by
      have h0 : ((buf.take len).drop sp)[0]? = some a := by rw [hdrop, hd]; simp
      rw [List.getElem?_drop, Nat.add_zero, List.getElem?_take_of_lt hlt,
        List.getElem?_eq_getElem hspb] at h0
      rw [Option.some.inj h0]
      rw [hd] at hdw
      exact dropWhile_head _ _ _ _ hdw
    obtain ⟨n, hr, hn⟩ := right_spec cset buf sp hc hspb hhead (len + 1) (len - 1 - sp)
      (by omega) (by omega)
    have hk : len - 1 - sp + 1 = len - sp := by omega
    rw [hk, ← hdw2] at hn
    have hcast : (sp : Int) + ((len - 1 - sp : Nat) : Int) = (len : Int) - 1 := by omega
    rw [hcast] at hr
    have hpre := List.rdropWhile_prefix (sdstrim.found cset) dw
    have hle : n + 1 ≤ dw.length := by
      rw [← hn]
      exact hpre.length_le
    refine ⟨sp, (sp : Int) + n, n + 1, hl, hr, ?_, by omega, ?_⟩
    · rw [if_neg (by omega)]
      unfold toSize
      omega
    · have h1 := List.prefix_iff_eq_take.mp hpre
      rw [hn] at h1
      rw [h1, hdw2, List.take_take]
      congr 1
      omega

/-- The function `sdstrim` on a well-formed string and a set that a zero byte ends: it
returns, the bytes of the string are then those that remain when the longest runs of bytes
that `strchr` finds in the set are removed from both ends, where the zero byte counts as
found, and the string is well-formed again. -/
theorem sdstrim_spec (s : sds) (cset : List Nat) (hw : s.WellFormed)
    (hc : (strlen cset).isSome = true) :
    ∃ s1, sdstrim s cset = some s1 ∧
      s1.content = trimSpec (sdstrim.found cset) s.content ∧
      sdslen s1 = (trimSpec (sdstrim.found cset) s.content).length ∧
      s1.buf[sdslen s1]? = some 0 ∧ s1.WellFormed := by
  have hroom := hw.room
  have hsmall := hw.small
  obtain ⟨sp, ep, n, hl, hr, hn, hle, htake⟩ := trim_loops cset s.buf (sdslen s) hc hroom hsmall
  have hmoved : ∃ buf1, (if sp ≠ 0 then memmove s.buf sp n else some s.buf) = some buf1 ∧
      buf1.length = s.buf.length ∧ buf1.take n = (s.buf.drop sp).take n := by
    by_cases h0 : sp = 0
    · refine ⟨s.buf, by simp [h0], rfl, by simp [h0]⟩
    · refine ⟨(s.buf.drop sp).take n ++ s.buf.drop n, ?_, ?_, ?_⟩
      · rw [if_pos h0]
        unfold memmove
        rw [if_pos (by omega)]
      · simp only [List.length_append, List.length_take, List.length_drop]
        omega
      · rw [List.take_append_of_le_length (by simp; omega), List.take_take]
        simp
  obtain ⟨buf1, hm, hlen1, htake1⟩ := hmoved
  have hset := sdssetlen_spec { s with buf := buf1.set n 0 } n hw.flags hw.type hw.len
    (by rw [sdslen_buf]; omega)
  obtain ⟨g1, g2, g3, g4⟩ := hset
  have hbuf : (sdssetlen { s with buf := buf1.set n 0 } n).buf = buf1.set n 0 :=
    sdssetlen_buf _ _
  have hterm : (sdssetlen { s with buf := buf1.set n 0 } n).buf[
      sdslen (sdssetlen { s with buf := buf1.set n 0 } n)]? = some 0 := by
    rw [g1, hbuf, List.getElem?_set_self (by omega)]
  have hcont : (sdssetlen { s with buf := buf1.set n 0 } n).content =
      trimSpec (sdstrim.found cset) s.content := by
    unfold sds.content
    rw [g1, hbuf, List.set_take, List.set_eq_of_length_le (by simp), htake1, htake]
  refine ⟨sdssetlen { s with buf := buf1.set n 0 } n, ?_, hcont, ?_, hterm, ?_⟩
  · unfold sdstrim
    simp only [hl, hr, hn, hm]
    rw [if_pos (by omega)]
  · rw [← hcont]
    unfold sds.content
    rw [g1, hbuf]
    simp only [List.length_take, List.length_set]
    omega
  · exact ⟨g2, g3, g4, by rw [g1, hbuf, List.length_set]; omega,
      by rw [hbuf, List.length_set]; omega, hterm⟩

theorem dropWhile_agree (p q : Nat → Bool) (l : List Nat) (h : ∀ x ∈ l, p x = q x) :
    l.dropWhile p = l.dropWhile q := by
  induction l with
  | nil => rfl
  | cons b rest ih =>
    rw [List.dropWhile_cons, List.dropWhile_cons, h b (by simp),
      ih (fun x hx => h x (by simp [hx]))]

theorem trimSpec_agree (p q : Nat → Bool) (l : List Nat) (h : ∀ x ∈ l, p x = q x) :
    trimSpec p l = trimSpec q l := by
  unfold trimSpec List.rdropWhile
  rw [dropWhile_agree p q l h]
  rw [dropWhile_agree p q _ (fun x hx =>
    h x ((List.dropWhile_sublist q).subset (List.mem_reverse.mp hx)))]

/-- The function `sdstrim` on a well-formed string without zero bytes: the bytes that remain
are those that the specification names, with the bytes of `cset` before its zero byte as the
set. -/
theorem sdstrim_no_zero (s : sds) (cset : List Nat) (m : Nat) (hw : s.WellFormed)
    (hc : strlen cset = some m) (hz : ∀ b ∈ s.content, b ≠ 0) :
    ∃ s1, sdstrim s cset = some s1 ∧
      s1.content = trimSpec (fun ch => decide (ch ∈ cset.take m)) s.content ∧
      s1.buf[sdslen s1]? = some 0 ∧ s1.WellFormed := by
  obtain ⟨s1, h1, h2, _, h4, h5⟩ := sdstrim_spec s cset hw (by rw [hc]; rfl)
  refine ⟨s1, h1, ?_, h4, h5⟩
  rw [h2]
  apply trimSpec_agree
  intro x hx
  have hiff := found_iff cset x m hc
  have hx0 := hz x hx
  by_cases hm : x ∈ cset.take m
  · rw [hiff.mpr (Or.inr hm)]
    simp [hm]
  · have : sdstrim.found cset x = false := by
      cases hf : sdstrim.found cset x with
      | false => rfl
      | true =>
        rcases hiff.mp hf with h | h
        · exact absurd h hx0
        · exact absurd h hm
    rw [this]
    simp [hm]

/-- C31: `sdstrim` on the three bytes 0, 120, 0 (the letter x between two zero bytes) with the
set " ": the code returns the string "x" of length 1, although no byte of the string is in the
set, where the claim leaves the three bytes as they are; on the three cases of `sdsTest` the
code gives "", "x" and "ciao", each followed by a zero byte. -/
theorem C31_sdstrim_zero_bytes :
    exampleBinary.content = [0, 120, 0] ∧
    (sdstrim exampleBinary [32, 0]).map (fun s => (sdslen s, s.buf.take (sdslen s + 1))) =
      some (1, [120, 0]) ∧
    trimSpec (fun ch => decide (ch ∈ [32])) exampleBinary.content = [0, 120, 0] ∧
    ((sdsnew (List.replicate 16 255) (some [32, 120, 32, 0])).bind
      (fun s => sdstrim s [32, 120, 0])).map
        (fun s => (sdslen s, s.buf.take (sdslen s + 1))) = some (0, [0]) ∧
    ((sdsnew (List.replicate 16 255) (some [32, 120, 32, 0])).bind
      (fun s => sdstrim s [32, 0])).map
        (fun s => (sdslen s, s.buf.take (sdslen s + 1))) = some (1, [120, 0]) ∧
    ((sdsnew (List.replicate 16 255) (some [120, 120, 99, 105, 97, 111, 121, 121, 121, 0])).bind
      (fun s => sdstrim s [120, 121, 0])).map
        (fun s => (sdslen s, s.buf.take (sdslen s + 1))) = some (4, [99, 105, 97, 111, 0]) := by
  refine ⟨by decide, by decide, by decide, by decide, by decide, by decide⟩

/-! ### Room for more bytes -/

theorem exampleAllocator_lawful : exampleAllocator.Lawful := by
  intro n size h
  refine ⟨List.replicate (size + 16) 255, rfl, ?_, ?_⟩
  · simp only [List.length_replicate]
    omega
  · simp only [List.length_replicate]
    omega

theorem type_cases (s : sds) (h4 : s.flags &&& SDS_TYPE_MASK ≤ SDS_TYPE_64)
    (h5 : s.flags &&& SDS_TYPE_MASK ≠ SDS_TYPE_5) :
    s.flags % 8 = 1 ∨ s.flags % 8 = 2 ∨ s.flags % 8 = 3 ∨ s.flags % 8 = 4 := by
  rw [type_eq_mod] at h4 h5
  simp only [SDS_TYPE_64, SDS_TYPE_5] at h4 h5
  omega

theorem sdssetlen_other (s : sds) (newlen : Nat) (h0 : s.flags % 8 ≠ 0)
    (h4 : s.flags % 8 ≤ 4) :
    sdssetlen s newlen = { s with len := newlen % 2 ^ (2 ^ (s.flags % 8 + 2)) } := by
  unfold sdssetlen
  simp only [type_eq_mod, SDS_TYPE_5, SDS_TYPE_8, SDS_TYPE_16, SDS_TYPE_32, SDS_TYPE_64]
  have : s.flags % 8 = 1 ∨ s.flags % 8 = 2 ∨ s.flags % 8 = 3 ∨ s.flags % 8 = 4 := by omega
  rcases this with h | h | h | h <;> simp [h]

theorem sdssetalloc_other (s : sds) (newlen : Nat) (h0 : s.flags % 8 ≠ 0)
    (h4 : s.flags % 8 ≤ 4) :
    sdssetalloc s newlen = { s with alloc := newlen % 2 ^ (2 ^ (s.flags % 8 + 2)) } := by
  unfold sdssetalloc
  simp only [type_eq_mod, SDS_TYPE_5, SDS_TYPE_8, SDS_TYPE_16, SDS_TYPE_32, SDS_TYPE_64]
  have : s.flags % 8 = 1 ∨ s.flags % 8 = 2 ∨ s.flags % 8 = 3 ∨ s.flags % 8 = 4 := by omega
  rcases this with h | h | h | h <;> simp [h]

theorem sdsavail_other (s : sds) (h0 : s.flags % 8 ≠ 0) (h4 : s.flags % 8 ≤ 4) :
    sdsavail s = toSize ((s.alloc : Int) - s.len) := by
  unfold sdsavail
  simp only [type_eq_mod, SDS_TYPE_5, SDS_TYPE_8, SDS_TYPE_16, SDS_TYPE_32, SDS_TYPE_64]
  have : s.flags % 8 = 1 ∨ s.flags % 8 = 2 ∨ s.flags % 8 = 3 ∨ s.flags % 8 = 4 := by omega
  rcases this with h | h | h | h <;> simp [h]

theorem sds.Allocated.sdslen_eq {s : sds} (h : s.Allocated) : sdslen s = s.len := by
  have := type_cases s h.wf.type h.type
  exact sdslen_other s (by omega) (by omega)

theorem sds.Allocated.sdsavail_eq {s : sds} (h : s.Allocated) : sdsavail s = s.alloc - s.len := by
  have := type_cases s h.wf.type h.type
  rw [sdsavail_other s (by omega) (by omega)]
  have h1 := h.fits
  have h2 := h.alloc
  have h3 := h.wf.small
  unfold toSize
  omega

/-- The width of the header fields of the type that `sdsMakeRoomFor` chooses holds the new
length. -/
theorem reqType_spec (newlen : Nat) (h : newlen < 2 ^ 64) :
    ∃ type, (if sdsReqType newlen = SDS_TYPE_5 then SDS_TYPE_8 else sdsReqType newlen) = type ∧
      1 ≤ type ∧ type ≤ 4 ∧ newlen ≤ sdsTypeMaxSize type ∧
      sdsTypeMaxSize type < 2 ^ (2 ^ (type + 2)) ∧ sdsHdrSize type ≤ 17 := by
  have m1 : sdsTypeMaxSize SDS_TYPE_8 = 2 ^ 8 - 1 := by decide
  have m2 : sdsTypeMaxSize SDS_TYPE_16 = 2 ^ 16 - 1 := by decide
  have m3 : sdsTypeMaxSize SDS_TYPE_32 = 2 ^ 32 - 1 := by decide
  have m4 : sdsTypeMaxSize SDS_TYPE_64 = 2 ^ 64 - 1 := by decide
  unfold sdsReqType
  by_cases h1 : newlen < 2 ^ 5
  · rw [if_pos h1, if_pos rfl]
    exact ⟨SDS_TYPE_8, rfl, by decide, by decide, by rw [m1]; omega, by decide, by decide⟩
  · rw [if_neg h1]
    by_cases h2 : newlen < 2 ^ 8
    · rw [if_pos h2, if_neg (by decide)]
      exact ⟨SDS_TYPE_8, rfl, by decide, by decide, by rw [m1]; omega, by decide, by decide⟩
    · rw [if_neg h2]
      by_cases h3 : newlen < 2 ^ 16
      · rw [if_pos h3, if_neg (by decide)]
        exact ⟨SDS_TYPE_16, rfl, by decide, by decide, by rw [m2]; omega, by decide,
          by decide⟩
      · rw [if_neg h3]
        by_cases h4 : newlen < 2 ^ 32
        · rw [if_pos h4, if_neg (by decide)]
          exact ⟨SDS_TYPE_32, rfl, by decide, by decide, by rw [m3]; omega, by decide,
            by decide⟩
        · rw [if_neg h4, if_neg (by decide)]
          exact ⟨SDS_TYPE_64, rfl, by decide, by decide, by rw [m4]; omega, by decide,
            by decide⟩

theorem allocated_mk (flags len alloc : Nat) (buf : List Nat) (hf : flags < 2 ^ 8)
    (h1 : 1 ≤ flags % 8) (h4 : flags % 8 ≤ 4) (hl : alloc < 2 ^ (2 ^ (flags % 8 + 2)))
    (hla : len ≤ alloc) (hab : alloc < buf.length) (hsm : buf.length < 2 ^ 63)
    (ht : buf[len]? = some 0) : sds.Allocated ⟨flags, len, alloc, buf⟩ := by
  have hlen : sdslen ⟨flags, len, alloc, buf⟩ = len :=
    sdslen_other _ (by simp only; omega) (by simp only; omega)
  refine ⟨⟨hf, ?_, ?_, ?_, hsm, ?_⟩, ?_, hla, ?_, hab⟩
  · rw [type_eq_mod]; simp only [SDS_TYPE_64]; omega
  · intro _
    rw [type_eq_mod]
    exact Nat.lt_of_le_of_lt hla hl
  · rw [hlen]
    simp only
    omega
  · rw [hlen]
    exact ht
  · rw [type_eq_mod]; simp only [SDS_TYPE_5]; omega
  · rw [type_eq_mod]
    exact hl

theorem realloc_buf (old fresh : List Nat) (k : Nat) (h1 : k < old.length)
    (h2 : k < fresh.length) :
    (old.take fresh.length ++ fresh.drop old.length).length = fresh.length ∧
    (old.take fresh.length ++ fresh.drop old.length).take (k + 1) = old.take (k + 1) := by
  constructor
  · simp only [List.length_append, List.length_take, List.length_drop]
    omega
  · rw [List.take_append_of_le_length (by simp only [List.length_take]; omega),
      List.take_take]
    congr 1
    omega

theorem take_succ_getElem (l1 l2 : List Nat) (k : Nat) (h : l1.take (k + 1) = l2.take (k + 1)) :
    l1.take k = l2.take k ∧ l1[k]? = l2[k]? := by
  constructor
  · have := congrArg (List.take k) h
    simpa [List.take_take] using this
  · have := congrArg (fun l => l[k]?) h
    simpa [List.getElem?_take] using this

theorem sdsMakeRoomFor_spec (a : sdsAllocator) (n : Nat) (s : sds) (addlen : Nat)
    (ha : a.Lawful) (hs : s.Allocated) (hadd : s.len + addlen < 2 ^ 60) :
    ∃ s1 n1, sdsMakeRoomFor a n s addlen = some (some s1, n1) ∧ s1.Allocated ∧
      s1.len = s.len ∧ s1.buf.take s.len = s.buf.take s.len ∧
      s.len + addlen ≤ s1.alloc := by
  have hlen := hs.sdslen_eq
  have hav := hs.sdsavail_eq
  have hty := type_cases s hs.wf.type hs.type
  have hroom := hs.wf.room
  have hterm := hs.wf.terminated
  rw [hlen] at hroom hterm
  unfold sdsMakeRoomFor
  simp only [hlen, hav]
  by_cases h : s.alloc - s.len ≥ addlen
  · rw [if_pos h]
    exact ⟨s, n, rfl, hs, rfl, rfl, by have := hs.fits; omega⟩
  · rw [if_neg h]
    have e0 : (s.len + addlen) % 2 ^ 64 = s.len + addlen := Nat.mod_eq_of_lt (by omega)
    rw [e0]
    obtain ⟨newlen, hnew, hn1, hn2⟩ : ∃ newlen,
        (if s.len + addlen < SDS_MAX_PREALLOC then (s.len + addlen) * 2 % 2 ^ 64
          else (s.len + addlen + SDS_MAX_PREALLOC) % 2 ^ 64) = newlen ∧
        s.len + addlen ≤ newlen ∧ newlen < 2 ^ 61 + 2 ^ 20 := by
      refine ⟨_, rfl, ?_, ?_⟩
      · split
        · rw [Nat.mod_eq_of_lt (by omega)]; omega
        · rw [Nat.mod_eq_of_lt (by simp only [SDS_MAX_PREALLOC]; omega)]; omega
      · split
        · rw [Nat.mod_eq_of_lt (by omega)]; omega
        · rw [Nat.mod_eq_of_lt (by simp only [SDS_MAX_PREALLOC]; omega)]
          simp only [SDS_MAX_PREALLOC]; omega
    rw [hnew]
    obtain ⟨type, htype, ht1, ht4, hmax, hwidth, hhdr⟩ := reqType_spec newlen (by omega)
    rw [htype]
    have e1 : (sdsHdrSize type + newlen + 1) % 2 ^ 64 = sdsHdrSize type + newlen + 1 :=
      Nat.mod_eq_of_lt (by omega)
    rw [e1]
    obtain ⟨block, hb, hb1, hb2⟩ := ha n (sdsHdrSize type + newlen + 1) (by omega)
    rw [hb]
    simp only
    have hfl : (block.drop (sdsHdrSize type)).length = block.length - sdsHdrSize type :=
      List.length_drop _ _
    generalize hfresh : block.drop (sdsHdrSize type) = fresh at hfl
    obtain ⟨usable, hus, hu1, hu2, hu3⟩ : ∃ usable,
        (if toSize ((block.length : Int) - sdsHdrSize type - 1) > sdsTypeMaxSize type then
          sdsTypeMaxSize type
          else toSize ((block.length : Int) - sdsHdrSize type - 1)) = usable ∧
        newlen ≤ usable ∧ usable < fresh.length ∧ usable ≤ sdsTypeMaxSize type := by
      have e : toSize ((block.length : Int) - sdsHdrSize type - 1) =
          block.length - sdsHdrSize type - 1 := by
        unfold toSize
        omega
      rw [e]
      refine ⟨_, rfl, ?_, ?_, ?_⟩
      · split <;> omega
      · split <;> omega
      · split <;> omega
    rw [hus]
    by_cases hsame : s.flags &&& SDS_TYPE_MASK = type
    · rw [if_pos hsame]
      simp only
      rw [type_eq_mod] at hsame
      obtain ⟨b1, b2⟩ := realloc_buf s.buf fresh s.len hroom (by omega)
      obtain ⟨b3, b4⟩ := take_succ_getElem _ _ _ b2
      generalize s.buf.take fresh.length ++ fresh.drop s.buf.length = buf1 at b1 b2 b3 b4
      have e2 : sdssetalloc { s with buf := buf1 } usable =
          ⟨s.flags, s.len, usable, buf1⟩ := by
        rw [sdssetalloc_other _ _ (by simp only; omega) (by simp only; omega)]
        simp only [hsame]
        rw [Nat.mod_eq_of_lt (by omega)]
      rw [e2]
      refine ⟨_, _, rfl, ?_, rfl, b3, by show s.len + addlen ≤ usable; omega⟩
      exact allocated_mk _ _ _ _ hs.wf.flags (by omega) (by omega)
        (by rw [hsame]; omega) (by omega) (by omega) (by omega) (by rw [b4]; exact hterm)
    · rw [if_neg hsame]
      have hm : memcpy fresh s.buf (s.len + 1) =
          some (s.buf.take (s.len + 1) ++ fresh.drop (s.len + 1)) := by
        unfold memcpy
        rw [if_pos ⟨by omega, by omega⟩]
      rw [hm]
      simp only [Option.map_some']
      have b1 : (s.buf.take (s.len + 1) ++ fresh.drop (s.len + 1)).length = fresh.length := by
        simp only [List.length_append, List.length_take, List.length_drop]
        omega
      have b2 : (s.buf.take (s.len + 1) ++ fresh.drop (s.len + 1)).take (s.len + 1) =
          s.buf.take (s.len + 1) := by
        rw [List.take_append_of_le_length (by simp only [List.length_take]; omega),
          List.take_take]
        simp
      obtain ⟨b3, b4⟩ := take_succ_getElem _ _ _ b2
      generalize s.buf.take (s.len + 1) ++ fresh.drop (s.len + 1) = buf1 at b1 b2 b3 b4
      have hmod : type % 8 = type := Nat.mod_eq_of_lt (by omega)
      have e3 : sdssetlen { s with flags := type, buf := buf1 } s.len =
          ⟨type, s.len, s.alloc, buf1⟩ := by
        rw [sdssetlen_other _ _ (by simp only; omega) (by simp only; omega)]
        simp only [hmod]
        rw [Nat.mod_eq_of_lt (by omega)]
      rw [e3]
      have e2 : sdssetalloc ⟨type, s.len, s.alloc, buf1⟩ usable =
          ⟨type, s.len, usable, buf1⟩ := by
        rw [sdssetalloc_other _ _ (by simp only; omega) (by simp only; omega)]
        simp only [hmod]
        rw [Nat.mod_eq_of_lt (by omega)]
      rw [e2]
      refine ⟨_, _, rfl, ?_, rfl, b3, by show s.len + addlen ≤ usable; omega⟩
      exact allocated_mk _ _ _ _ (by omega) (by omega) (by omega)
        (by rw [hmod]; omega) (by omega) (by omega) (by omega) (by rw [b4]; exact hterm)

theorem sds.Allocated.content_eq {s : sds} (h : s.Allocated) : s.content = s.buf.take s.len := by
  unfold sds.content
  rw [h.sdslen_eq]

theorem sdscatlen_spec (a : sdsAllocator) (n : Nat) (s : sds) (t : List Nat) (len : Nat)
    (ha : a.Lawful) (hs : s.Allocated) (ht : len ≤ t.length) (hsize : s.len + len < 2 ^ 60) :
    ∃ s1 n1, sdscatlen a n s t len = some (some s1, n1) ∧ s1.Allocated ∧
      s1.content = s.content ++ t.take len ∧ s1.len = s.len + len := by
  obtain ⟨s1, n1, hm, hs1, hl1, hb1, hroom⟩ := sdsMakeRoomFor_spec a n s len ha hs hsize
  have hal := hs1.alloc
  have hty := type_cases s1 hs1.wf.type hs1.type
  have hwd := hs1.width
  rw [type_eq_mod] at hwd
  unfold sdscatlen
  rw [hm, hs.sdslen_eq]
  simp only
  have hcp : memcpy (s1.buf.drop s.len) t len =
      some (t.take len ++ (s1.buf.drop s.len).drop len) := by
    unfold memcpy
    rw [if_pos ⟨ht, by simp only [List.length_drop]; omega⟩]
  rw [hcp]
  simp only
  rw [Nat.mod_eq_of_lt (by omega : s.len + len < 2 ^ 64)]
  have hlen2 : (s1.buf.take s.len ++ (t.take len ++ (s1.buf.drop s.len).drop len)).length =
      s1.buf.length := by
    simp only [List.length_append, List.length_take, List.length_drop]
    omega
  have htake2 : (s1.buf.take s.len ++ (t.take len ++ (s1.buf.drop s.len).drop len)).take
      (s.len + len) = s.buf.take s.len ++ t.take len := by
    rw [← List.append_assoc, List.take_append_of_le_length
      (by simp only [List.length_append, List.length_take]; omega)]
    rw [List.take_of_length_le (by simp only [List.length_append, List.length_take]; omega),
      hb1]
  generalize s1.buf.take s.len ++ (t.take len ++ (s1.buf.drop s.len).drop len) = buf2
    at hlen2 htake2
  have e3 : sdssetlen { s1 with buf := buf2 } (s.len + len) =
      ⟨s1.flags, s.len + len, s1.alloc, buf2⟩ := by
    rw [sdssetlen_other _ _ (by simp only; omega) (by simp only; omega)]
    simp only
    rw [Nat.mod_eq_of_lt (by omega)]
  rw [e3]
  simp only
  rw [if_pos (by omega)]
  refine ⟨_, _, rfl, ?_, ?_, rfl⟩
  · exact allocated_mk _ _ _ _ hs1.wf.flags (by omega) (by omega) hwd (by omega)
      (by rw [List.length_set]; omega) (by rw [List.length_set]; exact hlen2 ▸ hs1.wf.small)
      (by rw [List.getElem?_set_self (by omega)])
  · rw [hs.content_eq]
    unfold sds.content
    rw [sdslen_other _ (by simp only; omega) (by simp only; omega)]
    simp only
    rw [List.set_take, List.set_eq_of_length_le (by simp), htake2]

theorem sdsempty_spec (a : sdsAllocator) (n : Nat) (ha : a.Lawful) :
    ∃ s, sdsempty a n = some (some s, n + 1) ∧ s.Allocated ∧ s.content = [] ∧ s.len = 0 := by
  obtain ⟨block, hb, hb1, hb2⟩ := ha n 4 (by norm_num)
  have hh : sdsHdrSize SDS_TYPE_8 = 3 := by decide
  unfold sdsempty
  simp only [hh, hb]
  have hraw : (block.drop 3).length = block.length - 3 := List.length_drop _ _
  generalize block.drop 3 = raw at hraw
  have hm : sdsTypeMaxSize SDS_TYPE_8 = 255 := by decide
  obtain ⟨usable, hus, hu1, hu2⟩ : ∃ usable,
      (if raw.length - 1 > sdsTypeMaxSize SDS_TYPE_8 then sdsTypeMaxSize SDS_TYPE_8
        else raw.length - 1) = usable ∧ usable < raw.length ∧ usable < 2 ^ 8 := by
    refine ⟨_, rfl, ?_, ?_⟩
    · rw [hm]; split <;> omega
    · rw [hm]; split <;> omega
  have e : sdsnewlen raw (sdsInit.bytes [0]) 0 = some ⟨1, 0, usable, raw.set 0 0⟩ := by
    unfold sdsnewlen
    have h0 : sdsReqType 0 = SDS_TYPE_5 := by decide
    simp only [h0, and_self, if_true, hus]
    rw [if_neg (by omega)]
    simp only [SDS_TYPE_8, SDS_TYPE_5]
    norm_num
    omega
  rw [e]
  refine ⟨_, rfl, ?_, ?_, rfl⟩
  · exact allocated_mk _ _ _ _ (by norm_num) (by norm_num) (by norm_num)
      (by norm_num; omega) (by omega) (by rw [List.length_set]; omega)
      (by rw [List.length_set]; omega) (by rw [List.getElem?_set_self (by omega)])
  · unfold sds.content
    rw [sdslen_other _ (by norm_num) (by norm_num)]
    rfl

/-! ### Growing a string -/

/-- The function `sdsgrowzero` with a length above the current one, on a string with room:
it returns a string of the new length that starts with the old bytes; its other bytes are
those that `sdsMakeRoomFor` left in the buffer. -/
theorem sdsgrowzero_spec (a : sdsAllocator) (n : Nat) (s : sds) (len : Nat) (ha : a.Lawful)
    (hs : s.Allocated) (hgt : s.len < len) (hsize : len < 2 ^ 60) :
    ∃ s0 s1 n1, sdsMakeRoomFor a n s (len - s.len) = some (some s0, n1) ∧
      sdsgrowzero a n s len = some (some s1, n1) ∧ sdslen s1 = len ∧
      s1.buf = s0.buf ∧ s1.buf.take s.len = s.buf.take s.len := by
  obtain ⟨s0, n1, hm, hs0, hl0, hb0, hroom⟩ :=
    sdsMakeRoomFor_spec a n s (len - s.len) ha hs (by omega)
  have hty := type_cases s0 hs0.wf.type hs0.type
  have hwd := hs0.width
  rw [type_eq_mod] at hwd
  have hadd : toSize ((len : Int) - s.len) = len - s.len := by
    unfold toSize
    omega
  have e : sdssetlen s0 len = ⟨s0.flags, len, s0.alloc, s0.buf⟩ := by
    rw [sdssetlen_other _ _ (by omega) (by omega), Nat.mod_eq_of_lt (by omega)]
  refine ⟨s0, sdssetlen s0 len, n1, hm, ?_, ?_, ?_, ?_⟩
  · unfold sdsgrowzero
    rw [hs.sdslen_eq]
    simp only
    rw [if_neg (by omega), hadd, hm]
  · rw [e]
    exact sdslen_other _ (by simp only; omega) (by simp only; omega)
  · rw [e]
  · rw [e]
    exact hb0

theorem sdsgrowzero_le (a : sdsAllocator) (n : Nat) (s : sds) (len : Nat)
    (hle : len ≤ sdslen s) : sdsgrowzero a n s len = some (some s, n) := by
  unfold sdsgrowzero
  simp only
  rw [if_pos hle]

/-- C33: `sdsgrowzero` on `sdsnew("ciao")` with the new length 6, in memory that held the byte
255: the result has length 6 and starts with the old content, but the byte at index 5 is 255
and so is the byte after the string, where the claim has zero bytes; with a length that is not
above the current one the string is returned unchanged. -/
theorem C33_sdsgrowzero_garbage :
    sdslen exampleCiao = 4 ∧ exampleCiao.content = [99, 105, 97, 111] ∧
    (sdsgrowzero exampleAllocator 0 exampleCiao 6).map
      (fun r => r.1.map (fun s => (sdslen s, s.content, s.buf[sdslen s]?))) =
      some (some (6, [99, 105, 97, 111, 0, 255], some 255)) ∧
    sdsgrowzero exampleAllocator 0 exampleCiao 3 = some (some exampleCiao, 0) := by
  decide

/-! ### Formatted output -/

theorem strlen_append (out junk : List Nat) (hnz : ∀ b ∈ out, b ≠ 0) :
    strlen (out ++ 0 :: junk) = some out.length := by
  induction out with
  | nil => simp [strlen]
  | cons b rest ih =>
    have hb : b ≠ 0 := hnz b (by simp)
    have ih1 := ih (fun x hx => hnz x (by simp [hx]))
    rw [List.cons_append]
    unfold strlen
    rw [if_neg hb, ih1]
    rfl

theorem vsnprintf_small (staticbuf fmt args out : List Nat)
    (hout : vsnprintf.format fmt args = some out) (hlen : out.length < 1022)
    (hsb : staticbuf.length = 1024) :
    ∃ junk, vsnprintf (staticbuf.set 1022 0) 1024 fmt args = some (out ++ 0 :: junk) ∧
      (out ++ 0 :: junk)[1022]? = some 0 := by
  refine ⟨(staticbuf.set 1022 0).drop (out.length + 1), ?_, ?_⟩
  · unfold vsnprintf
    rw [hout]
    simp only
    rw [if_neg (by norm_num)]
    have ht : out.take (1024 - 1) = out := List.take_of_length_le (by omega)
    rw [ht]
    unfold memcpy
    rw [if_pos ⟨by simp, by rw [List.length_set]; omega⟩]
    rw [List.take_of_length_le (by simp)]
    simp
  · have h1 : (out ++ 0 :: (staticbuf.set 1022 0).drop (out.length + 1)) =
        (out ++ [0]) ++ (staticbuf.set 1022 0).drop (out.length + 1) := by simp
    rw [h1, List.getElem?_append_right (by simp; omega), List.getElem?_drop]
    have h2 : out.length + 1 + (1022 - (out ++ [0]).length) = 1022 := by
      simp only [List.length_append, List.length_cons, List.length_nil]
      omega
    rw [h2, List.getElem?_set_self (by omega)]

theorem sdscatprintf_spec (a : sdsAllocator) (staticbuf : List Nat) (n : Nat) (s : sds)
    (fmt args out : List Nat) (fmtlen : Nat) (hf : strlen fmt = some fmtlen)
    (h2 : fmtlen * 2 ≤ 1024) (hout : vsnprintf.format fmt args = some out)
    (hlen : out.length < 1022) (hnz : ∀ b ∈ out, b ≠ 0) (hsb : staticbuf.length = 1024)
    (ha : a.Lawful) (hs : s.Allocated) (hsize : s.len + out.length < 2 ^ 60) :
    ∃ s1 n1, sdscatprintf a staticbuf n s fmt args = some (some s1, n1) ∧ s1.Allocated ∧
      s1.content = s.content ++ out ∧ s1.len = s.len + out.length := by
  obtain ⟨junk, hv, h0⟩ := vsnprintf_small staticbuf fmt args out hout hlen hsb
  have hloop : sdscatvprintf.loop a fmt args 64 n staticbuf 1024 =
      some (some (out ++ 0 :: junk), n) := by
    unfold sdscatvprintf.loop
    rw [if_neg (by omega)]
    simp only [Nat.add_one_sub_one, Nat.reduceSub, hv, h0, ne_eq, not_true_eq_false, if_false]
  obtain ⟨s1, n1, hc, hs1, hcont, hl1⟩ := sdscatlen_spec a n s (out ++ 0 :: junk) out.length
    ha hs (by simp) hsize
  refine ⟨s1, n1, ?_, hs1, ?_, hl1⟩
  · unfold sdscatprintf sdscatvprintf
    rw [hf]
    simp only
    rw [Nat.mod_eq_of_lt (by omega), if_neg (by omega)]
    simp only [hloop]
    unfold sdscat
    rw [strlen_append _ _ hnz]
    exact hc
  · rw [hcont]
    simp

/-! ### The quoted form of a string -/

theorem format_escaped (ch : Nat) :
    vsnprintf.format [92, 37, 99, 0] [ch] = some [92, ch % 2 ^ 8] := rfl

theorem format_plain (ch : Nat) : vsnprintf.format [37, 99, 0] [ch] = some [ch % 2 ^ 8] := rfl

theorem format_hex (ch : Nat) :
    vsnprintf.format [92, 120, 37, 48, 50, 120, 0] [ch] =
      some (92 :: 120 :: (List.replicate (2 - (vsnprintf.hex 8 (ch % 2 ^ 32)).length) 48 ++
        vsnprintf.hex 8 (ch % 2 ^ 32) ++ [])) := rfl

theorem hex_byte (ch : Nat) (h : ch < 256) :
    List.replicate (2 - (vsnprintf.hex 8 (ch % 2 ^ 32)).length) 48 ++
      vsnprintf.hex 8 (ch % 2 ^ 32) = [vsnprintf.digit (ch / 16), vsnprintf.digit (ch % 16)] := by
  rw [Nat.mod_eq_of_lt (by omega : ch < 2 ^ 32)]
  by_cases h16 : ch < 16
  · have e : vsnprintf.hex 8 ch = [vsnprintf.digit ch] := by
      unfold vsnprintf.hex
      rw [if_pos h16]
    rw [e]
    have e1 : ch / 16 = 0 := by omega
    have e2 : ch % 16 = ch := by omega
    rw [e1, e2]
    rfl
  · have e : vsnprintf.hex 8 ch = [vsnprintf.digit (ch / 16), vsnprintf.digit (ch % 16)] := by
      unfold vsnprintf.hex
      rw [if_neg h16]
      unfold vsnprintf.hex
      rw [if_pos (by omega)]
      rfl
    rw [e]
    rfl

theorem digit_ne_zero (d : Nat) : vsnprintf.digit d ≠ 0 := by
  unfold vsnprintf.digit
  split <;> omega

theorem rendered_length (isprint : Nat → Bool) (ch : Nat) :
    1 ≤ (sdscatrepr.rendered isprint ch).length ∧
    (sdscatrepr.rendered isprint ch).length ≤ 4 := by
  unfold sdscatrepr.rendered
  repeat' split
  all_goals simp

theorem step_spec (a : sdsAllocator) (isprint : Nat → Bool) (staticbuf : List Nat) (n : Nat)
    (s : sds) (ch : Nat) (ha : a.Lawful) (hs : s.Allocated) (hsb : staticbuf.length = 1024)
    (hch : ch < 256) (hp0 : isprint 0 = false) (hsize : s.len + 4 < 2 ^ 60) :
    ∃ s1 n1, sdscatrepr.step a isprint staticbuf n s ch = some (some s1, n1) ∧ s1.Allocated ∧
      s1.content = s.content ++ sdscatrepr.rendered isprint ch ∧
      s1.len = s.len + (sdscatrepr.rendered isprint ch).length := by
  have hmod : ch % 2 ^ 8 = ch := Nat.mod_eq_of_lt (by omega)
  unfold sdscatrepr.step sdscatrepr.rendered
  by_cases h1 : ch = 92 ∨ ch = 34
  · rw [if_pos h1, if_pos h1]
    have hfm := format_escaped ch
    rw [hmod] at hfm
    exact sdscatprintf_spec a staticbuf n s _ _ _ 3 (by decide) (by norm_num) hfm
      (by simp) (by intro b hb; simp at hb; omega) hsb ha hs (by simp; omega)
  rw [if_neg h1, if_neg h1]
  by_cases h2 : ch = 10
  · rw [if_pos h2, if_pos h2]
    exact sdscatlen_spec a n s _ 2 ha hs (by simp) (by omega)
  rw [if_neg h2, if_neg h2]
  by_cases h3 : ch = 13
  · rw [if_pos h3, if_pos h3]
    exact sdscatlen_spec a n s _ 2 ha hs (by simp) (by omega)
  rw [if_neg h3, if_neg h3]
  by_cases h4 : ch = 9
  · rw [if_pos h4, if_pos h4]
    exact sdscatlen_spec a n s _ 2 ha hs (by simp) (by omega)
  rw [if_neg h4, if_neg h4]
  by_cases h5 : ch = 7
  · rw [if_pos h5, if_pos h5]
    exact sdscatlen_spec a n s _ 2 ha hs (by simp) (by omega)
  rw [if_neg h5, if_neg h5]
  by_cases h6 : ch = 8
  · rw [if_pos h6, if_pos h6]
    exact sdscatlen_spec a n s _ 2 ha hs (by simp) (by omega)
  rw [if_neg h6, if_neg h6]
  by_cases h7 : isprint ch = true
  · rw [if_pos h7, if_pos h7]
    have hfm := format_plain ch
    rw [hmod] at hfm
    have hne : ch ≠ 0 := by
      intro h
      rw [h, hp0] at h7
      cases h7
    exact sdscatprintf_spec a staticbuf n s _ _ _ 2 (by decide) (by norm_num) hfm
      (by simp) (by intro b hb; simp at hb; omega) hsb ha hs (by simp; omega)
  · rw [if_neg h7, if_neg h7]
    have hfm := format_hex ch
    rw [List.append_nil, hex_byte ch hch] at hfm
    exact sdscatprintf_spec a staticbuf n s _ _ _ 6 (by decide) (by norm_num) hfm
      (by simp) (by
        intro b hb
        simp only [List.mem_cons, List.mem_singleton, List.not_mem_nil, or_false] at hb
        rcases hb with hb | hb | hb | hb
        · omega
        · omega
        · rw [hb]; exact digit_ne_zero _
        · rw [hb]; exact digit_ne_zero _) hsb ha hs (by simp; omega)

theorem loop_spec (a : sdsAllocator) (isprint : Nat → Bool) (staticbuf : Nat → List Nat)
    (ha : a.Lawful) (hp0 : isprint 0 = false) (hsb : ∀ i, (staticbuf i).length = 1024)
    (len : Nat) (i n : Nat) (s : sds) (p : List Nat) (hs : s.Allocated) (hlen : len ≤ p.length)
    (hbytes : ∀ b ∈ p.take len, b < 256) (hsize : s.len + 4 * len < 2 ^ 60) :
    ∃ s1 n1, sdscatrepr.loop a isprint staticbuf len i n (some s) p = some (some s1, n1) ∧
      s1.Allocated ∧
      s1.content = s.content ++ ((p.take len).map (sdscatrepr.rendered isprint)).flatten ∧
      s1.len ≤ s.len + 4 * len := by
  induction len generalizing i n s p with
  | zero => exact ⟨s, n, rfl, hs, by simp, by omega⟩
  | succ len ih =>
    cases p with
    | nil => simp at hlen
    | cons ch rest =>
      have hch : ch < 256 := hbytes ch (by simp)
      obtain ⟨s1, n1, h1, hs1, hc1, hl1⟩ :=
        step_spec a isprint (staticbuf i) n s ch ha hs (hsb i) hch hp0 (by omega)
      have hr := rendered_length isprint ch
      obtain ⟨s2, n2, h2, hs2, hc2, hl2⟩ := ih (i + 1) n1 s1 rest hs1
        (by simpa using hlen) (fun b hb => hbytes b (by simp [hb])) (by omega)
      refine ⟨s2, n2, ?_, hs2, ?_, by omega⟩
      · unfold sdscatrepr.loop
        simp only [h1, h2]
      · rw [hc2, hc1]
        simp

/-- The function `sdscatrepr` on a string with room and bytes `p`: it returns a string, whose
bytes are those of `s`, a double quote, the rendering of each of the first `len` bytes of `p`,
and a double quote. -/
theorem sdscatrepr_spec (a : sdsAllocator) (isprint : Nat → Bool) (staticbuf : Nat → List Nat)
    (n : Nat) (s : sds) (p : List Nat) (len : Nat)
    (ha : a.Lawful) (hp0 : isprint 0 = false) (hsb : ∀ i, (staticbuf i).length = 1024)
    (hs : s.Allocated) (hlen : len ≤ p.length)
    (hbytes : ∀ b ∈ p.take len, b < 256) (hsize : s.len + 4 * len + 2 < 2 ^ 60) :
    ∃ s1 n1, sdscatrepr a isprint staticbuf n s p len = some (some s1, n1) ∧ s1.Allocated ∧
      s1.content = s.content ++ 34 ::
        (((p.take len).map (sdscatrepr.rendered isprint)).flatten ++ [34]) := by
  obtain ⟨s1, n1, h1, hs1, hc1, hl1⟩ := sdscatlen_spec a n s [34, 0] 1 ha hs (by simp)
    (by omega)
  obtain ⟨s2, n2, h2, hs2, hc2, hl2⟩ := loop_spec a isprint staticbuf ha hp0 hsb len 0 n1 s1 p
    hs1 hlen hbytes (by omega)
  obtain ⟨s3, n3, h3, hs3, hc3, hl3⟩ := sdscatlen_spec a n2 s2 [34, 0] 1 ha hs2 (by simp)
    (by omega)
  refine ⟨s3, n3, ?_, hs3, ?_⟩
  · unfold sdscatrepr
    simp only [h1, h2, h3]
  · rw [hc3, hc2, hc1]
    simp

/-! ### Splitting a line into arguments -/

theorem hexEscape_raw (line_ : List Nat) (p ch : Nat) (h0 : line_[p]? = some ch)
    (hch : ch ≠ 92) : sdssplitargs.hexEscape line_ p = some false := by
  unfold sdssplitargs.hexEscape
  rw [h0]
  simp only
  rw [if_pos hch]

theorem hexEscape_other (line_ : List Nat) (p c1 : Nat) (h0 : line_[p]? = some 92)
    (h1 : line_[p + 1]? = some c1) (hc1 : c1 ≠ 120) :
    sdssplitargs.hexEscape line_ p = some false := by
  unfold sdssplitargs.hexEscape
  rw [h0]
  simp only
  rw [if_neg (by simp), h1]
  simp only
  rw [if_pos hc1]

theorem hexEscape_hex (line_ : List Nat) (p d1 d2 : Nat) (h0 : line_[p]? = some 92)
    (h1 : line_[p + 1]? = some 120) (h2 : line_[p + 2]? = some d1)
    (h3 : line_[p + 3]? = some d2) (hd1 : is_hex_digit d1 = true)
    (hd2 : is_hex_digit d2 = true) : sdssplitargs.hexEscape line_ p = some true := by
  unfold sdssplitargs.hexEscape
  rw [h0]
  simp only
  rw [if_neg (by simp), h1]
  simp only
  rw [if_neg (by simp), h2]
  simp only
  rw [if_neg (by simp [hd1]), h3]
  simp [hd2]

theorem escape_raw (line_ : List Nat) (p ch : Nat) (h0 : line_[p]? = some ch)
    (hch : ch ≠ 92) : sdssplitargs.escape line_ p = some false := by
  unfold sdssplitargs.escape
  rw [h0]
  simp only
  rw [if_pos hch]

theorem escape_other (line_ : List Nat) (p c1 : Nat) (h0 : line_[p]? = some 92)
    (h1 : line_[p + 1]? = some c1) (hc1 : c1 ≠ 0) :
    sdssplitargs.escape line_ p = some true := by
  unfold sdssplitargs.escape
  rw [h0]
  simp only
  rw [if_neg (by simp), h1]
  simp [hc1]

theorem append_spec (a : sdsAllocator) (inq insq done : Bool) (cur : sds) (p n : Nat)
    (t : List Nat) (ha : a.Lawful) (hs : cur.Allocated) (ht : 1 ≤ t.length)
    (hsize : cur.len + 1 < 2 ^ 60) :
    ∃ s1 n1, sdssplitargs.append a ⟨inq, insq, done, some cur, p, n⟩ t =
        some ⟨inq, insq, done, some s1, p, n1⟩ ∧ s1.Allocated ∧
      s1.content = cur.content ++ t.take 1 ∧ s1.len = cur.len + 1 := by
  obtain ⟨s1, n1, h1, hs1, hc1, hl1⟩ := sdscatlen_spec a n cur t 1 ha hs ht hsize
  refine ⟨s1, n1, ?_, hs1, hc1, hl1⟩
  unfold sdssplitargs.append
  simp only [h1, Option.map_some']

theorem hex_digit_spec :
    ∀ d < 16, is_hex_digit (vsnprintf.digit d) = true ∧
      hex_digit_to_int (vsnprintf.digit d) = d := by
  decide

theorem unescape_spec (isprint : Nat → Bool) (ch c1 : Nat)
    (h : sdscatrepr.rendered isprint ch = [92, c1]) :
    sdssplitargs.unescape c1 = ch ∧ c1 ≠ 120 ∧ c1 ≠ 0 := by
  unfold sdscatrepr.rendered at h
  unfold sdssplitargs.unescape
  split at h
  · rename_i h1
    simp only [List.cons.injEq, true_and, and_true] at h
    subst h
    rcases h1 with h1 | h1 <;> subst h1 <;> decide
  repeat' split at h
  all_goals
    simp only [List.cons.injEq, true_and, and_true, reduceCtorEq, and_false] at h
  all_goals subst_vars
  all_goals decide

theorem rendered_cases (isprint : Nat → Bool) (ch : Nat) (hp0 : isprint 0 = false) :
    (sdscatrepr.rendered isprint ch = [ch] ∧ ch ≠ 92 ∧ ch ≠ 34 ∧ ch ≠ 0) ∨
    (∃ c1, sdscatrepr.rendered isprint ch = [92, c1]) ∨
    sdscatrepr.rendered isprint ch =
      [92, 120, vsnprintf.digit (ch / 16), vsnprintf.digit (ch % 16)] := by
  unfold sdscatrepr.rendered
  by_cases h1 : ch = 92 ∨ ch = 34
  · rw [if_pos h1]
    exact Or.inr (Or.inl ⟨ch, rfl⟩)
  rw [if_neg h1]
  by_cases h2 : ch = 10
  · rw [if_pos h2]
    exact Or.inr (Or.inl ⟨_, rfl⟩)
  rw [if_neg h2]
  by_cases h3 : ch = 13
  · rw [if_pos h3]
    exact Or.inr (Or.inl ⟨_, rfl⟩)
  rw [if_neg h3]
  by_cases h4 : ch = 9
  · rw [if_pos h4]
    exact Or.inr (Or.inl ⟨_, rfl⟩)
  rw [if_neg h4]
  by_cases h5 : ch = 7
  · rw [if_pos h5]
    exact Or.inr (Or.inl ⟨_, rfl⟩)
  rw [if_neg h5]
  by_cases h6 : ch = 8
  · rw [if_pos h6]
    exact Or.inr (Or.inl ⟨_, rfl⟩)
  rw [if_neg h6]
  by_cases h7 : isprint ch = true
  · rw [if_pos h7]
    refine Or.inl ⟨rfl, by omega, by omega, ?_⟩
    intro h
    rw [h, hp0] at h7
    cases h7
  · rw [if_neg h7]
    exact Or.inr (Or.inr rfl)

theorem drop_take_one (l : List Nat) (p ch : Nat) (h : l[p]? = some ch) :
    1 ≤ (l.drop p).length ∧ (l.drop p).take 1 = [ch] := by
  have hp : p < l.length := by
    by_contra hc
    rw [List.getElem?_eq_none (by omega)] at h
    cases h
  have hg : l[p] = ch := by
    rw [List.getElem?_eq_getElem hp] at h
    exact Option.some.inj h
  constructor
  · rw [List.length_drop]; omega
  · rw [List.drop_eq_getElem_cons hp, hg]
    rfl

theorem step_raw (a : sdsAllocator) (isspace : Nat → Bool) (line_ : List Nat) (cur : sds)
    (p n ch : Nat) (h0 : line_[p]? = some ch) (h92 : ch ≠ 92) (h34 : ch ≠ 34) (hz : ch ≠ 0)
    (ha : a.Lawful) (hs : cur.Allocated) (hsize : cur.len + 1 < 2 ^ 60) :
    ∃ s1 n1, sdssplitargs.step a isspace line_ ⟨true, false, false, some cur, p, n⟩ =
        some (sdssplitargs.outcome.next ⟨true, false, false, some s1, p + 1, n1⟩) ∧
      s1.Allocated ∧ s1.content = cur.content ++ [ch] ∧ s1.len = cur.len + 1 := by
  obtain ⟨t1, t2⟩ := drop_take_one line_ p ch h0
  obtain ⟨s1, n1, h1, hs1, hc1, hl1⟩ :=
    append_spec a true false false cur p n (line_.drop p) ha hs t1 hsize
  refine ⟨s1, n1, ?_, hs1, by rw [hc1, t2], hl1⟩
  unfold sdssplitargs.step
  simp only [if_true]
  unfold sdssplitargs.quoted
  simp only [hexEscape_raw line_ p ch h0 h92, escape_raw line_ p ch h0 h92, h0]
  rw [if_neg h34, if_neg hz, h1]
  simp only [Option.map_some', h0, ne_eq, hz, not_false_eq_true, if_true]

theorem step_escaped (a : sdsAllocator) (isspace : Nat → Bool) (line_ : List Nat) (cur : sds)
    (p n c1 : Nat) (h0 : line_[p]? = some 92) (h1 : line_[p + 1]? = some c1)
    (hx : c1 ≠ 120) (hz : c1 ≠ 0)
    (ha : a.Lawful) (hs : cur.Allocated) (hsize : cur.len + 1 < 2 ^ 60) :
    ∃ s1 n1, sdssplitargs.step a isspace line_ ⟨true, false, false, some cur, p, n⟩ =
        some (sdssplitargs.outcome.next ⟨true, false, false, some s1, p + 2, n1⟩) ∧
      s1.Allocated ∧ s1.content = cur.content ++ [sdssplitargs.unescape c1] ∧
      s1.len = cur.len + 1 := by
  obtain ⟨s1, n1, h2, hs1, hc1, hl1⟩ :=
    append_spec a true false false cur (p + 1) n [sdssplitargs.unescape c1] ha hs (by simp)
      hsize
  refine ⟨s1, n1, ?_, hs1, by rw [hc1]; rfl, hl1⟩
  unfold sdssplitargs.step
  simp only [if_true]
  unfold sdssplitargs.quoted
  simp only [hexEscape_other line_ p c1 h0 h1 hx, escape_other line_ p c1 h0 h1 hz, h1]
  rw [h2]
  simp only [Option.map_some', h1, ne_eq, hz, not_false_eq_true, if_true]

theorem step_hex (a : sdsAllocator) (isspace : Nat → Bool) (line_ : List Nat) (cur : sds)
    (p n d1 d2 : Nat) (h0 : line_[p]? = some 92) (h1 : line_[p + 1]? = some 120)
    (h2 : line_[p + 2]? = some (vsnprintf.digit d1))
    (h3 : line_[p + 3]? = some (vsnprintf.digit d2)) (hd1 : d1 < 16) (hd2 : d2 < 16)
    (ha : a.Lawful) (hs : cur.Allocated) (hsize : cur.len + 1 < 2 ^ 60) :
    ∃ s1 n1, sdssplitargs.step a isspace line_ ⟨true, false, false, some cur, p, n⟩ =
        some (sdssplitargs.outcome.next ⟨true, false, false, some s1, p + 4, n1⟩) ∧
      s1.Allocated ∧ s1.content = cur.content ++ [d1 * 16 + d2] ∧
      s1.len = cur.len + 1 := by
  obtain ⟨x1, y1⟩ := hex_digit_spec d1 hd1
  obtain ⟨x2, y2⟩ := hex_digit_spec d2 hd2
  have hbyte : (d1 * 16 + d2) % 2 ^ 8 = d1 * 16 + d2 := Nat.mod_eq_of_lt (by omega)
  obtain ⟨s1, n1, h4, hs1, hc1, hl1⟩ :=
    append_spec a true false false cur p n [d1 * 16 + d2] ha hs (by simp) hsize
  refine ⟨s1, n1, ?_, hs1, by rw [hc1]; rfl, hl1⟩
  unfold sdssplitargs.step
  simp only [if_true]
  unfold sdssplitargs.quoted
  simp only [hexEscape_hex line_ p _ _ h0 h1 h2 h3 x1 x2, h2, h3, y1, y2, hbyte]
  rw [h4]
  simp only [Option.map_some', h3, ne_eq, digit_ne_zero, not_false_eq_true, if_true]

theorem step_byte (a : sdsAllocator) (isspace isprint : Nat → Bool) (line_ : List Nat)
    (cur : sds) (p n ch : Nat)
    (hlook : ∀ k, k < (sdscatrepr.rendered isprint ch).length →
      line_[p + k]? = (sdscatrepr.rendered isprint ch)[k]?)
    (hch : ch < 256) (hp0 : isprint 0 = false)
    (ha : a.Lawful) (hs : cur.Allocated) (hsize : cur.len + 1 < 2 ^ 60) :
    ∃ s1 n1, sdssplitargs.step a isspace line_ ⟨true, false, false, some cur, p, n⟩ =
        some (sdssplitargs.outcome.next
          ⟨true, false, false, some s1, p + (sdscatrepr.rendered isprint ch).length, n1⟩) ∧
      s1.Allocated ∧ s1.content = cur.content ++ [ch] ∧ s1.len = cur.len + 1 := by
  rcases rendered_cases isprint ch hp0 with ⟨hr, h92, h34, hz⟩ | ⟨c1, hr⟩ | hr
  · rw [hr] at hlook ⊢
    have h0 := hlook 0 (by simp)
    simp only [Nat.add_zero, List.getElem?_cons_zero] at h0
    exact step_raw a isspace line_ cur p n ch h0 h92 h34 hz ha hs hsize
  · obtain ⟨hu, hx, hz⟩ := unescape_spec isprint ch c1 hr
    rw [hr] at hlook ⊢
    have h0 := hlook 0 (by simp)
    have h1 := hlook 1 (by simp)
    simp only [Nat.add_zero, List.getElem?_cons_zero] at h0
    simp only [List.getElem?_cons_succ, List.getElem?_cons_zero] at h1
    have := step_escaped a isspace line_ cur p n c1 h0 h1 hx hz ha hs hsize
    rw [hu] at this
    exact this
  · rw [hr] at hlook ⊢
    have h0 := hlook 0 (by simp)
    have h1 := hlook 1 (by simp)
    have h2 := hlook 2 (by simp)
    have h3 := hlook 3 (by simp)
    simp only [Nat.add_zero, List.getElem?_cons_zero] at h0
    simp only [List.getElem?_cons_succ, List.getElem?_cons_zero] at h1 h2 h3
    have := step_hex a isspace line_ cur p n (ch / 16) (ch % 16) h0 h1 h2 h3 (by omega)
      (by omega) ha hs hsize
    have e : ch / 16 * 16 + ch % 16 = ch := by omega
    rw [e] at this
    exact this

theorem step_close (a : sdsAllocator) (isspace : Nat → Bool) (line_ : List Nat)
    (cur : Option sds) (p n : Nat) (h0 : line_[p]? = some 34) (h1 : line_[p + 1]? = some 0) :
    sdssplitargs.step a isspace line_ ⟨true, false, false, cur, p, n⟩ =
      some (sdssplitargs.outcome.next ⟨true, false, true, cur, p + 1, n⟩) := by
  unfold sdssplitargs.step
  simp only [if_true]
  unfold sdssplitargs.quoted
  simp only [hexEscape_raw line_ p 34 h0 (by decide), escape_raw line_ p 34 h0 (by decide), h0,
    if_true]
  unfold sdssplitargs.close
  simp only [h1, ne_eq, not_true_eq_false, false_and, if_false, h0]
  simp

theorem getElem?_middle (pre mid post : List Nat) (k : Nat) (hk : k < mid.length) :
    (pre ++ mid ++ post)[pre.length + k]? = mid[k]? := by
  rw [List.append_assoc, List.getElem?_append_right (by omega)]
  rw [Nat.add_sub_cancel_left, List.getElem?_append_left hk]

theorem token_spec (a : sdsAllocator) (isspace isprint : Nat → Bool) (line_ : List Nat)
    (ha : a.Lawful) (hp0 : isprint 0 = false) (q : List Nat) :
    ∀ (pre junk : List Nat) (cur : sds) (n fuel : Nat),
      line_ = pre ++ (q.map (sdscatrepr.rendered isprint)).flatten ++ 34 :: 0 :: junk →
      cur.Allocated → (∀ b ∈ q, b < 256) → cur.len + q.length + 1 < 2 ^ 60 →
      q.length + 2 ≤ fuel →
      ∃ s1 n1, sdssplitargs.token a isspace line_ fuel
          ⟨true, false, false, some cur, pre.length, n⟩ =
          some (sdssplitargs.outcome.next ⟨true, false, true, some s1,
            pre.length + (q.map (sdscatrepr.rendered isprint)).flatten.length + 1, n1⟩) ∧
        s1.Allocated ∧ s1.content = cur.content ++ q := by
  induction q with
  | nil =>
    intro pre junk cur n fuel hline hs _ _ hfuel
    obtain ⟨f, rfl⟩ : ∃ f, fuel = f + 2 := ⟨fuel - 2, by simp at hfuel; omega⟩
    simp only [List.map_nil, List.flatten_nil, List.append_nil, List.length_nil,
      Nat.add_zero] at hline ⊢
    have h0 : line_[pre.length]? = some 34 := by
      rw [hline, List.getElem?_append_right (by omega)]
      simp
    have h1 : line_[pre.length + 1]? = some 0 := by
      rw [hline, List.getElem?_append_right (by omega)]
      simp
    refine ⟨cur, n, ?_, hs, ?_⟩
    · unfold sdssplitargs.token
      simp only [Bool.false_eq_true, if_false, step_close a isspace line_ _ _ _ h0 h1]
      unfold sdssplitargs.token
      simp only [if_true]
    · simp
  | cons ch rest ih =>
    intro pre junk cur n fuel hline hs hbytes hsize hfuel
    obtain ⟨f, rfl⟩ : ∃ f, fuel = f + 1 := ⟨fuel - 1, by simp at hfuel; omega⟩
    simp only [List.map_cons, List.flatten_cons, List.length_cons, List.length_append]
      at hline hsize hfuel ⊢
    have hlook : ∀ k, k < (sdscatrepr.rendered isprint ch).length →
        line_[pre.length + k]? = (sdscatrepr.rendered isprint ch)[k]? := by
      intro k hk
      rw [hline, ← List.append_assoc, List.append_assoc _ _ (34 :: 0 :: junk)]
      exact getElem?_middle pre _ _ k hk
    obtain ⟨s1, n1, h1, hs1, hc1, hl1⟩ := step_byte a isspace isprint line_ cur pre.length n ch
      hlook (hbytes ch (by simp)) hp0 ha hs (by omega)
    have hline2 : line_ = (pre ++ sdscatrepr.rendered isprint ch) ++
        (rest.map (sdscatrepr.rendered isprint)).flatten ++ 34 :: 0 :: junk := by
      rw [hline]
      simp
    obtain ⟨s2, n2, h2, hs2, hc2⟩ := ih (pre ++ sdscatrepr.rendered isprint ch) junk s1 n1 f
      hline2 hs1 (fun b hb => hbytes b (by simp [hb])) (by omega) (by omega)
    rw [List.length_append] at h2
    refine ⟨s2, n2, ?_, hs2, ?_⟩
    · unfold sdssplitargs.token
      simp only [Bool.false_eq_true, if_false, h1, h2]
      simp only [Nat.add_assoc]
    · rw [hc2, hc1]
      simp

theorem step_open (a : sdsAllocator) (isspace : Nat → Bool) (line_ : List Nat)
    (cur : Option sds) (p n : Nat) (h0 : line_[p]? = some 34) :
    sdssplitargs.step a isspace line_ ⟨false, false, false, cur, p, n⟩ =
      some (sdssplitargs.outcome.next ⟨true, false, false, cur, p + 1, n⟩) := by
  unfold sdssplitargs.step
  simp only [Bool.false_eq_true, if_false]
  unfold sdssplitargs.plain
  simp [h0]

theorem skip_stop (isspace : Nat → Bool) (line_ : List Nat) (fuel p ch : Nat)
    (h0 : line_[p]? = some ch) (hch : ch = 0 ∨ isspace ch = false) :
    sdssplitargs.skip isspace line_ (fuel + 1) p = some p := by
  unfold sdssplitargs.skip
  rw [h0]
  simp only
  rw [if_neg]
  rcases hch with h | h
  · simp [h]
  · simp [h]

theorem loop_succ (a : sdsAllocator) (isspace : Nat → Bool) (line_ : List Nat)
    (fuel p n : Nat) (current : Option sds) (vector : Option (List (Option sds)))
    (argc : Nat) :
    sdssplitargs.loop a isspace line_ (fuel + 1) p n current vector argc =
      (match sdssplitargs.skip isspace line_ (line_.length + 1) p with
      | none => none
      | some p1 =>
        match line_[p1]? with
        | none => none
        | some ch =>
          if ch ≠ 0 then
            match (match current with
              | none => sdsempty a n
              | some s => some (some s, n)) with
            | none => none
            | some (cur, n1) =>
              match sdssplitargs.token a isspace line_ (line_.length + 2)
                  ⟨false, false, false, cur, p1, n1⟩ with
              | none => none
              | some (sdssplitargs.outcome.err n2) => some (none, 0, n2)
              | some (sdssplitargs.outcome.next st) =>
                match a.block st.n (((argc + 1) * 8) % 2 ^ 64) with
                | none => none
                | some block =>
                  if block.length < (argc + 1) * 8 then none
                  else
                    sdssplitargs.loop a isspace line_ fuel st.p (st.n + 1) none
                      (some (vector.getD [] ++ [st.current])) (argc + 1)
          else
            match vector with
            | some v => some (some v, argc, n)
            | none =>
              match a.block n 8 with
              | none => some (none, argc, n + 1)
              | some _ => some (some [], argc, n + 1)) := rfl

/-- The function `sdssplitargs` on a line that holds a double quote, the rendering of the
bytes `q`, a double quote and a zero byte: it returns an array with one argument, whose bytes
are `q`. -/
theorem sdssplitargs_quoted (a : sdsAllocator) (isspace isprint : Nat → Bool) (n : Nat)
    (q junk line_ : List Nat) (ha : a.Lawful) (hp0 : isprint 0 = false)
    (hsp : isspace 34 = false) (hbytes : ∀ b ∈ q, b < 256) (hsize : q.length + 1 < 2 ^ 60)
    (hline : line_ = 34 :: ((q.map (sdscatrepr.rendered isprint)).flatten ++ 34 :: 0 :: junk)) :
    ∃ s1 n1, sdssplitargs a isspace n line_ = some (some [some s1], 1, n1) ∧
      s1.Allocated ∧ s1.content = q := by
  have h0 : line_[0]? = some 34 := by rw [hline]; simp
  have hline1 : line_ = [34] ++ (q.map (sdscatrepr.rendered isprint)).flatten ++
      34 :: 0 :: junk := by
    rw [hline]; simp
  obtain ⟨m, hm⟩ : ∃ m, line_.length = m + 1 := ⟨line_.length - 1, by rw [hline]; simp⟩
  have hlen : q.length + 3 ≤ line_.length := by
    have : (q.map (sdscatrepr.rendered isprint)).flatten.length + 3 ≤ line_.length := by
      rw [hline]
      simp only [List.length_cons, List.length_append]
      omega
    have hq : q.length ≤ (q.map (sdscatrepr.rendered isprint)).flatten.length := by
      clear hbytes hsize hline hline1 this
      induction q with
      | nil => simp
      | cons ch rest ih =>
        have := (rendered_length isprint ch).1
        simp only [List.map_cons, List.flatten_cons, List.length_append, List.length_cons]
        omega
    omega
  obtain ⟨c0, e0, hs0, hc0, hl0⟩ := sdsempty_spec a n ha
  obtain ⟨s1, n1, ht, hs1, hc1⟩ := token_spec a isspace isprint line_ ha hp0 q [34] junk c0
    (n + 1) (line_.length + 1) hline1 hs0 hbytes (by omega) (by omega)
  obtain ⟨block, hb, hb1, hb2⟩ := ha n1 8 (by norm_num)
  have hz : line_[[34].length + (q.map (sdscatrepr.rendered isprint)).flatten.length + 1]? =
      some 0 := by
    rw [hline1, List.getElem?_append_right (by simp)]
    simp
  refine ⟨s1, n1 + 1, ?_, hs1, by rw [hc1, hc0]; rfl⟩
  unfold sdssplitargs
  rw [loop_succ]
  have hsk := skip_stop isspace line_ line_.length 0 34 h0 (Or.inr hsp)
  simp only [hsk, h0, ne_eq, e0]
  rw [if_pos (by decide)]
  have htok : sdssplitargs.token a isspace line_ (line_.length + 2)
      ⟨false, false, false, some c0, 0, n + 1⟩ =
      sdssplitargs.token a isspace line_ (line_.length + 1)
        ⟨true, false, false, some c0, [34].length, n + 1⟩ := by
    conv_lhs => unfold sdssplitargs.token
    simp only [Bool.false_eq_true, if_false, step_open a isspace line_ _ 0 _ h0]
    rfl
  rw [htok, ht]
  simp only [Nat.zero_add, Nat.one_mul, Nat.reducePow, Nat.reduceMod, hb]
  rw [if_neg (by omega), hm, loop_succ]
  have hsk2 := skip_stop isspace line_ line_.length _ 0 hz (Or.inl rfl)
  simp only [hsk2, hz, ne_eq, not_true_eq_false, if_false]
  rfl

theorem buf_split (s : sds) (hs : s.Allocated) :
    s.buf = s.content ++ 0 :: s.buf.drop (s.len + 1) := by
  have h1 := hs.wf.terminated
  have h2 := hs.wf.room
  rw [hs.sdslen_eq] at h1 h2
  rw [hs.content_eq]
  conv_lhs => rw [← List.take_append_drop s.len s.buf]
  congr 1
  rw [List.drop_eq_getElem_cons h2]
  congr 1
  rw [List.getElem?_eq_getElem h2] at h1
  exact Option.some.inj h1

/-- C32: with an allocator that answers every request, `isprint(0)` false and `isspace` false
for the double quote, for every `p` that holds at least `len` bytes, `len` below `2 ^ 57`:
`sdsempty()` and then `sdscatrepr(s, p, len)` return a string `r`, which is a double quote,
the rendering of each of the `len` bytes and a double quote, and `sdssplitargs` on `r` returns
an array with `*argc` equal to 1 whose only argument has exactly the first `len` bytes of
`p`. -/
theorem C32_repr_roundtrip (a : sdsAllocator) (isprint isspace : Nat → Bool)
    (staticbuf : Nat → List Nat) (n : Nat) (p : List Nat) (len : Nat)
    (ha : a.Lawful) (hp0 : isprint 0 = false) (hsp : isspace 34 = false)
    (hsb : ∀ i, (staticbuf i).length = 1024) (hlen : len ≤ p.length)
    (hbytes : ∀ b ∈ p.take len, b < 256) (hsize : len < 2 ^ 57) :
    ∃ s0 r n1 arg n2,
      sdsempty a n = some (some s0, n + 1) ∧
      sdscatrepr a isprint staticbuf (n + 1) s0 p len = some (some r, n1) ∧
      r.content = 34 :: (((p.take len).map (sdscatrepr.rendered isprint)).flatten ++ [34]) ∧
      sdssplitargs a isspace n1 r.buf = some (some [some arg], 1, n2) ∧
      arg.content = p.take len ∧ r.WellFormed ∧ arg.WellFormed := by
  obtain ⟨s0, e0, hs0, hc0, hl0⟩ := sdsempty_spec a n ha
  obtain ⟨r, n1, e1, hr, hc1⟩ := sdscatrepr_spec a isprint staticbuf (n + 1) s0 p len ha hp0
    hsb hs0 hlen hbytes (by omega)
  rw [hc0, List.nil_append] at hc1
  obtain ⟨junk, hline⟩ : ∃ junk, r.buf = r.content ++ 0 :: junk := ⟨_, buf_split r hr⟩
  rw [hc1] at hline
  obtain ⟨arg, n2, e2, ha2, hc2⟩ := sdssplitargs_quoted a isspace isprint n1 (p.take len)
    junk r.buf ha hp0 hsp hbytes (by rw [List.length_take]; omega) (by rw [hline]; simp)
  exact ⟨s0, r, n1, arg, n2, e0, e1, hc1, e2, hc2, hr.wf, ha2.wf⟩

theorem exampleData_rendered :
    (exampleData.map (sdscatrepr.rendered exampleIsprint)).flatten =
      [92, 97, 92, 110, 92, 120, 48, 48, 102, 111, 111, 92, 114] := by
  decide

theorem C32_witness :
    exampleAllocator.Lawful ∧ exampleIsprint 0 = false ∧ exampleIsspace 34 = false ∧
    (∀ i, (exampleStaticbuf i).length = 1024) ∧ 7 ≤ exampleData.length ∧
    (∀ b ∈ exampleData.take 7, b < 256) ∧ 7 < 2 ^ 57 ∧
    ∃ s0 r n1 arg n2,
      sdsempty exampleAllocator 0 = some (some s0, 0 + 1) ∧
      sdscatrepr exampleAllocator exampleIsprint exampleStaticbuf (0 + 1) s0 exampleData 7 =
        some (some r, n1) ∧
      r.content = 34 ::
        (((exampleData.take 7).map (sdscatrepr.rendered exampleIsprint)).flatten ++ [34]) ∧
      sdssplitargs exampleAllocator exampleIsspace n1 r.buf = some (some [some arg], 1, n2) ∧
      arg.content = exampleData.take 7 ∧ r.WellFormed ∧ arg.WellFormed :=
  ⟨exampleAllocator_lawful, by decide, by decide, fun _ => List.length_replicate _ _,
    by decide, by decide, by decide,
    C32_repr_roundtrip exampleAllocator exampleIsprint exampleIsspace exampleStaticbuf 0
      exampleData 7 exampleAllocator_lawful (by decide) (by decide)
      (fun _ => List.length_replicate _ _) (by decide) (by decide) (by decide)⟩

set_option maxRecDepth 100000

/-- The case of `sdsTest` for `sdscatrepr`, and `sdssplitargs` on its result: the code renders
the seven bytes as the fifteen bytes of the test and reads them back as one argument. -/
theorem exampleData_roundtrip :
    ((sdsempty exampleAllocator 0).bind (fun r0 => r0.1.bind (fun s0 =>
      (sdscatrepr exampleAllocator exampleIsprint exampleStaticbuf r0.2 s0 exampleData 7).bind
        (fun r1 => r1.1.bind (fun r =>
          (sdssplitargs exampleAllocator exampleIsspace r1.2 r.buf).map
            (fun v => (r.content, v.1.map (fun l => l.map (fun o => o.map sds.content)),
              v.2.1))))))) =
      some ([34, 92, 97, 92, 110, 92, 120, 48, 48, 102, 111, 111, 92, 114, 34],
        some [some [7, 10, 0, 102, 111, 111, 13]], 1) := by
  decide

end Sds
